import Mathlib

/-
Shallow embedding of src/src/Common/AsyncLoader.h (the asynchronous
dependency-graph job loader).  Jobs are identified by natural numbers; the
immutable part of a LoadJob (its name and its declared dependency set) is
given by an environment function, mirroring the const members of the C++
class.  The mutable completion state of a job (is_finished, exception,
the atomic user-facing priority) lives in a JobState.  The containers of
AsyncLoader (unordered_map, std::map, unordered_set) are modelled by
association lists over Nat keys; std::map iteration order is modelled by
keeping the ready queue sorted by its key order.
-/

namespace AsyncLoader

/-- Status of a load job, as in the LoadStatus enum of the source. -/
inductive LoadStatus
  | PENDING
  | SUCCESS
  | FAILED
deriving DecidableEq

/-- Error codes raised by the loader (namespace ErrorCodes in the source). -/
inductive ErrorCode
  | SCHEDULE_FAILED
  | LOAD_FAILED
  | LOAD_CANCELED
  | DEPENDENCY_FAILED
deriving DecidableEq

/-- A captured failure value: an error code together with the formatted
message, modelling the std::exception_ptr the loader stores. -/
structure Exn where
  code : ErrorCode
  message : String
deriving DecidableEq

/-- The immutable part of a LoadJob: its declared prerequisite set (fixed at
construction, const in the source) and its human-readable name.  The
dependency set is modelled as a list of job ids. -/
structure LoadJob where
  dependencies : List Nat
  name : String
deriving DecidableEq

/-- The mutable part of a LoadJob: the completion flag, the optional captured
failure value, and the atomic user-facing priority field. -/
structure JobState where
  is_finished : Bool := false
  exception : Option Exn := none
  jpriority : Int := 0
deriving DecidableEq

/-- LoadJob::status(): PENDING if not finished, FAILED if an exception was
captured, SUCCESS otherwise. -/
def statusOf (st : JobState) : LoadStatus :=
  if st.is_finished = false then .PENDING
  else if st.exception.isSome then .FAILED else .SUCCESS

/-- LoadJob::wait() modelled as an observation on a job state: the call blocks
while the job is unfinished (result none); once finished it returns, rethrowing
the captured exception if there is one. -/
def waitResult (st : JobState) : Option (Except Exn Unit) :=
  if st.is_finished then
    some (match st.exception with
      | some e => .error e
      | none => .ok ())
  else none

/-- LoadJob::waitNoThrow() returns exactly when the completion flag is set. -/
def waitNoThrowReturns (st : JobState) : Prop :=
  st.is_finished = true

/-- LoadJob::setSuccess(). -/
def setSuccess (st : JobState) : JobState :=
  { st with is_finished := true }

/-- LoadJob::setFailure(ptr). -/
def setFailure (e : Exn) (st : JobState) : JobState :=
  { st with is_finished := true, exception := some e }

/-- Lookup in an association list over Nat keys (models find() on the
unordered_map containers). -/
def mfind {α : Type} : List (Nat × α) → Nat → Option α
  | [], _ => none
  | (k, v) :: t, x => if k = x then some v else mfind t x

/-- Insert or overwrite a binding (models operator[] assignment / emplace of
a fresh key). -/
def mset {α : Type} : List (Nat × α) → Nat → α → List (Nat × α)
  | [], x, v => [(x, v)]
  | (k, w) :: t, x, v => if k = x then (k, v) :: t else (k, w) :: mset t x v

/-- Remove all bindings of a key (models erase on the map containers). -/
def merase {α : Type} (l : List (Nat × α)) (x : Nat) : List (Nat × α) :=
  l.filter (fun p => decide (p.1 ≠ x))

/-- Apply a function to the binding of a key, if present. -/
def mupd {α : Type} (l : List (Nat × α)) (x : Nat) (f : α → α) : List (Nat × α) :=
  match mfind l x with
  | none => l
  | some v => mset l x (f v)

/-- Insert into a set of job ids (models unordered_set insert). -/
def sinsert (l : List Nat) (x : Nat) : List Nat :=
  if x ∈ l then l else x :: l

/-- Erase from a set of job ids (models unordered_set erase). -/
def serase (l : List Nat) (x : Nat) : List Nat :=
  l.filter (fun y => decide (y ≠ x))

/-- Key of a pending job in the ready queue (struct ReadyKey). -/
structure ReadyKey where
  priority : Int
  ready_seqno : Nat
deriving DecidableEq

/-- ReadyKey::operator< of the source: jobs with equal priority are ordered by
ascending seqno, otherwise the higher priority comes first. -/
def ReadyKey.klt (a b : ReadyKey) : Prop :=
  if a.priority = b.priority then a.ready_seqno < b.ready_seqno
  else b.priority < a.priority

instance (a b : ReadyKey) : Decidable (ReadyKey.klt a b) := by
  unfold ReadyKey.klt
  exact instDecidableIte

/-- Scheduling information for a pending job (struct Info). -/
structure Info where
  priority : Int := 0
  dependencies_left : Nat := 0
  ready_seqno : Nat := 0
  dependent_jobs : List Nat := []
deriving DecidableEq

/-- Info::key(). -/
def Info.key (i : Info) : ReadyKey :=
  { priority := i.priority, ready_seqno := i.ready_seqno }

/-- The state guarded by the loader mutex.  The fields sched_deps and
sched_prio are ghost history variables written only by schedule: they record,
for every job ever scheduled, which declared prerequisites were found in the
pending map while the incoming set was processed, and the priority the job was
scheduled with.  No operation reads them. -/
structure LoaderState where
  job_states : List (Nat × JobState) := []
  scheduled_jobs : List (Nat × Info) := []
  ready_queue : List (ReadyKey × Nat) := []
  finished_jobs : List Nat := []
  last_ready_seqno : Nat := 0
  is_running : Bool := false
  max_threads : Nat := 0
  workers : Nat := 0
  sched_deps : List (Nat × List Nat) := []
  sched_prio : List (Nat × Int) := []
deriving DecidableEq

/-- The mutable state of a job as seen through its shared pointer; a job that
was never touched is pending with no exception and priority zero. -/
def jstate (s : LoaderState) (j : Nat) : JobState :=
  (mfind s.job_states j).getD {}

/-- A job is pending inside the loader iff it has an entry in the
scheduled_jobs map. -/
def isPending (s : LoaderState) (j : Nat) : Bool :=
  (mfind s.scheduled_jobs j).isSome

/-- A pending job that is neither in the ready queue nor waiting on
dependencies has been picked up by a worker and is currently executing. -/
def isExecuting (s : LoaderState) (j : Nat) : Bool :=
  match mfind s.scheduled_jobs j with
  | some i => decide (i.dependencies_left = 0) && decide (i.ready_seqno = 0)
  | none => false

/-- Insert an entry into the ready queue keeping it sorted by ReadyKey order
(models std::map emplace). -/
def rqInsert (k : ReadyKey) (j : Nat) : List (ReadyKey × Nat) → List (ReadyKey × Nat)
  | [] => [(k, j)]
  | (k2, j2) :: t =>
    if ReadyKey.klt k k2 then (k, j) :: (k2, j2) :: t
    else (k2, j2) :: rqInsert k j t

/-- Erase a key from the ready queue (models std::map erase by key). -/
def rqErase (q : List (ReadyKey × Nat)) (k : ReadyKey) : List (ReadyKey × Nat) :=
  q.filter (fun p => decide (p.1 ≠ k))

/-- AsyncLoader::spawn: accounts one more worker submitted to the pool. -/
def spawnOp (s : LoaderState) : LoaderState :=
  { s with workers := s.workers + 1 }

/-- AsyncLoader::enqueue: assign a fresh ready_seqno to a scheduled job, put it
into the ready queue under its key, and spawn a worker if the loader is running
below its thread cap. -/
def enqueue (s : LoaderState) (j : Nat) : LoaderState :=
  match mfind s.scheduled_jobs j with
  | none => s
  | some info =>
    let seq := s.last_ready_seqno + 1
    let info2 := { info with ready_seqno := seq }
    let s2 := { s with
      last_ready_seqno := seq,
      scheduled_jobs := mset s.scheduled_jobs j info2,
      ready_queue := rqInsert info2.key j s.ready_queue }
    if s2.is_running = true ∧ s2.workers < s2.max_threads then spawnOp s2 else s2

/-- The body of one prioritize update: reposition the ready-queue entry if
present, store the new priority both in the Info and on the job itself. -/
def prioStep (j : Nat) (p : Int) (s : LoaderState) (info : Info) : LoaderState :=
  let q1 := if info.ready_seqno ≠ 0 then rqErase s.ready_queue info.key
            else s.ready_queue
  let info2 := { info with priority := p }
  let q2 := if info.ready_seqno ≠ 0 then rqInsert info2.key j q1 else q1
  { s with
    scheduled_jobs := mset s.scheduled_jobs j info2,
    ready_queue := q2,
    job_states := mset s.job_states j { jstate s j with jpriority := p } }

mutual

/-- AsyncLoader::prioritize(job, new_priority, lock): raise the effective
priority of a pending job and recursively of all its declared dependencies,
repositioning its ready-queue entry if it has one.  The C++ recursion
terminates because declared dependency graphs are acyclic by construction; the
fuel argument makes the recursion structural, and callers pass enough fuel for
the rank of the job in the dependency order. -/
def prioritizeF (env : Nat → LoadJob) : Nat → Nat → Int → LoaderState → LoaderState
  | 0, _, _, s => s
  | fuel + 1, j, p, s =>
    match mfind s.scheduled_jobs j with
    | none => s
    | some info =>
      if p ≤ info.priority then s
      else prioritizeDeps env fuel (env j).dependencies p (prioStep j p s info)

/-- The dependency loop at the end of prioritize. -/
def prioritizeDeps (env : Nat → LoadJob) : Nat → List Nat → Int → LoaderState → LoaderState
  | _, [], _, s => s
  | fuel, d :: ds, p, s => prioritizeDeps env fuel ds p (prioritizeF env fuel d p s)

end

/-- Build an exception value carrying a code and a formatted message. -/
def mkExn (c : ErrorCode) (m : String) : Exn :=
  { code := c, message := m }

mutual

/-- AsyncLoader::checkCycleImpl.  The DFS threads the mutable sets left and
visited through the calls and returns the chain string it builds while
unwinding a detected cycle; an empty chain means no cycle was reported from
this call.  Fuel bounds the recursion depth. -/
def checkCycleImpl (env : Nat → LoadJob) :
    Nat → Nat → List Nat → List Nat → Except Exn (String × List Nat × List Nat)
  | 0, _, left, visited => .ok ("", left, visited)
  | fuel + 1, j, left, visited =>
    if j ∉ left then .ok ("", left, visited)
    else if j ∈ visited then .ok ((env j).name, left, visited.erase j)
    else ccDeps env fuel j (env j).dependencies left (j :: visited)

/-- The dependency loop of checkCycleImpl, including the final removal of the
fully processed job from the left set. -/
def ccDeps (env : Nat → LoadJob) :
    Nat → Nat → List Nat → List Nat → List Nat → Except Exn (String × List Nat × List Nat)
  | _, j, [], left, visited => .ok ("", left.erase j, visited)
  | fuel, j, d :: ds, left, visited => do
    let r ← checkCycleImpl env fuel d left visited
    if r.1 = "" then ccDeps env fuel j ds r.2.1 r.2.2
    else if j ∈ r.2.2 then .ok ((env j).name ++ " -> " ++ r.1, r.2.1, r.2.2)
    else .error (mkExn .SCHEDULE_FAILED
      ("Load job dependency cycle detected: " ++ (env j).name ++ " -> " ++ r.1))

end

/-- The while loop of AsyncLoader::checkCycle: repeatedly run the DFS from the
first remaining element of left. -/
def ccTop (env : Nat → LoadJob) : Nat → List Nat → List Nat → Except Exn Unit
  | 0, _, _ => .ok ()
  | fuel + 1, left, visited =>
    match left with
    | [] => .ok ()
    | j :: _ => do
      let r ← checkCycleImpl env (left.length + 1) j left visited
      ccTop env fuel r.2.1 r.2.2

/-- AsyncLoader::checkCycle over an incoming job set. -/
def checkCycle (env : Nat → LoadJob) (jobs : List Nat) : Except Exn Unit :=
  ccTop env (jobs.length + 1) jobs []

/-- The sanity-check loop at the head of AsyncLoader::schedule: reject a job
that is no longer PENDING or that is already in the pending map. -/
def sanityChecks (env : Nat → LoadJob) (s : LoaderState) : List Nat → Except Exn Unit
  | [] => .ok ()
  | j :: js =>
    if statusOf (jstate s j) ≠ .PENDING then
      .error (mkExn .SCHEDULE_FAILED
        ("Trying to schedule already finished load job " ++ (env j).name))
    else if (mfind s.scheduled_jobs j).isSome then
      .error (mkExn .SCHEDULE_FAILED
        ("Load job " ++ (env j).name ++ " has been already scheduled"))
    else sanityChecks env s js

/-- One emplacement of the first schedule loop for a fresh incoming job. -/
def insOne (p : Int) (j : Nat) (s : LoaderState) : LoaderState :=
  { s with
    scheduled_jobs := mset s.scheduled_jobs j { priority := p },
    job_states := mset s.job_states j { jstate s j with jpriority := p },
    sched_deps := mset s.sched_deps j [],
    sched_prio := mset s.sched_prio j p }

/-- The first mutation loop of schedule: emplace a fresh Info carrying the
scheduling priority for every incoming job and store the user-facing priority
on the job itself.  The ghost fields record the scheduling priority and open
an empty list of recognised prerequisites. -/
def insertJobs (priority : Int) : List Nat → LoaderState → LoaderState
  | [], s => s
  | j :: js, s =>
    let s2 := { s with
      scheduled_jobs :=
        if (mfind s.scheduled_jobs j).isSome then s.scheduled_jobs
        else mset s.scheduled_jobs j { priority := priority },
      job_states := mset s.job_states j { jstate s j with jpriority := priority },
      sched_deps := mset s.sched_deps j [],
      sched_prio := mset s.sched_prio j priority }
    insertJobs priority js s2

/-- The inner dependency loop of schedule for one incoming job j: for every
declared prerequisite found in the pending map, add the back-link and count it
in dependencies_left (also recording it in the ghost list); in every case
inherit the scheduling priority down to the prerequisite. -/
def pdStep (j d : Nat) (dinfo : Info) (s : LoaderState) : LoaderState :=
  { s with
    scheduled_jobs :=
      mupd (mset s.scheduled_jobs d
             { dinfo with dependent_jobs := sinsert dinfo.dependent_jobs j }) j
        (fun i => { i with dependencies_left := i.dependencies_left + 1 }),
    sched_deps := mupd s.sched_deps j (fun l => l ++ [d]) }

def processDeps (env : Nat → LoadJob) (rank : Nat → Nat) (priority : Int) (j : Nat) :
    List Nat → LoaderState → LoaderState
  | [], s => s
  | d :: ds, s =>
    let s2 :=
      match mfind s.scheduled_jobs d with
      | some dinfo => pdStep j d dinfo s
      | none => s
    processDeps env rank priority j ds (prioritizeF env (rank d + 1) d priority s2)

/-- The outer dependency-processing loop of schedule: handle the declared
prerequisites of each incoming job and enqueue it when it has no unmet
dependency. -/
def scheduleJobs (env : Nat → LoadJob) (rank : Nat → Nat) (priority : Int) :
    List Nat → LoaderState → LoaderState
  | [], s => s
  | j :: js, s =>
    let s2 := processDeps env rank priority j (env j).dependencies s
    let s3 :=
      match mfind s2.scheduled_jobs j with
      | some info => if info.dependencies_left = 0 then enqueue s2 j else s2
      | none => s2
    scheduleJobs env rank priority js s3

/-- AsyncLoader::schedule(jobs, priority): sanity checks, cycle check, then
the exception-free mutation phase.  The returned Task owns exactly the job
list passed in, so the task is left implicit. -/
def scheduleOp (env : Nat → LoadJob) (rank : Nat → Nat) (jobs : List Nat)
    (priority : Int) (s : LoaderState) : Except Exn LoaderState := do
  let _ ← sanityChecks env s jobs
  let _ ← checkCycle env jobs
  .ok (scheduleJobs env rank priority jobs (insertJobs priority jobs s))

/-- The edge-cleanup loop of failed: remove the failed job from the dependent
sets of those of its declared prerequisites that are still pending. -/
def ceStep (j d : Nat) (di : Info) (s : LoaderState) : LoaderState :=
  { s with
    scheduled_jobs :=
      mset s.scheduled_jobs d { di with dependent_jobs := serase di.dependent_jobs j } }

/-- The loop over the declared prerequisites of the failed job. -/
def cleanEdges (j : Nat) : List Nat → LoaderState → LoaderState
  | [], s => s
  | d :: ds, s =>
    let s2 :=
      match mfind s.scheduled_jobs d with
      | some di => ceStep j d di s
      | none => s
    cleanEdges j ds s2

mutual

/-- AsyncLoader::failed(job, exception_from_job, lock): capture the failure on
the job, recursively fail every job in its dependent set with a synthesised
DependencyFailed exception, unlink the job from the dependent sets of its own
prerequisites, and move it from the pending map to the finished set.  Like the
source, the recursion works on a swapped-out copy of the dependent set, and a
job found missing from the pending map is re-entered with a default Info by
the operator[] access.  Fuel bounds the recursion depth, which the loader
invariants bound by the number of pending jobs. -/
def failedF (env : Nat → LoadJob) : Nat → Nat → Exn → LoaderState → LoaderState
  | 0, _, _, s => s
  | fuel + 1, j, e, s =>
    let s1 := { s with job_states := mset s.job_states j (setFailure e (jstate s j)) }
    let info := (mfind s1.scheduled_jobs j).getD {}
    let s2 := { s1 with
      scheduled_jobs := mset s1.scheduled_jobs j { info with dependent_jobs := [] } }
    let s3 := failDeps env fuel j e info.dependent_jobs s2
    let s4 := cleanEdges j (env j).dependencies s3
    { s4 with
      scheduled_jobs := merase s4.scheduled_jobs j,
      finished_jobs := sinsert s4.finished_jobs j }

/-- The dependent loop of failed: each dependent receives a DependencyFailed
exception that names the dependent and quotes the upstream message. -/
def failDeps (env : Nat → LoadJob) : Nat → Nat → Exn → List Nat → LoaderState → LoaderState
  | _, _, _, [], s => s
  | fuel, j, e, d :: ds, s =>
    let e2 := mkExn .DEPENDENCY_FAILED ("Load job " ++ (env d).name ++ " -> " ++ e.message)
    failDeps env fuel j e ds (failedF env fuel d e2 s)

end

/-- AsyncLoader::canceled(job, lock): synthesise a LoadCanceled exception and
run the failure path. -/
def canceledOp (env : Nat → LoadJob) (fuel : Nat) (j : Nat) (s : LoaderState) : LoaderState :=
  failedF env fuel j (mkExn .LOAD_CANCELED ("Load job " ++ (env j).name ++ " canceled")) s

/-- The state after decrementing dependencies_left of one dependent inside
loaded (the body of one loadedDeps iteration before a possible enqueue). -/
def decDepState (s : LoaderState) (d : Nat) (di : Info) : LoaderState :=
  { s with
    scheduled_jobs :=
      mset s.scheduled_jobs d { di with dependencies_left := di.dependencies_left - 1 } }

/-- The dependent loop of AsyncLoader::loaded: decrement dependencies_left of
every dependent and enqueue those that reach zero. -/
def loadedDeps : List Nat → LoaderState → LoaderState
  | [], s => s
  | d :: ds, s =>
    let s2 :=
      match mfind s.scheduled_jobs d with
      | some di =>
        if ({ di with dependencies_left := di.dependencies_left - 1 }
            : Info).dependencies_left = 0 then
          enqueue (decDepState s d di) d
        else decDepState s d di
      | none => s
    loadedDeps ds s2

/-- The first mutation of loaded: mark the job finished successfully. -/
def markSuccess (j : Nat) (s : LoaderState) : LoaderState :=
  { s with job_states := mset s.job_states j (setSuccess (jstate s j)) }

/-- The last mutation of loaded and failed: drop the job from the pending map
and record it in the finished set. -/
def retireJob (j : Nat) (s : LoaderState) : LoaderState :=
  { s with
    scheduled_jobs := merase s.scheduled_jobs j,
    finished_jobs := sinsert s.finished_jobs j }

/-- The first mutation of failed: capture the failure on the job. -/
def markFailure (e : Exn) (j : Nat) (s : LoaderState) : LoaderState :=
  { s with job_states := mset s.job_states j (setFailure e (jstate s j)) }

/-- The swap of the dependent set at the head of failed: the recursion works on
the swapped-out copy while the job itself keeps an empty set. -/
def swapOutDeps (j : Nat) (info : Info) (s : LoaderState) : LoaderState :=
  { s with scheduled_jobs := mset s.scheduled_jobs j { info with dependent_jobs := [] } }

/-- AsyncLoader::loaded(job, lock): mark the job succeeded, update its
dependents, and move it from the pending map to the finished set. -/
def loadedOp (j : Nat) (s : LoaderState) : LoaderState :=
  let s1 := { s with job_states := mset s.job_states j (setSuccess (jstate s j)) }
  let dependent := ((mfind s1.scheduled_jobs j).getD {}).dependent_jobs
  let s2 := loadedDeps dependent s1
  { s2 with
    scheduled_jobs := merase s2.scheduled_jobs j,
    finished_jobs := sinsert s2.finished_jobs j }

/-- The exception a worker synthesises when a job body raises with message m
(the ASYNC_LOAD_FAILED arm of the worker loop). -/
def bodyFailExn (env : Nat → LoadJob) (j : Nat) (m : String) : Exn :=
  mkExn .LOAD_FAILED ("Load job " ++ (env j).name ++ " failed: " ++ m)

/-- One iteration of AsyncLoader::remove for a single job.  A finished job is
dropped from the finished set; a pending job that is not yet ready is
cancelled; a job waiting in the ready queue is dequeued and cancelled; a job
currently executing on a worker is waited for — modelled by committing the
outcome res of its body as the concurrent worker would — and in the pending
cases the job is finally dropped from the finished set. -/
def removeOne (env : Nat → LoadJob) (res : Nat → Option String) (j : Nat)
    (s : LoaderState) : LoaderState :=
  if j ∈ s.finished_jobs then { s with finished_jobs := serase s.finished_jobs j }
  else
    match mfind s.scheduled_jobs j with
    | some info =>
      let s2 :=
        if info.dependencies_left > 0 then
          canceledOp env (s.scheduled_jobs.length + 1) j s
        else if info.ready_seqno ≠ 0 then
          canceledOp env (s.scheduled_jobs.length + 1) j
            { s with
              ready_queue := rqErase s.ready_queue info.key,
              scheduled_jobs := mset s.scheduled_jobs j { info with ready_seqno := 0 } }
        else
          match res j with
          | none => loadedOp j s
          | some m => failedF env (s.scheduled_jobs.length + 1) j (bodyFailExn env j m) s
      { s2 with finished_jobs := serase s2.finished_jobs j }
    | none => s

/-- AsyncLoader::remove(jobs). -/
def removeOp (env : Nat → LoadJob) (res : Nat → Option String) :
    List Nat → LoaderState → LoaderState
  | [], s => s
  | j :: js, s => removeOp env res js (removeOne env res j s)

/-- The intermediate state of the ready-queue arm of removeOne: the entry is
dequeued and the ready_seqno cleared before the cancellation cascade runs. -/
def dequeueCancelPrep (j : Nat) (info : Info) (s : LoaderState) : LoaderState :=
  { s with
    ready_queue := rqErase s.ready_queue info.key,
    scheduled_jobs := mset s.scheduled_jobs j { info with ready_seqno := 0 } }

/-- AsyncLoader::start(): mark the loader running and spawn workers up to the
thread cap or the current ready-queue depth. -/
def startOp (s : LoaderState) : LoaderState :=
  let s1 := { s with is_running := true }
  { s1 with workers := s1.workers + min s1.ready_queue.length (s1.max_threads - s1.workers) }

/-- AsyncLoader::stop(): mark the loader not running; the executing jobs drain
through their own commit steps. -/
def stopOp (s : LoaderState) : LoaderState :=
  { s with is_running := false }

/-- The dequeue of the worker loop: pop the smallest ready-queue entry and
clear the ready_seqno of the popped job, which is now executing. -/
def pickOp (s : LoaderState) : LoaderState :=
  match s.ready_queue with
  | [] => s
  | (_, j) :: rest =>
    { s with
      ready_queue := rest,
      scheduled_jobs := mupd s.scheduled_jobs j (fun i => { i with ready_seqno := 0 }) }

/-- A worker leaving the loop decrements the worker count. -/
def workerExitOp (s : LoaderState) : LoaderState :=
  { s with workers := s.workers - 1 }

/-- The loader state right after construction. -/
def initState (maxt : Nat) : LoaderState :=
  { max_threads := maxt }

/-- The atomic transitions of the loader: every public operation and the
lock-protected sections of the worker loop.  Worker commits of a finished body
use the exception the worker would synthesise.  The rank function witnesses
the construction order of jobs. -/
inductive Step (env : Nat → LoadJob) (rank : Nat → Nat) : LoaderState → LoaderState → Prop
  | schedule (jobs : List Nat) (p : Int) (s t : LoaderState) :
      jobs.Nodup → scheduleOp env rank jobs p s = .ok t → Step env rank s t
  | prioritizeJob (j : Nat) (p : Int) (s : LoaderState) :
      Step env rank s (prioritizeF env (rank j + 1) j p s)
  | removeJobs (jobs : List Nat) (res : Nat → Option String) (s : LoaderState) :
      jobs.Nodup → Step env rank s (removeOp env res jobs s)
  | startLoader (s : LoaderState) : Step env rank s (startOp s)
  | stopLoader (s : LoaderState) : Step env rank s (stopOp s)
  | pick (s : LoaderState) :
      s.is_running = true → s.ready_queue ≠ [] → Step env rank s (pickOp s)
  | commitOk (j : Nat) (s : LoaderState) :
      isExecuting s j = true → Step env rank s (loadedOp j s)
  | commitFail (j : Nat) (m : String) (s : LoaderState) :
      isExecuting s j = true →
      Step env rank s (failedF env (s.scheduled_jobs.length + 1) j (bodyFailExn env j m) s)
  | workerExit (s : LoaderState) : Step env rank s (workerExitOp s)

/-- States reachable from a freshly constructed loader. -/
def Reachable (env : Nat → LoadJob) (rank : Nat → Nat) (maxt : Nat)
    (s : LoaderState) : Prop :=
  Relation.ReflTransGen (Step env rank) (initState maxt) s

/-- Well-formedness of the job environment: the rank function witnesses that
declared dependencies only point at earlier-constructed jobs (in C++ the
dependency set of a job can only contain already constructed jobs), and a
dependency set has no duplicates (it is a set in the source). -/
def WFEnv (env : Nat → LoadJob) (rank : Nat → Nat) : Prop :=
  (∀ j, ∀ d ∈ (env j).dependencies, rank d < rank j) ∧
  (∀ j, (env j).dependencies.Nodup)

/-- One job u is a recognised prerequisite of another job x when the schedule
call that inserted x found u in the pending map (recorded in the ghost). -/
def GhostEdge (s : LoaderState) (u x : Nat) : Prop :=
  ∃ ds, mfind s.sched_deps x = some ds ∧ u ∈ ds

/-- Direct dependence through the loader bookkeeping: x is in the dependent
set of u. -/
def DepEdge (s : LoaderState) (u x : Nat) : Prop :=
  ∃ iu, mfind s.scheduled_jobs u = some iu ∧ x ∈ iu.dependent_jobs

/-- Transitive dependence through the dependent_jobs back-links. -/
def TransDependent (s : LoaderState) (u x : Nat) : Prop :=
  Relation.TransGen (DepEdge s) u x

/-- The message of an exception mentions a string when the string occurs
inside the message. -/
def mentions (needle hay : String) : Prop :=
  ∃ a b, hay.data = a ++ needle.data ++ b

/-- The loader invariants, close to the invariant list of the specification:
maps have unique keys, pending and finished states are consistent, the
dependency bookkeeping (dependencies_left counts and dependent_jobs
back-links) matches the prerequisites recognised at schedule time, recognised
prerequisites that already left the pending map completed successfully,
priority dominates the priorities of recorded dependents and never went below
the scheduling priority, and the ready queue is the sorted set of pending
jobs with a nonzero ready_seqno. -/
structure Inv (env : Nat → LoadJob) (s : LoaderState) : Prop where
  dep_nodup : ∀ j i, mfind s.scheduled_jobs j = some i → i.dependent_jobs.Nodup
  pending_unfinished : ∀ j i, mfind s.scheduled_jobs j = some i →
    (jstate s j).is_finished = false ∧ (jstate s j).exception = none
  finished_done : ∀ j ∈ s.finished_jobs, (jstate s j).is_finished = true
  ghost_deps : ∀ j i, mfind s.scheduled_jobs j = some i →
    ∃ ds, mfind s.sched_deps j = some ds ∧ List.Sublist ds (env j).dependencies
  deps_left_eq : ∀ j i, mfind s.scheduled_jobs j = some i →
    ∀ ds, mfind s.sched_deps j = some ds →
    i.dependencies_left = (ds.filter (fun d => isPending s d)).length
  extern_done : ∀ j i, mfind s.scheduled_jobs j = some i →
    ∀ ds, mfind s.sched_deps j = some ds → ∀ d ∈ ds, isPending s d = false →
    (jstate s d).is_finished = true ∧ (jstate s d).exception = none
  backlink_complete : ∀ j i, mfind s.scheduled_jobs j = some i →
    ∀ ds, mfind s.sched_deps j = some ds → ∀ d ∈ ds,
    ∀ di, mfind s.scheduled_jobs d = some di → j ∈ di.dependent_jobs
  backlink_sound : ∀ j i, mfind s.scheduled_jobs j = some i → ∀ x ∈ i.dependent_jobs,
    (∃ xi, mfind s.scheduled_jobs x = some xi) ∧ GhostEdge s j x
  prio_edge : ∀ j i, mfind s.scheduled_jobs j = some i → ∀ x ∈ i.dependent_jobs,
    ∀ xi, mfind s.scheduled_jobs x = some xi → xi.priority ≤ i.priority
  prio_init : ∀ j i, mfind s.scheduled_jobs j = some i →
    ∃ p0, mfind s.sched_prio j = some p0 ∧ p0 ≤ i.priority
  rq_sorted : s.ready_queue.Pairwise (fun a b => ReadyKey.klt a.1 b.1)
  rq_sound : ∀ e ∈ s.ready_queue, ∃ i, mfind s.scheduled_jobs e.2 = some i ∧
    i.key = e.1 ∧ i.dependencies_left = 0 ∧ i.ready_seqno ≠ 0
  rq_complete : ∀ j i, mfind s.scheduled_jobs j = some i → i.ready_seqno ≠ 0 →
    (Info.key i, j) ∈ s.ready_queue
  seqno_le : ∀ j i, mfind s.scheduled_jobs j = some i →
    i.ready_seqno ≤ s.last_ready_seqno
  seqno_inj : ∀ j i j2 i2, mfind s.scheduled_jobs j = some i →
    mfind s.scheduled_jobs j2 = some i2 → i.ready_seqno ≠ 0 →
    i.ready_seqno = i2.ready_seqno → j = j2

/-- A recorded dependency edge from prerequisite u to dependent x respects the
priority-inheritance invariant in state s. -/
def EdgeOK (s : LoaderState) (u x : Nat) : Prop :=
  ∀ iu xi, mfind s.scheduled_jobs u = some iu → mfind s.scheduled_jobs x = some xi →
    x ∈ iu.dependent_jobs → xi.priority ≤ iu.priority

/-- The ready-queue bundle of the invariant: sortedness, soundness,
completeness, and injectivity of nonzero ready seqnos. -/
def RQB (s : LoaderState) : Prop :=
  s.ready_queue.Pairwise (fun a b => ReadyKey.klt a.1 b.1) ∧
  (∀ e ∈ s.ready_queue, ∃ i, mfind s.scheduled_jobs e.2 = some i ∧
    i.key = e.1 ∧ i.dependencies_left = 0 ∧ i.ready_seqno ≠ 0) ∧
  (∀ j i, mfind s.scheduled_jobs j = some i → i.ready_seqno ≠ 0 →
    (Info.key i, j) ∈ s.ready_queue) ∧
  (∀ j i j2 i2, mfind s.scheduled_jobs j = some i →
    mfind s.scheduled_jobs j2 = some i2 → i.ready_seqno ≠ 0 →
    i.ready_seqno = i2.ready_seqno → j = j2)

/-- Pointwise effect of a prioritize call raising to priority p: the pending
map keeps its domain, and every entry keeps its bookkeeping except that its
priority may have been raised to exactly p. -/
def PrioPointwise (p : Int) (s t : LoaderState) : Prop :=
  ∀ x, (mfind s.scheduled_jobs x = none ∧ mfind t.scheduled_jobs x = none) ∨
    (∃ i i2, mfind s.scheduled_jobs x = some i ∧ mfind t.scheduled_jobs x = some i2 ∧
      i2.dependencies_left = i.dependencies_left ∧ i2.ready_seqno = i.ready_seqno ∧
      i2.dependent_jobs = i.dependent_jobs ∧ i.priority ≤ i2.priority ∧
      (i2.priority = i.priority ∨ i2.priority = p))

/-- The completion-relevant part of every job state is unchanged. -/
def JStatesCoreEq (s t : LoaderState) : Prop :=
  ∀ x, (jstate t x).is_finished = (jstate s x).is_finished ∧
    (jstate t x).exception = (jstate s x).exception

/-- The fields a prioritize call never touches. -/
def OtherFieldsEq (s t : LoaderState) : Prop :=
  t.finished_jobs = s.finished_jobs ∧ t.sched_deps = s.sched_deps ∧
  t.sched_prio = s.sched_prio ∧ t.last_ready_seqno = s.last_ready_seqno ∧
  t.is_running = s.is_running ∧ t.max_threads = s.max_threads ∧ t.workers = s.workers

/-- Soundness of the back-links in a state: every member of a dependent set is
itself pending and carries the matching ghost edge. -/
def BLS (s : LoaderState) : Prop :=
  ∀ u iu, mfind s.scheduled_jobs u = some iu → ∀ x ∈ iu.dependent_jobs,
    (∃ xi, mfind s.scheduled_jobs x = some xi) ∧ GhostEdge s u x

/-- Every pending job has a ghost record listing a subset of its declared
dependencies. -/
def GDS (env : Nat → LoadJob) (s : LoaderState) : Prop :=
  ∀ u iu, mfind s.scheduled_jobs u = some iu →
    ∃ ds, mfind s.sched_deps u = some ds ∧ List.Sublist ds (env u).dependencies


/-- The keys of the pending map, in container order. -/
def pkeys (s : LoaderState) : List Nat :=
  s.scheduled_jobs.map Prod.fst

/-- The number of pending jobs outside the active set A (used as the fuel
measure of the failure cascade). -/
def npend (A : List Nat) (s : LoaderState) : Nat :=
  ((pkeys s).filter (fun x => decide (x ∉ A))).length

/-- The pending map binds every key at most once (it is an unordered_map). -/
def KN (s : LoaderState) : Prop :=
  (s.scheduled_jobs.map Prod.fst).Nodup

/-- A job state carrying a DependencyFailed exception synthesised somewhere
inside the failure cascade started by exception e: the message opens with the
job name and quotes, possibly through intermediate hops, the message of e. -/
def CascadeMark (env : Nat → LoadJob) (e : Exn) (x : Nat) (st : JobState) : Prop :=
  st.is_finished = true ∧ ∃ e2, st.exception = some e2 ∧
    e2.code = .DEPENDENCY_FAILED ∧ mentions e.message e2.message ∧
    ∃ b, e2.message.data = ("Load job " ++ (env x).name ++ " -> ").data ++ b

/-- The loader invariant weakened along the call stack A of an in-progress
failure cascade (outermost call first): a job in A is pending but already
marked failed and has had its dependent set swapped out, and back-links into
a job of A are allowed to be missing.  With A = [] this is the full invariant
together with key uniqueness of the pending map. -/
structure FInv (env : Nat → LoadJob) (A : List Nat) (s : LoaderState) : Prop where
  keys_nodup : (s.scheduled_jobs.map Prod.fst).Nodup
  dep_nodup : ∀ j i, mfind s.scheduled_jobs j = some i → i.dependent_jobs.Nodup
  pending_unfinished : ∀ j i, mfind s.scheduled_jobs j = some i → j ∉ A →
    (jstate s j).is_finished = false ∧ (jstate s j).exception = none
  finished_done : ∀ j ∈ s.finished_jobs, (jstate s j).is_finished = true
  ghost_deps : ∀ j i, mfind s.scheduled_jobs j = some i →
    ∃ ds, mfind s.sched_deps j = some ds ∧ List.Sublist ds (env j).dependencies
  deps_left_eq : ∀ j i, mfind s.scheduled_jobs j = some i →
    ∀ ds, mfind s.sched_deps j = some ds →
    i.dependencies_left = (ds.filter (fun d => isPending s d)).length
  extern_done : ∀ j i, mfind s.scheduled_jobs j = some i →
    ∀ ds, mfind s.sched_deps j = some ds → ∀ d ∈ ds, isPending s d = false →
    (jstate s d).is_finished = true ∧ (jstate s d).exception = none
  backlink_complete : ∀ j i, mfind s.scheduled_jobs j = some i →
    ∀ ds, mfind s.sched_deps j = some ds → ∀ d ∈ ds,
    ∀ di, mfind s.scheduled_jobs d = some di → j ∈ di.dependent_jobs ∨ d ∈ A
  backlink_sound : ∀ j i, mfind s.scheduled_jobs j = some i → ∀ x ∈ i.dependent_jobs,
    (∃ xi, mfind s.scheduled_jobs x = some xi) ∧ GhostEdge s j x
  prio_edge : ∀ j i, mfind s.scheduled_jobs j = some i → ∀ x ∈ i.dependent_jobs,
    ∀ xi, mfind s.scheduled_jobs x = some xi → xi.priority ≤ i.priority
  prio_init : ∀ j i, mfind s.scheduled_jobs j = some i →
    ∃ p0, mfind s.sched_prio j = some p0 ∧ p0 ≤ i.priority
  rq_sorted : s.ready_queue.Pairwise (fun a b => ReadyKey.klt a.1 b.1)
  rq_sound : ∀ e ∈ s.ready_queue, ∃ i, mfind s.scheduled_jobs e.2 = some i ∧
    i.key = e.1 ∧ i.dependencies_left = 0 ∧ i.ready_seqno ≠ 0
  rq_complete : ∀ j i, mfind s.scheduled_jobs j = some i → i.ready_seqno ≠ 0 →
    (Info.key i, j) ∈ s.ready_queue
  seqno_le : ∀ j i, mfind s.scheduled_jobs j = some i →
    i.ready_seqno ≤ s.last_ready_seqno
  seqno_inj : ∀ j i j2 i2, mfind s.scheduled_jobs j = some i →
    mfind s.scheduled_jobs j2 = some i2 → i.ready_seqno ≠ 0 →
    i.ready_seqno = i2.ready_seqno → j = j2
  active : ∀ a ∈ A, ∃ ia, mfind s.scheduled_jobs a = some ia ∧
    ia.dependent_jobs = [] ∧ ia.ready_seqno = 0 ∧ (jstate s a).is_finished = true

/-- Precondition of a failed(job, e) call running under the active stack A:
the weakened invariant holds, the fuel covers the pending jobs outside the
stack, and the job is either pending outside the stack (with no ready-queue
entry and constructed later than every active job) or already moved to the
finished set by an earlier arm of the same cascade. -/
def FPre (env : Nat → LoadJob) (rank : Nat → Nat) (A : List Nat) (j : Nat)
    (s : LoaderState) (fuel : Nat) : Prop :=
  FInv env A s ∧ npend A s ≤ fuel ∧ 1 ≤ fuel ∧
  ((∃ ij, mfind s.scheduled_jobs j = some ij ∧ j ∉ A ∧ ij.ready_seqno = 0 ∧
      (∀ a ∈ A, rank a < rank j)) ∨
   (mfind s.scheduled_jobs j = none ∧ j ∈ s.finished_jobs ∧
      (jstate s j).is_finished = true ∧ ∃ e0, (jstate s j).exception = some e0))

/-- Postcondition of a failed(job, e) call from state s to state t under the
active stack A: the weakened invariant is restored, the job is finished and
carries exactly e, pending jobs only disappear and whoever disappears is
finished with a captured failure, the ready queue and the ghost history are
untouched, job states change only at the job itself or at jobs of larger
construction rank, and every other changed job carries a DependencyFailed
exception derived from e. -/
def FPost (env : Nat → LoadJob) (rank : Nat → Nat) (j : Nat) (e : Exn)
    (s t : LoaderState) (A : List Nat) : Prop :=
  FInv env A t ∧
  mfind t.scheduled_jobs j = none ∧
  j ∈ t.finished_jobs ∧
  (jstate t j).is_finished = true ∧
  (jstate t j).exception = some e ∧
  (∀ x, isPending t x = true → isPending s x = true) ∧
  (∀ x, isPending s x = true → isPending t x = false →
    x ∈ t.finished_jobs ∧ (jstate t x).is_finished = true ∧
    ∃ e2, (jstate t x).exception = some e2) ∧
  t.ready_queue = s.ready_queue ∧
  t.last_ready_seqno = s.last_ready_seqno ∧
  t.sched_deps = s.sched_deps ∧
  t.sched_prio = s.sched_prio ∧
  t.is_running = s.is_running ∧
  t.max_threads = s.max_threads ∧
  t.workers = s.workers ∧
  (∀ x ∈ s.finished_jobs, x ∈ t.finished_jobs) ∧
  (∀ x, (jstate s x).is_finished = true → (jstate t x).is_finished = true) ∧
  (∀ x, x ≠ j → jstate t x = jstate s x ∨ CascadeMark env e x (jstate t x)) ∧
  (∀ x, jstate t x ≠ jstate s x → x = j ∨ rank j < rank x) ∧
  (∀ x, x ∈ t.finished_jobs → x ∈ s.finished_jobs ∨ x = j ∨ isPending s x = true)

/-- Precondition of the dependent loop of failed for job j over the remaining
swapped-out dependents dl, running with j on top of the active stack. -/
def DPre (env : Nat → LoadJob) (rank : Nat → Nat) (A : List Nat) (j : Nat)
    (dl : List Nat) (s : LoaderState) (fuel : Nat) : Prop :=
  FInv env (A ++ [j]) s ∧ npend (A ++ [j]) s ≤ fuel ∧ dl.length ≤ fuel ∧
  (∀ a ∈ A, rank a < rank j) ∧
  (∀ d ∈ dl, rank j < rank d ∧ GhostEdge s j d ∧
    ((∃ di, mfind s.scheduled_jobs d = some di) ∨
     (mfind s.scheduled_jobs d = none ∧ d ∈ s.finished_jobs ∧
      (jstate s d).is_finished = true ∧ ∃ e0, (jstate s d).exception = some e0)))

/-- Postcondition of the dependent loop of failed: on top of the weakened
invariant, every processed dependent is finished with a captured failure. -/
def DPost (env : Nat → LoadJob) (rank : Nat → Nat) (j : Nat) (e : Exn)
    (dl : List Nat) (s t : LoaderState) (A : List Nat) : Prop :=
  FInv env (A ++ [j]) t ∧
  (∀ d ∈ dl, mfind t.scheduled_jobs d = none ∧ d ∈ t.finished_jobs ∧
    (jstate t d).is_finished = true ∧ ∃ e0, (jstate t d).exception = some e0) ∧
  (∀ x, isPending t x = true → isPending s x = true) ∧
  (∀ x, isPending s x = true → isPending t x = false →
    x ∈ t.finished_jobs ∧ (jstate t x).is_finished = true ∧
    ∃ e2, (jstate t x).exception = some e2) ∧
  t.ready_queue = s.ready_queue ∧
  t.last_ready_seqno = s.last_ready_seqno ∧
  t.sched_deps = s.sched_deps ∧
  t.sched_prio = s.sched_prio ∧
  t.is_running = s.is_running ∧
  t.max_threads = s.max_threads ∧
  t.workers = s.workers ∧
  (∀ x ∈ s.finished_jobs, x ∈ t.finished_jobs) ∧
  (∀ x, (jstate s x).is_finished = true → (jstate t x).is_finished = true) ∧
  (∀ x, x ≠ j → jstate t x = jstate s x ∨ CascadeMark env e x (jstate t x)) ∧
  (∀ x, jstate t x ≠ jstate s x → rank j < rank x) ∧
  (∀ x, x ∈ t.finished_jobs → x ∈ s.finished_jobs ∨ x ∈ dl ∨ isPending s x = true)

/-- The completion flag and the captured failure value always move together:
an unfinished job holds no exception (setSuccess and setFailure both set the
flag when they store the outcome). -/
def JSInv (s : LoaderState) : Prop :=
  ∀ x, (jstate s x).is_finished = false → (jstate s x).exception = none

/-- u is a recognised prerequisite of x (dependency direction of prioritize
inheritance). -/
def PrereqEdge (s : LoaderState) (x u : Nat) : Prop :=
  GhostEdge s u x

/-- u is reachable from j by following recognised prerequisite edges. -/
def TransPrereq (s : LoaderState) (j u : Nat) : Prop :=
  Relation.TransGen (PrereqEdge s) j u

/- Concrete job environments and execution traces used by the witnesses and
counterexamples of the claim theorems. -/

/-- Two mutually dependent jobs whose names are empty strings. -/
def envCyc : Nat → LoadJob := fun j =>
  if j = 0 then { dependencies := [1], name := "" }
  else if j = 1 then { dependencies := [0], name := "" }
  else { dependencies := [], name := "" }

/-- The same two mutually dependent jobs with distinct nonempty names. -/
def envCycN : Nat → LoadJob := fun j =>
  if j = 0 then { dependencies := [1], name := "a" }
  else if j = 1 then { dependencies := [0], name := "b" }
  else { dependencies := [], name := "c" }

/-- Job 1 (name b) declares job 0 (name a) as its only prerequisite. -/
def envDep : Nat → LoadJob := fun j =>
  if j = 1 then { dependencies := [0], name := "b" }
  else { dependencies := [], name := "a" }

/-- A three-job chain: job 2 (name t) depends on job 1 (name m), which in turn
depends on job 0 (name a). -/
def envChain : Nat → LoadJob := fun j =>
  if j = 1 then { dependencies := [0], name := "m" }
  else if j = 2 then { dependencies := [1], name := "t" }
  else { dependencies := [], name := "a" }

/-- Jobs are constructed in the order of their ids. -/
def rid : Nat → Nat := fun j => j

/-- Both jobs of envDep scheduled together at priority 0 on a fresh loader:
the successful payload of scheduleOp envDep rid 0 on the two-job set. -/
def c46sched : LoaderState :=
  scheduleJobs envDep rid 0 [0, 1] (insertJobs 0 [0, 1] (initState 4))

/-- The loader of c46sched started, with the ready job 0 handed to a worker. -/
def c4wexec : LoaderState := pickOp (startOp c46sched)

/-- The worker of c4wexec commits a body failure of job 0. -/
def c4wfail : LoaderState :=
  failedF envDep (c4wexec.scheduled_jobs.length + 1) 0
    (bodyFailExn envDep 0 "boom") c4wexec

/-- The worker of c4wexec instead commits success of job 0 and dequeues the
now-ready job 1. -/
def c2wit : LoaderState := pickOp (loadedOp 0 c4wexec)

/-- Job 1 of envDep scheduled alone at priority 5: its declared prerequisite 0
is unknown to the loader. -/
def c2sched : LoaderState :=
  scheduleJobs envDep rid 5 [1] (insertJobs 5 [1] (initState 4))

/-- The loader of c2sched started, with job 1 handed to a worker although the
body of its declared prerequisite 0 never ran. -/
def c2cexSt : LoaderState := pickOp (startOp c2sched)

/-- Job 1 of envDep scheduled alone at priority 9. -/
def c3mid : LoaderState :=
  scheduleJobs envDep rid 9 [1] (insertJobs 9 [1] (initState 4))

/-- ...then job 0 scheduled at priority 1: the declared edge from 0 to 1 was
never recorded, so no priority is inherited. -/
def c3st : LoaderState :=
  scheduleJobs envDep rid 1 [0] (insertJobs 1 [0] c3mid)

/-- Job 1 of envDep scheduled at priority 0, then job 0 at priority 5: both
are immediately ready and the worker picks the higher-priority job 0 first. -/
def c4mid : LoaderState :=
  scheduleJobs envDep rid 5 [0] (insertJobs 5 [0]
    (scheduleJobs envDep rid 0 [1] (insertJobs 0 [1] (initState 4))))

/-- The loader of c4mid started, with job 0 handed to a worker. -/
def c4exec : LoaderState := pickOp (startOp c4mid)

/-- The worker of c4exec commits a body failure of job 0; job 1 declared 0 as
a dependency but was scheduled while 0 was absent, so no edge exists. -/
def c4cexSt : LoaderState :=
  failedF envDep (c4exec.scheduled_jobs.length + 1) 0
    (bodyFailExn envDep 0 "boom") c4exec

/-- remove of both envDep jobs from c46sched, the dependent job 1 first. -/
def c6cexSt : LoaderState := removeOp envDep (fun _ => none) [1, 0] c46sched

/-- remove of the not-yet-started prerequisite job 0 alone from c46sched. -/
def c6wit : LoaderState := removeOne envDep (fun _ => none) 0 c46sched

/-- prioritize of job 1 of c46sched to priority 9. -/
def c5wit : LoaderState := prioritizeF envDep (rid 1 + 1) 1 9 c46sched

/-- Job 1 of envChain scheduled alone at priority 0. -/
def c5a : LoaderState :=
  scheduleJobs envChain rid 0 [1] (insertJobs 0 [1] (initState 4))

/-- ...started, handed to a worker and committed successfully. -/
def c5b : LoaderState := loadedOp 1 (pickOp (startOp c5a))

/-- ...then job 0 scheduled at priority 0. -/
def c5c : LoaderState :=
  scheduleJobs envChain rid 0 [0] (insertJobs 0 [0] c5b)

/-- ...then job 2 scheduled at priority 0: its declared prerequisite 1 has
already finished, so the schedule records no edge toward the still-pending
transitive prerequisite 0. -/
def c5mid : LoaderState :=
  scheduleJobs envChain rid 0 [2] (insertJobs 0 [2] c5c)

/-- prioritize of job 2 of c5mid to priority 7. -/
def c5post : LoaderState := prioritizeF envChain (rid 2 + 1) 2 7 c5mid

/- Lemmas about the association-list maps. -/

theorem mfind_mset_self {α : Type} (l : List (Nat × α)) (x : Nat) (v : α) :
    mfind (mset l x v) x = some v := by
  induction l with
  | nil => simp [mset, mfind]
  | cons h t ih =>
    by_cases hk : h.1 = x
    · simp [mset, hk, mfind]
    · simpa [mset, hk, mfind] using ih

theorem mfind_mset_ne {α : Type} (l : List (Nat × α)) (x y : Nat) (v : α) (h : y ≠ x) :
    mfind (mset l x v) y = mfind l y := by
  induction l with
  | nil => simp [mset, mfind, Ne.symm h]
  | cons p t ih =>
    by_cases hk : p.1 = x
    · subst hk
      simp [mset, mfind, Ne.symm h]
    · simp only [mset, if_neg hk]
      by_cases hy : p.1 = y
      · simp [mfind, hy]
      · simp [mfind, hy, ih]

theorem mfind_merase_self {α : Type} (l : List (Nat × α)) (x : Nat) :
    mfind (merase l x) x = none := by
  induction l with
  | nil => simp [merase, mfind]
  | cons p t ih =>
    by_cases hk : p.1 = x
    · simpa [merase, List.filter, hk] using ih
    · simpa [merase, List.filter, hk, mfind] using ih

theorem mfind_merase_ne {α : Type} (l : List (Nat × α)) (x y : Nat) (h : y ≠ x) :
    mfind (merase l x) y = mfind l y := by
  induction l with
  | nil => simp [merase, mfind]
  | cons p t ih =>
    by_cases hk : p.1 = x
    · have h1 : merase (p :: t) x = merase t x := by
        simp [merase, List.filter, hk]
      rw [h1, ih]
      have h2 : p.1 ≠ y := hk ▸ Ne.symm h
      simp [mfind, h2]
    · have h1 : merase (p :: t) x = p :: merase t x := by
        simp [merase, List.filter, hk]
      rw [h1]
      by_cases hy : p.1 = y
      · simp [mfind, hy]
      · simp [mfind, hy, ih]

theorem mem_of_mfind {α : Type} (l : List (Nat × α)) (x : Nat) (v : α)
    (h : mfind l x = some v) : (x, v) ∈ l := by
  induction l with
  | nil => simp [mfind] at h
  | cons p t ih =>
    by_cases hk : p.1 = x
    · simp only [mfind, if_pos hk] at h
      have hp : p = (x, v) := by
        cases p
        simp only [Option.some_inj] at h
        simp_all
      exact hp ▸ List.mem_cons_self _ _
    · simp only [mfind, if_neg hk] at h
      exact List.mem_cons_of_mem _ (ih h)

theorem mfind_isSome_of_mem {α : Type} (l : List (Nat × α)) (x : Nat) (v : α)
    (h : (x, v) ∈ l) : (mfind l x).isSome = true := by
  induction l with
  | nil => simp at h
  | cons p t ih =>
    rcases List.mem_cons.mp h with h1 | h2
    · subst h1; simp [mfind]
    · by_cases hk : p.1 = x
      · simp [mfind, hk]
      · simp [mfind, hk, ih h2]

theorem mfind_of_mem_nodup {α : Type} (l : List (Nat × α)) (x : Nat) (v : α)
    (hnd : (l.map Prod.fst).Nodup) (h : (x, v) ∈ l) : mfind l x = some v := by
  induction l with
  | nil => simp at h
  | cons p t ih =>
    simp only [List.map_cons, List.nodup_cons] at hnd
    rcases List.mem_cons.mp h with h1 | h2
    · subst h1; simp [mfind]
    · have hx : p.1 ≠ x := by
        intro he
        exact hnd.1 (he ▸ (List.mem_map.mpr ⟨(x, v), h2, rfl⟩))
      simp [mfind, hx, ih hnd.2 h2]

theorem keys_mset {α : Type} (l : List (Nat × α)) (x : Nat) (v : α) (y : Nat) :
    y ∈ (mset l x v).map Prod.fst ↔ y = x ∨ y ∈ l.map Prod.fst := by
  induction l with
  | nil => simp [mset]
  | cons p t ih =>
    by_cases hk : p.1 = x
    · have h1 : mset (p :: t) x v = (p.1, v) :: t := by
        simp [mset, hk]
      rw [h1]
      simp only [List.map_cons, List.mem_cons, hk]
      tauto
    · have h1 : mset (p :: t) x v = p :: mset t x v := by
        simp [mset, hk]
      rw [h1]
      simp only [List.map_cons, List.mem_cons, ih]
      tauto

theorem keys_mset_nodup {α : Type} (l : List (Nat × α)) (x : Nat) (v : α)
    (h : (l.map Prod.fst).Nodup) : ((mset l x v).map Prod.fst).Nodup := by
  induction l with
  | nil => simp [mset]
  | cons p t ih =>
    simp only [List.map_cons, List.nodup_cons] at h
    by_cases hk : p.1 = x
    · have h1 : mset (p :: t) x v = (p.1, v) :: t := by
        simp [mset, hk]
      rw [h1]
      simp only [List.map_cons, List.nodup_cons]
      exact ⟨h.1, h.2⟩
    · have h1 : mset (p :: t) x v = p :: mset t x v := by
        simp [mset, hk]
      rw [h1]
      simp only [List.map_cons, List.nodup_cons]
      refine ⟨fun hc => ?_, ih h.2⟩
      rcases (keys_mset t x v p.1).mp hc with h1 | h1
      · exact hk h1
      · exact h.1 h1

theorem keys_merase_sub {α : Type} (l : List (Nat × α)) (x : Nat) (y : Nat)
    (h : y ∈ (merase l x).map Prod.fst) : y ∈ l.map Prod.fst := by
  rcases List.mem_map.mp h with ⟨p, hp, he⟩
  exact List.mem_map.mpr ⟨p, List.mem_of_mem_filter hp, he⟩

theorem keys_merase_nodup {α : Type} (l : List (Nat × α)) (x : Nat)
    (h : (l.map Prod.fst).Nodup) : ((merase l x).map Prod.fst).Nodup := by
  have hsub : List.Sublist (merase l x) l := List.filter_sublist l
  exact h.sublist (hsub.map Prod.fst)

theorem mfind_mupd_self {α : Type} (l : List (Nat × α)) (x : Nat) (f : α → α) (v : α)
    (h : mfind l x = some v) : mfind (mupd l x f) x = some (f v) := by
  simp [mupd, h, mfind_mset_self]

theorem mfind_mupd_ne {α : Type} (l : List (Nat × α)) (x y : Nat) (f : α → α) (h : y ≠ x) :
    mfind (mupd l x f) y = mfind l y := by
  unfold mupd
  cases hx : mfind l x with
  | none => rfl
  | some v => exact mfind_mset_ne l x y (f v) h

theorem mfind_mupd_none {α : Type} (l : List (Nat × α)) (x : Nat) (f : α → α)
    (h : mfind l x = none) : mupd l x f = l := by
  simp [mupd, h]

theorem keys_mupd {α : Type} (l : List (Nat × α)) (x : Nat) (f : α → α) (y : Nat) :
    y ∈ (mupd l x f).map Prod.fst ↔ y ∈ l.map Prod.fst := by
  unfold mupd
  cases hx : mfind l x with
  | none => rfl
  | some v =>
    rw [keys_mset]
    constructor
    · rintro (h1 | h1)
      · subst h1
        exact List.mem_map.mpr ⟨(y, v), mem_of_mfind l y v hx, rfl⟩
      · exact h1
    · exact fun h1 => Or.inr h1

theorem keys_mupd_nodup {α : Type} (l : List (Nat × α)) (x : Nat) (f : α → α)
    (h : (l.map Prod.fst).Nodup) : ((mupd l x f).map Prod.fst).Nodup := by
  unfold mupd
  cases hx : mfind l x with
  | none => exact h
  | some v => exact keys_mset_nodup l x (f v) h

theorem mem_sinsert (l : List Nat) (x y : Nat) :
    y ∈ sinsert l x ↔ y = x ∨ y ∈ l := by
  unfold sinsert
  by_cases hx : x ∈ l
  · simp only [if_pos hx]
    constructor
    · exact fun h => Or.inr h
    · rintro (h | h)
      · exact h ▸ hx
      · exact h
  · simp [if_neg hx]

theorem sinsert_nodup (l : List Nat) (x : Nat) (h : l.Nodup) : (sinsert l x).Nodup := by
  unfold sinsert
  by_cases hx : x ∈ l
  · simpa [if_pos hx]
  · simp [if_neg hx, h, hx]

theorem mem_serase (l : List Nat) (x y : Nat) :
    y ∈ serase l x ↔ y ∈ l ∧ y ≠ x := by
  simp [serase, List.mem_filter]

theorem serase_nodup (l : List Nat) (x : Nat) (h : l.Nodup) : (serase l x).Nodup :=
  h.sublist (List.filter_sublist l)

theorem serase_sub (l : List Nat) (x : Nat) : serase l x ⊆ l := by
  intro y hy
  exact ((mem_serase l x y).mp hy).1

/- Lemmas about the ready-queue key order and the sorted queue. -/

theorem klt_irrefl (a : ReadyKey) : ¬ ReadyKey.klt a a := by
  unfold ReadyKey.klt
  simp

theorem klt_trans {a b c : ReadyKey} (h1 : ReadyKey.klt a b) (h2 : ReadyKey.klt b c) :
    ReadyKey.klt a c := by
  unfold ReadyKey.klt at h1 h2 ⊢
  by_cases e1 : a.priority = b.priority
  · rw [if_pos e1] at h1
    by_cases e2 : b.priority = c.priority
    · rw [if_pos e2] at h2
      rw [if_pos (e1.trans e2)]
      omega
    · rw [if_neg e2] at h2
      rw [if_neg (fun hh : a.priority = c.priority => e2 (e1 ▸ hh))]
      rw [e1]
      exact h2
  · rw [if_neg e1] at h1
    by_cases e2 : b.priority = c.priority
    · have h3 : c.priority < a.priority := e2 ▸ h1
      rw [if_neg (by intro hh; rw [hh] at h3; exact lt_irrefl _ h3)]
      exact h3
    · rw [if_neg e2] at h2
      have h3 : c.priority < a.priority := lt_trans h2 h1
      rw [if_neg (by intro hh; rw [hh] at h3; exact lt_irrefl _ h3)]
      exact h3

theorem klt_total (a b : ReadyKey) (h : a ≠ b) :
    ReadyKey.klt a b ∨ ReadyKey.klt b a := by
  unfold ReadyKey.klt
  by_cases e1 : a.priority = b.priority
  · have e2 : b.priority = a.priority := e1.symm
    rw [if_pos e1, if_pos e2]
    have hs : a.ready_seqno ≠ b.ready_seqno := by
      intro hc
      apply h
      cases a; cases b
      simp_all
    exact Nat.lt_or_gt_of_ne hs
  · rw [if_neg e1, if_neg (fun hh : b.priority = a.priority => e1 hh.symm)]
    rcases lt_trichotomy a.priority b.priority with h2 | h2 | h2
    · exact Or.inr h2
    · exact absurd h2 e1
    · exact Or.inl h2

theorem klt_asymm {a b : ReadyKey} (h : ReadyKey.klt a b) : ¬ ReadyKey.klt b a := by
  intro h2
  exact klt_irrefl a (klt_trans h h2)

theorem klt_ne {a b : ReadyKey} (h : ReadyKey.klt a b) : a ≠ b := by
  intro h2
  exact klt_irrefl a (h2 ▸ h)

theorem klt_of_priority_gt {a b : ReadyKey} (h : b.priority < a.priority) :
    ReadyKey.klt a b := by
  unfold ReadyKey.klt
  rw [if_neg (by omega)]
  exact h

theorem klt_same_priority {a b : ReadyKey} (h : a.priority = b.priority) :
    (ReadyKey.klt a b ↔ a.ready_seqno < b.ready_seqno) := by
  unfold ReadyKey.klt
  rw [if_pos h]

theorem mem_rqInsert (k : ReadyKey) (j : Nat) (q : List (ReadyKey × Nat))
    (e : ReadyKey × Nat) : e ∈ rqInsert k j q ↔ e = (k, j) ∨ e ∈ q := by
  induction q with
  | nil => simp [rqInsert]
  | cons p t ih =>
    unfold rqInsert
    by_cases hc : ReadyKey.klt k p.1
    · simp [if_pos hc]
    · simp only [if_neg hc, List.mem_cons, ih]
      tauto

theorem rqInsert_sorted (k : ReadyKey) (j : Nat) (q : List (ReadyKey × Nat))
    (hs : q.Pairwise (fun a b => ReadyKey.klt a.1 b.1))
    (hne : ∀ e ∈ q, e.1 ≠ k) :
    (rqInsert k j q).Pairwise (fun a b => ReadyKey.klt a.1 b.1) := by
  induction q with
  | nil => simp [rqInsert]
  | cons p t ih =>
    rcases List.pairwise_cons.mp hs with ⟨hp, ht⟩
    unfold rqInsert
    by_cases hc : ReadyKey.klt k p.1
    · rw [if_pos hc]
      refine List.pairwise_cons.mpr ⟨?_, hs⟩
      intro e he
      rcases List.mem_cons.mp he with h1 | h1
      · exact h1 ▸ hc
      · exact klt_trans hc (hp e h1)
    · rw [if_neg hc]
      refine List.pairwise_cons.mpr ⟨?_, ih ht (fun e he => hne e (List.mem_cons_of_mem _ he))⟩
      intro e he
      rcases (mem_rqInsert k j t e).mp he with h1 | h1
      · subst h1
        rcases klt_total p.1 k (hne p (List.mem_cons_self _ _)) with h2 | h2
        · exact h2
        · exact absurd h2 hc
      · exact hp e h1

theorem mem_rqErase (q : List (ReadyKey × Nat)) (k : ReadyKey) (e : ReadyKey × Nat) :
    e ∈ rqErase q k ↔ e ∈ q ∧ e.1 ≠ k := by
  simp [rqErase, List.mem_filter]

theorem rqErase_sorted (q : List (ReadyKey × Nat)) (k : ReadyKey)
    (hs : q.Pairwise (fun a b => ReadyKey.klt a.1 b.1)) :
    (rqErase q k).Pairwise (fun a b => ReadyKey.klt a.1 b.1) :=
  hs.sublist (List.filter_sublist q)

theorem sorted_head_min (e : ReadyKey × Nat) (rest : List (ReadyKey × Nat))
    (hs : (e :: rest).Pairwise (fun a b => ReadyKey.klt a.1 b.1)) :
    ∀ e2 ∈ rest, ReadyKey.klt e.1 e2.1 :=
  (List.pairwise_cons.mp hs).1

/- Invariant preservation for the simple operations. -/

theorem inv_start (env : Nat → LoadJob) (s : LoaderState) (hI : Inv env s) :
    Inv env (startOp s) := by
  obtain ⟨h1, h2, h3, h4, h5, h6, h7, h8, h9, h10, h11, h12, h13, h14, h15⟩ := hI
  exact ⟨h1, h2, h3, h4, h5, h6, h7, h8, h9, h10, h11, h12, h13, h14, h15⟩

theorem inv_stop (env : Nat → LoadJob) (s : LoaderState) (hI : Inv env s) :
    Inv env (stopOp s) := by
  obtain ⟨h1, h2, h3, h4, h5, h6, h7, h8, h9, h10, h11, h12, h13, h14, h15⟩ := hI
  exact ⟨h1, h2, h3, h4, h5, h6, h7, h8, h9, h10, h11, h12, h13, h14, h15⟩

theorem inv_workerExit (env : Nat → LoadJob) (s : LoaderState) (hI : Inv env s) :
    Inv env (workerExitOp s) := by
  obtain ⟨h1, h2, h3, h4, h5, h6, h7, h8, h9, h10, h11, h12, h13, h14, h15⟩ := hI
  exact ⟨h1, h2, h3, h4, h5, h6, h7, h8, h9, h10, h11, h12, h13, h14, h15⟩

/-- No two ready-queue entries hold the same job, given the invariants. -/
theorem rq_jobs_distinct (env : Nat → LoadJob) (s : LoaderState) (hI : Inv env s)
    (e : ReadyKey × Nat) (rest : List (ReadyKey × Nat))
    (hq : s.ready_queue = e :: rest) : ∀ e2 ∈ rest, e2.2 ≠ e.2 := by
  intro e2 he2 hc
  obtain ⟨i, hfi, hki, _, _⟩ := hI.rq_sound e (by rw [hq]; exact List.mem_cons_self _ _)
  obtain ⟨i2, hfi2, hki2, _, _⟩ :=
    hI.rq_sound e2 (by rw [hq]; exact List.mem_cons_of_mem _ he2)
  rw [hc] at hfi2
  rw [hfi] at hfi2
  have he : e2 = e := by
    have : e2.1 = e.1 := by rw [← hki, ← hki2, Option.some_inj.mp hfi2]
    cases e; cases e2
    simp_all
  have hklt := sorted_head_min e rest (hq ▸ hI.rq_sorted) e2 he2
  rw [he] at hklt
  exact klt_irrefl _ hklt

/- Effect lemmas for prioritize. -/

theorem prioPointwise_refl (p : Int) (s : LoaderState) : PrioPointwise p s s := by
  intro x
  cases h : mfind s.scheduled_jobs x with
  | none => exact Or.inl ⟨rfl, rfl⟩
  | some i => exact Or.inr ⟨i, i, rfl, rfl, rfl, rfl, rfl, le_refl _, Or.inl rfl⟩

theorem prioPointwise_trans {p : Int} {s u t : LoaderState}
    (h1 : PrioPointwise p s u) (h2 : PrioPointwise p u t) : PrioPointwise p s t := by
  intro x
  rcases h1 x with ⟨ha, hb⟩ | ⟨i, i2, ha, hb, e1, e2, e3, e4, e5⟩
  · rcases h2 x with ⟨hc, hd⟩ | ⟨i3, i4, hc, hd, f1, f2, f3, f4, f5⟩
    · exact Or.inl ⟨ha, hd⟩
    · rw [hb] at hc; cases hc
  · rcases h2 x with ⟨hc, hd⟩ | ⟨i3, i4, hc, hd, f1, f2, f3, f4, f5⟩
    · rw [hb] at hc; cases hc
    · rw [hb] at hc
      have hi : i2 = i3 := Option.some_inj.mp hc
      subst hi
      refine Or.inr ⟨i, i4, ha, hd, f1.trans e1, f2.trans e2, f3.trans e3,
        le_trans e4 f4, ?_⟩
      rcases f5 with f5 | f5
      · rw [f5]
        exact e5
      · exact Or.inr f5

theorem jscore_refl (s : LoaderState) : JStatesCoreEq s s := fun _ => ⟨rfl, rfl⟩

theorem jscore_trans {s u t : LoaderState} (h1 : JStatesCoreEq s u)
    (h2 : JStatesCoreEq u t) : JStatesCoreEq s t := by
  intro x
  exact ⟨(h2 x).1.trans (h1 x).1, (h2 x).2.trans (h1 x).2⟩

theorem ofe_refl (s : LoaderState) : OtherFieldsEq s s :=
  ⟨rfl, rfl, rfl, rfl, rfl, rfl, rfl⟩

theorem ofe_trans {s u t : LoaderState} (h1 : OtherFieldsEq s u)
    (h2 : OtherFieldsEq u t) : OtherFieldsEq s t := by
  obtain ⟨a1, a2, a3, a4, a5, a6, a7⟩ := h1
  obtain ⟨b1, b2, b3, b4, b5, b6, b7⟩ := h2
  exact ⟨b1.trans a1, b2.trans a2, b3.trans a3, b4.trans a4, b5.trans a5,
    b6.trans a6, b7.trans a7⟩

theorem BLS_transfer {p : Int} {s t : LoaderState} (hpw : PrioPointwise p s t)
    (hof : OtherFieldsEq s t) (h : BLS s) : BLS t := by
  intro u iu hu x hx
  rcases hpw u with ⟨ha, hb⟩ | ⟨i, i2, ha, hb, _, _, e3, _, _⟩
  · rw [hu] at hb; cases hb
  · rw [hu] at hb
    have hiu : iu = i2 := Option.some_inj.mp hb
    subst hiu
    rw [e3] at hx
    obtain ⟨⟨xi, hxi⟩, ⟨ds, hds, hmem⟩⟩ := h u i ha x hx
    constructor
    · rcases hpw x with ⟨hc, _⟩ | ⟨i3, i4, hc, hd, _⟩
      · rw [hxi] at hc; cases hc
      · exact ⟨i4, hd⟩
    · exact ⟨ds, hof.2.1 ▸ hds, hmem⟩

theorem GDS_transfer {p : Int} {env : Nat → LoadJob} {s t : LoaderState}
    (hpw : PrioPointwise p s t) (hof : OtherFieldsEq s t) (h : GDS env s) : GDS env t := by
  intro u iu hu
  rcases hpw u with ⟨ha, hb⟩ | ⟨i, i2, ha, hb, _⟩
  · rw [hu] at hb; cases hb
  · obtain ⟨ds, hds, hsub⟩ := h u i ha
    exact ⟨ds, hof.2.1 ▸ hds, hsub⟩

theorem prioStep_scheduled (j : Nat) (p : Int) (s : LoaderState) (info : Info) :
    (prioStep j p s info).scheduled_jobs =
      mset s.scheduled_jobs j { info with priority := p } := rfl

theorem prioStep_jstates (j : Nat) (p : Int) (s : LoaderState) (info : Info) :
    (prioStep j p s info).job_states =
      mset s.job_states j { jstate s j with jpriority := p } := rfl

theorem prioStep_ofe (j : Nat) (p : Int) (s : LoaderState) (info : Info) :
    OtherFieldsEq s (prioStep j p s info) :=
  ⟨rfl, rfl, rfl, rfl, rfl, rfl, rfl⟩

theorem prioStep_rq (j : Nat) (p : Int) (s : LoaderState) (info : Info) :
    (prioStep j p s info).ready_queue =
      if info.ready_seqno ≠ 0 then
        rqInsert { priority := p, ready_seqno := info.ready_seqno } j
          (rqErase s.ready_queue info.key)
      else s.ready_queue := by
  unfold prioStep
  by_cases h : info.ready_seqno ≠ 0
  · simp only [if_pos h]
    rfl
  · simp only [if_neg h]

theorem prioStep_pointwise (j : Nat) (p : Int) (s : LoaderState) (info : Info)
    (hm : mfind s.scheduled_jobs j = some info) (hp : ¬ p ≤ info.priority) :
    PrioPointwise p s (prioStep j p s info) := by
  intro x
  by_cases hx : x = j
  · subst hx
    refine Or.inr ⟨info, { info with priority := p }, hm, ?_, rfl, rfl, rfl,
      le_of_lt (not_le.mp hp), Or.inr rfl⟩
    rw [prioStep_scheduled]
    exact mfind_mset_self _ _ _
  · cases h : mfind s.scheduled_jobs x with
    | none =>
      refine Or.inl ⟨rfl, ?_⟩
      rw [prioStep_scheduled, mfind_mset_ne _ _ _ _ hx]
      exact h
    | some i =>
      refine Or.inr ⟨i, i, rfl, ?_, rfl, rfl, rfl, le_refl _, Or.inl rfl⟩
      rw [prioStep_scheduled, mfind_mset_ne _ _ _ _ hx]
      exact h

theorem prioStep_jscore (j : Nat) (p : Int) (s : LoaderState) (info : Info) :
    JStatesCoreEq s (prioStep j p s info) := by
  intro x
  by_cases hx : x = j
  · subst hx
    have h1 : jstate (prioStep x p s info) x = { jstate s x with jpriority := p } := by
      unfold jstate
      rw [prioStep_jstates, mfind_mset_self]
      rfl
    rw [h1]
    exact ⟨rfl, rfl⟩
  · have h1 : jstate (prioStep j p s info) x = jstate s x := by
      unfold jstate
      rw [prioStep_jstates, mfind_mset_ne _ _ _ _ hx]
    rw [h1]
    exact ⟨rfl, rfl⟩

theorem prioStep_edge (j : Nat) (p : Int) (s : LoaderState) (info : Info)
    (hm : mfind s.scheduled_jobs j = some info) (hp : ¬ p ≤ info.priority) :
    ∀ u x, ¬ EdgeOK (prioStep j p s info) u x → ¬ EdgeOK s u x ∨ x = j := by
  intro u x hbr
  by_cases hx : x = j
  · exact Or.inr hx
  · left
    intro hok
    apply hbr
    intro iu xi hu hx2 hmem
    have hxs : mfind s.scheduled_jobs x = some xi := by
      rw [prioStep_scheduled, mfind_mset_ne _ _ _ _ hx] at hx2
      exact hx2
    by_cases hu2 : u = j
    · subst hu2
      rw [prioStep_scheduled, mfind_mset_self] at hu
      have hiu : iu = { info with priority := p } := (Option.some_inj.mp hu).symm
      subst hiu
      have hmem2 : x ∈ info.dependent_jobs := hmem
      have := hok info xi hm hxs hmem2
      calc xi.priority ≤ info.priority := this
        _ ≤ p := le_of_lt (not_le.mp hp)
    · rw [prioStep_scheduled, mfind_mset_ne _ _ _ _ hu2] at hu
      exact hok iu xi hu hxs hmem

theorem prioStep_find (j : Nat) (p : Int) (s : LoaderState) (info : Info)
    (hm : mfind s.scheduled_jobs j = some info) :
    ∀ x ix, mfind (prioStep j p s info).scheduled_jobs x = some ix →
      ∃ ix0, mfind s.scheduled_jobs x = some ix0 ∧
        ix.ready_seqno = ix0.ready_seqno ∧
        ix.dependencies_left = ix0.dependencies_left ∧
        ix.dependent_jobs = ix0.dependent_jobs ∧
        (x = j → ix0 = info ∧ ix = { info with priority := p }) := by
  intro x ix hx
  by_cases hxj : x = j
  · subst hxj
    rw [prioStep_scheduled, mfind_mset_self] at hx
    have hix : ix = { info with priority := p } := (Option.some_inj.mp hx).symm
    subst hix
    exact ⟨info, hm, rfl, rfl, rfl, fun _ => ⟨rfl, rfl⟩⟩
  · rw [prioStep_scheduled, mfind_mset_ne _ _ _ _ hxj] at hx
    exact ⟨ix, hx, rfl, rfl, rfl, fun hc => absurd hc hxj⟩

theorem prioStep_rqb (j : Nat) (p : Int) (s : LoaderState) (info : Info)
    (hm : mfind s.scheduled_jobs j = some info) (hrqb : RQB s) :
    RQB (prioStep j p s info) := by
  obtain ⟨hsort, hsound, hcomp, hinj⟩ := hrqb
  have hfind := prioStep_find j p s info hm
  have hinj2 : ∀ a ia b ib, mfind (prioStep j p s info).scheduled_jobs a = some ia →
      mfind (prioStep j p s info).scheduled_jobs b = some ib → ia.ready_seqno ≠ 0 →
      ia.ready_seqno = ib.ready_seqno → a = b := by
    intro a ia b ib ha hb hnz heq
    obtain ⟨ia0, ha0, hsa, _, _, _⟩ := hfind a ia ha
    obtain ⟨ib0, hb0, hsb, _, _, _⟩ := hfind b ib hb
    exact hinj a ia0 b ib0 ha0 hb0 (hsa ▸ hnz) (by omega)
  by_cases hsn : info.ready_seqno ≠ 0
  · have hrq : (prioStep j p s info).ready_queue =
        rqInsert { priority := p, ready_seqno := info.ready_seqno } j
          (rqErase s.ready_queue info.key) := by
      rw [prioStep_rq, if_pos hsn]
    have hjrq := hcomp j info hm hsn
    obtain ⟨ij, hij, hkey, hdl0j, _⟩ := hsound (Info.key info, j) hjrq
    have hinfoij : info = ij := by
      rw [hm] at hij
      exact Option.some_inj.mp hij
    have hdl0 : info.dependencies_left = 0 := by
      rw [hinfoij]
      exact hdl0j
    have hfresh : ∀ e ∈ rqErase s.ready_queue info.key,
        e.1 ≠ ({ priority := p, ready_seqno := info.ready_seqno } : ReadyKey) := by
      intro e he hc
      obtain ⟨hin, hne⟩ := (mem_rqErase _ _ _).mp he
      obtain ⟨ie, hfe, hke, _, hse⟩ := hsound e hin
      have hseq : ie.ready_seqno = info.ready_seqno := by
        have h1 : ie.ready_seqno = e.1.ready_seqno := by rw [← hke]; rfl
        rw [h1, hc]
      have hej : e.2 = j := hinj e.2 ie j info hfe hm (by omega) hseq
      rw [hej, hm] at hfe
      have : ie = info := Option.some_inj.mp hfe.symm
      subst this
      exact hne (by rw [← hke])
    refine ⟨?_, ?_, ?_, hinj2⟩
    · rw [hrq]
      exact rqInsert_sorted _ _ _ (rqErase_sorted _ _ hsort) hfresh
    · intro e he
      rw [hrq] at he
      rcases (mem_rqInsert _ _ _ _).mp he with h1 | h1
      · subst h1
        refine ⟨{ info with priority := p }, ?_, rfl, hdl0, hsn⟩
        rw [prioStep_scheduled]
        exact mfind_mset_self _ _ _
      · obtain ⟨hin, hne⟩ := (mem_rqErase _ _ _).mp h1
        obtain ⟨ie, hfe, hke, hde, hse⟩ := hsound e hin
        have hej : e.2 ≠ j := by
          intro hc
          rw [hc, hm] at hfe
          have : ie = info := Option.some_inj.mp hfe.symm
          subst this
          exact hne (by rw [← hke])
        refine ⟨ie, ?_, hke, hde, hse⟩
        rw [prioStep_scheduled, mfind_mset_ne _ _ _ _ hej]
        exact hfe
    · intro x ix hx hnz
      obtain ⟨ix0, hx0, hsx, _, _, hxj⟩ := hfind x ix hx
      by_cases hxje : x = j
      · obtain ⟨hix0, hix⟩ := hxj hxje
        subst hxje
        rw [hrq, hix]
        have : Info.key { info with priority := p } =
            ({ priority := p, ready_seqno := info.ready_seqno } : ReadyKey) := rfl
        rw [this]
        exact (mem_rqInsert _ _ _ _).mpr (Or.inl rfl)
      · have hxeq : ix = ix0 := by
          rw [prioStep_scheduled, mfind_mset_ne _ _ _ _ hxje] at hx
          rw [hx] at hx0
          exact Option.some_inj.mp hx0
        have hmem := hcomp x ix0 hx0 (hsx ▸ hnz)
        rw [hrq]
        apply (mem_rqInsert _ _ _ _).mpr
        right
        apply (mem_rqErase _ _ _).mpr
        constructor
        · rw [hxeq]
          exact hmem
        · show Info.key ix ≠ info.key
          intro hc
          have hseq : ix.ready_seqno = info.ready_seqno :=
            congrArg ReadyKey.ready_seqno hc
          apply hxje
          refine hinj x ix0 j info hx0 hm ?_ ?_
          · rw [← hxeq]
            exact hsx ▸ hnz
          · rw [← hxeq, ← hseq]
  · have hrq : (prioStep j p s info).ready_queue = s.ready_queue := by
      rw [prioStep_rq, if_neg hsn]
    refine ⟨?_, ?_, ?_, hinj2⟩
    · rw [hrq]; exact hsort
    · intro e he
      rw [hrq] at he
      obtain ⟨ie, hfe, hke, hde, hse⟩ := hsound e he
      have hej : e.2 ≠ j := by
        intro hc
        rw [hc, hm] at hfe
        have : ie = info := Option.some_inj.mp hfe.symm
        subst this
        apply hsn
        exact hse
      refine ⟨ie, ?_, hke, hde, hse⟩
      rw [prioStep_scheduled, mfind_mset_ne _ _ _ _ hej]
      exact hfe
    · intro x ix hx hnz
      obtain ⟨ix0, hx0, hsx, _, _, hxj⟩ := hfind x ix hx
      by_cases hxje : x = j
      · obtain ⟨hix0, hix⟩ := hxj hxje
        exfalso
        apply hsn
        rw [← hix0, ← hsx]
        exact hnz
      · have hmem := hcomp x ix0 hx0 (hsx ▸ hnz)
        have hkeq : Info.key ix = Info.key ix0 := by
          rw [prioStep_scheduled, mfind_mset_ne _ _ _ _ hxje] at hx
          rw [hx] at hx0
          rw [Option.some_inj.mp hx0]
        rw [hrq, hkeq]
        exact hmem

theorem prioritize_master (env : Nat → LoadJob) (rank : Nat → Nat)
    (hwf : WFEnv env rank) : ∀ fuel : Nat,
    (∀ j p s, rank j < fuel → RQB s → BLS s → GDS env s →
      (∀ u x, ¬ EdgeOK s u x → rank j < rank x) →
      PrioPointwise p s (prioritizeF env fuel j p s) ∧
      JStatesCoreEq s (prioritizeF env fuel j p s) ∧
      OtherFieldsEq s (prioritizeF env fuel j p s) ∧
      RQB (prioritizeF env fuel j p s) ∧
      (∀ i, mfind s.scheduled_jobs j = some i →
        ∃ i2, mfind (prioritizeF env fuel j p s).scheduled_jobs j = some i2 ∧
          p ≤ i2.priority) ∧
      (∀ u x, ¬ EdgeOK (prioritizeF env fuel j p s) u x → ¬ EdgeOK s u x ∧ x ≠ j)) ∧
    (∀ dsl p s, (∀ d ∈ dsl, rank d < fuel) → RQB s → BLS s → GDS env s →
      (∀ u x, ¬ EdgeOK s u x → ∀ d ∈ dsl, rank d < rank x) →
      PrioPointwise p s (prioritizeDeps env fuel dsl p s) ∧
      JStatesCoreEq s (prioritizeDeps env fuel dsl p s) ∧
      OtherFieldsEq s (prioritizeDeps env fuel dsl p s) ∧
      RQB (prioritizeDeps env fuel dsl p s) ∧
      (∀ d ∈ dsl, ∀ i, mfind s.scheduled_jobs d = some i →
        ∃ i2, mfind (prioritizeDeps env fuel dsl p s).scheduled_jobs d = some i2 ∧
          p ≤ i2.priority) ∧
      (∀ u x, ¬ EdgeOK (prioritizeDeps env fuel dsl p s) u x →
        ¬ EdgeOK s u x ∧ x ∉ dsl)) := by
  intro fuel
  induction fuel with
  | zero =>
    constructor
    · intro j p s hfj _ _ _ _
      exact absurd hfj (Nat.not_lt_zero _)
    · intro dsl p s hfd hrqb _ _ _
      cases dsl with
      | nil =>
        have ht : prioritizeDeps env 0 [] p s = s := by
          simp [prioritizeDeps]
        rw [ht]
        refine ⟨prioPointwise_refl p s, jscore_refl s, ofe_refl s, hrqb, ?_, ?_⟩
        · intro d hd
          cases hd
        · intro u x hbr
          exact ⟨hbr, by simp⟩
      | cons d ds =>
        exact absurd (hfd d (List.mem_cons_self _ _)) (Nat.not_lt_zero _)
  | succ fuel ih =>
    obtain ⟨ihF, ihD⟩ := ih
    have hF : ∀ j p s, rank j < fuel + 1 → RQB s → BLS s → GDS env s →
        (∀ u x, ¬ EdgeOK s u x → rank j < rank x) →
        PrioPointwise p s (prioritizeF env (fuel + 1) j p s) ∧
        JStatesCoreEq s (prioritizeF env (fuel + 1) j p s) ∧
        OtherFieldsEq s (prioritizeF env (fuel + 1) j p s) ∧
        RQB (prioritizeF env (fuel + 1) j p s) ∧
        (∀ i, mfind s.scheduled_jobs j = some i →
          ∃ i2, mfind (prioritizeF env (fuel + 1) j p s).scheduled_jobs j = some i2 ∧
            p ≤ i2.priority) ∧
        (∀ u x, ¬ EdgeOK (prioritizeF env (fuel + 1) j p s) u x →
          ¬ EdgeOK s u x ∧ x ≠ j) := by
      intro j p s hfj hrqb hbls hgds hB
      cases hm : mfind s.scheduled_jobs j with
      | none =>
        have ht : prioritizeF env (fuel + 1) j p s = s := by
          simp [prioritizeF, hm]
        rw [ht]
        refine ⟨prioPointwise_refl p s, jscore_refl s, ofe_refl s, hrqb, ?_, ?_⟩
        · intro i hi
          exact Option.noConfusion hi
        · intro u x hbr
          refine ⟨hbr, ?_⟩
          intro hc
          subst hc
          apply hbr
          intro iu xi _ hx _
          rw [hm] at hx
          cases hx
      | some info =>
        by_cases hple : p ≤ info.priority
        · have ht : prioritizeF env (fuel + 1) j p s = s := by
            simp [prioritizeF, hm, hple]
          rw [ht]
          refine ⟨prioPointwise_refl p s, jscore_refl s, ofe_refl s, hrqb, ?_, ?_⟩
          · intro i hi
            have hii : info = i := Option.some_inj.mp hi
            subst hii
            exact ⟨info, hm, hple⟩
          · intro u x hbr
            refine ⟨hbr, ?_⟩
            intro hc
            subst hc
            exact absurd (hB u x hbr) (lt_irrefl _)
        · have ht : prioritizeF env (fuel + 1) j p s =
              prioritizeDeps env fuel (env j).dependencies p (prioStep j p s info) := by
            simp [prioritizeF, hm, hple]
          have hpw2 := prioStep_pointwise j p s info hm hple
          have hjs2 := prioStep_jscore j p s info
          have hof2 := prioStep_ofe j p s info
          have hrqb2 := prioStep_rqb j p s info hm hrqb
          have hbls2 : BLS (prioStep j p s info) := BLS_transfer hpw2 hof2 hbls
          have hgds2 : GDS env (prioStep j p s info) := GDS_transfer hpw2 hof2 hgds
          have hfd : ∀ d ∈ (env j).dependencies, rank d < fuel := by
            intro d hd
            have h1 := hwf.1 j d hd
            omega
          have hB2 : ∀ u x, ¬ EdgeOK (prioStep j p s info) u x →
              ∀ d ∈ (env j).dependencies, rank d < rank x := by
            intro u x hbr d hd
            rcases prioStep_edge j p s info hm hple u x hbr with h1 | h1
            · exact lt_trans (hwf.1 j d hd) (hB u x h1)
            · rw [h1]
              exact hwf.1 j d hd
          obtain ⟨dpw, djs, dof, drqb, dprio, dB⟩ :=
            ihD (env j).dependencies p (prioStep j p s info) hfd hrqb2 hbls2 hgds2 hB2
          have h2 : mfind (prioStep j p s info).scheduled_jobs j =
              some { info with priority := p } := by
            rw [prioStep_scheduled]
            exact mfind_mset_self _ _ _
          rw [ht]
          refine ⟨prioPointwise_trans hpw2 dpw, jscore_trans hjs2 djs,
            ofe_trans hof2 dof, drqb, ?_, ?_⟩
          · intro i _
            rcases dpw j with ⟨ha, hb⟩ | ⟨i1, i2, ha, hb, _, _, _, hle, _⟩
            · rw [h2] at ha
              cases ha
            · rw [h2] at ha
              have hi1 : { info with priority := p } = i1 := Option.some_inj.mp ha
              refine ⟨i2, hb, ?_⟩
              calc p = ({ info with priority := p } : Info).priority := rfl
                _ = i1.priority := by rw [hi1]
                _ ≤ i2.priority := hle
          · intro u x hbr
            obtain ⟨hbr2, _⟩ := dB u x hbr
            rcases prioStep_edge j p s info hm hple u x hbr2 with h1 | h1
            · refine ⟨h1, ?_⟩
              intro hc
              have h3 := hB u x h1
              rw [hc] at h3
              exact absurd h3 (lt_irrefl _)
            · exfalso
              rw [h1] at hbr
              apply hbr
              intro iu xi hu hxj hmem
              have hxip : xi.priority = p := by
                rcases dpw j with ⟨ha, hb⟩ | ⟨i1, i2, ha, hb, _, _, _, _, hstay⟩
                · rw [h2] at ha
                  cases ha
                · rw [h2] at ha
                  have hi1 : { info with priority := p } = i1 := Option.some_inj.mp ha
                  rw [hxj] at hb
                  have hi2 : i2 = xi := (Option.some_inj.mp hb).symm
                  rcases hstay with h3 | h3
                  · rw [← hi2, h3, ← hi1]
                  · rw [← hi2, h3]
              rcases dpw u with ⟨ha_u, hb_u⟩ | ⟨u1, u2, ha_u, hb_u, _, _, hdep_u, _, _⟩
              · rw [hu] at hb_u
                cases hb_u
              · have hu2 : u2 = iu := by
                  rw [hu] at hb_u
                  exact (Option.some_inj.mp hb_u).symm
                have hmem1 : j ∈ u1.dependent_jobs := by
                  rw [← hdep_u, hu2]
                  exact hmem
                obtain ⟨_, hge⟩ := hbls2 u u1 ha_u j hmem1
                obtain ⟨ds, hds, huds⟩ := hge
                obtain ⟨ds2, hds2, hsub⟩ := hgds2 j { info with priority := p } h2
                have hdseq : ds = ds2 := by
                  rw [hds] at hds2
                  exact Option.some_inj.mp hds2
                have hudep : u ∈ (env j).dependencies :=
                  hsub.subset (hdseq ▸ huds)
                obtain ⟨iu2, hiu2, hpu⟩ := dprio u hudep u1 ha_u
                have hiu2eq : iu2 = iu := by
                  rw [hu] at hiu2
                  exact (Option.some_inj.mp hiu2).symm
                rw [hxip]
                rw [← hiu2eq]
                exact hpu
    have hD : ∀ dsl p s, (∀ d ∈ dsl, rank d < fuel + 1) → RQB s → BLS s → GDS env s →
        (∀ u x, ¬ EdgeOK s u x → ∀ d ∈ dsl, rank d < rank x) →
        PrioPointwise p s (prioritizeDeps env (fuel + 1) dsl p s) ∧
        JStatesCoreEq s (prioritizeDeps env (fuel + 1) dsl p s) ∧
        OtherFieldsEq s (prioritizeDeps env (fuel + 1) dsl p s) ∧
        RQB (prioritizeDeps env (fuel + 1) dsl p s) ∧
        (∀ d ∈ dsl, ∀ i, mfind s.scheduled_jobs d = some i →
          ∃ i2, mfind (prioritizeDeps env (fuel + 1) dsl p s).scheduled_jobs d = some i2 ∧
            p ≤ i2.priority) ∧
        (∀ u x, ¬ EdgeOK (prioritizeDeps env (fuel + 1) dsl p s) u x →
          ¬ EdgeOK s u x ∧ x ∉ dsl) := by
      intro dsl
      induction dsl with
      | nil =>
        intro p s _ hrqb _ _ _
        have ht : prioritizeDeps env (fuel + 1) [] p s = s := by
          simp [prioritizeDeps]
        rw [ht]
        refine ⟨prioPointwise_refl p s, jscore_refl s, ofe_refl s, hrqb, ?_, ?_⟩
        · intro d hd
          cases hd
        · intro u x hbr
          exact ⟨hbr, by simp⟩
      | cons d ds ihds =>
        intro p s hfd hrqb hbls hgds hB
        have ht : prioritizeDeps env (fuel + 1) (d :: ds) p s =
            prioritizeDeps env (fuel + 1) ds p (prioritizeF env (fuel + 1) d p s) := by
          simp only [prioritizeDeps]
        obtain ⟨fpw, fjs, fof, frqb, fprio, fB⟩ :=
          hF d p s (hfd d (List.mem_cons_self _ _)) hrqb hbls hgds
            (fun u x hbr => hB u x hbr d (List.mem_cons_self _ _))
        have hbls3 := BLS_transfer fpw fof hbls
        have hgds3 := GDS_transfer fpw fof hgds
        have hB3 : ∀ u x, ¬ EdgeOK (prioritizeF env (fuel + 1) d p s) u x →
            ∀ d2 ∈ ds, rank d2 < rank x := by
          intro u x hbr d2 hd2
          obtain ⟨hbrs, _⟩ := fB u x hbr
          exact hB u x hbrs d2 (List.mem_cons_of_mem _ hd2)
        obtain ⟨dpw, djs, dof, drqb, dprio, dB⟩ :=
          ihds p (prioritizeF env (fuel + 1) d p s)
            (fun d2 hd2 => hfd d2 (List.mem_cons_of_mem _ hd2)) frqb hbls3 hgds3 hB3
        rw [ht]
        refine ⟨prioPointwise_trans fpw dpw, jscore_trans fjs djs,
          ofe_trans fof dof, drqb, ?_, ?_⟩
        · intro d2 hd2 i hi
          rcases List.mem_cons.mp hd2 with h1 | h1
          · subst h1
            obtain ⟨i2, hi2, hp2⟩ := fprio i hi
            rcases dpw d2 with ⟨ha, hb⟩ | ⟨i3, i4, ha, hb, _, _, _, hle, _⟩
            · rw [hi2] at ha
              cases ha
            · rw [hi2] at ha
              have : i2 = i3 := Option.some_inj.mp ha
              exact ⟨i4, hb, le_trans hp2 (this ▸ hle)⟩
          · rcases fpw d2 with ⟨ha, hb⟩ | ⟨i1, i2, ha, hb, _⟩
            · rw [hi] at ha
              cases ha
            · obtain ⟨i3, hi3, hp3⟩ := dprio d2 h1 i2 hb
              exact ⟨i3, hi3, hp3⟩
        · intro u x hbr
          obtain ⟨hbr3, hnotin⟩ := dB u x hbr
          obtain ⟨hbrs, hnd⟩ := fB u x hbr3
          refine ⟨hbrs, ?_⟩
          intro hc
          rcases List.mem_cons.mp hc with h1 | h1
          · exact hnd h1
          · exact hnotin h1
    exact ⟨hF, hD⟩

theorem edgeok_of_inv (env : Nat → LoadJob) (s : LoaderState) (hI : Inv env s) :
    ∀ u x, EdgeOK s u x := by
  intro u x iu xi hu hx hmem
  exact hI.prio_edge u iu hu x hmem xi hx

/-- A prioritize call with rank-sufficient fuel preserves the loader
invariants, raises the target pending job at least to the requested priority,
never lowers any priority, and changes nothing else. -/
theorem inv_prioritize (env : Nat → LoadJob) (rank : Nat → Nat) (hwf : WFEnv env rank)
    (j : Nat) (p : Int) (s : LoaderState) (hI : Inv env s) :
    Inv env (prioritizeF env (rank j + 1) j p s) ∧
    PrioPointwise p s (prioritizeF env (rank j + 1) j p s) ∧
    JStatesCoreEq s (prioritizeF env (rank j + 1) j p s) ∧
    OtherFieldsEq s (prioritizeF env (rank j + 1) j p s) ∧
    (∀ i, mfind s.scheduled_jobs j = some i →
      ∃ i2, mfind (prioritizeF env (rank j + 1) j p s).scheduled_jobs j = some i2 ∧
        p ≤ i2.priority) := by
  have hrqb : RQB s := ⟨hI.rq_sorted, hI.rq_sound, hI.rq_complete, hI.seqno_inj⟩
  have hbls : BLS s := hI.backlink_sound
  have hgds : GDS env s := hI.ghost_deps
  have hB : ∀ u x, ¬ EdgeOK s u x → rank j < rank x := by
    intro u x hbr
    exact absurd (edgeok_of_inv env s hI u x) hbr
  obtain ⟨hpw, hjs, hof, hrqb2, hprio, hBpost⟩ :=
    (prioritize_master env rank hwf (rank j + 1)).1 j p s (Nat.lt_succ_self _)
      hrqb hbls hgds hB
  have hedge : ∀ u x, EdgeOK (prioritizeF env (rank j + 1) j p s) u x := by
    intro u x
    by_contra hbr
    exact absurd (edgeok_of_inv env s hI u x) (hBpost u x hbr).1
  have hpend : ∀ x, isPending (prioritizeF env (rank j + 1) j p s) x = isPending s x := by
    intro x
    rcases hpw x with ⟨ha, hb⟩ | ⟨i1, i2, ha, hb, _⟩
    · simp [isPending, ha, hb]
    · simp [isPending, ha, hb]
  refine ⟨?_, hpw, hjs, hof, hprio⟩
  have hfin := hof.1
  have hgdeq := hof.2.1
  have hgpeq := hof.2.2.1
  have hlrs := hof.2.2.2.1
  refine ⟨?_, ?_, ?_, ?_, ?_, ?_, ?_, ?_, ?_, ?_,
    hrqb2.1, hrqb2.2.1, hrqb2.2.2.1, ?_, hrqb2.2.2.2⟩
  · intro x ix hx
    rcases hpw x with ⟨ha, hb⟩ | ⟨i1, i2, ha, hb, _, _, hdep, _, _⟩
    · rw [hx] at hb
      cases hb
    · rw [hx] at hb
      have : i2 = ix := (Option.some_inj.mp hb).symm
      rw [← this, hdep]
      exact hI.dep_nodup x i1 ha
  · intro x ix hx
    rcases hpw x with ⟨ha, hb⟩ | ⟨i1, i2, ha, hb, _⟩
    · rw [hx] at hb
      cases hb
    · rw [(hjs x).1, (hjs x).2]
      exact hI.pending_unfinished x i1 ha
  · intro x hx
    rw [(hjs x).1]
    exact hI.finished_done x (hfin ▸ hx)
  · intro x ix hx
    rcases hpw x with ⟨ha, hb⟩ | ⟨i1, i2, ha, hb, _⟩
    · rw [hx] at hb
      cases hb
    · obtain ⟨ds, hds, hsub⟩ := hI.ghost_deps x i1 ha
      exact ⟨ds, hgdeq ▸ hds, hsub⟩
  · intro x ix hx ds hds
    rcases hpw x with ⟨ha, hb⟩ | ⟨i1, i2, ha, hb, hdl, _, _, _, _⟩
    · rw [hx] at hb
      cases hb
    · rw [hx] at hb
      have : i2 = ix := (Option.some_inj.mp hb).symm
      rw [← this, hdl]
      rw [hgdeq] at hds
      rw [hI.deps_left_eq x i1 ha ds hds]
      congr 1
      apply List.filter_congr
      intro d _
      rw [hpend d]
  · intro x ix hx ds hds d hd hpd
    rcases hpw x with ⟨ha, hb⟩ | ⟨i1, i2, ha, hb, _⟩
    · rw [hx] at hb
      cases hb
    · rw [hgdeq] at hds
      rw [hpend] at hpd
      rw [(hjs d).1, (hjs d).2]
      exact hI.extern_done x i1 ha ds hds d hd hpd
  · intro x ix hx ds hds d hd di hdi
    rcases hpw x with ⟨ha, hb⟩ | ⟨i1, i2, ha, hb, _⟩
    · rw [hx] at hb
      cases hb
    · rcases hpw d with ⟨hc, hd2⟩ | ⟨d1, d2, hc, hd2, _, _, hddep, _, _⟩
      · rw [hdi] at hd2
        cases hd2
      · rw [hdi] at hd2
        have : d2 = di := (Option.some_inj.mp hd2).symm
        rw [← this, hddep]
        rw [hgdeq] at hds
        exact hI.backlink_complete x i1 ha ds hds d hd d1 hc
  · exact BLS_transfer hpw hof hI.backlink_sound
  · intro x ix hx y hy yi hyi
    exact hedge x y ix yi hx hyi hy
  · intro x ix hx
    rcases hpw x with ⟨ha, hb⟩ | ⟨i1, i2, ha, hb, _, _, _, hle, _⟩
    · rw [hx] at hb
      cases hb
    · rw [hx] at hb
      have : i2 = ix := (Option.some_inj.mp hb).symm
      obtain ⟨p0, hp0, hple0⟩ := hI.prio_init x i1 ha
      exact ⟨p0, hgpeq ▸ hp0, le_trans hple0 (this ▸ hle)⟩
  · intro x ix hx
    rcases hpw x with ⟨ha, hb⟩ | ⟨i1, i2, ha, hb, _, hsn, _, _, _⟩
    · rw [hx] at hb
      cases hb
    · rw [hx] at hb
      have : i2 = ix := (Option.some_inj.mp hb).symm
      rw [← this, hsn, hlrs]
      exact hI.seqno_le x i1 ha

theorem filter_length_sub (l : List Nat) (j : Nat) (P Q : Nat → Bool)
    (hnd : l.Nodup) (hj : j ∈ l) (hPj : P j = true) (hQj : Q j = false)
    (hag : ∀ x ∈ l, x ≠ j → Q x = P x) :
    (l.filter Q).length + 1 = (l.filter P).length := by
  induction l with
  | nil => cases hj
  | cons a t ih =>
    rcases List.nodup_cons.mp hnd with ⟨hat, hndt⟩
    rcases List.mem_cons.mp hj with h1 | h1
    · subst h1
      have hfq : (j :: t).filter Q = t.filter Q := by
        simp [List.filter, hQj]
      have hfp : (j :: t).filter P = j :: t.filter P := by
        simp [List.filter, hPj]
      rw [hfq, hfp]
      have hqt : t.filter Q = t.filter P := by
        apply List.filter_congr
        intro x hx
        apply hag x (List.mem_cons_of_mem _ hx)
        intro hc
        exact hat (hc ▸ hx)
      rw [hqt]
      simp
    · have haj : a ≠ j := by
        intro hc
        exact hat (hc ▸ h1)
      have hqa : Q a = P a := hag a (List.mem_cons_self _ _) haj
      have ihr := ih hndt h1 (fun x hx hne => hag x (List.mem_cons_of_mem _ hx) hne)
      cases hpa : P a with
      | true =>
        have hfq : (a :: t).filter Q = a :: t.filter Q := by
          simp [List.filter, hqa, hpa]
        have hfp : (a :: t).filter P = a :: t.filter P := by
          simp [List.filter, hpa]
        rw [hfq, hfp]
        simpa using ihr
      | false =>
        have hfq : (a :: t).filter Q = t.filter Q := by
          simp [List.filter, hqa, hpa]
        have hfp : (a :: t).filter P = t.filter P := by
          simp [List.filter, hpa]
        rw [hfq, hfp]
        exact ihr

theorem enqueue_effect (s : LoaderState) (j : Nat) (i : Info)
    (hm : mfind s.scheduled_jobs j = some i) (hsn : i.ready_seqno = 0)
    (hdl : i.dependencies_left = 0) (hrqb : RQB s)
    (hsle : ∀ x ix, mfind s.scheduled_jobs x = some ix →
      ix.ready_seqno ≤ s.last_ready_seqno) :
    (enqueue s j).scheduled_jobs =
      mset s.scheduled_jobs j { i with ready_seqno := s.last_ready_seqno + 1 } ∧
    (enqueue s j).ready_queue =
      rqInsert { priority := i.priority, ready_seqno := s.last_ready_seqno + 1 } j
        s.ready_queue ∧
    (enqueue s j).last_ready_seqno = s.last_ready_seqno + 1 ∧
    (enqueue s j).job_states = s.job_states ∧
    (enqueue s j).finished_jobs = s.finished_jobs ∧
    (enqueue s j).sched_deps = s.sched_deps ∧
    (enqueue s j).sched_prio = s.sched_prio ∧
    (enqueue s j).is_running = s.is_running ∧
    (enqueue s j).max_threads = s.max_threads ∧
    RQB (enqueue s j) ∧
    (∀ x ix, mfind (enqueue s j).scheduled_jobs x = some ix →
      ix.ready_seqno ≤ (enqueue s j).last_ready_seqno) := by
  obtain ⟨hsort, hsound, hcomp, hinj⟩ := hrqb
  have hfields : (enqueue s j).scheduled_jobs =
      mset s.scheduled_jobs j { i with ready_seqno := s.last_ready_seqno + 1 } ∧
      (enqueue s j).ready_queue =
        rqInsert { priority := i.priority, ready_seqno := s.last_ready_seqno + 1 } j
          s.ready_queue ∧
      (enqueue s j).last_ready_seqno = s.last_ready_seqno + 1 ∧
      (enqueue s j).job_states = s.job_states ∧
      (enqueue s j).finished_jobs = s.finished_jobs ∧
      (enqueue s j).sched_deps = s.sched_deps ∧
      (enqueue s j).sched_prio = s.sched_prio ∧
      (enqueue s j).is_running = s.is_running ∧
      (enqueue s j).max_threads = s.max_threads := by
    unfold enqueue
    rw [hm]
    by_cases hc : s.is_running = true ∧ s.workers < s.max_threads
    · simp [if_pos hc, spawnOp, Info.key]
    · simp [if_neg hc, Info.key]
  obtain ⟨hsj, hrq, hlrs, hjs, hfin, hgd, hgp, hir, hmt⟩ := hfields
  have hfresh : ∀ e ∈ s.ready_queue,
      e.1 ≠ ({ priority := i.priority, ready_seqno := s.last_ready_seqno + 1 } : ReadyKey) := by
    intro e he hc
    obtain ⟨ie, hfe, hke, _, _⟩ := hsound e he
    have h1 : ie.ready_seqno = s.last_ready_seqno + 1 := by
      have h2 : ie.ready_seqno = e.1.ready_seqno := by rw [← hke]; rfl
      rw [h2, hc]
    have h3 := hsle e.2 ie hfe
    omega
  have hmemj : ∀ e ∈ s.ready_queue, e.2 ≠ j := by
    intro e he hc
    obtain ⟨ie, hfe, _, _, hsne⟩ := hsound e he
    rw [hc, hm] at hfe
    have : i = ie := Option.some_inj.mp hfe
    rw [← this] at hsne
    exact hsne hsn
  refine ⟨hsj, hrq, hlrs, hjs, hfin, hgd, hgp, hir, hmt, ⟨?_, ?_, ?_, ?_⟩, ?_⟩
  · rw [hrq]
    exact rqInsert_sorted _ _ _ hsort hfresh
  · intro e he
    rw [hrq] at he
    rcases (mem_rqInsert _ _ _ _).mp he with h1 | h1
    · subst h1
      refine ⟨{ i with ready_seqno := s.last_ready_seqno + 1 }, ?_, rfl, hdl, by simp⟩
      rw [hsj]
      exact mfind_mset_self _ _ _
    · obtain ⟨ie, hfe, hke, hde, hsne⟩ := hsound e h1
      refine ⟨ie, ?_, hke, hde, hsne⟩
      rw [hsj, mfind_mset_ne _ _ _ _ (hmemj e h1)]
      exact hfe
  · intro x ix hx hxs
    by_cases hxj : x = j
    · rw [hxj] at hx
      rw [hsj, mfind_mset_self] at hx
      have hix : { i with ready_seqno := s.last_ready_seqno + 1 } = ix :=
        Option.some_inj.mp hx
      rw [hrq, ← hix, hxj]
      exact (mem_rqInsert _ _ _ _).mpr (Or.inl rfl)
    · rw [hsj, mfind_mset_ne _ _ _ _ hxj] at hx
      rw [hrq]
      exact (mem_rqInsert _ _ _ _).mpr (Or.inr (hcomp x ix hx hxs))
  · intro x ix y iy hx hy hnx heq
    by_cases hxj : x = j
    · by_cases hyj : y = j
      · rw [hxj, hyj]
      · exfalso
        rw [hxj] at hx
        rw [hsj, mfind_mset_self] at hx
        rw [hsj, mfind_mset_ne _ _ _ _ hyj] at hy
        have hix : { i with ready_seqno := s.last_ready_seqno + 1 } = ix :=
          Option.some_inj.mp hx
        have h3 := hsle y iy hy
        rw [← hix] at heq
        simp at heq
        omega
    · rw [hsj, mfind_mset_ne _ _ _ _ hxj] at hx
      by_cases hyj : y = j
      · exfalso
        rw [hyj] at hy
        rw [hsj, mfind_mset_self] at hy
        have hiy : { i with ready_seqno := s.last_ready_seqno + 1 } = iy :=
          Option.some_inj.mp hy
        have h3 := hsle x ix hx
        rw [← hiy] at heq
        simp at heq
        omega
      · rw [hsj, mfind_mset_ne _ _ _ _ hyj] at hy
        exact hinj x ix y iy hx hy hnx heq
  · intro x ix hx
    rw [hlrs]
    by_cases hxj : x = j
    · rw [hxj] at hx
      rw [hsj, mfind_mset_self] at hx
      have hix : { i with ready_seqno := s.last_ready_seqno + 1 } = ix :=
        Option.some_inj.mp hx
      rw [← hix]
    · rw [hsj, mfind_mset_ne _ _ _ _ hxj] at hx
      have := hsle x ix hx
      omega

theorem RQB_update_zero (s : LoaderState) (d : Nat) (di di2 : Info)
    (hm : mfind s.scheduled_jobs d = some di) (h0 : di.ready_seqno = 0)
    (h02 : di2.ready_seqno = 0) (hrqb : RQB s) :
    RQB { s with scheduled_jobs := mset s.scheduled_jobs d di2 } := by
  obtain ⟨hsort, hsound, hcomp, hinj⟩ := hrqb
  have hfd : ∀ x ix, mfind (mset s.scheduled_jobs d di2) x = some ix →
      (x = d ∧ ix = di2) ∨ (x ≠ d ∧ mfind s.scheduled_jobs x = some ix) := by
    intro x ix hx
    by_cases hxd : x = d
    · left
      rw [hxd, mfind_mset_self] at hx
      exact ⟨hxd, (Option.some_inj.mp hx).symm⟩
    · right
      rw [mfind_mset_ne _ _ _ _ hxd] at hx
      exact ⟨hxd, hx⟩
  refine ⟨hsort, ?_, ?_, ?_⟩
  · intro e he
    obtain ⟨ie, hfe, hke, hde, hse⟩ := hsound e he
    have hed : e.2 ≠ d := by
      intro hc
      rw [hc, hm] at hfe
      have : di = ie := Option.some_inj.mp hfe
      rw [← this] at hse
      exact hse h0
    refine ⟨ie, ?_, hke, hde, hse⟩
    show mfind (mset s.scheduled_jobs d di2) e.2 = some ie
    rw [mfind_mset_ne _ _ _ _ hed]
    exact hfe
  · intro x ix hx hxs
    rcases hfd x ix hx with ⟨hxd, hix⟩ | ⟨hxd, hfx⟩
    · exfalso
      rw [hix] at hxs
      exact hxs h02
    · exact hcomp x ix hfx hxs
  · intro x ix y iy hx hy hnx heq
    rcases hfd x ix hx with ⟨hxd, hix⟩ | ⟨hxd, hfx⟩
    · exfalso
      rw [hix] at hnx
      exact hnx h02
    · rcases hfd y iy hy with ⟨hyd, hiy⟩ | ⟨hyd, hfy⟩
      · exfalso
        rw [hiy, h02] at heq
        exact hnx heq
      · exact hinj x ix y iy hfx hfy hnx heq

theorem decDepState_find_self (s : LoaderState) (d : Nat) (di : Info) :
    mfind (decDepState s d di).scheduled_jobs d =
      some { di with dependencies_left := di.dependencies_left - 1 } := by
  unfold decDepState
  exact mfind_mset_self _ _ _

theorem decDepState_find_ne (s : LoaderState) (d : Nat) (di : Info) (x : Nat)
    (h : x ≠ d) :
    mfind (decDepState s d di).scheduled_jobs x = mfind s.scheduled_jobs x := by
  unfold decDepState
  exact mfind_mset_ne _ _ _ _ h

theorem decDepState_rqb (s : LoaderState) (d : Nat) (di : Info)
    (hm : mfind s.scheduled_jobs d = some di) (h0 : di.ready_seqno = 0)
    (hrqb : RQB s) : RQB (decDepState s d di) := by
  unfold decDepState
  exact RQB_update_zero s d di _ hm h0 h0 hrqb

theorem decDepState_fields (s : LoaderState) (d : Nat) (di : Info) :
    (decDepState s d di).job_states = s.job_states ∧
    (decDepState s d di).finished_jobs = s.finished_jobs ∧
    (decDepState s d di).sched_deps = s.sched_deps ∧
    (decDepState s d di).sched_prio = s.sched_prio ∧
    (decDepState s d di).ready_queue = s.ready_queue ∧
    (decDepState s d di).last_ready_seqno = s.last_ready_seqno :=
  ⟨rfl, rfl, rfl, rfl, rfl, rfl⟩

theorem loadedDeps_effect : ∀ (dl : List Nat) (s : LoaderState),
    dl.Nodup →
    (∀ d ∈ dl, ∃ di, mfind s.scheduled_jobs d = some di ∧
      1 ≤ di.dependencies_left ∧ di.ready_seqno = 0) →
    RQB s →
    (∀ x ix, mfind s.scheduled_jobs x = some ix →
      ix.ready_seqno ≤ s.last_ready_seqno) →
    (∀ x, x ∉ dl →
      mfind (loadedDeps dl s).scheduled_jobs x = mfind s.scheduled_jobs x) ∧
    (∀ d ∈ dl, ∀ di, mfind s.scheduled_jobs d = some di →
      ∃ di2, mfind (loadedDeps dl s).scheduled_jobs d = some di2 ∧
        di2.dependencies_left = di.dependencies_left - 1 ∧
        di2.priority = di.priority ∧ di2.dependent_jobs = di.dependent_jobs ∧
        (di2.dependencies_left = 0 → di2.ready_seqno ≠ 0) ∧
        (¬ di2.dependencies_left = 0 → di2.ready_seqno = 0)) ∧
    (loadedDeps dl s).job_states = s.job_states ∧
    (loadedDeps dl s).finished_jobs = s.finished_jobs ∧
    (loadedDeps dl s).sched_deps = s.sched_deps ∧
    (loadedDeps dl s).sched_prio = s.sched_prio ∧
    RQB (loadedDeps dl s) ∧
    (∀ x ix, mfind (loadedDeps dl s).scheduled_jobs x = some ix →
      ix.ready_seqno ≤ (loadedDeps dl s).last_ready_seqno) := by
  intro dl
  induction dl with
  | nil =>
    intro s _ _ hrqb hsle
    exact ⟨fun x _ => rfl, fun d hd => absurd hd (List.not_mem_nil _),
      rfl, rfl, rfl, rfl, hrqb, hsle⟩
  | cons d rest ih =>
    intro s hnd hpre hrqb hsle
    rcases List.nodup_cons.mp hnd with ⟨hdrest, hndrest⟩
    obtain ⟨di, hmd, hge1, hs0⟩ := hpre d (List.mem_cons_self _ _)
    have ht : loadedDeps (d :: rest) s =
        loadedDeps rest
          (if ({ di with dependencies_left := di.dependencies_left - 1 }
                : Info).dependencies_left = 0 then
            enqueue (decDepState s d di) d
          else decDepState s d di) := by
      simp only [loadedDeps, hmd]
    have hs3find := decDepState_find_self s d di
    have hs3rqb := decDepState_rqb s d di hmd hs0 hrqb
    have hs3sle : ∀ x ix, mfind (decDepState s d di).scheduled_jobs x = some ix →
        ix.ready_seqno ≤ (decDepState s d di).last_ready_seqno := by
      intro x ix hx
      rw [(decDepState_fields s d di).2.2.2.2.2]
      by_cases hxd : x = d
      · rw [hxd, hs3find] at hx
        have hix : { di with dependencies_left := di.dependencies_left - 1 } = ix :=
          Option.some_inj.mp hx
        rw [← hix]
        have := hsle d di hmd
        simp [hs0]
      · rw [decDepState_find_ne s d di x hxd] at hx
        exact hsle x ix hx
    by_cases hz : di.dependencies_left - 1 = 0
    · have hzi : ({ di with dependencies_left := di.dependencies_left - 1 }
          : Info).dependencies_left = 0 := hz
      obtain ⟨esj, erq, elrs, ejs, efin, egd, egp, _, _, erqb, esle⟩ :=
        enqueue_effect (decDepState s d di) d
          { di with dependencies_left := di.dependencies_left - 1 }
          hs3find hs0 hz hs3rqb hs3sle
      have hs4pre : ∀ d2 ∈ rest, ∃ di2,
          mfind (enqueue (decDepState s d di) d).scheduled_jobs d2 = some di2 ∧
          1 ≤ di2.dependencies_left ∧ di2.ready_seqno = 0 := by
        intro d2 hd2
        have hd2d : d2 ≠ d := fun hc => hdrest (hc ▸ hd2)
        obtain ⟨di2, hm2, h1, h2⟩ := hpre d2 (List.mem_cons_of_mem _ hd2)
        refine ⟨di2, ?_, h1, h2⟩
        rw [esj, mfind_mset_ne _ _ _ _ hd2d, decDepState_find_ne s d di d2 hd2d]
        exact hm2
      obtain ⟨c1, c2, c3, c4, c5, c6, c7, c8⟩ :=
        ih (enqueue (decDepState s d di) d) hndrest hs4pre erqb esle
      rw [ht, if_pos hzi]
      refine ⟨?_, ?_, ?_, ?_, ?_, ?_, c7, c8⟩
      · intro x hx
        have hxd : x ≠ d := fun hc => hx (hc ▸ List.mem_cons_self _ _)
        have hxrest : x ∉ rest := fun hc => hx (List.mem_cons_of_mem _ hc)
        rw [c1 x hxrest, esj, mfind_mset_ne _ _ _ _ hxd,
          decDepState_find_ne s d di x hxd]
      · intro d2 hd2 di0 hm0
        rcases List.mem_cons.mp hd2 with h1 | h1
        · have hdi0 : di0 = di := by
            rw [h1, hmd] at hm0
            exact (Option.some_inj.mp hm0).symm
          subst hdi0
          refine ⟨{ di0 with
                    dependencies_left := di0.dependencies_left - 1,
                    ready_seqno := s.last_ready_seqno + 1 },
            ?_, rfl, rfl, rfl, ?_, ?_⟩
          · rw [h1, c1 d hdrest, esj]
            exact mfind_mset_self _ _ _
          · intro _
            simp
          · intro hc
            exact absurd hz hc
        · have hd2d : d2 ≠ d := fun hc => hdrest (hc ▸ h1)
          apply c2 d2 h1 di0
          rw [esj, mfind_mset_ne _ _ _ _ hd2d, decDepState_find_ne s d di d2 hd2d]
          exact hm0
      · rw [c3, ejs, (decDepState_fields s d di).1]
      · rw [c4, efin, (decDepState_fields s d di).2.1]
      · rw [c5, egd, (decDepState_fields s d di).2.2.1]
      · rw [c6, egp, (decDepState_fields s d di).2.2.2.1]
    · have hzi : ¬ ({ di with dependencies_left := di.dependencies_left - 1 }
          : Info).dependencies_left = 0 := hz
      have hs4pre : ∀ d2 ∈ rest, ∃ di2,
          mfind (decDepState s d di).scheduled_jobs d2 = some di2 ∧
          1 ≤ di2.dependencies_left ∧ di2.ready_seqno = 0 := by
        intro d2 hd2
        have hd2d : d2 ≠ d := fun hc => hdrest (hc ▸ hd2)
        obtain ⟨di2, hm2, h1, h2⟩ := hpre d2 (List.mem_cons_of_mem _ hd2)
        refine ⟨di2, ?_, h1, h2⟩
        rw [decDepState_find_ne s d di d2 hd2d]
        exact hm2
      obtain ⟨c1, c2, c3, c4, c5, c6, c7, c8⟩ :=
        ih (decDepState s d di) hndrest hs4pre hs3rqb hs3sle
      rw [ht, if_neg hzi]
      refine ⟨?_, ?_, ?_, ?_, ?_, ?_, c7, c8⟩
      · intro x hx
        have hxd : x ≠ d := fun hc => hx (hc ▸ List.mem_cons_self _ _)
        have hxrest : x ∉ rest := fun hc => hx (List.mem_cons_of_mem _ hc)
        rw [c1 x hxrest, decDepState_find_ne s d di x hxd]
      · intro d2 hd2 di0 hm0
        rcases List.mem_cons.mp hd2 with h1 | h1
        · have hdi0 : di0 = di := by
            rw [h1, hmd] at hm0
            exact (Option.some_inj.mp hm0).symm
          subst hdi0
          refine ⟨{ di0 with dependencies_left := di0.dependencies_left - 1 }, ?_,
            rfl, rfl, rfl, ?_, ?_⟩
          · rw [h1, c1 d hdrest]
            exact hs3find
          · intro hc
            exact absurd hc hz
          · intro _
            exact hs0
        · have hd2d : d2 ≠ d := fun hc => hdrest (hc ▸ h1)
          apply c2 d2 h1 di0
          rw [decDepState_find_ne s d di d2 hd2d]
          exact hm0
      · rw [c3, (decDepState_fields s d di).1]
      · rw [c4, (decDepState_fields s d di).2.1]
      · rw [c5, (decDepState_fields s d di).2.2.1]
      · rw [c6, (decDepState_fields s d di).2.2.2.1]


theorem inv_pick (env : Nat → LoadJob) (s : LoaderState) (hI : Inv env s) :
    Inv env (pickOp s) := by
  cases hq : s.ready_queue with
  | nil => simpa [pickOp, hq] using hI
  | cons e rest =>
    obtain ⟨i, hfi, hki, hdl, hsn⟩ := hI.rq_sound e (by rw [hq]; exact List.mem_cons_self _ _)
    have hdistinct := rq_jobs_distinct env s hI e rest hq
    have hsj : (pickOp s).scheduled_jobs =
        mupd s.scheduled_jobs e.2 (fun i => { i with ready_seqno := 0 }) := by
      simp [pickOp, hq]
    have hfind : ∀ x, x ≠ e.2 →
        mfind (pickOp s).scheduled_jobs x = mfind s.scheduled_jobs x := by
      intro x hx
      rw [hsj]
      exact mfind_mupd_ne _ _ _ _ hx
    have hfindj : mfind (pickOp s).scheduled_jobs e.2 = some { i with ready_seqno := 0 } := by
      rw [hsj]
      exact mfind_mupd_self _ _ _ _ hfi
    have hpend : ∀ x, isPending (pickOp s) x = isPending s x := by
      intro x
      by_cases hx : x = e.2
      · subst hx
        simp [isPending, hfindj, hfi]
      · simp [isPending, hfind x hx]
    have hinfo : ∀ x ix, mfind (pickOp s).scheduled_jobs x = some ix →
        ∃ ix0, mfind s.scheduled_jobs x = some ix0 ∧
          ix.dependent_jobs = ix0.dependent_jobs ∧ ix.priority = ix0.priority ∧
          ix.dependencies_left = ix0.dependencies_left ∧
          (ix.ready_seqno = ix0.ready_seqno ∨ ix.ready_seqno = 0) := by
      intro x ix hx
      by_cases hxe : x = e.2
      · subst hxe
        rw [hfindj] at hx
        exact ⟨i, hfi, by rw [← Option.some_inj.mp hx], by rw [← Option.some_inj.mp hx],
          by rw [← Option.some_inj.mp hx], Or.inr (by rw [← Option.some_inj.mp hx])⟩
      · rw [hfind x hxe] at hx
        exact ⟨ix, hx, rfl, rfl, rfl, Or.inl rfl⟩
    have hjs : (pickOp s).job_states = s.job_states := by simp [pickOp, hq]
    have hjstate : ∀ x, jstate (pickOp s) x = jstate s x := by
      intro x; simp [jstate, hjs]
    have hfin : (pickOp s).finished_jobs = s.finished_jobs := by simp [pickOp, hq]
    have hgd : (pickOp s).sched_deps = s.sched_deps := by simp [pickOp, hq]
    have hgp : (pickOp s).sched_prio = s.sched_prio := by simp [pickOp, hq]
    have hrq : (pickOp s).ready_queue = rest := by simp [pickOp, hq]
    have hlrs : (pickOp s).last_ready_seqno = s.last_ready_seqno := by simp [pickOp, hq]
    refine ⟨?_, ?_, ?_, ?_, ?_, ?_, ?_, ?_, ?_, ?_, ?_, ?_, ?_, ?_, ?_⟩
    · intro j ij hj
      obtain ⟨i0, hf0, hd0, _, _, _⟩ := hinfo j ij hj
      rw [hd0]
      exact hI.dep_nodup j i0 hf0
    · intro j ij hj
      obtain ⟨i0, hf0, _, _, _, _⟩ := hinfo j ij hj
      rw [hjstate]
      exact hI.pending_unfinished j i0 hf0
    · intro j hj
      rw [hjstate]
      exact hI.finished_done j (hfin ▸ hj)
    · intro j ij hj
      obtain ⟨i0, hf0, _, _, _, _⟩ := hinfo j ij hj
      rw [hgd]
      exact hI.ghost_deps j i0 hf0
    · intro j ij hj ds hds
      obtain ⟨i0, hf0, _, _, hdl0, _⟩ := hinfo j ij hj
      rw [hgd] at hds
      rw [hdl0, hI.deps_left_eq j i0 hf0 ds hds]
      congr 1
      apply List.filter_congr
      intro d _
      rw [hpend d]
    · intro j ij hj ds hds d hd hpd
      obtain ⟨i0, hf0, _, _, _, _⟩ := hinfo j ij hj
      rw [hgd] at hds
      rw [hpend] at hpd
      rw [hjstate]
      exact hI.extern_done j i0 hf0 ds hds d hd hpd
    · intro j ij hj ds hds d hd di hdi
      obtain ⟨i0, hf0, _, _, _, _⟩ := hinfo j ij hj
      obtain ⟨di0, hdf0, hdd0, _, _, _⟩ := hinfo d di hdi
      rw [hgd] at hds
      rw [hdd0]
      exact hI.backlink_complete j i0 hf0 ds hds d hd di0 hdf0
    · intro j ij hj x hx
      obtain ⟨i0, hf0, hd0, _, _, _⟩ := hinfo j ij hj
      rw [hd0] at hx
      obtain ⟨⟨xi0, hxf0⟩, hge⟩ := hI.backlink_sound j i0 hf0 x hx
      constructor
      · by_cases hxe : x = e.2
        · subst hxe
          exact ⟨_, hfindj⟩
        · exact ⟨xi0, (hfind x hxe) ▸ hxf0⟩
      · obtain ⟨ds, hds, hmem⟩ := hge
        exact ⟨ds, hgd ▸ hds, hmem⟩
    · intro j ij hj x hx xi hxi
      obtain ⟨i0, hf0, hd0, hp0, _, _⟩ := hinfo j ij hj
      obtain ⟨xi0, hxf0, _, hxp0, _, _⟩ := hinfo x xi hxi
      rw [hd0] at hx
      rw [hxp0, hp0]
      exact hI.prio_edge j i0 hf0 x hx xi0 hxf0
    · intro j ij hj
      obtain ⟨i0, hf0, _, hp0, _, _⟩ := hinfo j ij hj
      rw [hgp, hp0]
      exact hI.prio_init j i0 hf0
    · rw [hrq]
      exact (List.pairwise_cons.mp (hq ▸ hI.rq_sorted)).2
    · intro e2 he2
      rw [hrq] at he2
      obtain ⟨i2, hf2, hk2, hdl2, hs2⟩ :=
        hI.rq_sound e2 (by rw [hq]; exact List.mem_cons_of_mem _ he2)
      refine ⟨i2, ?_, hk2, hdl2, hs2⟩
      rw [hfind e2.2 (hdistinct e2 he2)]
      exact hf2
    · intro j ij hj hsn2
      by_cases hxe : j = e.2
      · subst hxe
        rw [hfindj] at hj
        rw [← Option.some_inj.mp hj] at hsn2
        simp at hsn2
      · rw [hfind j hxe] at hj
        have hmem := hI.rq_complete j ij hj hsn2
        rw [hq] at hmem
        rcases List.mem_cons.mp hmem with h1 | h1
        · exfalso
          apply hxe
          have : j = e.2 := congrArg Prod.snd h1
          exact this
        · rw [hrq]
          exact h1
    · intro j ij hj
      obtain ⟨i0, hf0, _, _, _, hsn0⟩ := hinfo j ij hj
      rw [hlrs]
      rcases hsn0 with h1 | h1
      · rw [h1]
        exact hI.seqno_le j i0 hf0
      · rw [h1]
        exact Nat.zero_le _
    · intro j ij j2 ij2 hj hj2 hne heq
      obtain ⟨i0, hf0, _, _, _, hsn0⟩ := hinfo j ij hj
      obtain ⟨i20, hf20, _, _, _, hsn20⟩ := hinfo j2 ij2 hj2
      rcases hsn0 with h1 | h1
      swap
      · exact absurd h1 hne
      rcases hsn20 with h2 | h2
      · exact hI.seqno_inj j i0 j2 i20 hf0 hf20 (h1 ▸ hne) (by omega)
      · exfalso
        rw [h2] at heq
        exact hne heq

theorem enqueue_pure (s : LoaderState) (j : Nat) :
    (enqueue s j).job_states = s.job_states ∧
    (enqueue s j).finished_jobs = s.finished_jobs ∧
    (enqueue s j).sched_deps = s.sched_deps ∧
    (enqueue s j).sched_prio = s.sched_prio := by
  unfold enqueue
  cases hm : mfind s.scheduled_jobs j with
  | none => exact ⟨rfl, rfl, rfl, rfl⟩
  | some info =>
    by_cases hc : s.is_running = true ∧ s.workers < s.max_threads
    · simp [if_pos hc, spawnOp]
    · simp [if_neg hc]

theorem loadedDeps_pure : ∀ (dl : List Nat) (s : LoaderState),
    (loadedDeps dl s).job_states = s.job_states ∧
    (loadedDeps dl s).finished_jobs = s.finished_jobs ∧
    (loadedDeps dl s).sched_deps = s.sched_deps ∧
    (loadedDeps dl s).sched_prio = s.sched_prio := by
  intro dl
  induction dl with
  | nil => exact fun s => ⟨rfl, rfl, rfl, rfl⟩
  | cons d rest ih =>
    intro s
    cases hm : mfind s.scheduled_jobs d with
    | none =>
      have ht : loadedDeps (d :: rest) s = loadedDeps rest s := by
        simp only [loadedDeps, hm]
      rw [ht]
      exact ih s
    | some di =>
      have ht : loadedDeps (d :: rest) s =
          loadedDeps rest
            (if ({ di with dependencies_left := di.dependencies_left - 1 }
                 : Info).dependencies_left = 0 then
              enqueue (decDepState s d di) d
            else decDepState s d di) := by
        simp only [loadedDeps, hm]
      rw [ht]
      by_cases hz : ({ di with dependencies_left := di.dependencies_left - 1 }
          : Info).dependencies_left = 0
      · rw [if_pos hz]
        obtain ⟨e1, e2, e3, e4⟩ := enqueue_pure (decDepState s d di) d
        obtain ⟨i1, i2, i3, i4⟩ := ih (enqueue (decDepState s d di) d)
        exact ⟨(i1.trans e1).trans (decDepState_fields s d di).1,
          (i2.trans e2).trans (decDepState_fields s d di).2.1,
          (i3.trans e3).trans (decDepState_fields s d di).2.2.1,
          (i4.trans e4).trans (decDepState_fields s d di).2.2.2.1⟩
      · rw [if_neg hz]
        obtain ⟨i1, i2, i3, i4⟩ := ih (decDepState s d di)
        exact ⟨i1.trans (decDepState_fields s d di).1,
          i2.trans (decDepState_fields s d di).2.1,
          i3.trans (decDepState_fields s d di).2.2.1,
          i4.trans (decDepState_fields s d di).2.2.2.1⟩

theorem loadedOp_jstate (j : Nat) (s : LoaderState) :
    (loadedOp j s).job_states = mset s.job_states j (setSuccess (jstate s j)) :=
  (loadedDeps_pure _ _).1

theorem loadedOp_finished (j : Nat) (s : LoaderState) :
    (loadedOp j s).finished_jobs = sinsert s.finished_jobs j := by
  show sinsert (loadedDeps _ _).finished_jobs j = _
  rw [(loadedDeps_pure _ _).2.1]

theorem inv_loaded (env : Nat → LoadJob) (rank : Nat → Nat) (hwf : WFEnv env rank)
    (s : LoaderState) (j : Nat) (hexec : isExecuting s j = true) (hI : Inv env s) :
    Inv env (loadedOp j s) := by
  have hij : ∃ ij, mfind s.scheduled_jobs j = some ij ∧
      ij.dependencies_left = 0 ∧ ij.ready_seqno = 0 := by
    unfold isExecuting at hexec
    cases hm : mfind s.scheduled_jobs j with
    | none => rw [hm] at hexec; cases hexec
    | some i =>
      rw [hm] at hexec
      simp at hexec
      exact ⟨i, rfl, hexec.1, hexec.2⟩
  obtain ⟨ij, hmj, hdl0, hsn0⟩ := hij
  have hclo : loadedOp j s =
      retireJob j (loadedDeps ij.dependent_jobs (markSuccess j s)) := by
    simp only [loadedOp, hmj, Option.getD_some]
    rfl
  have hnd : ij.dependent_jobs.Nodup := hI.dep_nodup j ij hmj
  have hpre : ∀ d ∈ ij.dependent_jobs, ∃ di,
      mfind (markSuccess j s).scheduled_jobs d = some di ∧
      1 ≤ di.dependencies_left ∧ di.ready_seqno = 0 := by
    intro d hd
    obtain ⟨⟨di, hmd⟩, hge⟩ := hI.backlink_sound j ij hmj d hd
    obtain ⟨ds, hds, hjds⟩ := hge
    have hge1 : 1 ≤ di.dependencies_left := by
      have hdl := hI.deps_left_eq d di hmd ds hds
      have hmem : j ∈ ds.filter (fun x => isPending s x) :=
        List.mem_filter.mpr ⟨hjds, by simp [isPending, hmj]⟩
      have := List.length_pos_of_mem hmem
      omega
    refine ⟨di, hmd, hge1, ?_⟩
    by_contra hsn
    have hmem := hI.rq_complete d di hmd hsn
    obtain ⟨di2, hmd2, _, hdl2, _⟩ := hI.rq_sound _ hmem
    rw [hmd] at hmd2
    have hdd : di = di2 := Option.some_inj.mp hmd2
    rw [hdd] at hge1
    omega
  have hrqb1 : RQB (markSuccess j s) :=
    ⟨hI.rq_sorted, hI.rq_sound, hI.rq_complete, hI.seqno_inj⟩
  have hsle1 : ∀ x ix, mfind (markSuccess j s).scheduled_jobs x = some ix →
      ix.ready_seqno ≤ (markSuccess j s).last_ready_seqno := hI.seqno_le
  obtain ⟨c1, c2, c3, c4, c5, c6, c7, c8⟩ :=
    loadedDeps_effect ij.dependent_jobs (markSuccess j s) hnd hpre hrqb1 hsle1
  have hjnd : j ∉ ij.dependent_jobs := by
    intro hj
    obtain ⟨_, ⟨ds, hds, hjds⟩⟩ := hI.backlink_sound j ij hmj j hj
    obtain ⟨ds2, hds2, hsub⟩ := hI.ghost_deps j ij hmj
    rw [hds] at hds2
    have hdseq : ds = ds2 := Option.some_inj.mp hds2
    have hmem : j ∈ (env j).dependencies := hsub.subset (hdseq ▸ hjds)
    exact absurd (hwf.1 j j hmem) (lt_irrefl _)
  rw [hclo]
  obtain ⟨r1, r2, r3, r4⟩ := c7
  have hmj2 : mfind (loadedDeps ij.dependent_jobs (markSuccess j s)).scheduled_jobs j
      = some ij := by
    rw [c1 j hjnd]
    exact hmj
  have htsj : ∀ x, x ≠ j →
      mfind (retireJob j (loadedDeps ij.dependent_jobs (markSuccess j s))).scheduled_jobs x
        = mfind (loadedDeps ij.dependent_jobs (markSuccess j s)).scheduled_jobs x :=
    fun x hx => mfind_merase_ne _ _ _ hx
  have htj : mfind
      (retireJob j (loadedDeps ij.dependent_jobs (markSuccess j s))).scheduled_jobs j
      = none := mfind_merase_self _ _
  have hjsu : ∀ x, x ≠ j →
      jstate (loadedDeps ij.dependent_jobs (markSuccess j s)) x = jstate s x := by
    intro x hx
    unfold jstate
    rw [c3]
    show (mfind (mset s.job_states j (setSuccess (jstate s j))) x).getD {} = _
    rw [mfind_mset_ne _ _ _ _ hx]
  have hjsj : jstate (loadedDeps ij.dependent_jobs (markSuccess j s)) j
      = setSuccess (jstate s j) := by
    unfold jstate
    rw [c3]
    show (mfind (mset s.job_states j (setSuccess (jstate s j))) j).getD {} = _
    rw [mfind_mset_self]
    rfl
  have hjst : ∀ x, x ≠ j →
      jstate (retireJob j (loadedDeps ij.dependent_jobs (markSuccess j s))) x
        = jstate s x :=
    fun x hx => hjsu x hx
  have hjstj : jstate (retireJob j (loadedDeps ij.dependent_jobs (markSuccess j s))) j
      = setSuccess (jstate s j) := hjsj
  have hchar : ∀ x ix,
      mfind (retireJob j (loadedDeps ij.dependent_jobs (markSuccess j s))).scheduled_jobs x
        = some ix →
      x ≠ j ∧ ∃ ix0, mfind s.scheduled_jobs x = some ix0 ∧
        ix.priority = ix0.priority ∧ ix.dependent_jobs = ix0.dependent_jobs ∧
        ((x ∉ ij.dependent_jobs ∧ ix = ix0) ∨
         (x ∈ ij.dependent_jobs ∧
           ix.dependencies_left = ix0.dependencies_left - 1)) := by
    intro x ix hx
    have hxj : x ≠ j := by
      intro hc
      rw [hc, htj] at hx
      cases hx
    refine ⟨hxj, ?_⟩
    rw [htsj x hxj] at hx
    by_cases hmem : x ∈ ij.dependent_jobs
    · obtain ⟨⟨di, hmd⟩, _⟩ := hI.backlink_sound j ij hmj x hmem
      obtain ⟨di2, hm2, hdl2, hpr2, hdj2, _, _⟩ := c2 x hmem di hmd
      rw [hx] at hm2
      have hix : ix = di2 := Option.some_inj.mp hm2
      refine ⟨di, hmd, ?_, ?_, Or.inr ⟨hmem, ?_⟩⟩
      · rw [hix, hpr2]
      · rw [hix, hdj2]
      · rw [hix, hdl2]
    · rw [c1 x hmem] at hx
      exact ⟨ix, hx, rfl, rfl, Or.inl ⟨hmem, rfl⟩⟩
  have hpend : ∀ x, x ≠ j →
      isPending (retireJob j (loadedDeps ij.dependent_jobs (markSuccess j s))) x
        = isPending s x := by
    intro x hx
    unfold isPending
    rw [htsj x hx]
    by_cases hmem : x ∈ ij.dependent_jobs
    · obtain ⟨⟨di, hmd⟩, _⟩ := hI.backlink_sound j ij hmj x hmem
      obtain ⟨di2, hm2, _⟩ := c2 x hmem di hmd
      rw [hm2]
      show _ = (mfind s.scheduled_jobs x).isSome
      rw [hmd]
      rfl
    · rw [c1 x hmem]
      rfl
  have hpendj : isPending (retireJob j (loadedDeps ij.dependent_jobs (markSuccess j s))) j
      = false := by
    unfold isPending
    rw [htj]
    rfl
  have hjdep : ∀ x ix, mfind s.scheduled_jobs x = some ix → j ∉ ix.dependent_jobs := by
    intro x ix hx hj
    obtain ⟨_, ⟨ds, hds, hxds⟩⟩ := hI.backlink_sound x ix hx j hj
    have hdl := hI.deps_left_eq j ij hmj ds hds
    have hmem : x ∈ ds.filter (fun d => isPending s d) :=
      List.mem_filter.mpr ⟨hxds, by simp [isPending, hx]⟩
    have := List.length_pos_of_mem hmem
    omega
  have hjds : ∀ x ix, mfind s.scheduled_jobs x = some ix → x ∉ ij.dependent_jobs →
      ∀ ds, mfind s.sched_deps x = some ds → j ∉ ds := by
    intro x ix hx hxdl ds hds hj
    exact hxdl (hI.backlink_complete x ix hx ds hds j hj ij hmj)
  have hgd : (retireJob j (loadedDeps ij.dependent_jobs (markSuccess j s))).sched_deps
      = s.sched_deps := c5
  have hgp : (retireJob j (loadedDeps ij.dependent_jobs (markSuccess j s))).sched_prio
      = s.sched_prio := c6
  have hfin : (retireJob j (loadedDeps ij.dependent_jobs (markSuccess j s))).finished_jobs
      = sinsert s.finished_jobs j := by
    show sinsert (loadedDeps ij.dependent_jobs (markSuccess j s)).finished_jobs j = _
    rw [c4]
    rfl
  refine ⟨?_, ?_, ?_, ?_, ?_, ?_, ?_, ?_, ?_, ?_, ?_, ?_, ?_, ?_, ?_⟩
  · intro x ix hx
    obtain ⟨hxj, ix0, hx0, _, hdj, _⟩ := hchar x ix hx
    rw [hdj]
    exact hI.dep_nodup x ix0 hx0
  · intro x ix hx
    obtain ⟨hxj, ix0, hx0, _⟩ := hchar x ix hx
    rw [hjst x hxj]
    exact hI.pending_unfinished x ix0 hx0
  · intro x hx
    rw [hfin] at hx
    by_cases hxj : x = j
    · rw [hxj, hjstj]
      rfl
    · rw [hjst x hxj]
      rcases (mem_sinsert _ _ _).mp hx with h1 | h1
      · exact absurd h1 hxj
      · exact hI.finished_done x h1
  · intro x ix hx
    obtain ⟨hxj, ix0, hx0, _⟩ := hchar x ix hx
    obtain ⟨ds, hds, hsub⟩ := hI.ghost_deps x ix0 hx0
    refine ⟨ds, ?_, hsub⟩
    rw [hgd]
    exact hds
  · intro x ix hx ds hds
    obtain ⟨hxj, ix0, hx0, _, _, hcase⟩ := hchar x ix hx
    rw [hgd] at hds
    rcases hcase with ⟨hxdl, hix⟩ | ⟨hxdl, hix⟩
    · have hfc : ds.filter
          (fun d => isPending
            (retireJob j (loadedDeps ij.dependent_jobs (markSuccess j s))) d)
          = ds.filter (fun d => isPending s d) := by
        apply List.filter_congr
        intro d hd
        have hdj : d ≠ j := by
          intro hc
          exact hjds x ix0 hx0 hxdl ds hds (hc ▸ hd)
        rw [hpend d hdj]
      rw [hfc, hix]
      exact hI.deps_left_eq x ix0 hx0 ds hds
    · obtain ⟨_, ⟨ds0, hds0, hj0⟩⟩ := hI.backlink_sound j ij hmj x hxdl
      rw [hds] at hds0
      have hdseq : ds = ds0 := Option.some_inj.mp hds0
      obtain ⟨ds1, hds1, hsub⟩ := hI.ghost_deps x ix0 hx0
      rw [hds] at hds1
      have hdseq1 : ds = ds1 := Option.some_inj.mp hds1
      have hndds : ds.Nodup := by
        rw [hdseq1]
        exact (hwf.2 x).sublist hsub
      have hjmem : j ∈ ds := hdseq ▸ hj0
      have hcount := filter_length_sub ds j (fun d => isPending s d)
        (fun d => isPending
          (retireJob j (loadedDeps ij.dependent_jobs (markSuccess j s))) d)
        hndds hjmem (by simp [isPending, hmj]) hpendj
        (fun d _ hd => hpend d hd)
      have hc0 := hI.deps_left_eq x ix0 hx0 ds hds
      omega
  · intro x ix hx ds hds d hd hdnp
    obtain ⟨hxj, ix0, hx0, _⟩ := hchar x ix hx
    rw [hgd] at hds
    by_cases hdj : d = j
    · rw [hdj, hjstj]
      exact ⟨rfl, (hI.pending_unfinished j ij hmj).2⟩
    · rw [hpend d hdj] at hdnp
      rw [hjst d hdj]
      exact hI.extern_done x ix0 hx0 ds hds d hd hdnp
  · intro x ix hx ds hds d hd di hdi
    obtain ⟨hxj, ix0, hx0, _⟩ := hchar x ix hx
    obtain ⟨hdj, di0, hdi0, _, hdj0, _⟩ := hchar d di hdi
    rw [hgd] at hds
    rw [hdj0]
    exact hI.backlink_complete x ix0 hx0 ds hds d hd di0 hdi0
  · intro x ix hx y hy
    obtain ⟨hxj, ix0, hx0, _, hdj, _⟩ := hchar x ix hx
    rw [hdj] at hy
    obtain ⟨⟨yi, hyi⟩, ⟨ds, hds, hmem⟩⟩ := hI.backlink_sound x ix0 hx0 y hy
    have hyj : y ≠ j := by
      intro hc
      exact hjdep x ix0 hx0 (hc ▸ hy)
    constructor
    · have hp : isPending
          (retireJob j (loadedDeps ij.dependent_jobs (markSuccess j s))) y = true := by
        rw [hpend y hyj]
        simp [isPending, hyi]
      unfold isPending at hp
      exact Option.isSome_iff_exists.mp hp
    · refine ⟨ds, ?_, hmem⟩
      rw [hgd]
      exact hds
  · intro x ix hx y hy yi hyi
    obtain ⟨hxj, ix0, hx0, hpr, hdj, _⟩ := hchar x ix hx
    obtain ⟨hyj, yi0, hyi0, hypr, _⟩ := hchar y yi hyi
    rw [hdj] at hy
    rw [hpr, hypr]
    exact hI.prio_edge x ix0 hx0 y hy yi0 hyi0
  · intro x ix hx
    obtain ⟨hxj, ix0, hx0, hpr, _⟩ := hchar x ix hx
    obtain ⟨p0, hp0, hle⟩ := hI.prio_init x ix0 hx0
    refine ⟨p0, ?_, ?_⟩
    · rw [hgp]
      exact hp0
    · rw [hpr]
      exact hle
  · exact r1
  · intro e he
    obtain ⟨i, hfi, hki, hdli, hsni⟩ := r2 e he
    have hej : e.2 ≠ j := by
      intro hc
      rw [hc, hmj2] at hfi
      have : ij = i := Option.some_inj.mp hfi
      rw [← this] at hsni
      exact hsni hsn0
    refine ⟨i, ?_, hki, hdli, hsni⟩
    rw [htsj e.2 hej]
    exact hfi
  · intro x ix hx hsn
    have hxj : x ≠ j := by
      intro hc
      rw [hc, htj] at hx
      cases hx
    rw [htsj x hxj] at hx
    exact r3 x ix hx hsn
  · intro x ix hx
    have hxj : x ≠ j := by
      intro hc
      rw [hc, htj] at hx
      cases hx
    rw [htsj x hxj] at hx
    exact c8 x ix hx
  · intro x ix y iy hx hy hnx heq
    have hxj : x ≠ j := by
      intro hc
      rw [hc, htj] at hx
      cases hx
    have hyj : y ≠ j := by
      intro hc
      rw [hc, htj] at hy
      cases hy
    rw [htsj x hxj] at hx
    rw [htsj y hyj] at hy
    exact r4 x ix y iy hx hy hnx heq

theorem mem_keys_iff {α : Type} (l : List (Nat × α)) (x : Nat) :
    x ∈ l.map Prod.fst ↔ (mfind l x).isSome := by
  induction l with
  | nil => simp [mfind]
  | cons p t ih =>
    by_cases hk : p.1 = x
    · simp [mfind, hk]
    · simp [mfind, hk, ih, Ne.symm hk]

theorem keys_mset_found {α : Type} (l : List (Nat × α)) (x : Nat) (v : α)
    (h : x ∈ l.map Prod.fst) : (mset l x v).map Prod.fst = l.map Prod.fst := by
  induction l with
  | nil => simp at h
  | cons p t ih =>
    by_cases hk : p.1 = x
    · simp [mset, hk]
    · simp only [List.map_cons, List.mem_cons] at h
      rcases h with h | h
      · exact absurd h.symm hk
      · simp [mset, hk, ih h]

theorem keys_mset_new {α : Type} (l : List (Nat × α)) (x : Nat) (v : α)
    (h : mfind l x = none) : (mset l x v).map Prod.fst = l.map Prod.fst ++ [x] := by
  induction l with
  | nil => simp [mset]
  | cons p t ih =>
    by_cases hk : p.1 = x
    · simp [mfind, hk] at h
    · simp only [mfind, if_neg hk] at h
      simp [mset, hk, ih h]

theorem keys_merase {α : Type} (l : List (Nat × α)) (x : Nat) :
    (merase l x).map Prod.fst = (l.map Prod.fst).filter (fun y => decide (y ≠ x)) := by
  induction l with
  | nil => rfl
  | cons p t ih =>
    by_cases hk : p.1 = x
    · simp [merase, List.filter, hk] at ih ⊢
      exact ih
    · simp [merase, List.filter, hk] at ih ⊢
      exact ih

theorem KN_mset {α : Type} (l : List (Nat × α)) (x : Nat) (v : α)
    (h : (l.map Prod.fst).Nodup) : ((mset l x v).map Prod.fst).Nodup := by
  cases hm : mfind l x with
  | some w =>
    rw [keys_mset_found l x v ((mem_keys_iff l x).mpr (by simp [hm]))]
    exact h
  | none =>
    rw [keys_mset_new l x v hm]
    refine List.Nodup.append h (List.nodup_singleton x) ?_
    intro a ha hax
    have hax2 : a = x := by simpa using hax
    have : x ∈ l.map Prod.fst := hax2 ▸ ha
    rw [mem_keys_iff, hm] at this
    cases this

theorem KN_merase {α : Type} (l : List (Nat × α)) (x : Nat)
    (h : (l.map Prod.fst).Nodup) : ((merase l x).map Prod.fst).Nodup := by
  rw [keys_merase]
  exact h.filter _

theorem KN_mupd {α : Type} (l : List (Nat × α)) (x : Nat) (f : α → α)
    (h : (l.map Prod.fst).Nodup) : ((mupd l x f).map Prod.fst).Nodup := by
  unfold mupd
  cases mfind l x with
  | none => exact h
  | some v => exact KN_mset l x (f v) h

theorem isPending_iff_pkeys (s : LoaderState) (x : Nat) :
    isPending s x = true ↔ x ∈ pkeys s :=
  (mem_keys_iff s.scheduled_jobs x).symm

theorem npend_le (A : List Nat) (s : LoaderState) :
    npend A s ≤ s.scheduled_jobs.length := by
  unfold npend pkeys
  calc ((s.scheduled_jobs.map Prod.fst).filter (fun x => decide (x ∉ A))).length
      ≤ (s.scheduled_jobs.map Prod.fst).length := List.length_filter_le _ _
    _ = s.scheduled_jobs.length := List.length_map _ _

theorem npend_mono (A : List Nat) (s t : LoaderState)
    (hkt : KN t)
    (hshr : ∀ x, isPending t x = true → isPending s x = true) :
    npend A t ≤ npend A s := by
  unfold npend
  have hnd : ((pkeys t).filter (fun x => decide (x ∉ A))).Nodup := hkt.filter _
  have hsub : ((pkeys t).filter (fun x => decide (x ∉ A))) ⊆
      ((pkeys s).filter (fun x => decide (x ∉ A))) := by
    intro x hx
    rcases List.mem_filter.mp hx with ⟨hx1, hx2⟩
    refine List.mem_filter.mpr ⟨?_, hx2⟩
    exact (isPending_iff_pkeys s x).mp (hshr x ((isPending_iff_pkeys t x).mpr hx1))
  exact (hnd.subperm hsub).length_le

theorem sub_npend (A : List Nat) (s : LoaderState) (dl : List Nat) (hnd : dl.Nodup)
    (hmem : ∀ d ∈ dl, isPending s d = true ∧ d ∉ A) : dl.length ≤ npend A s := by
  unfold npend
  have hsub : dl ⊆ (pkeys s).filter (fun x => decide (x ∉ A)) := by
    intro d hd
    obtain ⟨h1, h2⟩ := hmem d hd
    exact List.mem_filter.mpr ⟨(isPending_iff_pkeys s d).mp h1, by simpa using h2⟩
  exact (hnd.subperm hsub).length_le

theorem mentions_of_append (a m : String) (h : a.data = m.data ∨ ∃ p q,
    a.data = p ++ m.data ++ q) : mentions m a := by
  rcases h with h | ⟨p, q, h⟩
  · exact ⟨[], [], by simp [h]⟩
  · exact ⟨p, q, h⟩

theorem mentions_prefix (pre m : String) : mentions m (pre ++ m) :=
  ⟨pre.data, [], by simp⟩

theorem mentions_trans {a b c : String} (h1 : mentions a b) (h2 : mentions b c) :
    mentions a c := by
  obtain ⟨p, q, hb⟩ := h1
  obtain ⟨r, t, hc⟩ := h2
  refine ⟨r ++ p, q ++ t, ?_⟩
  rw [hc, hb]
  simp

theorem CascadeMark_mono (env : Nat → LoadJob) (e e2 : Exn) (x : Nat) (st : JobState)
    (h : CascadeMark env e2 x st) (hm : mentions e.message e2.message) :
    CascadeMark env e x st := by
  obtain ⟨h1, e3, h2, h3, h4, h5⟩ := h
  exact ⟨h1, e3, h2, h3, mentions_trans hm h4, h5⟩

theorem serase_not_mem (l : List Nat) (x : Nat) (h : x ∉ l) : serase l x = l := by
  unfold serase
  refine List.filter_eq_self.mpr ?_
  intro a ha
  simp only [decide_eq_true_eq]
  exact fun hc => h (hc ▸ ha)

theorem ceStep_find_self (j d : Nat) (di : Info) (s : LoaderState) :
    mfind (ceStep j d di s).scheduled_jobs d =
      some { di with dependent_jobs := serase di.dependent_jobs j } := by
  unfold ceStep
  exact mfind_mset_self _ _ _

theorem ceStep_find_ne (j d : Nat) (di : Info) (s : LoaderState) (x : Nat)
    (h : x ≠ d) :
    mfind (ceStep j d di s).scheduled_jobs x = mfind s.scheduled_jobs x := by
  unfold ceStep
  exact mfind_mset_ne _ _ _ _ h

theorem ceStep_keys (j d : Nat) (di : Info) (s : LoaderState)
    (hm : mfind s.scheduled_jobs d = some di) :
    (ceStep j d di s).scheduled_jobs.map Prod.fst = s.scheduled_jobs.map Prod.fst := by
  unfold ceStep
  exact keys_mset_found _ _ _ ((mem_keys_iff _ _).mpr (by simp [hm]))

theorem cleanEdges_effect (j : Nat) : ∀ (dl : List Nat) (s : LoaderState), dl.Nodup →
    (cleanEdges j dl s).job_states = s.job_states ∧
    (cleanEdges j dl s).ready_queue = s.ready_queue ∧
    (cleanEdges j dl s).finished_jobs = s.finished_jobs ∧
    (cleanEdges j dl s).last_ready_seqno = s.last_ready_seqno ∧
    (cleanEdges j dl s).sched_deps = s.sched_deps ∧
    (cleanEdges j dl s).sched_prio = s.sched_prio ∧
    (cleanEdges j dl s).is_running = s.is_running ∧
    (cleanEdges j dl s).max_threads = s.max_threads ∧
    (cleanEdges j dl s).workers = s.workers ∧
    (cleanEdges j dl s).scheduled_jobs.map Prod.fst = s.scheduled_jobs.map Prod.fst ∧
    (∀ x, x ∉ dl →
      mfind (cleanEdges j dl s).scheduled_jobs x = mfind s.scheduled_jobs x) ∧
    (∀ x i0, mfind s.scheduled_jobs x = some i0 →
      ∃ i, mfind (cleanEdges j dl s).scheduled_jobs x = some i ∧
        i.priority = i0.priority ∧ i.dependencies_left = i0.dependencies_left ∧
        i.ready_seqno = i0.ready_seqno ∧
        (i.dependent_jobs = i0.dependent_jobs ∨
          i.dependent_jobs = serase i0.dependent_jobs j) ∧
        (x ∈ dl → i.dependent_jobs = serase i0.dependent_jobs j)) := by
  intro dl
  induction dl with
  | nil =>
    intro s _
    exact ⟨rfl, rfl, rfl, rfl, rfl, rfl, rfl, rfl, rfl, rfl, fun x _ => rfl,
      fun x i0 h => ⟨i0, h, rfl, rfl, rfl, Or.inl rfl,
        fun hx => absurd hx (List.not_mem_nil x)⟩⟩
  | cons d ds ih =>
    intro s hnd
    rcases List.nodup_cons.mp hnd with ⟨hdds, hnds⟩
    cases hm : mfind s.scheduled_jobs d with
    | none =>
      have ht : cleanEdges j (d :: ds) s = cleanEdges j ds s := by
        simp only [cleanEdges, hm]
      rw [ht]
      obtain ⟨c1, c2, c3, c4, c5, c6, c7, c8, c9, c10, c11, c12⟩ := ih s hnds
      refine ⟨c1, c2, c3, c4, c5, c6, c7, c8, c9, c10, ?_, ?_⟩
      · intro x hx
        exact c11 x (fun hc => hx (List.mem_cons_of_mem _ hc))
      · intro x i0 h0
        obtain ⟨i, hfi, hp, hdl, hsn, hdep, hmem⟩ := c12 x i0 h0
        refine ⟨i, hfi, hp, hdl, hsn, hdep, ?_⟩
        intro hx
        rcases List.mem_cons.mp hx with h1 | h1
        · rw [h1, hm] at h0
          cases h0
        · exact hmem h1
    | some di =>
      have ht : cleanEdges j (d :: ds) s = cleanEdges j ds (ceStep j d di s) := by
        simp only [cleanEdges, hm]
      rw [ht]
      obtain ⟨c1, c2, c3, c4, c5, c6, c7, c8, c9, c10, c11, c12⟩ :=
        ih (ceStep j d di s) hnds
      refine ⟨c1, c2, c3, c4, c5, c6, c7, c8, c9,
        c10.trans (ceStep_keys j d di s hm), ?_, ?_⟩
      · intro x hx
        have hxd : x ≠ d := fun hc => hx (hc ▸ List.mem_cons_self _ _)
        have hxds : x ∉ ds := fun hc => hx (List.mem_cons_of_mem _ hc)
        rw [c11 x hxds, ceStep_find_ne j d di s x hxd]
      · intro x i0 h0
        by_cases hxd : x = d
        · have hi0 : i0 = di := by
            rw [hxd, hm] at h0
            exact (Option.some_inj.mp h0).symm
          refine ⟨{ di with dependent_jobs := serase di.dependent_jobs j }, ?_,
            by rw [hi0], by rw [hi0], by rw [hi0], Or.inr (by rw [hi0]),
            fun _ => by rw [hi0]⟩
          rw [hxd, c11 d hdds]
          exact ceStep_find_self j d di s
        · have h02 : mfind (ceStep j d di s).scheduled_jobs x = some i0 := by
            rw [ceStep_find_ne j d di s x hxd]
            exact h0
          obtain ⟨i, hfi, hp, hdl, hsn, hdep, hmem⟩ := c12 x i0 h02
          refine ⟨i, hfi, hp, hdl, hsn, hdep, ?_⟩
          intro hx
          rcases List.mem_cons.mp hx with h1 | h1
          · exact absurd h1 hxd
          · exact hmem h1

theorem failedF_eq (env : Nat → LoadJob) (fuel j : Nat) (e : Exn) (s : LoaderState) :
    failedF env (fuel + 1) j e s =
      retireJob j (cleanEdges j (env j).dependencies
        (failDeps env fuel j e ((mfind s.scheduled_jobs j).getD {}).dependent_jobs
          (swapOutDeps j ((mfind s.scheduled_jobs j).getD {}) (markFailure e j s)))) := by
  simp only [failedF, markFailure, swapOutDeps, retireJob]

theorem failDeps_nil (env : Nat → LoadJob) (fuel j : Nat) (e : Exn) (s : LoaderState) :
    failDeps env fuel j e [] s = s := by
  simp only [failDeps]

theorem failDeps_cons (env : Nat → LoadJob) (fuel j : Nat) (e : Exn) (d : Nat)
    (ds : List Nat) (s : LoaderState) :
    failDeps env fuel j e (d :: ds) s =
      failDeps env fuel j e ds
        (failedF env fuel d
          (mkExn .DEPENDENCY_FAILED
            ("Load job " ++ (env d).name ++ " -> " ++ e.message)) s) := by
  simp only [failDeps]

theorem swapMark_find_self (e : Exn) (j : Nat) (ij : Info) (s : LoaderState) :
    mfind (swapOutDeps j ij (markFailure e j s)).scheduled_jobs j =
      some { ij with dependent_jobs := [] } := by
  unfold swapOutDeps markFailure
  exact mfind_mset_self _ _ _

theorem swapMark_find_ne (e : Exn) (j : Nat) (ij : Info) (s : LoaderState) (x : Nat)
    (h : x ≠ j) :
    mfind (swapOutDeps j ij (markFailure e j s)).scheduled_jobs x =
      mfind s.scheduled_jobs x := by
  unfold swapOutDeps markFailure
  exact mfind_mset_ne _ _ _ _ h

theorem swapMark_jstate_self (e : Exn) (j : Nat) (ij : Info) (s : LoaderState) :
    jstate (swapOutDeps j ij (markFailure e j s)) j = setFailure e (jstate s j) := by
  unfold jstate swapOutDeps markFailure
  show (mfind (mset s.job_states j (setFailure e ((mfind s.job_states j).getD {}))) j).getD {} = _
  rw [mfind_mset_self]
  rfl

theorem swapMark_jstate_ne (e : Exn) (j : Nat) (ij : Info) (s : LoaderState) (x : Nat)
    (h : x ≠ j) :
    jstate (swapOutDeps j ij (markFailure e j s)) x = jstate s x := by
  unfold jstate swapOutDeps markFailure
  show (mfind (mset s.job_states j (setFailure e ((mfind s.job_states j).getD {}))) x).getD {} = _
  rw [mfind_mset_ne _ _ _ _ h]

theorem swapMark_fields (e : Exn) (j : Nat) (ij : Info) (s : LoaderState) :
    (swapOutDeps j ij (markFailure e j s)).ready_queue = s.ready_queue ∧
    (swapOutDeps j ij (markFailure e j s)).finished_jobs = s.finished_jobs ∧
    (swapOutDeps j ij (markFailure e j s)).last_ready_seqno = s.last_ready_seqno ∧
    (swapOutDeps j ij (markFailure e j s)).sched_deps = s.sched_deps ∧
    (swapOutDeps j ij (markFailure e j s)).sched_prio = s.sched_prio ∧
    (swapOutDeps j ij (markFailure e j s)).is_running = s.is_running ∧
    (swapOutDeps j ij (markFailure e j s)).max_threads = s.max_threads ∧
    (swapOutDeps j ij (markFailure e j s)).workers = s.workers :=
  ⟨rfl, rfl, rfl, rfl, rfl, rfl, rfl, rfl⟩

theorem swapMark_keys (e : Exn) (j : Nat) (ij : Info) (s : LoaderState)
    (hm : mfind s.scheduled_jobs j = some ij) :
    (swapOutDeps j ij (markFailure e j s)).scheduled_jobs.map Prod.fst =
      s.scheduled_jobs.map Prod.fst := by
  unfold swapOutDeps markFailure
  exact keys_mset_found _ _ _ ((mem_keys_iff _ _).mpr (by simp [hm]))

theorem swapMark_pend (e : Exn) (j : Nat) (ij : Info) (s : LoaderState)
    (hm : mfind s.scheduled_jobs j = some ij) :
    ∀ x, isPending (swapOutDeps j ij (markFailure e j s)) x = isPending s x := by
  intro x
  unfold isPending
  by_cases hx : x = j
  · rw [hx, swapMark_find_self, hm]
    rfl
  · rw [swapMark_find_ne e j ij s x hx]

theorem npend_enter (A : List Nat) (j : Nat) (s : LoaderState)
    (hkn : KN s) (hpend : isPending s j = true) (hjA : j ∉ A) :
    npend (A ++ [j]) s + 1 = npend A s := by
  unfold npend
  refine filter_length_sub (pkeys s) j _ _ hkn ((isPending_iff_pkeys s j).mp hpend)
    ?_ ?_ ?_
  · simp [hjA]
  · simp
  · intro x _ hx
    simp [List.mem_append, hx]

theorem finv_enter (env : Nat → LoadJob) (A : List Nat) (s : LoaderState)
    (j : Nat) (ij : Info) (e : Exn)
    (hmj : mfind s.scheduled_jobs j = some ij)
    (hjA : j ∉ A) (hseq : ij.ready_seqno = 0)
    (hFI : FInv env A s) :
    FInv env (A ++ [j]) (swapOutDeps j ij (markFailure e j s)) := by
  have hunf := hFI.pending_unfinished j ij hmj hjA
  have hjfin : j ∉ s.finished_jobs := by
    intro h
    have h2 := hFI.finished_done j h
    rw [hunf.1] at h2
    cases h2
  have hfs := swapMark_find_self e j ij s
  have hfn := fun x hx => swapMark_find_ne e j ij s x hx
  have hjss := swapMark_jstate_self e j ij s
  have hjsn := fun x hx => swapMark_jstate_ne e j ij s x hx
  obtain ⟨f1, f2, f3, f4, f5, f6, f7, f8⟩ := swapMark_fields e j ij s
  have hpd := swapMark_pend e j ij s hmj
  have hchar : ∀ x i,
      mfind (swapOutDeps j ij (markFailure e j s)).scheduled_jobs x = some i →
      ∃ i0, mfind s.scheduled_jobs x = some i0 ∧ i.priority = i0.priority ∧
        i.dependencies_left = i0.dependencies_left ∧
        i.ready_seqno = i0.ready_seqno ∧
        ((x = j ∧ i.dependent_jobs = []) ∨
         (x ≠ j ∧ i.dependent_jobs = i0.dependent_jobs)) := by
    intro x i hx
    by_cases hxj : x = j
    · rw [hxj, hfs] at hx
      have hi : { ij with dependent_jobs := [] } = i := Option.some_inj.mp hx
      exact ⟨ij, by rw [hxj]; exact hmj, by rw [← hi], by rw [← hi], by rw [← hi],
        Or.inl ⟨hxj, by rw [← hi]⟩⟩
    · rw [hfn x hxj] at hx
      exact ⟨i, hx, rfl, rfl, rfl, Or.inr ⟨hxj, rfl⟩⟩
  refine ⟨?_, ?_, ?_, ?_, ?_, ?_, ?_, ?_, ?_, ?_, ?_, ?_, ?_, ?_, ?_, ?_, ?_⟩
  · rw [swapMark_keys e j ij s hmj]
    exact hFI.keys_nodup
  · intro x i hx
    obtain ⟨i0, h0, _, _, _, hdep⟩ := hchar x i hx
    rcases hdep with ⟨_, hd⟩ | ⟨_, hd⟩
    · rw [hd]
      exact List.nodup_nil
    · rw [hd]
      exact hFI.dep_nodup x i0 h0
  · intro x i hx hxA
    have hxj : x ≠ j := by
      intro hc
      exact hxA (by rw [hc]; simp)
    have hxA2 : x ∉ A := fun hc => hxA (by simp [hc])
    obtain ⟨i0, h0, _⟩ := hchar x i hx
    rw [hjsn x hxj]
    exact hFI.pending_unfinished x i0 h0 hxA2
  · intro x hx
    rw [f2] at hx
    have hxj : x ≠ j := fun hc => hjfin (hc ▸ hx)
    rw [hjsn x hxj]
    exact hFI.finished_done x hx
  · intro x i hx
    obtain ⟨i0, h0, _⟩ := hchar x i hx
    rw [f4]
    exact hFI.ghost_deps x i0 h0
  · intro x i hx ds hds
    rw [f4] at hds
    obtain ⟨i0, h0, _, hdl, _⟩ := hchar x i hx
    have hfc : ds.filter (fun d => isPending (swapOutDeps j ij (markFailure e j s)) d)
        = ds.filter (fun d => isPending s d) :=
      List.filter_congr (fun d _ => by rw [hpd d])
    rw [hfc, hdl]
    exact hFI.deps_left_eq x i0 h0 ds hds
  · intro x i hx ds hds d hd hdp
    rw [f4] at hds
    rw [hpd d] at hdp
    obtain ⟨i0, h0, _⟩ := hchar x i hx
    have hdj : d ≠ j := by
      intro hc
      rw [hc] at hdp
      simp [isPending, hmj] at hdp
    rw [hjsn d hdj]
    exact hFI.extern_done x i0 h0 ds hds d hd hdp
  · intro x i hx ds hds d hd di hdi
    rw [f4] at hds
    obtain ⟨i0, h0, _⟩ := hchar x i hx
    by_cases hdj : d = j
    · right
      rw [hdj]
      simp
    · rw [hfn d hdj] at hdi
      rcases hFI.backlink_complete x i0 h0 ds hds d hd di hdi with h | h
      · exact Or.inl h
      · exact Or.inr (by simp [h])
  · intro u iu hu x hx
    obtain ⟨iu0, h0, _, _, _, hdep⟩ := hchar u iu hu
    rcases hdep with ⟨_, hd⟩ | ⟨huj, hd⟩
    · rw [hd] at hx
      exact absurd hx (List.not_mem_nil x)
    · rw [hd] at hx
      obtain ⟨⟨xi, hxi⟩, ⟨ds, hds, hm2⟩⟩ := hFI.backlink_sound u iu0 h0 x hx
      constructor
      · by_cases hxj : x = j
        · exact ⟨{ ij with dependent_jobs := [] }, by rw [hxj]; exact hfs⟩
        · exact ⟨xi, by rw [hfn x hxj]; exact hxi⟩
      · exact ⟨ds, by rw [f4]; exact hds, hm2⟩
  · intro u iu hu x hx xi hxi
    obtain ⟨iu0, h0, hupr, _, _, hdep⟩ := hchar u iu hu
    rcases hdep with ⟨_, hd⟩ | ⟨huj, hd⟩
    · rw [hd] at hx
      exact absurd hx (List.not_mem_nil x)
    · rw [hd] at hx
      obtain ⟨xi0, hx0, hxpr, _⟩ := hchar x xi hxi
      rw [hupr, hxpr]
      exact hFI.prio_edge u iu0 h0 x hx xi0 hx0
  · intro x i hx
    obtain ⟨i0, h0, hpr, _⟩ := hchar x i hx
    obtain ⟨p0, hp0, hle⟩ := hFI.prio_init x i0 h0
    exact ⟨p0, by rw [f5]; exact hp0, by rw [hpr]; exact hle⟩
  · rw [f1]
    exact hFI.rq_sorted
  · intro en hen
    rw [f1] at hen
    obtain ⟨i, hfi, hki, hdli, hsni⟩ := hFI.rq_sound en hen
    by_cases hej : en.2 = j
    · exfalso
      rw [hej, hmj] at hfi
      have : ij = i := Option.some_inj.mp hfi
      rw [← this] at hsni
      exact hsni hseq
    · exact ⟨i, by rw [hfn en.2 hej]; exact hfi, hki, hdli, hsni⟩
  · intro x i hx hsn
    obtain ⟨i0, h0, hpr, _, hsq, _⟩ := hchar x i hx
    rw [hsq] at hsn
    have hkey : Info.key i = Info.key i0 := by
      unfold Info.key
      rw [hpr, hsq]
    rw [f1, hkey]
    exact hFI.rq_complete x i0 h0 hsn
  · intro x i hx
    obtain ⟨i0, h0, _, _, hsq, _⟩ := hchar x i hx
    rw [hsq]
    show i0.ready_seqno ≤ s.last_ready_seqno
    exact hFI.seqno_le x i0 h0
  · intro x i y iy hx hy hnx heq
    obtain ⟨i0, h0, _, _, hsq, _⟩ := hchar x i hx
    obtain ⟨iy0, hy0, _, _, hsqy, _⟩ := hchar y iy hy
    rw [hsq] at hnx heq
    rw [hsqy] at heq
    exact hFI.seqno_inj x i0 y iy0 h0 hy0 hnx heq
  · intro a ha
    rcases List.mem_append.mp ha with haA | haj
    · obtain ⟨ia, hia, hia2, hia3, hia4⟩ := hFI.active a haA
      have haj : a ≠ j := fun hc => hjA (hc ▸ haA)
      exact ⟨ia, by rw [hfn a haj]; exact hia, hia2, hia3,
        by rw [hjsn a haj]; exact hia4⟩
    · have ha2 : a = j := by simpa using haj
      refine ⟨{ ij with dependent_jobs := [] }, by rw [ha2]; exact hfs, rfl, hseq, ?_⟩
      rw [ha2, hjss]
      rfl

theorem finv_exit (env : Nat → LoadJob) (rank : Nat → Nat) (hwf : WFEnv env rank)
    (A : List Nat) (s3 : LoaderState) (j : Nat) (i3 : Info)
    (hjA : j ∉ A)
    (hmj : mfind s3.scheduled_jobs j = some i3)
    (hseq : i3.ready_seqno = 0)
    (hfinj : (jstate s3 j).is_finished = true)
    (hnog : ∀ x, x ≠ j → isPending s3 x = true → ¬ GhostEdge s3 j x)
    (hFI : FInv env (A ++ [j]) s3) :
    ∀ t, t = retireJob j (cleanEdges j (env j).dependencies s3) →
    FInv env A t ∧
    mfind t.scheduled_jobs j = none ∧
    j ∈ t.finished_jobs ∧
    (∀ x, isPending t x = true → isPending s3 x = true) ∧
    (∀ x, isPending s3 x = true → isPending t x = false → x = j) ∧
    (∀ x, jstate t x = jstate s3 x) ∧
    t.ready_queue = s3.ready_queue ∧
    t.last_ready_seqno = s3.last_ready_seqno ∧
    t.sched_deps = s3.sched_deps ∧
    t.sched_prio = s3.sched_prio ∧
    t.is_running = s3.is_running ∧
    t.max_threads = s3.max_threads ∧
    t.workers = s3.workers ∧
    (∀ x ∈ s3.finished_jobs, x ∈ t.finished_jobs) := by
  intro t ht
  obtain ⟨e1, e2, e3, e4, e5, e6, e7, e8, e9, e10, e11, e12⟩ :=
    cleanEdges_effect j (env j).dependencies s3 (hwf.2 j)
  have hts : t.scheduled_jobs =
      merase (cleanEdges j (env j).dependencies s3).scheduled_jobs j := by
    rw [ht]
    rfl
  have htjs : t.job_states = s3.job_states := by
    rw [ht]
    exact e1
  have htf : t.finished_jobs =
      sinsert s3.finished_jobs j := by
    rw [ht]
    show sinsert (cleanEdges j (env j).dependencies s3).finished_jobs j = _
    rw [e3]
  have htrq : t.ready_queue = s3.ready_queue := by
    rw [ht]
    exact e2
  have htlrs : t.last_ready_seqno = s3.last_ready_seqno := by
    rw [ht]
    exact e4
  have htgd : t.sched_deps = s3.sched_deps := by
    rw [ht]
    exact e5
  have htgp : t.sched_prio = s3.sched_prio := by
    rw [ht]
    exact e6
  have htir : t.is_running = s3.is_running := by
    rw [ht]
    exact e7
  have htmt : t.max_threads = s3.max_threads := by
    rw [ht]
    exact e8
  have htwk : t.workers = s3.workers := by
    rw [ht]
    exact e9
  have hjst : ∀ x, jstate t x = jstate s3 x := by
    intro x
    unfold jstate
    rw [htjs]
  have htj : mfind t.scheduled_jobs j = none := by
    rw [hts]
    exact mfind_merase_self _ _
  have htne : ∀ x, x ≠ j → mfind t.scheduled_jobs x =
      mfind (cleanEdges j (env j).dependencies s3).scheduled_jobs x := by
    intro x hx
    rw [hts]
    exact mfind_merase_ne _ _ _ hx
  have hdom : ∀ x, isPending (cleanEdges j (env j).dependencies s3) x
      = isPending s3 x := by
    intro x
    unfold isPending
    cases h0 : mfind s3.scheduled_jobs x with
    | some i0 =>
      obtain ⟨i, hfi, _⟩ := e12 x i0 h0
      rw [hfi]
      rfl
    | none =>
      cases h4 : mfind (cleanEdges j (env j).dependencies s3).scheduled_jobs x with
      | none => rfl
      | some i4 =>
        exfalso
        have hm4 : x ∈ (cleanEdges j (env j).dependencies s3).scheduled_jobs.map
            Prod.fst := (mem_keys_iff _ _).mpr (by simp [h4])
        rw [e10, mem_keys_iff, h0] at hm4
        cases hm4
  have hchar4 : ∀ x i,
      mfind (cleanEdges j (env j).dependencies s3).scheduled_jobs x = some i →
      ∃ i0, mfind s3.scheduled_jobs x = some i0 ∧ i.priority = i0.priority ∧
        i.dependencies_left = i0.dependencies_left ∧
        i.ready_seqno = i0.ready_seqno ∧
        (i.dependent_jobs = i0.dependent_jobs ∨
          i.dependent_jobs = serase i0.dependent_jobs j) ∧
        (x ∈ (env j).dependencies →
          i.dependent_jobs = serase i0.dependent_jobs j) := by
    intro x i hx
    have hsome : isPending s3 x = true := by
      rw [← hdom]
      simp [isPending, hx]
    obtain ⟨i0, h0⟩ := Option.isSome_iff_exists.mp hsome
    obtain ⟨i2, hf2, hp2, hd2, hs2, hdep2, hmem2⟩ := e12 x i0 h0
    rw [hx] at hf2
    have hi : i = i2 := Option.some_inj.mp hf2
    rw [hi]
    exact ⟨i0, h0, hp2, hd2, hs2, hdep2, hmem2⟩
  have hcharT : ∀ x i, mfind t.scheduled_jobs x = some i →
      x ≠ j ∧ ∃ i0, mfind s3.scheduled_jobs x = some i0 ∧
        i.priority = i0.priority ∧ i.dependencies_left = i0.dependencies_left ∧
        i.ready_seqno = i0.ready_seqno ∧
        (i.dependent_jobs = i0.dependent_jobs ∨
          i.dependent_jobs = serase i0.dependent_jobs j) ∧
        (x ∈ (env j).dependencies →
          i.dependent_jobs = serase i0.dependent_jobs j) := by
    intro x i hx
    have hxj : x ≠ j := by
      intro hc
      rw [hc, htj] at hx
      cases hx
    refine ⟨hxj, ?_⟩
    rw [htne x hxj] at hx
    exact hchar4 x i hx
  have hpend : ∀ x, x ≠ j → isPending t x = isPending s3 x := by
    intro x hx
    unfold isPending
    rw [htne x hx]
    rw [show mfind (cleanEdges j (env j).dependencies s3).scheduled_jobs x =
      mfind (cleanEdges j (env j).dependencies s3).scheduled_jobs x from rfl]
    have := hdom x
    unfold isPending at this
    exact this
  have hpendj : isPending t j = false := by
    unfold isPending
    rw [htj]
    rfl
  have hnods : ∀ x i0, x ≠ j → mfind s3.scheduled_jobs x = some i0 →
      ∀ ds, mfind s3.sched_deps x = some ds → j ∉ ds := by
    intro x i0 hxj h0 ds hds hj
    exact hnog x hxj (by simp [isPending, h0]) ⟨ds, hds, hj⟩
  refine ⟨⟨?_, ?_, ?_, ?_, ?_, ?_, ?_, ?_, ?_, ?_, ?_, ?_, ?_, ?_, ?_, ?_, ?_⟩,
    htj, by rw [htf]; exact (mem_sinsert _ _ _).mpr (Or.inl rfl), ?_, ?_, hjst,
    htrq, htlrs, htgd, htgp, htir, htmt, htwk, ?_⟩
  · have hk : t.scheduled_jobs.map Prod.fst =
        (s3.scheduled_jobs.map Prod.fst).filter (fun y => decide (y ≠ j)) := by
      rw [hts, keys_merase, e10]
    rw [hk]
    exact hFI.keys_nodup.filter _
  · intro x i hx
    obtain ⟨hxj, i0, h0, _, _, _, hdep, _⟩ := hcharT x i hx
    rcases hdep with hd | hd
    · rw [hd]
      exact hFI.dep_nodup x i0 h0
    · rw [hd]
      exact serase_nodup _ _ (hFI.dep_nodup x i0 h0)
  · intro x i hx hxA
    obtain ⟨hxj, i0, h0, _⟩ := hcharT x i hx
    rw [hjst x]
    exact hFI.pending_unfinished x i0 h0 (by simp [hxA, hxj])
  · intro x hx
    rw [htf] at hx
    rcases (mem_sinsert _ _ _).mp hx with h1 | h1
    · rw [h1, hjst]
      exact hfinj
    · rw [hjst x]
      exact hFI.finished_done x h1
  · intro x i hx
    obtain ⟨hxj, i0, h0, _⟩ := hcharT x i hx
    rw [htgd]
    exact hFI.ghost_deps x i0 h0
  · intro x i hx ds hds
    obtain ⟨hxj, i0, h0, _, hdl, _⟩ := hcharT x i hx
    rw [htgd] at hds
    have hjds : j ∉ ds := hnods x i0 hxj h0 ds hds
    have hfc : ds.filter (fun d => isPending t d)
        = ds.filter (fun d => isPending s3 d) := by
      refine List.filter_congr ?_
      intro d hd
      have hdj : d ≠ j := fun hc => hjds (hc ▸ hd)
      rw [hpend d hdj]
    rw [hfc, hdl]
    exact hFI.deps_left_eq x i0 h0 ds hds
  · intro x i hx ds hds d hd hdp
    obtain ⟨hxj, i0, h0, _⟩ := hcharT x i hx
    rw [htgd] at hds
    have hdj : d ≠ j := by
      intro hc
      exact hnods x i0 hxj h0 ds hds (hc ▸ hd)
    rw [hpend d hdj] at hdp
    rw [hjst d]
    exact hFI.extern_done x i0 h0 ds hds d hd hdp
  · intro x i hx ds hds d hd di hdi
    obtain ⟨hxj, i0, h0, _⟩ := hcharT x i hx
    obtain ⟨hdj, di0, hd0, _, _, _, hdep, _⟩ := hcharT d di hdi
    rw [htgd] at hds
    rcases hFI.backlink_complete x i0 h0 ds hds d hd di0 hd0 with h | h
    · left
      rcases hdep with he | he
      · rw [he]
        exact h
      · rw [he]
        exact (mem_serase _ _ _).mpr ⟨h, hxj⟩
    · right
      rcases List.mem_append.mp h with h2 | h2
      · exact h2
      · exact absurd (by simpa using h2) hdj
  · intro u iu hu x hx
    obtain ⟨huj, iu0, h0, _, _, _, hdep, hmem⟩ := hcharT u iu hu
    have hx0 : x ∈ iu0.dependent_jobs ∧ x ≠ j := by
      by_cases hud : u ∈ (env j).dependencies
      · rw [hmem hud] at hx
        exact (mem_serase _ _ _).mp hx
      · rcases hdep with he | he
        · rw [he] at hx
          constructor
          · exact hx
          · intro hc
            obtain ⟨_, ⟨ds0, hds0, hm0⟩⟩ :=
              hFI.backlink_sound u iu0 h0 x hx
            rw [hc] at hds0
            obtain ⟨dsj, hdsj, hsub⟩ := hFI.ghost_deps j i3 hmj
            rw [hds0] at hdsj
            have : ds0 = dsj := Option.some_inj.mp hdsj
            exact hud (hsub.subset (this ▸ hm0))
        · rw [he] at hx
          exact (mem_serase _ _ _).mp hx
    obtain ⟨hxm, hxjne⟩ := hx0
    obtain ⟨⟨xi, hxi⟩, ⟨ds, hds, hm2⟩⟩ := hFI.backlink_sound u iu0 h0 x hxm
    constructor
    · have : isPending t x = true := by
        rw [hpend x hxjne]
        simp [isPending, hxi]
      unfold isPending at this
      exact Option.isSome_iff_exists.mp this
    · exact ⟨ds, by rw [htgd]; exact hds, hm2⟩
  · intro u iu hu x hx xi hxi
    obtain ⟨huj, iu0, h0, hupr, _, _, hdep, _⟩ := hcharT u iu hu
    have hxm : x ∈ iu0.dependent_jobs := by
      rcases hdep with he | he
      · rw [he] at hx
        exact hx
      · rw [he] at hx
        exact ((mem_serase _ _ _).mp hx).1
    obtain ⟨hxj, xi0, hx0, hxpr, _⟩ := hcharT x xi hxi
    rw [hupr, hxpr]
    exact hFI.prio_edge u iu0 h0 x hxm xi0 hx0
  · intro x i hx
    obtain ⟨hxj, i0, h0, hpr, _⟩ := hcharT x i hx
    obtain ⟨p0, hp0, hle⟩ := hFI.prio_init x i0 h0
    exact ⟨p0, by rw [htgp]; exact hp0, by rw [hpr]; exact hle⟩
  · rw [htrq]
    exact hFI.rq_sorted
  · intro en hen
    rw [htrq] at hen
    obtain ⟨i, hfi, hki, hdli, hsni⟩ := hFI.rq_sound en hen
    have hej : en.2 ≠ j := by
      intro hc
      rw [hc, hmj] at hfi
      have : i3 = i := Option.some_inj.mp hfi
      rw [← this] at hsni
      exact hsni hseq
    obtain ⟨i4, hf4, hp4, hd4, hs4, _⟩ := e12 en.2 i hfi
    refine ⟨i4, ?_, ?_, ?_, ?_⟩
    · rw [htne en.2 hej]
      exact hf4
    · rw [← hki]
      unfold Info.key
      rw [hp4, hs4]
    · rw [hd4]
      exact hdli
    · rw [hs4]
      exact hsni
  · intro x i hx hsn
    obtain ⟨hxj, i0, h0, hpr, _, hsq, _⟩ := hcharT x i hx
    rw [hsq] at hsn
    have hkey : Info.key i = Info.key i0 := by
      unfold Info.key
      rw [hpr, hsq]
    rw [htrq, hkey]
    exact hFI.rq_complete x i0 h0 hsn
  · intro x i hx
    obtain ⟨hxj, i0, h0, _, _, hsq, _⟩ := hcharT x i hx
    rw [hsq, htlrs]
    exact hFI.seqno_le x i0 h0
  · intro x i y iy hx hy hnx heq
    obtain ⟨hxj, i0, h0, _, _, hsq, _⟩ := hcharT x i hx
    obtain ⟨hyj, iy0, hy0, _, _, hsqy, _⟩ := hcharT y iy hy
    rw [hsq] at hnx heq
    rw [hsqy] at heq
    exact hFI.seqno_inj x i0 y iy0 h0 hy0 hnx heq
  · intro a ha
    obtain ⟨ia, hia, hia2, hia3, hia4⟩ := hFI.active a (List.mem_append_left _ ha)
    have haj : a ≠ j := fun hc => hjA (hc ▸ ha)
    have hpa : isPending t a = true := by
      rw [hpend a haj]
      simp [isPending, hia]
    obtain ⟨ia2, hia2f⟩ := Option.isSome_iff_exists.mp (by
      unfold isPending at hpa
      exact hpa)
    obtain ⟨_, ia0, h0, _, _, hsq, hdep, _⟩ := hcharT a ia2 hia2f
    rw [hia] at h0
    have hi : ia0 = ia := (Option.some_inj.mp h0).symm
    refine ⟨ia2, hia2f, ?_, ?_, ?_⟩
    · rcases hdep with he | he
      · rw [he, hi, hia2]
      · rw [he, hi, hia2]
        rfl
    · rw [hsq, hi, hia3]
    · rw [hjst a]
      exact hia4
  · intro x hx
    by_cases hxj : x = j
    · rw [hxj, hpendj] at hx
      cases hx
    · rw [hpend x hxj] at hx
      exact hx
  · intro x hx1 hx2
    by_contra hxj
    rw [hpend x hxj] at hx2
    rw [hx1] at hx2
    cases hx2
  · intro x hx
    rw [htf]
    exact (mem_sinsert _ _ _).mpr (Or.inr hx)

theorem failedF_dead (env : Nat → LoadJob) (rank : Nat → Nat) (hwf : WFEnv env rank)
    (A : List Nat) (s : LoaderState) (j : Nat) (e : Exn)
    (hFI : FInv env A s)
    (hnp : mfind s.scheduled_jobs j = none)
    (_hfin : j ∈ s.finished_jobs)
    (_hjf : (jstate s j).is_finished = true)
    (hexc : ∃ e0, (jstate s j).exception = some e0) :
    ∀ t, t = retireJob j (cleanEdges j (env j).dependencies
      (swapOutDeps j {} (markFailure e j s))) →
    FPost env rank j e s t A := by
  intro t ht
  obtain ⟨e1, e2, e3, e4, e5, e6, e7, e8, e9, e10, e11, e12⟩ :=
    cleanEdges_effect j (env j).dependencies
      (swapOutDeps j {} (markFailure e j s)) (hwf.2 j)
  have hf2ne := fun x hx => swapMark_find_ne e j {} s x hx
  have hj2s := swapMark_jstate_self e j {} s
  have hj2n := fun x hx => swapMark_jstate_ne e j {} s x hx
  obtain ⟨f1, f2, f3, f4, f5, f6, f7, f8⟩ := swapMark_fields e j {} s
  have hts : t.scheduled_jobs = merase (cleanEdges j (env j).dependencies
      (swapOutDeps j {} (markFailure e j s))).scheduled_jobs j := by
    rw [ht]
    rfl
  have htjs : t.job_states = mset s.job_states j (setFailure e (jstate s j)) := by
    rw [ht]
    show (cleanEdges j (env j).dependencies
      (swapOutDeps j {} (markFailure e j s))).job_states = _
    rw [e1]
    rfl
  have htf : t.finished_jobs = sinsert s.finished_jobs j := by
    rw [ht]
    show sinsert (cleanEdges j (env j).dependencies
      (swapOutDeps j {} (markFailure e j s))).finished_jobs j = _
    rw [e3, f2]
  have htrq : t.ready_queue = s.ready_queue := by
    rw [ht]
    exact e2.trans f1
  have htlrs : t.last_ready_seqno = s.last_ready_seqno := by
    rw [ht]
    exact e4.trans f3
  have htgd : t.sched_deps = s.sched_deps := by
    rw [ht]
    exact e5.trans f4
  have htgp : t.sched_prio = s.sched_prio := by
    rw [ht]
    exact e6.trans f5
  have htir : t.is_running = s.is_running := by
    rw [ht]
    exact e7.trans f6
  have htmt : t.max_threads = s.max_threads := by
    rw [ht]
    exact e8.trans f7
  have htwk : t.workers = s.workers := by
    rw [ht]
    exact e9.trans f8
  have hjstj : jstate t j = setFailure e (jstate s j) := by
    unfold jstate
    rw [htjs, mfind_mset_self]
    rfl
  have hjstn : ∀ x, x ≠ j → jstate t x = jstate s x := by
    intro x hx
    unfold jstate
    rw [htjs, mfind_mset_ne _ _ _ _ hx]
  have htj : mfind t.scheduled_jobs j = none := by
    rw [hts]
    exact mfind_merase_self _ _
  have htne : ∀ x, x ≠ j → mfind t.scheduled_jobs x =
      mfind (cleanEdges j (env j).dependencies
        (swapOutDeps j {} (markFailure e j s))).scheduled_jobs x := by
    intro x hx
    rw [hts]
    exact mfind_merase_ne _ _ _ hx
  have hcharT : ∀ x i, mfind t.scheduled_jobs x = some i →
      x ≠ j ∧ ∃ i0, mfind s.scheduled_jobs x = some i0 ∧
        i.priority = i0.priority ∧ i.dependencies_left = i0.dependencies_left ∧
        i.ready_seqno = i0.ready_seqno ∧
        i.dependent_jobs = i0.dependent_jobs := by
    intro x i hx
    have hxj : x ≠ j := by
      intro hc
      rw [hc, htj] at hx
      cases hx
    refine ⟨hxj, ?_⟩
    rw [htne x hxj] at hx
    cases h0 : mfind s.scheduled_jobs x with
    | none =>
      exfalso
      have h02 : mfind (swapOutDeps j {} (markFailure e j s)).scheduled_jobs x
          = none := by
        rw [hf2ne x hxj]
        exact h0
      have hm4 : x ∈ (cleanEdges j (env j).dependencies
          (swapOutDeps j {} (markFailure e j s))).scheduled_jobs.map Prod.fst :=
        (mem_keys_iff _ _).mpr (by simp [hx])
      rw [e10, mem_keys_iff, h02] at hm4
      cases hm4
    | some i0 =>
      have h02 : mfind (swapOutDeps j {} (markFailure e j s)).scheduled_jobs x
          = some i0 := by
        rw [hf2ne x hxj]
        exact h0
      obtain ⟨i2, hf2, hp2, hd2, hs2, hdep2, _⟩ := e12 x i0 h02
      rw [hx] at hf2
      have hi : i = i2 := Option.some_inj.mp hf2
      have hjni : j ∉ i0.dependent_jobs := by
        intro hji
        obtain ⟨⟨ji, hji2⟩, _⟩ := hFI.backlink_sound x i0 h0 j hji
        rw [hnp] at hji2
        cases hji2
      have hdep : i.dependent_jobs = i0.dependent_jobs := by
        rcases hdep2 with hd | hd
        · rw [hi, hd]
        · rw [hi, hd]
          exact serase_not_mem _ _ hjni
      exact ⟨i0, rfl, by rw [hi, hp2], by rw [hi, hd2], by rw [hi, hs2], hdep⟩
  have hpend : ∀ x, x ≠ j → isPending t x = isPending s x := by
    intro x hx
    unfold isPending
    cases h0 : mfind s.scheduled_jobs x with
    | some i0 =>
      have h02 : mfind (swapOutDeps j {} (markFailure e j s)).scheduled_jobs x
          = some i0 := by
        rw [hf2ne x hx]
        exact h0
      obtain ⟨i2, hf2, _⟩ := e12 x i0 h02
      rw [htne x hx, hf2]
      rfl
    | none =>
      cases h4 : mfind t.scheduled_jobs x with
      | none => rfl
      | some i4 =>
        obtain ⟨_, i0, h02, _⟩ := hcharT x i4 h4
        rw [h0] at h02
        cases h02
  have hpendj : isPending t j = false := by
    unfold isPending
    rw [htj]
    rfl
  have hnods : ∀ x i0, x ≠ j → mfind s.scheduled_jobs x = some i0 →
      ∀ ds, mfind s.sched_deps x = some ds → j ∉ ds := by
    intro x i0 hxj h0 ds hds hj
    obtain ⟨e0, he0⟩ := hexc
    have := (hFI.extern_done x i0 h0 ds hds j hj (by simp [isPending, hnp])).2
    rw [this] at he0
    cases he0
  refine ⟨⟨?_, ?_, ?_, ?_, ?_, ?_, ?_, ?_, ?_, ?_, ?_, ?_, ?_, ?_, ?_, ?_, ?_⟩,
    htj, by rw [htf]; exact (mem_sinsert _ _ _).mpr (Or.inl rfl),
    by rw [hjstj]; rfl, by rw [hjstj]; rfl, ?_, ?_,
    htrq, htlrs, htgd, htgp, htir, htmt, htwk, ?_, ?_, ?_, ?_, ?_⟩
  · have hk2 : (swapOutDeps j {} (markFailure e j s)).scheduled_jobs.map Prod.fst
        = s.scheduled_jobs.map Prod.fst ++ [j] := by
      unfold swapOutDeps markFailure
      exact keys_mset_new _ _ _ hnp
    have hk : t.scheduled_jobs.map Prod.fst =
        (s.scheduled_jobs.map Prod.fst ++ [j]).filter (fun y => decide (y ≠ j)) := by
      rw [hts, keys_merase, e10, hk2]
    rw [hk]
    refine List.Nodup.filter _ ?_
    refine List.Nodup.append hFI.keys_nodup (List.nodup_singleton j) ?_
    intro a ha hax
    have hax2 : a = j := by simpa using hax
    have : j ∈ s.scheduled_jobs.map Prod.fst := hax2 ▸ ha
    rw [mem_keys_iff, hnp] at this
    cases this
  · intro x i hx
    obtain ⟨hxj, i0, h0, _, _, _, hdep⟩ := hcharT x i hx
    rw [hdep]
    exact hFI.dep_nodup x i0 h0
  · intro x i hx hxA
    obtain ⟨hxj, i0, h0, _⟩ := hcharT x i hx
    rw [hjstn x hxj]
    exact hFI.pending_unfinished x i0 h0 hxA
  · intro x hx
    by_cases hxj : x = j
    · rw [hxj, hjstj]
      rfl
    · rw [htf] at hx
      rcases (mem_sinsert _ _ _).mp hx with h1 | h1
      · exact absurd h1 hxj
      · rw [hjstn x hxj]
        exact hFI.finished_done x h1
  · intro x i hx
    obtain ⟨hxj, i0, h0, _⟩ := hcharT x i hx
    rw [htgd]
    exact hFI.ghost_deps x i0 h0
  · intro x i hx ds hds
    obtain ⟨hxj, i0, h0, _, hdl, _⟩ := hcharT x i hx
    rw [htgd] at hds
    have hjds : j ∉ ds := hnods x i0 hxj h0 ds hds
    have hfc : ds.filter (fun d => isPending t d)
        = ds.filter (fun d => isPending s d) := by
      refine List.filter_congr ?_
      intro d hd
      exact hpend d (fun hc => hjds (hc ▸ hd))
    rw [hfc, hdl]
    exact hFI.deps_left_eq x i0 h0 ds hds
  · intro x i hx ds hds d hd hdp
    obtain ⟨hxj, i0, h0, _⟩ := hcharT x i hx
    rw [htgd] at hds
    have hdj : d ≠ j := fun hc => hnods x i0 hxj h0 ds hds (hc ▸ hd)
    rw [hpend d hdj] at hdp
    rw [hjstn d hdj]
    exact hFI.extern_done x i0 h0 ds hds d hd hdp
  · intro x i hx ds hds d hd di hdi
    obtain ⟨hxj, i0, h0, _⟩ := hcharT x i hx
    obtain ⟨hdj, di0, hd0, _, _, _, hdep⟩ := hcharT d di hdi
    rw [htgd] at hds
    rcases hFI.backlink_complete x i0 h0 ds hds d hd di0 hd0 with h | h
    · left
      rw [hdep]
      exact h
    · exact Or.inr h
  · intro u iu hu x hx
    obtain ⟨huj, iu0, h0, _, _, _, hdep⟩ := hcharT u iu hu
    rw [hdep] at hx
    obtain ⟨⟨xi, hxi⟩, ⟨ds, hds, hm2⟩⟩ := hFI.backlink_sound u iu0 h0 x hx
    have hxj : x ≠ j := by
      intro hc
      rw [hc, hnp] at hxi
      cases hxi
    constructor
    · have hp : isPending t x = true := by
        rw [hpend x hxj]
        simp [isPending, hxi]
      unfold isPending at hp
      exact Option.isSome_iff_exists.mp hp
    · exact ⟨ds, by rw [htgd]; exact hds, hm2⟩
  · intro u iu hu x hx xi hxi
    obtain ⟨huj, iu0, h0, hupr, _, _, hdep⟩ := hcharT u iu hu
    rw [hdep] at hx
    obtain ⟨hxj, xi0, hx0, hxpr, _⟩ := hcharT x xi hxi
    rw [hupr, hxpr]
    exact hFI.prio_edge u iu0 h0 x hx xi0 hx0
  · intro x i hx
    obtain ⟨hxj, i0, h0, hpr, _⟩ := hcharT x i hx
    obtain ⟨p0, hp0, hle⟩ := hFI.prio_init x i0 h0
    exact ⟨p0, by rw [htgp]; exact hp0, by rw [hpr]; exact hle⟩
  · rw [htrq]
    exact hFI.rq_sorted
  · intro en hen
    rw [htrq] at hen
    obtain ⟨i, hfi, hki, hdli, hsni⟩ := hFI.rq_sound en hen
    have hej : en.2 ≠ j := by
      intro hc
      rw [hc, hnp] at hfi
      cases hfi
    have h02 : mfind (swapOutDeps j {} (markFailure e j s)).scheduled_jobs en.2
        = some i := by
      rw [hf2ne en.2 hej]
      exact hfi
    obtain ⟨i4, hf4, hp4, hd4, hs4, _⟩ := e12 en.2 i h02
    refine ⟨i4, ?_, ?_, ?_, ?_⟩
    · rw [htne en.2 hej]
      exact hf4
    · rw [← hki]
      unfold Info.key
      rw [hp4, hs4]
    · rw [hd4]
      exact hdli
    · rw [hs4]
      exact hsni
  · intro x i hx hsn
    obtain ⟨hxj, i0, h0, hpr, _, hsq, _⟩ := hcharT x i hx
    rw [hsq] at hsn
    have hkey : Info.key i = Info.key i0 := by
      unfold Info.key
      rw [hpr, hsq]
    rw [htrq, hkey]
    exact hFI.rq_complete x i0 h0 hsn
  · intro x i hx
    obtain ⟨hxj, i0, h0, _, _, hsq, _⟩ := hcharT x i hx
    rw [hsq, htlrs]
    exact hFI.seqno_le x i0 h0
  · intro x i y iy hx hy hnx heq
    obtain ⟨hxj, i0, h0, _, _, hsq, _⟩ := hcharT x i hx
    obtain ⟨hyj, iy0, hy0, _, _, hsqy, _⟩ := hcharT y iy hy
    rw [hsq] at hnx heq
    rw [hsqy] at heq
    exact hFI.seqno_inj x i0 y iy0 h0 hy0 hnx heq
  · intro a ha
    obtain ⟨ia, hia, hia2, hia3, hia4⟩ := hFI.active a ha
    have haj : a ≠ j := by
      intro hc
      rw [hc, hnp] at hia
      cases hia
    have hp : isPending t a = true := by
      rw [hpend a haj]
      simp [isPending, hia]
    obtain ⟨ia2, hia2f⟩ := Option.isSome_iff_exists.mp (by
      unfold isPending at hp
      exact hp)
    obtain ⟨_, ia0, h0, _, _, hsq, hdep⟩ := hcharT a ia2 hia2f
    rw [hia] at h0
    have hi : ia0 = ia := (Option.some_inj.mp h0).symm
    refine ⟨ia2, hia2f, ?_, ?_, ?_⟩
    · rw [hdep, hi, hia2]
    · rw [hsq, hi, hia3]
    · rw [hjstn a haj]
      exact hia4
  · intro x hx
    by_cases hxj : x = j
    · rw [hxj, hpendj] at hx
      cases hx
    · rw [hpend x hxj] at hx
      exact hx
  · intro x hx1 hx2
    by_cases hxj : x = j
    · rw [hxj] at hx1
      simp [isPending, hnp] at hx1
    · rw [hpend x hxj, hx1] at hx2
      cases hx2
  · intro x hx
    rw [htf]
    exact (mem_sinsert _ _ _).mpr (Or.inr hx)
  · intro x hx
    by_cases hxj : x = j
    · rw [hxj, hjstj]
      rfl
    · rw [hjstn x hxj]
      exact hx
  · intro x hxj
    left
    rw [hjstn x hxj]
  · intro x hx
    by_cases hxj : x = j
    · exact Or.inl hxj
    · exact absurd (hjstn x hxj) hx
  · intro x hx
    rw [htf] at hx
    rcases (mem_sinsert _ _ _).mp hx with h1 | h1
    · exact Or.inr (Or.inl h1)
    · exact Or.inl h1

theorem not_pending_none (s : LoaderState) (x : Nat) (h : isPending s x = false) :
    mfind s.scheduled_jobs x = none := by
  cases hm : mfind s.scheduled_jobs x with
  | none => rfl
  | some i => simp [isPending, hm] at h

theorem failed_master (env : Nat → LoadJob) (rank : Nat → Nat) (hwf : WFEnv env rank) :
    ∀ fuel : Nat,
    (∀ A j e s, FPre env rank A j s fuel →
      FPost env rank j e s (failedF env fuel j e s) A) ∧
    (∀ A j e dl s, DPre env rank A j dl s fuel →
      DPost env rank j e dl s (failDeps env fuel j e dl s) A) := by
  intro fuel
  induction fuel with
  | zero =>
    constructor
    · intro A j e s hpre
      exact absurd hpre.2.2.1 (by omega)
    · intro A j e dl s hpre
      have hdl : dl = [] := List.length_eq_zero.mp (Nat.le_zero.mp hpre.2.2.1)
      subst hdl
      rw [failDeps_nil]
      refine ⟨hpre.1, ?_, fun x h => h, ?_, rfl, rfl, rfl, rfl, rfl, rfl, rfl,
        fun x h => h, fun x h => h, fun x _ => Or.inl rfl, ?_, fun x h => Or.inl h⟩
      · intro d hd
        exact absurd hd (List.not_mem_nil d)
      · intro x h1 h2
        rw [h1] at h2
        cases h2
      · intro x hx
        exact absurd rfl hx
  | succ f ihf =>
    have hP : ∀ A j e s, FPre env rank A j s (f + 1) →
        FPost env rank j e s (failedF env (f + 1) j e s) A := by
      intro A j e s hpre
      obtain ⟨hFI, hfuel, _, hcase⟩ := hpre
      rcases hcase with ⟨ij, hmj, hjA, hseq, hranks⟩ | ⟨hnp, hfin, hjf, hexc⟩
      · -- the job is pending: mark, swap, recurse, clean, retire
        obtain ⟨f1, f2, f3, f4, f5, f6, f7, f8⟩ := swapMark_fields e j ij s
        have hD := hFI.dep_nodup j ij hmj
        have hDmem : ∀ d ∈ ij.dependent_jobs,
            (∃ di, mfind s.scheduled_jobs d = some di) ∧ GhostEdge s j d :=
          fun d hd => hFI.backlink_sound j ij hmj d hd
        have hDrank : ∀ d ∈ ij.dependent_jobs, rank j < rank d := by
          intro d hd
          obtain ⟨⟨di, hdi⟩, ⟨ds, hds, hjds⟩⟩ := hDmem d hd
          obtain ⟨ds2, hds2, hsub⟩ := hFI.ghost_deps d di hdi
          rw [hds] at hds2
          have hde : ds = ds2 := Option.some_inj.mp hds2
          exact hwf.1 d j (hsub.subset (hde ▸ hjds))
        have hDnA : ∀ d ∈ ij.dependent_jobs, d ∉ A ++ [j] := by
          intro d hd hmem
          rcases List.mem_append.mp hmem with h | h
          · have h1 := hranks d h
            have h2 := hDrank d hd
            omega
          · have hdj : d = j := by simpa using h
            have h2 := hDrank d hd
            rw [hdj] at h2
            omega
        have hFI2 := finv_enter env A s j ij e hmj hjA hseq hFI
        have hnp2 : npend (A ++ [j]) (swapOutDeps j ij (markFailure e j s)) + 1
            = npend A s := by
          have hk : pkeys (swapOutDeps j ij (markFailure e j s)) = pkeys s := by
            unfold pkeys
            exact swapMark_keys e j ij s hmj
          have h0 := npend_enter A j s hFI.keys_nodup (by simp [isPending, hmj]) hjA
          unfold npend at h0 ⊢
          rw [hk]
          exact h0
        have hpre2 : DPre env rank A j ij.dependent_jobs
            (swapOutDeps j ij (markFailure e j s)) f := by
          refine ⟨hFI2, by omega, ?_, hranks, ?_⟩
          · have hlen : ij.dependent_jobs.length ≤
                npend (A ++ [j]) (swapOutDeps j ij (markFailure e j s)) := by
              refine sub_npend _ _ _ hD ?_
              intro d hd
              constructor
              · rw [swapMark_pend e j ij s hmj d]
                obtain ⟨⟨di, hdi⟩, _⟩ := hDmem d hd
                simp [isPending, hdi]
              · exact hDnA d hd
            omega
          · intro d hd
            refine ⟨hDrank d hd, ?_, ?_⟩
            · obtain ⟨_, ⟨ds, hds, hjds⟩⟩ := hDmem d hd
              exact ⟨ds, hds, hjds⟩
            · left
              obtain ⟨⟨di, hdi⟩, _⟩ := hDmem d hd
              have hdj : d ≠ j := by
                intro hc
                exact hDnA d hd (by rw [hc]; simp)
              exact ⟨di, by rw [swapMark_find_ne e j ij s d hdj]; exact hdi⟩
        have hDpost := ihf.2 A j e ij.dependent_jobs
          (swapOutDeps j ij (markFailure e j s)) hpre2
        obtain ⟨s3, hs3⟩ : ∃ u, failDeps env f j e ij.dependent_jobs
            (swapOutDeps j ij (markFailure e j s)) = u := ⟨_, rfl⟩
        rw [hs3] at hDpost
        obtain ⟨d1, d2, d3, d4, d5, d6, d7, d8, d9, d10, d11, d12, d13, d14, d15,
          d16⟩ := hDpost
        obtain ⟨i3, hmj3, hi3dep, hi3seq, hi3fin⟩ := d1.active j (by simp)
        have hj32 : jstate s3 j = jstate (swapOutDeps j ij (markFailure e j s)) j := by
          by_contra hne
          exact absurd (d15 j hne) (lt_irrefl _)
        have hnog : ∀ x, x ≠ j → isPending s3 x = true → ¬ GhostEdge s3 j x := by
          intro x hxj hpx hge
          obtain ⟨ds, hds, hjds⟩ := hge
          rw [d7, f4] at hds
          have hpx2 := d3 x hpx
          rw [swapMark_pend e j ij s hmj x] at hpx2
          obtain ⟨xi, hxi⟩ := Option.isSome_iff_exists.mp hpx2
          rcases hFI.backlink_complete x xi hxi ds hds j hjds ij hmj with h | h
          · have hdead := (d2 x h).1
            simp [isPending, hdead] at hpx
          · exact hjA h
        obtain ⟨x1, x2, x3, x4, x5, x6, x7, x8, x9, x10, x11, x12, x13, x14⟩ :=
          finv_exit env rank hwf A s3 j i3 hjA hmj3 hi3seq hi3fin hnog d1 _ rfl
        have heq : failedF env (f + 1) j e s =
            retireJob j (cleanEdges j (env j).dependencies s3) := by
          rw [failedF_eq, hmj]
          simp only [Option.getD_some]
          rw [hs3]
        rw [heq]
        refine ⟨x1, x2, x3, ?_, ?_, ?_, ?_, ?_, ?_, ?_, ?_, ?_, ?_, ?_, ?_, ?_,
          ?_, ?_, ?_⟩
        · rw [x6 j, hj32, swapMark_jstate_self]
          rfl
        · rw [x6 j, hj32, swapMark_jstate_self]
          rfl
        · intro x hx
          have h1 := x4 x hx
          have h2 := d3 x h1
          rw [swapMark_pend e j ij s hmj x] at h2
          exact h2
        · intro x hx1 hx2
          by_cases hx3 : isPending s3 x = true
          · have hxj := x5 x hx3 hx2
            rw [hxj]
            refine ⟨x3, ?_, e, ?_⟩
            · rw [x6 j, hj32, swapMark_jstate_self]
              rfl
            · rw [x6 j, hj32, swapMark_jstate_self]
              rfl
          · have hx4 : isPending (swapOutDeps j ij (markFailure e j s)) x = true := by
              rw [swapMark_pend e j ij s hmj x]
              exact hx1
            have hx5 : isPending s3 x = false := by
              cases hb : isPending s3 x
              · rfl
              · exact absurd hb hx3
            obtain ⟨hf3, hif3, e2x, he2x⟩ := d4 x hx4 hx5
            exact ⟨x14 x hf3, by rw [x6 x]; exact hif3, e2x, by rw [x6 x]; exact he2x⟩
        · exact x7.trans (d5.trans f1)
        · exact x8.trans (d6.trans f3)
        · exact x9.trans (d7.trans f4)
        · exact x10.trans (d8.trans f5)
        · exact x11.trans (d9.trans f6)
        · exact x12.trans (d10.trans f7)
        · exact x13.trans (d11.trans f8)
        · intro x hx
          exact x14 x (d12 x (by rw [f2]; exact hx))
        · intro x hx
          have h2 : (jstate (swapOutDeps j ij (markFailure e j s)) x).is_finished
              = true := by
            by_cases hxj : x = j
            · rw [hxj, swapMark_jstate_self]
              rfl
            · rw [swapMark_jstate_ne e j ij s x hxj]
              exact hx
          rw [x6 x]
          exact d13 x h2
        · intro x hxj
          rcases d14 x hxj with h | h
          · left
            rw [x6 x, h, swapMark_jstate_ne e j ij s x hxj]
          · right
            rw [x6 x]
            exact h
        · intro x hx
          by_cases hxj : x = j
          · exact Or.inl hxj
          · right
            have h3 : jstate s3 x ≠ jstate (swapOutDeps j ij (markFailure e j s)) x := by
              intro hc
              apply hx
              rw [x6 x, hc, swapMark_jstate_ne e j ij s x hxj]
            exact d15 x h3
        · intro x hx
          have hfe : (cleanEdges j (env j).dependencies s3).finished_jobs
              = s3.finished_jobs :=
            (cleanEdges_effect j (env j).dependencies s3 (hwf.2 j)).2.2.1
          have hx1 : x ∈ sinsert (cleanEdges j (env j).dependencies s3
              ).finished_jobs j := hx
          rcases (mem_sinsert _ _ _).mp hx1 with h | h
          · exact Or.inr (Or.inl h)
          · rw [hfe] at h
            rcases d16 x h with h2 | h2 | h2
            · rw [f2] at h2
              exact Or.inl h2
            · obtain ⟨⟨di, hdi⟩, _⟩ := hDmem x h2
              exact Or.inr (Or.inr (by simp [isPending, hdi]))
            · rw [swapMark_pend e j ij s hmj x] at h2
              exact Or.inr (Or.inr h2)
      · -- the job is already finished: re-entered through operator[]
        have heq : failedF env (f + 1) j e s =
            retireJob j (cleanEdges j (env j).dependencies
              (swapOutDeps j {} (markFailure e j s))) := by
          rw [failedF_eq, hnp]
          rw [show (none : Option Info).getD {} = ({} : Info) from rfl]
          rw [show (({} : Info)).dependent_jobs = ([] : List Nat) from rfl]
          rw [failDeps_nil]
        exact failedF_dead env rank hwf A s j e hFI hnp hfin hjf hexc _ heq
    have hQ : ∀ A j e dl s, DPre env rank A j dl s (f + 1) →
        DPost env rank j e dl s (failDeps env (f + 1) j e dl s) A := by
      intro A j e dl
      induction dl with
      | nil =>
        intro s hpre
        rw [failDeps_nil]
        refine ⟨hpre.1, ?_, fun x h => h, ?_, rfl, rfl, rfl, rfl, rfl, rfl, rfl,
          fun x h => h, fun x h => h, fun x _ => Or.inl rfl, ?_,
          fun x h => Or.inl h⟩
        · intro d hd
          exact absurd hd (List.not_mem_nil d)
        · intro x h1 h2
          rw [h1] at h2
          cases h2
        · intro x hx
          exact absurd rfl hx
      | cons d ds ihdl =>
        intro s hpre
        obtain ⟨hFI, hfuel, hlen, hranks, hdl⟩ := hpre
        obtain ⟨hrankd, hged, hpd⟩ := hdl d (List.mem_cons_self _ _)
        have hdj : d ≠ j := by
          intro hc
          rw [hc] at hrankd
          omega
        have hpre1 : FPre env rank (A ++ [j]) d s (f + 1) := by
          refine ⟨hFI, hfuel, by omega, ?_⟩
          rcases hpd with ⟨di, hdi⟩ | hdead
          · left
            refine ⟨di, hdi, ?_, ?_, ?_⟩
            · intro hmem
              rcases List.mem_append.mp hmem with h | h
              · have h1 := hranks d h
                omega
              · have h2 : d = j := by simpa using h
                exact hdj h2
            · obtain ⟨ij3, hmj3, _, _, _⟩ := hFI.active j (by simp)
              obtain ⟨ds0, hds0, hjds0⟩ := hged
              by_contra hsn
              have hrc := hFI.rq_complete d di hdi hsn
              obtain ⟨i2, hf2, _, hdl2, _⟩ := hFI.rq_sound _ hrc
              rw [hdi] at hf2
              have hdieq : di = i2 := Option.some_inj.mp hf2
              have hdleq := hFI.deps_left_eq d di hdi ds0 hds0
              have hjp : j ∈ ds0.filter (fun x => isPending s x) :=
                List.mem_filter.mpr ⟨hjds0, by simp [isPending, hmj3]⟩
              have hpos := List.length_pos_of_mem hjp
              rw [hdieq] at hdleq
              omega
            · intro a ha
              rcases List.mem_append.mp ha with h | h
              · have h1 := hranks a h
                omega
              · have h2 : a = j := by simpa using h
                rw [h2]
                exact hrankd
          · right
            exact hdead
        have hFpost := hP (A ++ [j]) d (mkExn .DEPENDENCY_FAILED
          ("Load job " ++ (env d).name ++ " -> " ++ e.message)) s hpre1
        rw [failDeps_cons]
        obtain ⟨t1, ht1⟩ : ∃ u, failedF env (f + 1) d (mkExn .DEPENDENCY_FAILED
          ("Load job " ++ (env d).name ++ " -> " ++ e.message)) s = u := ⟨_, rfl⟩
        rw [ht1] at hFpost ⊢
        obtain ⟨p1, p2, p3, p4, p5, p6, p7, p8, p9, p10, p11, p12, p13, p14,
          p15, p16, p17, p18, p19⟩ := hFpost
        have hcm1 : CascadeMark env e d (jstate t1 d) := by
          refine ⟨p4, _, p5, rfl, ?_, e.message.data, by simp [mkExn]⟩
          exact mentions_prefix ("Load job " ++ (env d).name ++ " -> ") e.message
        have hpre3 : DPre env rank A j ds t1 (f + 1) := by
          refine ⟨p1, le_trans (npend_mono _ s t1 p1.keys_nodup p6) hfuel,
            by simp at hlen; omega, hranks, ?_⟩
          intro d2 hd2
          obtain ⟨hr2, hg2, hp2⟩ := hdl d2 (List.mem_cons_of_mem _ hd2)
          refine ⟨hr2, ?_, ?_⟩
          · obtain ⟨ds0, hds0, hjds0⟩ := hg2
            exact ⟨ds0, by rw [p10]; exact hds0, hjds0⟩
          · cases hp : isPending t1 d2 with
            | true =>
              left
              exact Option.isSome_iff_exists.mp hp
            | false =>
              right
              refine ⟨not_pending_none _ _ hp, ?_⟩
              rcases hp2 with ⟨di2, hdi2⟩ | ⟨hn2, hf2, hif2, e02, he02⟩
              · have hps : isPending s d2 = true := by simp [isPending, hdi2]
                obtain ⟨ha, hb, hc⟩ := p7 d2 hps hp
                exact ⟨ha, hb, hc⟩
              · by_cases hd2d : d2 = d
                · rw [hd2d]
                  exact ⟨p3, p4, mkExn .DEPENDENCY_FAILED
                    ("Load job " ++ (env d).name ++ " -> " ++ e.message), p5⟩
                · refine ⟨p15 d2 hf2, p16 d2 hif2, ?_⟩
                  rcases p17 d2 hd2d with h | h
                  · exact ⟨e02, by rw [h]; exact he02⟩
                  · obtain ⟨_, e2x, he2x, _⟩ := h
                    exact ⟨e2x, he2x⟩
        have hDpost2 := ihdl t1 hpre3
        obtain ⟨q1, q2, q3, q4, q5, q6, q7, q8, q9, q10, q11, q12, q13, q14, q15,
          q16⟩ := hDpost2
        refine ⟨q1, ?_, ?_, ?_, ?_, ?_, ?_, ?_, ?_, ?_, ?_, ?_, ?_, ?_, ?_, ?_⟩
        · intro d2 hd2
          rcases List.mem_cons.mp hd2 with h1 | h1
          · rw [h1]
            have hnp2 : isPending (failDeps env (f + 1) j e ds t1) d = false := by
              cases hb : isPending (failDeps env (f + 1) j e ds t1) d
              · rfl
              · exfalso
                have hq := q3 d hb
                simp [isPending, p2] at hq
            refine ⟨not_pending_none _ _ hnp2, q12 d p3, q13 d p4, ?_⟩
            rcases q14 d hdj with h | h
            · exact ⟨mkExn .DEPENDENCY_FAILED
                ("Load job " ++ (env d).name ++ " -> " ++ e.message),
                by rw [h]; exact p5⟩
            · obtain ⟨_, e3x, he3x, _⟩ := h
              exact ⟨e3x, he3x⟩
          · exact q2 d2 h1
        · intro x hx
          exact p6 x (q3 x hx)
        · intro x hx1 hx2
          by_cases hx3 : isPending t1 x = true
          · exact q4 x hx3 hx2
          · have hx5 : isPending t1 x = false := by
              cases hb : isPending t1 x
              · rfl
              · exact absurd hb hx3
            obtain ⟨ha, hb, e2x, hc⟩ := p7 x hx1 hx5
            have hxj : x ≠ j := by
              intro hcx
              obtain ⟨ij3, hmj3, _⟩ := p1.active j (by simp)
              rw [hcx] at hx5
              simp [isPending, hmj3] at hx5
            refine ⟨q12 x ha, q13 x hb, ?_⟩
            rcases q14 x hxj with h | h
            · exact ⟨e2x, by rw [h]; exact hc⟩
            · obtain ⟨_, e3x, he3x, _⟩ := h
              exact ⟨e3x, he3x⟩
        · exact q5.trans p8
        · exact q6.trans p9
        · exact q7.trans p10
        · exact q8.trans p11
        · exact q9.trans p12
        · exact q10.trans p13
        · exact q11.trans p14
        · intro x hx
          exact q12 x (p15 x hx)
        · intro x hx
          exact q13 x (p16 x hx)
        · intro x hxj
          rcases q14 x hxj with h | h
          · by_cases hxd : x = d
            · right
              rw [h, hxd]
              exact hcm1
            · rcases p17 x hxd with h2 | h2
              · left
                rw [h, h2]
              · right
                rw [h]
                refine CascadeMark_mono env e _ x _ h2 ?_
                exact mentions_prefix ("Load job " ++ (env d).name ++ " -> ") e.message
          · exact Or.inr h
        · intro x hx
          by_cases h1 : jstate (failDeps env (f + 1) j e ds t1) x = jstate t1 x
          · have h2 : jstate t1 x ≠ jstate s x := by
              intro hc
              exact hx (h1.trans hc)
            rcases p18 x h2 with h3 | h3
            · rw [h3]
              exact hrankd
            · omega
          · exact q15 x h1
        · intro x hx
          rcases q16 x hx with h | h | h
          · rcases p19 x h with h2 | h2 | h2
            · exact Or.inl h2
            · refine Or.inr (Or.inl ?_)
              rw [h2]
              exact List.mem_cons_self d ds
            · exact Or.inr (Or.inr h2)
          · exact Or.inr (Or.inl (List.mem_cons_of_mem d h))
          · exact Or.inr (Or.inr (p6 x h))
    exact ⟨hP, hQ⟩

theorem finv_nil_of_inv (env : Nat → LoadJob) (s : LoaderState) (hI : Inv env s)
    (hkn : KN s) : FInv env [] s :=
  ⟨hkn, hI.dep_nodup, fun j i h _ => hI.pending_unfinished j i h, hI.finished_done,
   hI.ghost_deps, hI.deps_left_eq, hI.extern_done,
   fun j i h ds hds d hd di hdi =>
     Or.inl (hI.backlink_complete j i h ds hds d hd di hdi),
   hI.backlink_sound, hI.prio_edge, hI.prio_init, hI.rq_sorted, hI.rq_sound,
   hI.rq_complete, hI.seqno_le, hI.seqno_inj,
   fun a ha => absurd ha (List.not_mem_nil a)⟩

theorem inv_of_finv_nil (env : Nat → LoadJob) (s : LoaderState) (hF : FInv env [] s) :
    Inv env s :=
  ⟨hF.dep_nodup, fun j i h => hF.pending_unfinished j i h (List.not_mem_nil j),
   hF.finished_done, hF.ghost_deps, hF.deps_left_eq, hF.extern_done,
   fun j i h ds hds d hd di hdi =>
     (hF.backlink_complete j i h ds hds d hd di hdi).resolve_right
       (List.not_mem_nil d),
   hF.backlink_sound, hF.prio_edge, hF.prio_init, hF.rq_sorted, hF.rq_sound,
   hF.rq_complete, hF.seqno_le, hF.seqno_inj⟩

theorem isExecuting_elim (s : LoaderState) (j : Nat) (h : isExecuting s j = true) :
    ∃ ij, mfind s.scheduled_jobs j = some ij ∧ ij.dependencies_left = 0 ∧
      ij.ready_seqno = 0 := by
  unfold isExecuting at h
  cases hm : mfind s.scheduled_jobs j with
  | none =>
    rw [hm] at h
    cases h
  | some i =>
    rw [hm] at h
    simp at h
    exact ⟨i, rfl, h.1, h.2⟩

theorem fail_commit (env : Nat → LoadJob) (rank : Nat → Nat) (hwf : WFEnv env rank)
    (s : LoaderState) (j : Nat) (e : Exn)
    (hexec : isExecuting s j = true) (hI : Inv env s) (hkn : KN s) :
    FPost env rank j e s (failedF env (s.scheduled_jobs.length + 1) j e s) [] := by
  have hF := finv_nil_of_inv env s hI hkn
  obtain ⟨ij, hmj, _, hsn⟩ := isExecuting_elim s j hexec
  have hpre : FPre env rank [] j s (s.scheduled_jobs.length + 1) := by
    refine ⟨hF, ?_, by omega,
      Or.inl ⟨ij, hmj, List.not_mem_nil j, hsn,
        fun a ha => absurd ha (List.not_mem_nil a)⟩⟩
    have := npend_le [] s
    omega
  exact (failed_master env rank hwf (s.scheduled_jobs.length + 1)).1 [] j e s hpre

theorem inv_commitFail (env : Nat → LoadJob) (rank : Nat → Nat) (hwf : WFEnv env rank)
    (s : LoaderState) (j : Nat) (e : Exn)
    (hexec : isExecuting s j = true) (hI : Inv env s) (hkn : KN s) :
    Inv env (failedF env (s.scheduled_jobs.length + 1) j e s) ∧
    KN (failedF env (s.scheduled_jobs.length + 1) j e s) := by
  have hpost := fail_commit env rank hwf s j e hexec hI hkn
  exact ⟨inv_of_finv_nil env _ hpost.1, hpost.1.keys_nodup⟩

theorem KN_enqueue (s : LoaderState) (j : Nat) (h : KN s) : KN (enqueue s j) := by
  unfold enqueue
  cases hm : mfind s.scheduled_jobs j with
  | none => exact h
  | some info =>
    by_cases hc : s.is_running = true ∧ s.workers < s.max_threads
    · simp only [if_pos hc]
      exact KN_mset _ _ _ h
    · simp only [if_neg hc]
      exact KN_mset _ _ _ h

theorem KN_loadedDeps : ∀ (dl : List Nat) (s : LoaderState), KN s →
    KN (loadedDeps dl s) := by
  intro dl
  induction dl with
  | nil => exact fun s h => h
  | cons d rest ih =>
    intro s h
    cases hm : mfind s.scheduled_jobs d with
    | none =>
      have ht : loadedDeps (d :: rest) s = loadedDeps rest s := by
        simp only [loadedDeps, hm]
      rw [ht]
      exact ih s h
    | some di =>
      have ht : loadedDeps (d :: rest) s =
          loadedDeps rest
            (if ({ di with dependencies_left := di.dependencies_left - 1 }
                 : Info).dependencies_left = 0 then
              enqueue (decDepState s d di) d
            else decDepState s d di) := by
        simp only [loadedDeps, hm]
      rw [ht]
      have hkd : KN (decDepState s d di) := KN_mset _ _ _ h
      by_cases hz : ({ di with dependencies_left := di.dependencies_left - 1 }
          : Info).dependencies_left = 0
      · rw [if_pos hz]
        exact ih _ (KN_enqueue _ _ hkd)
      · rw [if_neg hz]
        exact ih _ hkd

theorem KN_loadedOp (j : Nat) (s : LoaderState) (h : KN s) : KN (loadedOp j s) := by
  unfold loadedOp
  exact KN_merase _ _ (KN_loadedDeps _ _ h)

theorem KN_pick (s : LoaderState) (h : KN s) : KN (pickOp s) := by
  unfold pickOp
  cases s.ready_queue with
  | nil => exact h
  | cons e rest => exact KN_mupd _ _ _ h

theorem KN_prioritize (env : Nat → LoadJob) : ∀ fuel : Nat,
    (∀ j p s, KN s → KN (prioritizeF env fuel j p s)) ∧
    (∀ dl p s, KN s → KN (prioritizeDeps env fuel dl p s)) := by
  intro fuel
  induction fuel with
  | zero =>
    constructor
    · intro j p s h
      simpa [prioritizeF] using h
    · intro dl
      induction dl with
      | nil =>
        intro p s h
        simpa [prioritizeDeps] using h
      | cons d ds ih =>
        intro p s h
        rw [show prioritizeDeps env 0 (d :: ds) p s =
          prioritizeDeps env 0 ds p (prioritizeF env 0 d p s) from by
            simp only [prioritizeDeps]]
        rw [show prioritizeF env 0 d p s = s from by simp only [prioritizeF]]
        exact ih p s h
  | succ f ihf =>
    have hP : ∀ j p s, KN s → KN (prioritizeF env (f + 1) j p s) := by
      intro j p s h
      cases hm : mfind s.scheduled_jobs j with
      | none =>
        rw [show prioritizeF env (f + 1) j p s = s from by
          simp only [prioritizeF, hm]]
        exact h
      | some info =>
        by_cases hple : p ≤ info.priority
        · rw [show prioritizeF env (f + 1) j p s = s from by
            simp only [prioritizeF, hm, if_pos hple]]
          exact h
        · rw [show prioritizeF env (f + 1) j p s =
            prioritizeDeps env f (env j).dependencies p (prioStep j p s info) from by
              simp only [prioritizeF, hm, if_neg hple]]
          exact ihf.2 _ p _ (KN_mset _ _ _ h)
    refine ⟨hP, ?_⟩
    intro dl
    induction dl with
    | nil =>
      intro p s h
      simpa [prioritizeDeps] using h
    | cons d ds ih =>
      intro p s h
      rw [show prioritizeDeps env (f + 1) (d :: ds) p s =
        prioritizeDeps env (f + 1) ds p (prioritizeF env (f + 1) d p s) from by
          simp only [prioritizeDeps]]
      exact ih p _ (hP d p s h)

theorem KN_insertJobs (priority : Int) : ∀ (js : List Nat) (s : LoaderState), KN s →
    KN (insertJobs priority js s) := by
  intro js
  induction js with
  | nil => exact fun s h => h
  | cons j rest ih =>
    intro s h
    rw [show insertJobs priority (j :: rest) s = insertJobs priority rest
      { s with
        scheduled_jobs :=
          if (mfind s.scheduled_jobs j).isSome then s.scheduled_jobs
          else mset s.scheduled_jobs j { priority := priority },
        job_states := mset s.job_states j { jstate s j with jpriority := priority },
        sched_deps := mset s.sched_deps j [],
        sched_prio := mset s.sched_prio j priority } from by
        simp only [insertJobs]]
    apply ih
    show ((if (mfind s.scheduled_jobs j).isSome then s.scheduled_jobs
      else mset s.scheduled_jobs j { priority := priority }).map Prod.fst).Nodup
    by_cases hc : (mfind s.scheduled_jobs j).isSome
    · rw [if_pos hc]
      exact h
    · rw [if_neg hc]
      exact KN_mset _ _ _ h

theorem KN_processDeps (env : Nat → LoadJob) (rank : Nat → Nat) (priority : Int)
    (j : Nat) : ∀ (ds : List Nat) (s : LoaderState), KN s →
    KN (processDeps env rank priority j ds s) := by
  intro ds
  induction ds with
  | nil => exact fun s h => h
  | cons d rest ih =>
    intro s h
    cases hm : mfind s.scheduled_jobs d with
    | none =>
      rw [show processDeps env rank priority j (d :: rest) s =
        processDeps env rank priority j rest
          (prioritizeF env (rank d + 1) d priority s) from by
          simp only [processDeps, hm]]
      exact ih _ ((KN_prioritize env (rank d + 1)).1 d priority s h)
    | some dinfo =>
      rw [show processDeps env rank priority j (d :: rest) s =
        processDeps env rank priority j rest
          (prioritizeF env (rank d + 1) d priority (pdStep j d dinfo s)) from by
          simp only [processDeps, hm]]
      refine ih _ ((KN_prioritize env (rank d + 1)).1 d priority _ ?_)
      show ((mupd (mset s.scheduled_jobs d
        { dinfo with dependent_jobs := sinsert dinfo.dependent_jobs j }) j
        (fun i => { i with dependencies_left := i.dependencies_left + 1 })).map
          Prod.fst).Nodup
      exact KN_mupd _ _ _ (KN_mset _ _ _ h)

theorem KN_scheduleJobs (env : Nat → LoadJob) (rank : Nat → Nat) (priority : Int) :
    ∀ (js : List Nat) (s : LoaderState), KN s →
    KN (scheduleJobs env rank priority js s) := by
  intro js
  induction js with
  | nil => exact fun s h => h
  | cons j rest ih =>
    intro s h
    have h2 := KN_processDeps env rank priority j (env j).dependencies s h
    cases hm : mfind (processDeps env rank priority j (env j).dependencies s
        ).scheduled_jobs j with
    | none =>
      rw [show scheduleJobs env rank priority (j :: rest) s =
        scheduleJobs env rank priority rest
          (processDeps env rank priority j (env j).dependencies s) from by
          simp only [scheduleJobs, hm]]
      exact ih _ h2
    | some info =>
      by_cases hz : info.dependencies_left = 0
      · rw [show scheduleJobs env rank priority (j :: rest) s =
          scheduleJobs env rank priority rest
            (enqueue (processDeps env rank priority j (env j).dependencies s) j) from by
            simp only [scheduleJobs, hm, if_pos hz]]
        exact ih _ (KN_enqueue _ _ h2)
      · rw [show scheduleJobs env rank priority (j :: rest) s =
          scheduleJobs env rank priority rest
            (processDeps env rank priority j (env j).dependencies s) from by
            simp only [scheduleJobs, hm, if_neg hz]]
        exact ih _ h2

theorem sanity_facts (env : Nat → LoadJob) (s : LoaderState) :
    ∀ jobs : List Nat, sanityChecks env s jobs = .ok () →
    ∀ j ∈ jobs, (jstate s j).is_finished = false ∧ mfind s.scheduled_jobs j = none := by
  intro jobs
  induction jobs with
  | nil =>
    intro _ j hj
    cases hj
  | cons j0 rest ih =>
    intro hok j hj
    unfold sanityChecks at hok
    by_cases h1 : statusOf (jstate s j0) ≠ LoadStatus.PENDING
    · rw [if_pos h1] at hok
      cases hok
    · rw [if_neg h1] at hok
      by_cases h2 : (mfind s.scheduled_jobs j0).isSome
      · rw [if_pos h2] at hok
        cases hok
      · rw [if_neg h2] at hok
        rcases List.mem_cons.mp hj with hj1 | hj1
        · subst hj1
          constructor
          · have hst : statusOf (jstate s j) = LoadStatus.PENDING := not_not.mp h1
            unfold statusOf at hst
            by_cases hf : (jstate s j).is_finished = false
            · exact hf
            · rw [if_neg hf] at hst
              by_cases he : (jstate s j).exception.isSome
              · rw [if_pos he] at hst
                cases hst
              · rw [if_neg he] at hst
                cases hst
          · cases hm : mfind s.scheduled_jobs j with
            | none => rfl
            | some i =>
              exfalso
              exact h2 (by simp [hm])
        · exact ih hok j hj1

theorem inv_enqueue (env : Nat → LoadJob) (s : LoaderState) (j : Nat) (i : Info)
    (hm : mfind s.scheduled_jobs j = some i) (hdl : i.dependencies_left = 0)
    (hsn : i.ready_seqno = 0) (hI : Inv env s) : Inv env (enqueue s j) := by
  obtain ⟨esj, erq, elrs, ejs, efin, egd, egp, _, _, erqb, esle⟩ :=
    enqueue_effect s j i hm hsn hdl
      ⟨hI.rq_sorted, hI.rq_sound, hI.rq_complete, hI.seqno_inj⟩ hI.seqno_le
  obtain ⟨r1, r2, r3, r4⟩ := erqb
  have hfind : ∀ x ix, mfind (enqueue s j).scheduled_jobs x = some ix →
      ∃ ix0, mfind s.scheduled_jobs x = some ix0 ∧ ix.priority = ix0.priority ∧
        ix.dependencies_left = ix0.dependencies_left ∧
        ix.dependent_jobs = ix0.dependent_jobs := by
    intro x ix hx
    rw [esj] at hx
    by_cases hxj : x = j
    · rw [hxj, mfind_mset_self] at hx
      have hix : { i with ready_seqno := s.last_ready_seqno + 1 } = ix :=
        Option.some_inj.mp hx
      rw [hxj]
      exact ⟨i, hm, by rw [← hix], by rw [← hix], by rw [← hix]⟩
    · rw [mfind_mset_ne _ _ _ _ hxj] at hx
      exact ⟨ix, hx, rfl, rfl, rfl⟩
  have hpend : ∀ x, isPending (enqueue s j) x = isPending s x := by
    intro x
    unfold isPending
    rw [esj]
    by_cases hxj : x = j
    · rw [hxj, mfind_mset_self, hm]
      rfl
    · rw [mfind_mset_ne _ _ _ _ hxj]
  have hjst : ∀ x, jstate (enqueue s j) x = jstate s x := by
    intro x
    unfold jstate
    rw [ejs]
  refine ⟨?_, ?_, ?_, ?_, ?_, ?_, ?_, ?_, ?_, ?_, r1, r2, r3, esle, r4⟩
  · intro x ix hx
    obtain ⟨ix0, hx0, _, _, hdep⟩ := hfind x ix hx
    rw [hdep]
    exact hI.dep_nodup x ix0 hx0
  · intro x ix hx
    obtain ⟨ix0, hx0, _⟩ := hfind x ix hx
    rw [hjst x]
    exact hI.pending_unfinished x ix0 hx0
  · intro x hx
    rw [efin] at hx
    rw [hjst x]
    exact hI.finished_done x hx
  · intro x ix hx
    obtain ⟨ix0, hx0, _⟩ := hfind x ix hx
    rw [egd]
    exact hI.ghost_deps x ix0 hx0
  · intro x ix hx ds hds
    obtain ⟨ix0, hx0, _, hdleq, _⟩ := hfind x ix hx
    rw [egd] at hds
    have hfc : ds.filter (fun d => isPending (enqueue s j) d)
        = ds.filter (fun d => isPending s d) :=
      List.filter_congr (fun d _ => hpend d)
    rw [hfc, hdleq]
    exact hI.deps_left_eq x ix0 hx0 ds hds
  · intro x ix hx ds hds d hd hdp
    obtain ⟨ix0, hx0, _⟩ := hfind x ix hx
    rw [egd] at hds
    rw [hpend d] at hdp
    rw [hjst d]
    exact hI.extern_done x ix0 hx0 ds hds d hd hdp
  · intro x ix hx ds hds d hd di hdi
    obtain ⟨ix0, hx0, _⟩ := hfind x ix hx
    obtain ⟨di0, hd0, _, _, hdep⟩ := hfind d di hdi
    rw [egd] at hds
    rw [hdep]
    exact hI.backlink_complete x ix0 hx0 ds hds d hd di0 hd0
  · intro u iu hu x hx
    obtain ⟨iu0, h0, _, _, hdep⟩ := hfind u iu hu
    rw [hdep] at hx
    obtain ⟨⟨xi, hxi⟩, ⟨ds, hds, hm2⟩⟩ := hI.backlink_sound u iu0 h0 x hx
    constructor
    · have hp : isPending (enqueue s j) x = true := by
        rw [hpend x]
        simp [isPending, hxi]
      unfold isPending at hp
      exact Option.isSome_iff_exists.mp hp
    · exact ⟨ds, by rw [egd]; exact hds, hm2⟩
  · intro u iu hu x hx xi hxi
    obtain ⟨iu0, h0, hupr, _, hdep⟩ := hfind u iu hu
    rw [hdep] at hx
    obtain ⟨xi0, hx0, hxpr, _⟩ := hfind x xi hxi
    rw [hupr, hxpr]
    exact hI.prio_edge u iu0 h0 x hx xi0 hx0
  · intro x ix hx
    obtain ⟨ix0, h0, hpr, _⟩ := hfind x ix hx
    obtain ⟨p0, hp0, hle⟩ := hI.prio_init x ix0 h0
    exact ⟨p0, by rw [egp]; exact hp0, by rw [hpr]; exact hle⟩

theorem JSInv_enqueue (s : LoaderState) (j : Nat) (h : JSInv s) :
    JSInv (enqueue s j) := by
  intro x
  unfold jstate
  rw [(enqueue_pure s j).1]
  exact h x

theorem insertJobs_cons_fresh (p : Int) (j : Nat) (rest : List Nat) (s : LoaderState)
    (hm : mfind s.scheduled_jobs j = none) :
    insertJobs p (j :: rest) s = insertJobs p rest (insOne p j s) := by
  simp only [insertJobs, insOne, hm, Option.isSome_none, Bool.false_eq_true, if_false]

theorem insOne_find_self (p : Int) (j : Nat) (s : LoaderState) :
    mfind (insOne p j s).scheduled_jobs j = some { priority := p } := by
  unfold insOne
  exact mfind_mset_self _ _ _

theorem insOne_find_ne (p : Int) (j : Nat) (s : LoaderState) (x : Nat) (h : x ≠ j) :
    mfind (insOne p j s).scheduled_jobs x = mfind s.scheduled_jobs x := by
  unfold insOne
  exact mfind_mset_ne _ _ _ _ h

theorem insOne_gd_self (p : Int) (j : Nat) (s : LoaderState) :
    mfind (insOne p j s).sched_deps j = some [] := by
  unfold insOne
  exact mfind_mset_self _ _ _

theorem insOne_gd_ne (p : Int) (j : Nat) (s : LoaderState) (x : Nat) (h : x ≠ j) :
    mfind (insOne p j s).sched_deps x = mfind s.sched_deps x := by
  unfold insOne
  exact mfind_mset_ne _ _ _ _ h

theorem insOne_gp_self (p : Int) (j : Nat) (s : LoaderState) :
    mfind (insOne p j s).sched_prio j = some p := by
  unfold insOne
  exact mfind_mset_self _ _ _

theorem insOne_gp_ne (p : Int) (j : Nat) (s : LoaderState) (x : Nat) (h : x ≠ j) :
    mfind (insOne p j s).sched_prio x = mfind s.sched_prio x := by
  unfold insOne
  exact mfind_mset_ne _ _ _ _ h

theorem insOne_jstate_self (p : Int) (j : Nat) (s : LoaderState) :
    jstate (insOne p j s) j = { jstate s j with jpriority := p } := by
  unfold jstate insOne
  show (mfind (mset s.job_states j
    { (mfind s.job_states j).getD {} with jpriority := p }) j).getD {} = _
  rw [mfind_mset_self]
  rfl

theorem insOne_jstate_ne (p : Int) (j : Nat) (s : LoaderState) (x : Nat) (h : x ≠ j) :
    jstate (insOne p j s) x = jstate s x := by
  unfold jstate insOne
  show (mfind (mset s.job_states j
    { (mfind s.job_states j).getD {} with jpriority := p }) x).getD {} = _
  rw [mfind_mset_ne _ _ _ _ h]

theorem insOne_fields (p : Int) (j : Nat) (s : LoaderState) :
    (insOne p j s).ready_queue = s.ready_queue ∧
    (insOne p j s).finished_jobs = s.finished_jobs ∧
    (insOne p j s).last_ready_seqno = s.last_ready_seqno ∧
    (insOne p j s).is_running = s.is_running ∧
    (insOne p j s).max_threads = s.max_threads ∧
    (insOne p j s).workers = s.workers :=
  ⟨rfl, rfl, rfl, rfl, rfl, rfl⟩

theorem inv_insOne (env : Nat → LoadJob) (p : Int) (j : Nat) (s : LoaderState)
    (hm : mfind s.scheduled_jobs j = none)
    (hf : (jstate s j).is_finished = false)
    (hI : Inv env s) (hkn : KN s) (hjsi : JSInv s) :
    Inv env (insOne p j s) ∧ KN (insOne p j s) ∧ JSInv (insOne p j s) := by
  have hexc : (jstate s j).exception = none := hjsi j hf
  have hjfin : j ∉ s.finished_jobs := by
    intro h
    have h2 := hI.finished_done j h
    rw [hf] at h2
    cases h2
  have hjds : ∀ x xi, mfind s.scheduled_jobs x = some xi →
      ∀ ds, mfind s.sched_deps x = some ds → j ∉ ds := by
    intro x xi hx ds hds hj
    have h2 := (hI.extern_done x xi hx ds hds j hj (by simp [isPending, hm])).1
    rw [hf] at h2
    cases h2
  have hfind : ∀ x ix, mfind (insOne p j s).scheduled_jobs x = some ix →
      (x = j ∧ ix = { priority := p }) ∨
      (x ≠ j ∧ mfind s.scheduled_jobs x = some ix) := by
    intro x ix hx
    by_cases hxj : x = j
    · left
      rw [hxj, insOne_find_self] at hx
      exact ⟨hxj, (Option.some_inj.mp hx).symm⟩
    · right
      rw [insOne_find_ne p j s x hxj] at hx
      exact ⟨hxj, hx⟩
  have hpend : ∀ x, x ≠ j → isPending (insOne p j s) x = isPending s x := by
    intro x hx
    unfold isPending
    rw [insOne_find_ne p j s x hx]
  have hpendj : isPending (insOne p j s) j = true := by
    simp [isPending, insOne_find_self]
  refine ⟨⟨?_, ?_, ?_, ?_, ?_, ?_, ?_, ?_, ?_, ?_, ?_, ?_, ?_, ?_, ?_⟩,
    KN_mset _ _ _ hkn, ?_⟩
  · intro x ix hx
    rcases hfind x ix hx with ⟨hxj, hix⟩ | ⟨hxj, hx0⟩
    · rw [hix]
      exact List.nodup_nil
    · exact hI.dep_nodup x ix hx0
  · intro x ix hx
    rcases hfind x ix hx with ⟨hxj, _⟩ | ⟨hxj, hx0⟩
    · rw [hxj, insOne_jstate_self]
      exact ⟨hf, hexc⟩
    · rw [insOne_jstate_ne p j s x hxj]
      exact hI.pending_unfinished x ix hx0
  · intro x hx
    show (jstate (insOne p j s) x).is_finished = true
    have hxj : x ≠ j := fun hc => hjfin (hc ▸ hx)
    rw [insOne_jstate_ne p j s x hxj]
    exact hI.finished_done x hx
  · intro x ix hx
    rcases hfind x ix hx with ⟨hxj, _⟩ | ⟨hxj, hx0⟩
    · exact ⟨[], by rw [hxj]; exact insOne_gd_self p j s, List.nil_sublist _⟩
    · obtain ⟨ds, hds, hsub⟩ := hI.ghost_deps x ix hx0
      exact ⟨ds, by rw [insOne_gd_ne p j s x hxj]; exact hds, hsub⟩
  · intro x ix hx ds hds
    rcases hfind x ix hx with ⟨hxj, hix⟩ | ⟨hxj, hx0⟩
    · rw [hxj, insOne_gd_self] at hds
      have hde : ds = [] := (Option.some_inj.mp hds).symm
      rw [hde, hix]
      rfl
    · rw [insOne_gd_ne p j s x hxj] at hds
      have hfc : ds.filter (fun d => isPending (insOne p j s) d)
          = ds.filter (fun d => isPending s d) := by
        refine List.filter_congr ?_
        intro d hd
        have hdj : d ≠ j := fun hc => hjds x ix hx0 ds hds (hc ▸ hd)
        exact hpend d hdj
      rw [hfc]
      exact hI.deps_left_eq x ix hx0 ds hds
  · intro x ix hx ds hds d hd hdp
    rcases hfind x ix hx with ⟨hxj, _⟩ | ⟨hxj, hx0⟩
    · rw [hxj, insOne_gd_self] at hds
      have hde : ds = [] := (Option.some_inj.mp hds).symm
      rw [hde] at hd
      cases hd
    · rw [insOne_gd_ne p j s x hxj] at hds
      have hdj : d ≠ j := fun hc => hjds x ix hx0 ds hds (hc ▸ hd)
      rw [hpend d hdj] at hdp
      rw [insOne_jstate_ne p j s d hdj]
      exact hI.extern_done x ix hx0 ds hds d hd hdp
  · intro x ix hx ds hds d hd di hdi
    rcases hfind x ix hx with ⟨hxj, _⟩ | ⟨hxj, hx0⟩
    · rw [hxj, insOne_gd_self] at hds
      have hde : ds = [] := (Option.some_inj.mp hds).symm
      rw [hde] at hd
      cases hd
    · rw [insOne_gd_ne p j s x hxj] at hds
      have hdj : d ≠ j := fun hc => hjds x ix hx0 ds hds (hc ▸ hd)
      rcases hfind d di hdi with ⟨hdj2, _⟩ | ⟨hdj2, hd0⟩
      · exact absurd hdj2 hdj
      · exact hI.backlink_complete x ix hx0 ds hds d hd di hd0
  · intro u iu hu x hx
    rcases hfind u iu hu with ⟨huj, hiu⟩ | ⟨huj, hu0⟩
    · rw [hiu] at hx
      exact absurd hx (List.not_mem_nil x)
    · obtain ⟨⟨xi, hxi⟩, ⟨ds, hds, hm2⟩⟩ := hI.backlink_sound u iu hu0 x hx
      have hxj : x ≠ j := by
        intro hc
        rw [hc, hm] at hxi
        cases hxi
      constructor
      · exact ⟨xi, by rw [insOne_find_ne p j s x hxj]; exact hxi⟩
      · exact ⟨ds, by rw [insOne_gd_ne p j s x hxj]; exact hds, hm2⟩
  · intro u iu hu x hx xi hxi
    rcases hfind u iu hu with ⟨huj, hiu⟩ | ⟨huj, hu0⟩
    · rw [hiu] at hx
      exact absurd hx (List.not_mem_nil x)
    · obtain ⟨⟨xi0, hxi0⟩, _⟩ := hI.backlink_sound u iu hu0 x hx
      have hxj : x ≠ j := by
        intro hc
        rw [hc, hm] at hxi0
        cases hxi0
      rw [insOne_find_ne p j s x hxj] at hxi
      exact hI.prio_edge u iu hu0 x hx xi hxi
  · intro x ix hx
    rcases hfind x ix hx with ⟨hxj, hix⟩ | ⟨hxj, hx0⟩
    · refine ⟨p, by rw [hxj]; exact insOne_gp_self p j s, ?_⟩
      rw [hix]
    · obtain ⟨p0, hp0, hle⟩ := hI.prio_init x ix hx0
      exact ⟨p0, by rw [insOne_gp_ne p j s x hxj]; exact hp0, hle⟩
  · exact hI.rq_sorted
  · intro en hen
    obtain ⟨i, hfi, hki, hdli, hsni⟩ := hI.rq_sound en hen
    have hej : en.2 ≠ j := by
      intro hc
      rw [hc, hm] at hfi
      cases hfi
    exact ⟨i, by rw [insOne_find_ne p j s en.2 hej]; exact hfi, hki, hdli, hsni⟩
  · intro x ix hx hsn
    rcases hfind x ix hx with ⟨hxj, hix⟩ | ⟨hxj, hx0⟩
    · exfalso
      rw [hix] at hsn
      exact hsn rfl
    · exact hI.rq_complete x ix hx0 hsn
  · intro x ix hx
    rcases hfind x ix hx with ⟨hxj, hix⟩ | ⟨hxj, hx0⟩
    · rw [hix]
      exact Nat.zero_le _
    · exact hI.seqno_le x ix hx0
  · intro x ix y iy hx hy hnx heq
    rcases hfind x ix hx with ⟨hxj, hix⟩ | ⟨hxj, hx0⟩
    · exfalso
      rw [hix] at hnx
      exact hnx rfl
    · rcases hfind y iy hy with ⟨hyj, hiy⟩ | ⟨hyj, hy0⟩
      · exfalso
        rw [hiy] at heq
        exact hnx heq
      · exact hI.seqno_inj x ix y iy hx0 hy0 hnx heq
  · intro x hx
    by_cases hxj : x = j
    · rw [hxj, insOne_jstate_self] at hx ⊢
      exact hjsi j hx
    · rw [insOne_jstate_ne p j s x hxj] at hx ⊢
      exact hjsi x hx

theorem insertJobs_master (env : Nat → LoadJob) (p : Int) :
    ∀ (jobs : List Nat) (s : LoaderState), jobs.Nodup →
    (∀ j ∈ jobs, (jstate s j).is_finished = false ∧ mfind s.scheduled_jobs j = none) →
    Inv env s → KN s → JSInv s →
    Inv env (insertJobs p jobs s) ∧ KN (insertJobs p jobs s) ∧
    JSInv (insertJobs p jobs s) ∧
    (∀ x ∈ jobs,
      mfind (insertJobs p jobs s).scheduled_jobs x = some { priority := p } ∧
      mfind (insertJobs p jobs s).sched_deps x = some [] ∧
      mfind (insertJobs p jobs s).sched_prio x = some p) ∧
    (∀ x, x ∉ jobs →
      mfind (insertJobs p jobs s).scheduled_jobs x = mfind s.scheduled_jobs x ∧
      mfind (insertJobs p jobs s).sched_deps x = mfind s.sched_deps x ∧
      mfind (insertJobs p jobs s).sched_prio x = mfind s.sched_prio x ∧
      jstate (insertJobs p jobs s) x = jstate s x) ∧
    (insertJobs p jobs s).ready_queue = s.ready_queue ∧
    (insertJobs p jobs s).finished_jobs = s.finished_jobs ∧
    (insertJobs p jobs s).last_ready_seqno = s.last_ready_seqno ∧
    (insertJobs p jobs s).is_running = s.is_running ∧
    (insertJobs p jobs s).max_threads = s.max_threads ∧
    (insertJobs p jobs s).workers = s.workers := by
  intro jobs
  induction jobs with
  | nil =>
    intro s _ _ hI hkn hjsi
    exact ⟨hI, hkn, hjsi, fun x hx => absurd hx (List.not_mem_nil x),
      fun x _ => ⟨rfl, rfl, rfl, rfl⟩, rfl, rfl, rfl, rfl, rfl, rfl⟩
  | cons j rest ih =>
    intro s hnd hpre hI hkn hjsi
    rcases List.nodup_cons.mp hnd with ⟨hjr, hndr⟩
    obtain ⟨hf, hm⟩ := hpre j (List.mem_cons_self _ _)
    rw [insertJobs_cons_fresh p j rest s hm]
    obtain ⟨hI2, hkn2, hjsi2⟩ := inv_insOne env p j s hm hf hI hkn hjsi
    have hpre2 : ∀ x ∈ rest, (jstate (insOne p j s) x).is_finished = false ∧
        mfind (insOne p j s).scheduled_jobs x = none := by
      intro x hx
      have hxj : x ≠ j := fun hc => hjr (hc ▸ hx)
      obtain ⟨ha, hb⟩ := hpre x (List.mem_cons_of_mem _ hx)
      exact ⟨by rw [insOne_jstate_ne p j s x hxj]; exact ha,
        by rw [insOne_find_ne p j s x hxj]; exact hb⟩
    obtain ⟨c1, c2, c3, c4, c5, c6, c7, c8, c9, c10, c11⟩ :=
      ih (insOne p j s) hndr hpre2 hI2 hkn2 hjsi2
    obtain ⟨g1, g2, g3, g4, g5, g6⟩ := insOne_fields p j s
    refine ⟨c1, c2, c3, ?_, ?_, c6.trans g1, c7.trans g2, c8.trans g3,
      c9.trans g4, c10.trans g5, c11.trans g6⟩
    · intro x hx
      rcases List.mem_cons.mp hx with h1 | h1
      · obtain ⟨u1, u2, u3, _⟩ := c5 x (h1 ▸ hjr)
        rw [h1] at u1 u2 u3 ⊢
        exact ⟨u1.trans (insOne_find_self p j s),
          u2.trans (insOne_gd_self p j s), u3.trans (insOne_gp_self p j s)⟩
      · exact c4 x h1
    · intro x hx
      have hxj : x ≠ j := fun hc => hx (by rw [hc]; exact List.mem_cons_self _ _)
      have hxr : x ∉ rest := fun hc => hx (List.mem_cons_of_mem _ hc)
      obtain ⟨u1, u2, u3, u4⟩ := c5 x hxr
      exact ⟨u1.trans (insOne_find_ne p j s x hxj),
        u2.trans (insOne_gd_ne p j s x hxj),
        u3.trans (insOne_gp_ne p j s x hxj),
        u4.trans (insOne_jstate_ne p j s x hxj)⟩

theorem pdStep_gd_self (j d : Nat) (dinfo : Info) (s : LoaderState) (ga : List Nat)
    (hga : mfind s.sched_deps j = some ga) :
    mfind (pdStep j d dinfo s).sched_deps j = some (ga ++ [d]) := by
  unfold pdStep
  exact mfind_mupd_self _ _ _ _ hga

theorem pdStep_gd_ne (j d : Nat) (dinfo : Info) (s : LoaderState) (x : Nat)
    (h : x ≠ j) :
    mfind (pdStep j d dinfo s).sched_deps x = mfind s.sched_deps x := by
  unfold pdStep
  exact mfind_mupd_ne _ _ _ _ h

theorem pdStep_find_j (j d : Nat) (dinfo ji : Info) (s : LoaderState)
    (hdj : d ≠ j) (hmj : mfind s.scheduled_jobs j = some ji) :
    mfind (pdStep j d dinfo s).scheduled_jobs j =
      some { ji with dependencies_left := ji.dependencies_left + 1 } := by
  unfold pdStep
  have h1 : mfind (mset s.scheduled_jobs d
      { dinfo with dependent_jobs := sinsert dinfo.dependent_jobs j }) j = some ji := by
    rw [mfind_mset_ne _ _ _ _ (Ne.symm hdj)]
    exact hmj
  exact mfind_mupd_self _ _ _ _ h1

theorem pdStep_find_d (j d : Nat) (dinfo : Info) (s : LoaderState) (hdj : d ≠ j) :
    mfind (pdStep j d dinfo s).scheduled_jobs d =
      some { dinfo with dependent_jobs := sinsert dinfo.dependent_jobs j } := by
  unfold pdStep
  rw [mfind_mupd_ne _ _ _ _ hdj]
  exact mfind_mset_self _ _ _

theorem pdStep_find_ne (j d : Nat) (dinfo : Info) (s : LoaderState) (x : Nat)
    (hxj : x ≠ j) (hxd : x ≠ d) :
    mfind (pdStep j d dinfo s).scheduled_jobs x = mfind s.scheduled_jobs x := by
  unfold pdStep
  rw [mfind_mupd_ne _ _ _ _ hxj]
  exact mfind_mset_ne _ _ _ _ hxd

theorem pdStep_fields (j d : Nat) (dinfo : Info) (s : LoaderState) :
    (pdStep j d dinfo s).job_states = s.job_states ∧
    (pdStep j d dinfo s).ready_queue = s.ready_queue ∧
    (pdStep j d dinfo s).finished_jobs = s.finished_jobs ∧
    (pdStep j d dinfo s).last_ready_seqno = s.last_ready_seqno ∧
    (pdStep j d dinfo s).sched_prio = s.sched_prio ∧
    (pdStep j d dinfo s).is_running = s.is_running ∧
    (pdStep j d dinfo s).max_threads = s.max_threads ∧
    (pdStep j d dinfo s).workers = s.workers :=
  ⟨rfl, rfl, rfl, rfl, rfl, rfl, rfl, rfl⟩

theorem pdStep_char (j d : Nat) (dinfo ji : Info) (s : LoaderState)
    (hdj : d ≠ j) (hmj : mfind s.scheduled_jobs j = some ji)
    (hdi : mfind s.scheduled_jobs d = some dinfo) :
    ∀ x ix, mfind (pdStep j d dinfo s).scheduled_jobs x = some ix →
      ∃ ix0, mfind s.scheduled_jobs x = some ix0 ∧ ix.priority = ix0.priority ∧
        ix.ready_seqno = ix0.ready_seqno ∧
        (ix.dependencies_left = ix0.dependencies_left ∨ x = j) ∧
        (ix.dependent_jobs = ix0.dependent_jobs ∨ x = d) := by
  intro x ix hx
  by_cases hxj : x = j
  · rw [hxj, pdStep_find_j j d dinfo ji s hdj hmj] at hx
    have hi : { ji with dependencies_left := ji.dependencies_left + 1 } = ix :=
      Option.some_inj.mp hx
    exact ⟨ji, by rw [hxj]; exact hmj, by rw [← hi], by rw [← hi],
      Or.inr hxj, Or.inl (by rw [← hi])⟩
  · by_cases hxd : x = d
    · rw [hxd, pdStep_find_d j d dinfo s hdj] at hx
      have hi : { dinfo with dependent_jobs := sinsert dinfo.dependent_jobs j } = ix :=
        Option.some_inj.mp hx
      exact ⟨dinfo, by rw [hxd]; exact hdi, by rw [← hi], by rw [← hi],
        Or.inl (by rw [← hi]), Or.inr hxd⟩
    · rw [pdStep_find_ne j d dinfo s x hxj hxd] at hx
      exact ⟨ix, hx, rfl, rfl, Or.inl rfl, Or.inl rfl⟩

theorem pdStep_pend (j d : Nat) (dinfo ji : Info) (s : LoaderState)
    (hdj : d ≠ j) (hmj : mfind s.scheduled_jobs j = some ji)
    (hdi : mfind s.scheduled_jobs d = some dinfo) :
    ∀ x, isPending (pdStep j d dinfo s) x = isPending s x := by
  intro x
  unfold isPending
  by_cases hxj : x = j
  · rw [hxj, pdStep_find_j j d dinfo ji s hdj hmj, hmj]
    rfl
  · by_cases hxd : x = d
    · rw [hxd, pdStep_find_d j d dinfo s hdj, hdi]
      rfl
    · rw [pdStep_find_ne j d dinfo s x hxj hxd]

theorem pd_step (env : Nat → LoadJob) (rank : Nat → Nat) (hwf : WFEnv env rank)
    (p : Int) (j d : Nat) (s : LoaderState) (ji dinfo : Info) (ga : List Nat)
    (hdjm : d ∈ (env j).dependencies)
    (hmj : mfind s.scheduled_jobs j = some ji)
    (hjp : ji.priority = p) (hjsn : ji.ready_seqno = 0)
    (hdi : mfind s.scheduled_jobs d = some dinfo)
    (hga : mfind s.sched_deps j = some ga)
    (hgasub : List.Sublist (ga ++ [d]) (env j).dependencies)
    (hI : Inv env s) (hkn : KN s) (hjsi : JSInv s) :
    ∀ u, u = prioritizeF env (rank d + 1) d p (pdStep j d dinfo s) →
    Inv env u ∧ KN u ∧ JSInv u ∧
    (∃ ji2, mfind u.scheduled_jobs j = some ji2 ∧ ji2.priority = p ∧
      ji2.ready_seqno = 0 ∧ ji2.dependencies_left = ji.dependencies_left + 1 ∧
      ji2.dependent_jobs = ji.dependent_jobs) ∧
    mfind u.sched_deps j = some (ga ++ [d]) ∧
    (∀ x, x ≠ j → mfind u.sched_deps x = mfind s.sched_deps x) ∧
    u.sched_prio = s.sched_prio ∧
    (∀ x, isPending u x = isPending s x) ∧
    (∀ di2, mfind u.scheduled_jobs d = some di2 → j ∈ di2.dependent_jobs) ∧
    (∀ x, x ≠ j → ∀ ix, mfind u.scheduled_jobs x = some ix →
      ∃ ix0, mfind s.scheduled_jobs x = some ix0 ∧
        ix.dependencies_left = ix0.dependencies_left ∧
        ix.ready_seqno = ix0.ready_seqno ∧
        (ix.dependent_jobs = ix0.dependent_jobs ∨
          (x = d ∧ ix.dependent_jobs = sinsert ix0.dependent_jobs j)) ∧
        (ix.priority = ix0.priority ∨ ix.priority = p)) ∧
    u.finished_jobs = s.finished_jobs ∧
    u.last_ready_seqno = s.last_ready_seqno ∧
    u.is_running = s.is_running ∧ u.max_threads = s.max_threads ∧
    u.workers = s.workers ∧
    (∀ x, (jstate u x).is_finished = (jstate s x).is_finished ∧
      (jstate u x).exception = (jstate s x).exception) := by
  intro u hu
  have hrkdj : rank d < rank j := hwf.1 j d hdjm
  have hdj : d ≠ j := by
    intro hc
    rw [hc] at hrkdj
    omega
  have hchar2 := pdStep_char j d dinfo ji s hdj hmj hdi
  have hpend2 := pdStep_pend j d dinfo ji s hdj hmj hdi
  obtain ⟨g1, g2, g3, g4, g5, g6, g7, g8⟩ := pdStep_fields j d dinfo s
  have hjst2 : ∀ x, jstate (pdStep j d dinfo s) x = jstate s x := by
    intro x
    unfold jstate
    rw [g1]
  have hfd2 := pdStep_find_d j d dinfo s hdj
  have hfj2 := pdStep_find_j j d dinfo ji s hdj hmj
  have hrqb2 : RQB (pdStep j d dinfo s) := by
    refine ⟨by rw [g2]; exact hI.rq_sorted, ?_, ?_, ?_⟩
    · intro en hen
      rw [g2] at hen
      obtain ⟨i, hfi, hki, hdli, hsni⟩ := hI.rq_sound en hen
      by_cases hej : en.2 = j
      · exfalso
        rw [hej, hmj] at hfi
        have hie : ji = i := Option.some_inj.mp hfi
        rw [← hie, hjsn] at hsni
        exact hsni rfl
      · by_cases hed : en.2 = d
        · refine ⟨{ dinfo with dependent_jobs := sinsert dinfo.dependent_jobs j },
            by rw [hed]; exact hfd2, ?_, ?_, ?_⟩
          · rw [hed, hdi] at hfi
            have hdie : dinfo = i := Option.some_inj.mp hfi
            rw [← hdie] at hki
            exact hki
          · rw [hed, hdi] at hfi
            have hdie : dinfo = i := Option.some_inj.mp hfi
            rw [← hdie] at hdli
            exact hdli
          · rw [hed, hdi] at hfi
            have hdie : dinfo = i := Option.some_inj.mp hfi
            rw [← hdie] at hsni
            exact hsni
        · exact ⟨i, by rw [pdStep_find_ne j d dinfo s en.2 hej hed]; exact hfi,
            hki, hdli, hsni⟩
    · intro x ix hx hsn
      obtain ⟨ix0, hx0, hpr, hsq, _⟩ := hchar2 x ix hx
      rw [hsq] at hsn
      have hkey : Info.key ix = Info.key ix0 := by
        unfold Info.key
        rw [hpr, hsq]
      rw [g2, hkey]
      exact hI.rq_complete x ix0 hx0 hsn
    · intro x ix y iy hx hy hnx heq
      obtain ⟨ix0, hx0, _, hsq, _⟩ := hchar2 x ix hx
      obtain ⟨iy0, hy0, _, hsqy, _⟩ := hchar2 y iy hy
      rw [hsq] at hnx heq
      rw [hsqy] at heq
      exact hI.seqno_inj x ix0 y iy0 hx0 hy0 hnx heq
  have hbls2 : BLS (pdStep j d dinfo s) := by
    intro x ix hx y hy
    obtain ⟨ix0, hx0, _, _, _, hdep⟩ := hchar2 x ix hx
    have hyfacts : (∃ yi, mfind s.scheduled_jobs y = some yi) ∧
        (GhostEdge s x y ∨ (x = d ∧ y = j)) := by
      rcases hdep with hd1 | hd1
      · rw [hd1] at hy
        obtain ⟨hex, hge⟩ := hI.backlink_sound x ix0 hx0 y hy
        exact ⟨hex, Or.inl hge⟩
      · rw [hd1, hfd2] at hx
        have hxe : { dinfo with dependent_jobs := sinsert dinfo.dependent_jobs j }
            = ix := Option.some_inj.mp hx
        rw [← hxe] at hy
        rcases (mem_sinsert _ _ _).mp hy with hy1 | hy1
        · exact ⟨⟨ji, by rw [hy1]; exact hmj⟩, Or.inr ⟨hd1, hy1⟩⟩
        · obtain ⟨hex, hge⟩ := hI.backlink_sound d dinfo hdi y hy1
          refine ⟨hex, Or.inl ?_⟩
          rw [hd1]
          exact hge
    obtain ⟨⟨yi, hyi⟩, hge⟩ := hyfacts
    constructor
    · by_cases hyj : y = j
      · exact ⟨_, by rw [hyj]; exact hfj2⟩
      · by_cases hyd : y = d
        · exact ⟨_, by rw [hyd]; exact hfd2⟩
        · exact ⟨yi, by rw [pdStep_find_ne j d dinfo s y hyj hyd]; exact hyi⟩
    · rcases hge with hge | ⟨hxd, hyj⟩
      · obtain ⟨ds, hds, hm2⟩ := hge
        by_cases hyj : y = j
        · refine ⟨ga ++ [d], by rw [hyj]; exact pdStep_gd_self j d dinfo s ga hga, ?_⟩
          rw [hyj, hga] at hds
          have hdsg : ga = ds := Option.some_inj.mp hds
          rw [← hdsg] at hm2
          exact List.mem_append_left _ hm2
        · exact ⟨ds, by rw [pdStep_gd_ne j d dinfo s y hyj]; exact hds, hm2⟩
      · exact ⟨ga ++ [d], by rw [hyj]; exact pdStep_gd_self j d dinfo s ga hga,
          by rw [hxd]; simp⟩
  have hgds2 : GDS env (pdStep j d dinfo s) := by
    intro x ix hx
    obtain ⟨ix0, hx0, _⟩ := hchar2 x ix hx
    by_cases hxj : x = j
    · exact ⟨ga ++ [d], by rw [hxj]; exact pdStep_gd_self j d dinfo s ga hga,
        by rw [hxj]; exact hgasub⟩
    · obtain ⟨ds, hds, hsub⟩ := hI.ghost_deps x ix0 hx0
      exact ⟨ds, by rw [pdStep_gd_ne j d dinfo s x hxj]; exact hds, hsub⟩
  have hbroken2 : ∀ u2 x, ¬ EdgeOK (pdStep j d dinfo s) u2 x → u2 = d ∧ x = j := by
    intro u2 x hbr
    unfold EdgeOK at hbr
    push_neg at hbr
    obtain ⟨iu, xi, hfu, hfx, hmem, hlt⟩ := hbr
    obtain ⟨xi0, hx0, hxpr, _⟩ := hchar2 x xi hfx
    by_cases hud : u2 = d
    · refine ⟨hud, ?_⟩
      rw [hud, hfd2] at hfu
      have hiu : { dinfo with dependent_jobs := sinsert dinfo.dependent_jobs j } = iu :=
        Option.some_inj.mp hfu
      have hiupr : iu.priority = dinfo.priority := by rw [← hiu]
      have hmem2 : x ∈ sinsert dinfo.dependent_jobs j := by
        rw [← hiu] at hmem
        exact hmem
      rcases (mem_sinsert _ _ _).mp hmem2 with h1 | h1
      · exact h1
      · exfalso
        have hle : xi.priority ≤ dinfo.priority := by
          rw [hxpr]
          exact hI.prio_edge d dinfo hdi x h1 xi0 hx0
        rw [hiupr] at hlt
        omega
    · exfalso
      obtain ⟨iu0, hu0, hupr, _, _, hudep⟩ := hchar2 u2 iu hfu
      rcases hudep with h1 | h1
      · rw [h1] at hmem
        have hle : xi.priority ≤ iu.priority := by
          rw [hxpr, hupr]
          exact hI.prio_edge u2 iu0 hu0 x hmem xi0 hx0
        omega
      · exact hud h1
  have hbound : ∀ u2 x, ¬ EdgeOK (pdStep j d dinfo s) u2 x → rank d < rank x := by
    intro u2 x hbr
    obtain ⟨_, hxj⟩ := hbroken2 u2 x hbr
    rw [hxj]
    exact hrkdj
  obtain ⟨hpw, hjsc, hofe, hrqb3, hprio, hBpost⟩ :=
    (prioritize_master env rank hwf (rank d + 1)).1 d p (pdStep j d dinfo s)
      (Nat.lt_succ_self _) hrqb2 hbls2 hgds2 hbound
  rw [← hu] at hpw hjsc hofe hrqb3 hprio hBpost
  have hfindU : ∀ x ix, mfind u.scheduled_jobs x = some ix →
      ∃ i2, mfind (pdStep j d dinfo s).scheduled_jobs x = some i2 ∧
        ix.dependencies_left = i2.dependencies_left ∧
        ix.ready_seqno = i2.ready_seqno ∧
        ix.dependent_jobs = i2.dependent_jobs ∧
        i2.priority ≤ ix.priority ∧ (ix.priority = i2.priority ∨ ix.priority = p) := by
    intro x ix hx
    rcases hpw x with ⟨_, hb⟩ | ⟨i1, i2, ha, hb, hdl, hsq, hdep, hle, hor⟩
    · rw [hx] at hb
      simp at hb
    · rw [hx] at hb
      have hieq : ix = i2 := Option.some_inj.mp hb
      rw [hieq]
      exact ⟨i1, ha, hdl, hsq, hdep, hle, hor⟩
  have hpendU : ∀ x, isPending u x = isPending s x := by
    intro x
    rw [← hpend2 x]
    rcases hpw x with ⟨ha, hb⟩ | ⟨i1, i2, ha, hb, _⟩
    · simp [isPending, ha, hb]
    · simp [isPending, ha, hb]
  have hjstU : ∀ x, (jstate u x).is_finished = (jstate s x).is_finished ∧
      (jstate u x).exception = (jstate s x).exception := by
    intro x
    obtain ⟨ha, hb⟩ := hjsc x
    rw [hjst2 x] at ha hb
    exact ⟨ha, hb⟩
  obtain ⟨hfinU, hgdU, hgpU, hlrsU, hirU, hmtU, hwkU⟩ := hofe
  have hedge : ∀ u2 x, EdgeOK u u2 x := by
    intro u2 x
    by_contra hbr
    obtain ⟨hbr2, _⟩ := hBpost u2 x hbr
    obtain ⟨hu2d, hxj⟩ := hbroken2 u2 x hbr2
    apply hbr
    intro iu xi hfu hfx hmem
    obtain ⟨i3, h3, hprd⟩ := hprio _ hfd2
    rw [hu2d] at hfu
    rw [hfu] at h3
    have hi3 : iu = i3 := Option.some_inj.mp h3
    obtain ⟨ix2, hx2, _, _, _, _, hor⟩ := hfindU x xi hfx
    rw [hxj, hfj2] at hx2
    have hix2 : { ji with dependencies_left := ji.dependencies_left + 1 } = ix2 :=
      Option.some_inj.mp hx2
    have hxp : xi.priority = p := by
      rcases hor with h | h
      · rw [h, ← hix2]
        show ji.priority = p
        exact hjp
      · exact h
    rw [hxp, hi3]
    exact hprd
  have hgdU2 : u.sched_deps = (pdStep j d dinfo s).sched_deps := hgdU
  refine ⟨?_, ?_, ?_, ?_, ?_, ?_, ?_, hpendU, ?_, ?_, ?_, ?_, ?_, ?_, ?_, hjstU⟩
  · refine ⟨?_, ?_, ?_, ?_, ?_, ?_, ?_, ?_, ?_, ?_,
      hrqb3.1, hrqb3.2.1, hrqb3.2.2.1, ?_, hrqb3.2.2.2⟩
    · intro x ix hx
      obtain ⟨i2, h2, _, _, hdep, _⟩ := hfindU x ix hx
      obtain ⟨ix0, hx0, _, _, _, hdep2⟩ := hchar2 x i2 h2
      rw [hdep]
      rcases hdep2 with h1 | h1
      · rw [h1]
        exact hI.dep_nodup x ix0 hx0
      · rw [h1, hfd2] at h2
        have hi2 : { dinfo with dependent_jobs := sinsert dinfo.dependent_jobs j }
            = i2 := Option.some_inj.mp h2
        rw [← hi2]
        exact sinsert_nodup _ _ (hI.dep_nodup d dinfo hdi)
    · intro x ix hx
      obtain ⟨i2, h2, _⟩ := hfindU x ix hx
      obtain ⟨ix0, hx0, _⟩ := hchar2 x i2 h2
      obtain ⟨ha, hb⟩ := hjstU x
      rw [ha, hb]
      exact hI.pending_unfinished x ix0 hx0
    · intro x hx
      rw [hfinU, g3] at hx
      obtain ⟨ha, _⟩ := hjstU x
      rw [ha]
      exact hI.finished_done x hx
    · intro x ix hx
      obtain ⟨i2, h2, _⟩ := hfindU x ix hx
      rw [hgdU2]
      exact hgds2 x i2 h2
    · intro x ix hx ds hds
      rw [hgdU2] at hds
      obtain ⟨i2, h2, hdl, _⟩ := hfindU x ix hx
      have hfc : ds.filter (fun d2 => isPending u d2)
          = ds.filter (fun d2 => isPending s d2) :=
        List.filter_congr (fun d2 _ => hpendU d2)
      rw [hfc, hdl]
      by_cases hxj : x = j
      · rw [hxj, hfj2] at h2
        have hi2 : { ji with dependencies_left := ji.dependencies_left + 1 } = i2 :=
          Option.some_inj.mp h2
        rw [hxj, pdStep_gd_self j d dinfo s ga hga] at hds
        have hdseq : ds = ga ++ [d] := (Option.some_inj.mp hds).symm
        rw [← hi2, hdseq]
        show ji.dependencies_left + 1 = _
        rw [List.filter_append]
        have hc0 := hI.deps_left_eq j ji hmj ga hga
        have hdp : isPending s d = true := by simp [isPending, hdi]
        simp [hdp, hc0]
      · by_cases hxd : x = d
        · rw [hxd, hfd2] at h2
          have hi2 : { dinfo with dependent_jobs := sinsert dinfo.dependent_jobs j }
              = i2 := Option.some_inj.mp h2
          rw [hxd, pdStep_gd_ne j d dinfo s d hdj] at hds
          rw [← hi2]
          show dinfo.dependencies_left = _
          exact hI.deps_left_eq d dinfo hdi ds hds
        · rw [pdStep_find_ne j d dinfo s x hxj hxd] at h2
          rw [pdStep_gd_ne j d dinfo s x hxj] at hds
          exact hI.deps_left_eq x i2 h2 ds hds
    · intro x ix hx ds hds d2 hd2 hdp
      rw [hgdU2] at hds
      obtain ⟨i2, h2, _⟩ := hfindU x ix hx
      rw [hpendU d2] at hdp
      obtain ⟨ha, hb⟩ := hjstU d2
      rw [ha, hb]
      by_cases hxj : x = j
      · rw [hxj, pdStep_gd_self j d dinfo s ga hga] at hds
        have hdseq : ds = ga ++ [d] := (Option.some_inj.mp hds).symm
        rw [hdseq] at hd2
        rcases List.mem_append.mp hd2 with h1 | h1
        · exact hI.extern_done j ji hmj ga hga d2 h1 hdp
        · exfalso
          have hd2e : d2 = d := by simpa using h1
          rw [hd2e] at hdp
          simp [isPending, hdi] at hdp
      · rw [pdStep_gd_ne j d dinfo s x hxj] at hds
        obtain ⟨ix0, hx0, _⟩ := hchar2 x i2 h2
        exact hI.extern_done x ix0 hx0 ds hds d2 hd2 hdp
    · intro x ix hx ds hds d2 hd2 di hdi2
      rw [hgdU2] at hds
      obtain ⟨i2, h2, _⟩ := hfindU x ix hx
      obtain ⟨di2b, hd2b, _, _, hdepd, _⟩ := hfindU d2 di hdi2
      rw [hdepd]
      by_cases hxj : x = j
      · rw [hxj, pdStep_gd_self j d dinfo s ga hga] at hds
        have hdseq : ds = ga ++ [d] := (Option.some_inj.mp hds).symm
        rw [hdseq] at hd2
        by_cases hd2d : d2 = d
        · rw [hd2d, hfd2] at hd2b
          have hdd : { dinfo with dependent_jobs := sinsert dinfo.dependent_jobs j }
              = di2b := Option.some_inj.mp hd2b
          rw [← hdd, hxj]
          show j ∈ sinsert dinfo.dependent_jobs j
          exact (mem_sinsert _ _ _).mpr (Or.inl rfl)
        · have h1 : d2 ∈ ga := by
            rcases List.mem_append.mp hd2 with h1 | h1
            · exact h1
            · exact absurd (by simpa using h1) hd2d
          have hd2mem : d2 ∈ (env j).dependencies :=
            hgasub.subset (List.mem_append_left _ h1)
          have hd2j : d2 ≠ j := by
            intro hc
            have hlt2 := hwf.1 j d2 hd2mem
            rw [hc] at hlt2
            omega
          rw [pdStep_find_ne j d dinfo s d2 hd2j hd2d] at hd2b
          rw [hxj]
          exact hI.backlink_complete j ji hmj ga hga d2 h1 di2b hd2b
      · rw [pdStep_gd_ne j d dinfo s x hxj] at hds
        obtain ⟨ix0, hx0, _⟩ := hchar2 x i2 h2
        by_cases hd2d : d2 = d
        · rw [hd2d, hfd2] at hd2b
          have hdd : { dinfo with dependent_jobs := sinsert dinfo.dependent_jobs j }
              = di2b := Option.some_inj.mp hd2b
          rw [← hdd]
          show x ∈ sinsert dinfo.dependent_jobs j
          refine (mem_sinsert _ _ _).mpr (Or.inr ?_)
          exact hI.backlink_complete x ix0 hx0 ds hds d2 hd2 dinfo
            (by rw [hd2d]; exact hdi)
        · by_cases hd2j : d2 = j
          · rw [hd2j, hfj2] at hd2b
            have hdd : { ji with dependencies_left := ji.dependencies_left + 1 }
                = di2b := Option.some_inj.mp hd2b
            rw [← hdd]
            show x ∈ ji.dependent_jobs
            exact hI.backlink_complete x ix0 hx0 ds hds d2 hd2 ji
              (by rw [hd2j]; exact hmj)
          · rw [pdStep_find_ne j d dinfo s d2 hd2j hd2d] at hd2b
            exact hI.backlink_complete x ix0 hx0 ds hds d2 hd2 di2b hd2b
    · intro x ix hx y hy
      obtain ⟨i2, h2, _, _, hdep, _⟩ := hfindU x ix hx
      rw [hdep] at hy
      obtain ⟨⟨yi2, hyi2⟩, hge2⟩ := hbls2 x i2 h2 y hy
      constructor
      · rcases hpw y with ⟨ha, _⟩ | ⟨y1, y2, ha, hb, _⟩
        · rw [ha] at hyi2
          simp at hyi2
        · exact ⟨y2, hb⟩
      · obtain ⟨ds, hds, hm2⟩ := hge2
        exact ⟨ds, by rw [hgdU2]; exact hds, hm2⟩
    · intro x ix hx y hy yi hyi
      exact hedge x y ix yi hx hyi hy
    · intro x ix hx
      obtain ⟨i2, h2, _, _, _, hple, _⟩ := hfindU x ix hx
      obtain ⟨ix0, hx0, hpr, _⟩ := hchar2 x i2 h2
      obtain ⟨p0, hp0, hle0⟩ := hI.prio_init x ix0 hx0
      refine ⟨p0, ?_, ?_⟩
      · rw [hgpU, g5]
        exact hp0
      · rw [hpr] at hple
        omega
    · intro x ix hx
      obtain ⟨i2, h2, _, hsq, _⟩ := hfindU x ix hx
      obtain ⟨ix0, hx0, _, hsq0, _⟩ := hchar2 x i2 h2
      rw [hsq, hsq0, hlrsU, g4]
      exact hI.seqno_le x ix0 hx0
  · rw [hu]
    exact (KN_prioritize env (rank d + 1)).1 d p _ (KN_mupd _ _ _ (KN_mset _ _ _ hkn))
  · intro x hx
    obtain ⟨ha, hb⟩ := hjstU x
    rw [ha] at hx
    rw [hb]
    exact hjsi x hx
  · rcases hpw j with ⟨ha, _⟩ | ⟨i1, i2, ha, hb, hdl, hsq, hdep, _, hor⟩
    · rw [hfj2] at ha
      simp at ha
    · rw [hfj2] at ha
      have hi1 : { ji with dependencies_left := ji.dependencies_left + 1 } = i1 :=
        Option.some_inj.mp ha
      refine ⟨i2, hb, ?_, ?_, ?_, ?_⟩
      · rcases hor with h | h
        · rw [h, ← hi1]
          show ji.priority = p
          exact hjp
        · exact h
      · rw [hsq, ← hi1]
        show ji.ready_seqno = 0
        exact hjsn
      · rw [hdl, ← hi1]
      · rw [hdep, ← hi1]
  · rw [hgdU2]
    exact pdStep_gd_self j d dinfo s ga hga
  · intro x hx
    rw [hgdU2]
    exact pdStep_gd_ne j d dinfo s x hx
  · rw [hgpU, g5]
  · intro di2 hdi2
    obtain ⟨i2, h2, _, _, hdep, _⟩ := hfindU d di2 hdi2
    rw [hfd2] at h2
    have hi2 : { dinfo with dependent_jobs := sinsert dinfo.dependent_jobs j } = i2 :=
      Option.some_inj.mp h2
    rw [hdep, ← hi2]
    show j ∈ sinsert dinfo.dependent_jobs j
    exact (mem_sinsert _ _ _).mpr (Or.inl rfl)
  · intro x hxj ix hx
    obtain ⟨i2, h2, hdl, hsq, hdep, _, hor⟩ := hfindU x ix hx
    by_cases hxd : x = d
    · rw [hxd, hfd2] at h2
      have hi2 : { dinfo with dependent_jobs := sinsert dinfo.dependent_jobs j } = i2 :=
        Option.some_inj.mp h2
      refine ⟨dinfo, by rw [hxd]; exact hdi, ?_, ?_, ?_, ?_⟩
      · rw [hdl, ← hi2]
      · rw [hsq, ← hi2]
      · right
        refine ⟨hxd, ?_⟩
        rw [hdep, ← hi2]
      · rcases hor with h | h
        · left
          rw [h, ← hi2]
        · right
          exact h
    · rw [pdStep_find_ne j d dinfo s x hxj hxd] at h2
      exact ⟨i2, h2, hdl, hsq, Or.inl hdep, hor⟩
  · rw [hfinU, g3]
  · rw [hlrsU, g4]
  · rw [hirU, g6]
  · rw [hmtU, g7]
  · rw [hwkU, g8]

theorem prioritizeF_noneq (env : Nat → LoadJob) (fuel j : Nat) (p : Int)
    (s : LoaderState) (hm : mfind s.scheduled_jobs j = none) :
    prioritizeF env (fuel + 1) j p s = s := by
  simp only [prioritizeF, hm]

theorem processDeps_master (env : Nat → LoadJob) (rank : Nat → Nat)
    (hwf : WFEnv env rank) (p : Int) (j : Nat) :
    ∀ (rem done : List Nat) (s : LoaderState) (ji : Info) (ga : List Nat),
    (env j).dependencies = done ++ rem →
    mfind s.scheduled_jobs j = some ji →
    ji.priority = p → ji.ready_seqno = 0 →
    mfind s.sched_deps j = some ga →
    ga = done.filter (fun d2 => isPending s d2) →
    ji.dependencies_left = ga.length →
    Inv env s → KN s → JSInv s →
    ∀ t, t = processDeps env rank p j rem s →
    Inv env t ∧ KN t ∧ JSInv t ∧
    (∃ ji2 ga2, mfind t.scheduled_jobs j = some ji2 ∧ ji2.priority = p ∧
      ji2.ready_seqno = 0 ∧ mfind t.sched_deps j = some ga2 ∧
      ga2 = ((done ++ rem).filter (fun d2 => isPending s d2)) ∧
      ji2.dependencies_left = ga2.length ∧
      ji2.dependent_jobs = ji.dependent_jobs) ∧
    (∀ x, isPending t x = isPending s x) ∧
    (∀ x, x ≠ j → mfind t.sched_deps x = mfind s.sched_deps x) ∧
    t.sched_prio = s.sched_prio ∧
    (∀ d2 ∈ rem, isPending s d2 = true →
      ∀ di2, mfind t.scheduled_jobs d2 = some di2 → j ∈ di2.dependent_jobs) ∧
    (∀ x, x ≠ j → ∀ ix, mfind t.scheduled_jobs x = some ix →
      ∃ ix0, mfind s.scheduled_jobs x = some ix0 ∧
        ix.dependencies_left = ix0.dependencies_left ∧
        ix.ready_seqno = ix0.ready_seqno ∧
        (∀ y ∈ ix0.dependent_jobs, y ∈ ix.dependent_jobs) ∧
        (ix.priority = ix0.priority ∨ ix.priority = p)) ∧
    t.finished_jobs = s.finished_jobs ∧
    t.last_ready_seqno = s.last_ready_seqno ∧
    t.is_running = s.is_running ∧ t.max_threads = s.max_threads ∧
    t.workers = s.workers ∧
    (∀ x, (jstate t x).is_finished = (jstate s x).is_finished ∧
      (jstate t x).exception = (jstate s x).exception) := by
  intro rem
  induction rem with
  | nil =>
    intro done s ji ga hdep hmj hjp hjsn hga hgaeq hdl hI hkn hjsi t ht
    have ht2 : t = s := by
      rw [ht]
      simp only [processDeps]
    subst ht2
    refine ⟨hI, hkn, hjsi, ⟨ji, ga, hmj, hjp, hjsn, hga, ?_, hdl, rfl⟩,
      fun x => rfl, fun x _ => rfl, rfl, ?_, ?_, rfl, rfl, rfl, rfl, rfl,
      fun x => ⟨rfl, rfl⟩⟩
    · rw [List.append_nil]
      exact hgaeq
    · intro d2 hd2
      cases hd2
    · intro x _ ix hx
      exact ⟨ix, hx, rfl, rfl, fun y hy => hy, Or.inl rfl⟩
  | cons d rest ih =>
    intro done s ji ga hdep hmj hjp hjsn hga hgaeq hdl hI hkn hjsi t ht
    have hdjm : d ∈ (env j).dependencies := by
      rw [hdep]
      exact List.mem_append_right _ (List.mem_cons_self d rest)
    have hrkdj : rank d < rank j := hwf.1 j d hdjm
    have hdj : d ≠ j := by
      intro hc
      rw [hc] at hrkdj
      omega
    have hdep2 : (env j).dependencies = (done ++ [d]) ++ rest := by
      rw [hdep, List.append_cons]
    cases hm : mfind s.scheduled_jobs d with
    | none =>
      have hnp : isPending s d = false := by simp [isPending, hm]
      have hprn : prioritizeF env (rank d + 1) d p s = s :=
        prioritizeF_noneq env (rank d) d p s hm
      have ht2 : t = processDeps env rank p j rest s := by
        rw [ht]
        simp only [processDeps, hm, hprn]
      have hgaeq2 : ga = (done ++ [d]).filter (fun d2 => isPending s d2) := by
        rw [List.filter_append, ← hgaeq]
        simp [hnp]
      obtain ⟨c1, c2, c3, ⟨ji2, ga2, e1, e2, e3, e4, e5, e6, e7⟩, c5, c6, c7, c8, c9,
        c10, c11, c12, c13, c14, c15⟩ :=
        ih (done ++ [d]) s ji ga hdep2 hmj hjp hjsn hga hgaeq2 hdl hI hkn hjsi t ht2
      refine ⟨c1, c2, c3, ⟨ji2, ga2, e1, e2, e3, e4, ?_, e6, e7⟩, c5, c6, c7, ?_, c9,
        c10, c11, c12, c13, c14, c15⟩
      · rw [e5, ← List.append_cons]
      · intro d2 hd2 hpd di2 hdi2
        rcases List.mem_cons.mp hd2 with h1 | h1
        · rw [h1, hnp] at hpd
          simp at hpd
        · exact c8 d2 h1 hpd di2 hdi2
    | some dinfo =>
      have hp : isPending s d = true := by simp [isPending, hm]
      have hgasub : List.Sublist (ga ++ [d]) (env j).dependencies := by
        rw [hdep, hgaeq]
        exact List.Sublist.append (List.filter_sublist done)
          (List.singleton_sublist.mpr (List.mem_cons_self d rest))
      obtain ⟨hIu, hknu, hjsiu, ⟨ji2, hmj2, hjp2, hjsn2, hdl2, hset2⟩, hgd2, hgdne2,
        hgp2, hpend2, hbl2, hpw2, hfin2, hlrs2, hrun2, hmt2, hwk2, hjst2⟩ :=
        pd_step env rank hwf p j d s ji dinfo ga hdjm hmj hjp hjsn hm hga hgasub
          hI hkn hjsi (prioritizeF env (rank d + 1) d p (pdStep j d dinfo s)) rfl
      have ht2 : t = processDeps env rank p j rest
          (prioritizeF env (rank d + 1) d p (pdStep j d dinfo s)) := by
        rw [ht]
        simp only [processDeps, hm]
      have hgaeq2 : ga ++ [d] = (done ++ [d]).filter (fun d2 =>
          isPending (prioritizeF env (rank d + 1) d p (pdStep j d dinfo s)) d2) := by
        rw [List.filter_congr (fun a _ => hpend2 a), List.filter_append, ← hgaeq]
        simp [hp]
      have hdl2b : ji2.dependencies_left = (ga ++ [d]).length := by
        rw [hdl2, hdl]
        simp
      obtain ⟨c1, c2, c3, ⟨ji3, ga3, e1, e2, e3, e4, e5, e6, e7⟩, c5, c6, c7, c8, c9,
        c10, c11, c12, c13, c14, c15⟩ :=
        ih (done ++ [d]) _ ji2 (ga ++ [d]) hdep2 hmj2 hjp2 hjsn2 hgd2 hgaeq2 hdl2b
          hIu hknu hjsiu t ht2
      refine ⟨c1, c2, c3, ⟨ji3, ga3, e1, e2, e3, e4, ?_, e6, e7.trans hset2⟩,
        fun x => (c5 x).trans (hpend2 x),
        fun x hx => (c6 x hx).trans (hgdne2 x hx), c7.trans hgp2, ?_, ?_,
        c10.trans hfin2, c11.trans hlrs2, c12.trans hrun2, c13.trans hmt2,
        c14.trans hwk2,
        fun x => ⟨(c15 x).1.trans (hjst2 x).1, (c15 x).2.trans (hjst2 x).2⟩⟩
      · rw [e5, List.filter_congr (fun a _ => hpend2 a), ← List.append_cons]
      · intro d2 hd2 hpd di2 hdi2
        rcases List.mem_cons.mp hd2 with h1 | h1
        · rw [h1] at hdi2
          obtain ⟨ixu, hxu, _, _, hsup, _⟩ := c9 d hdj di2 hdi2
          exact hsup j (hbl2 ixu hxu)
        · refine c8 d2 h1 ?_ di2 hdi2
          rw [hpend2 d2]
          exact hpd
      · intro x hx ix hix
        obtain ⟨ixu, hxu, f1, f2, f3, f4⟩ := c9 x hx ix hix
        obtain ⟨ix0, hx0, g1b, g2b, g3b, g4b⟩ := hpw2 x hx ixu hxu
        refine ⟨ix0, hx0, f1.trans g1b, f2.trans g2b, ?_, ?_⟩
        · intro y hy
          apply f3
          rcases g3b with h | ⟨_, h⟩
          · rw [h]
            exact hy
          · rw [h]
            exact (mem_sinsert _ _ _).mpr (Or.inr hy)
        · rcases f4 with h | h
          · rw [h]
            exact g4b
          · exact Or.inr h

theorem schedule_step (env : Nat → LoadJob) (rank : Nat → Nat) (hwf : WFEnv env rank)
    (p : Int) (j : Nat) (s : LoaderState) (ji : Info)
    (hmj : mfind s.scheduled_jobs j = some ji) (hjp : ji.priority = p)
    (hjsn : ji.ready_seqno = 0) (hdl0 : ji.dependencies_left = 0)
    (hga0 : mfind s.sched_deps j = some [])
    (hI : Inv env s) (hkn : KN s) (hjsi : JSInv s) :
    ∃ s3, (∀ js, scheduleJobs env rank p (j :: js) s = scheduleJobs env rank p js s3) ∧
    Inv env s3 ∧ KN s3 ∧ JSInv s3 ∧
    (∀ x, isPending s3 x = isPending s x) ∧
    (∀ x, (jstate s3 x).is_finished = (jstate s x).is_finished ∧
      (jstate s3 x).exception = (jstate s x).exception) ∧
    s3.finished_jobs = s.finished_jobs ∧
    s3.is_running = s.is_running ∧
    s3.max_threads = s.max_threads ∧
    s3.sched_prio = s.sched_prio ∧
    (∀ x ix0, mfind s.scheduled_jobs x = some ix0 →
      ∃ ix, mfind s3.scheduled_jobs x = some ix ∧
        (∀ y ∈ ix0.dependent_jobs, y ∈ ix.dependent_jobs) ∧
        (ix.priority = ix0.priority ∨ ix.priority = p)) ∧
    (∀ x, x ≠ j → ∀ ix, mfind s3.scheduled_jobs x = some ix →
      ∃ ix0, mfind s.scheduled_jobs x = some ix0 ∧
        ix.dependencies_left = ix0.dependencies_left ∧
        ix.ready_seqno = ix0.ready_seqno) ∧
    (∀ x, x ≠ j → mfind s3.sched_deps x = mfind s.sched_deps x) ∧
    (∃ info ds, mfind s3.scheduled_jobs j = some info ∧
      mfind s3.sched_deps j = some ds ∧
      ds = (env j).dependencies.filter (fun d2 => isPending s d2) ∧
      info.priority = p ∧
      info.dependencies_left = ds.length ∧
      (ds = [] → info.ready_seqno ≠ 0) ∧
      (ds ≠ [] → info.ready_seqno = 0) ∧
      (∀ d ∈ ds, ∀ di, mfind s3.scheduled_jobs d = some di → j ∈ di.dependent_jobs)) := by
  obtain ⟨hI2, hkn2, hjsi2, ⟨ji2, ga2, hmj2, hjp2, hjsn2, hgd2, hga2eq, hdl2, hset2⟩,
    hpend2, hgdne2, hgp2, hbl2, hpw2, hfin2, hlrs2, hrun2, hmt2, hwk2, hjst2⟩ :=
    processDeps_master env rank hwf p j (env j).dependencies [] s ji []
      (List.nil_append _).symm hmj hjp hjsn hga0 rfl hdl0 hI hkn hjsi
      (processDeps env rank p j (env j).dependencies s) rfl
  rw [List.nil_append] at hga2eq
  have hfwd : ∀ x ix0, mfind s.scheduled_jobs x = some ix0 →
      ∃ ix, mfind (processDeps env rank p j (env j).dependencies s).scheduled_jobs x
          = some ix ∧
        (∀ y ∈ ix0.dependent_jobs, y ∈ ix.dependent_jobs) ∧
        (ix.priority = ix0.priority ∨ ix.priority = p) := by
    intro x ix0 hx0
    have hps2x : isPending (processDeps env rank p j (env j).dependencies s) x
        = true := by
      rw [hpend2 x]
      simp [isPending, hx0]
    cases hm2 : mfind (processDeps env rank p j (env j).dependencies s
        ).scheduled_jobs x with
    | none =>
      exfalso
      simp [isPending, hm2] at hps2x
    | some ix1 =>
      refine ⟨ix1, rfl, ?_⟩
      by_cases hxj : x = j
      · rw [hxj, hmj2] at hm2
        have he2 : ji2 = ix1 := Option.some_inj.mp hm2
        rw [hxj, hmj] at hx0
        have he0 : ji = ix0 := Option.some_inj.mp hx0
        constructor
        · intro y hy
          rw [← he2, hset2, he0]
          exact hy
        · right
          rw [← he2]
          exact hjp2
      · obtain ⟨ix0b, hx0b, _, _, hsup1, hpr1⟩ := hpw2 x hxj ix1 hm2
        rw [hx0] at hx0b
        have hee : ix0 = ix0b := Option.some_inj.mp hx0b
        constructor
        · intro y hy
          apply hsup1
          rw [← hee]
          exact hy
        · rw [← hee] at hpr1
          exact hpr1
  by_cases hz : ji2.dependencies_left = 0
  · have hga2nil : ga2 = [] := by
      have h0 : ga2.length = 0 := by
        rw [← hdl2]
        exact hz
      exact List.length_eq_zero.mp h0
    have hrqb2 : RQB (processDeps env rank p j (env j).dependencies s) :=
      ⟨hI2.rq_sorted, hI2.rq_sound, hI2.rq_complete, hI2.seqno_inj⟩
    obtain ⟨esj, erq, elrs, ejs, efin, egd, egp, erun, emt, erqb, esle⟩ :=
      enqueue_effect (processDeps env rank p j (env j).dependencies s) j ji2 hmj2
        hjsn2 hz hrqb2 hI2.seqno_le
    have hfind3self :
        mfind (enqueue (processDeps env rank p j (env j).dependencies s) j
          ).scheduled_jobs j = some { ji2 with ready_seqno :=
            (processDeps env rank p j (env j).dependencies s).last_ready_seqno + 1 }
        := by
      rw [esj]
      exact mfind_mset_self _ _ _
    have hfind3ne : ∀ x, x ≠ j →
        mfind (enqueue (processDeps env rank p j (env j).dependencies s) j
          ).scheduled_jobs x =
        mfind (processDeps env rank p j (env j).dependencies s).scheduled_jobs x := by
      intro x hx
      rw [esj]
      exact mfind_mset_ne _ _ _ _ hx
    have hpend3 : ∀ x,
        isPending (enqueue (processDeps env rank p j (env j).dependencies s) j) x =
        isPending (processDeps env rank p j (env j).dependencies s) x := by
      intro x
      unfold isPending
      by_cases hx : x = j
      · rw [hx, hfind3self, hmj2]
        rfl
      · rw [hfind3ne x hx]
    have hjst3 : ∀ x,
        jstate (enqueue (processDeps env rank p j (env j).dependencies s) j) x =
        jstate (processDeps env rank p j (env j).dependencies s) x := by
      intro x
      unfold jstate
      rw [ejs]
    refine ⟨enqueue (processDeps env rank p j (env j).dependencies s) j,
      fun js => by simp only [scheduleJobs, hmj2, if_pos hz], ?_, ?_, ?_, ?_, ?_,
      ?_, ?_, ?_, ?_, ?_, ?_, ?_, ?_⟩
    · exact inv_enqueue env _ j ji2 hmj2 hz hjsn2 hI2
    · exact KN_enqueue _ j hkn2
    · exact JSInv_enqueue _ j hjsi2
    · exact fun x => (hpend3 x).trans (hpend2 x)
    · intro x
      have h3 := hjst3 x
      exact ⟨by rw [h3]; exact (hjst2 x).1, by rw [h3]; exact (hjst2 x).2⟩
    · exact efin.trans hfin2
    · exact erun.trans hrun2
    · exact emt.trans hmt2
    · exact egp.trans hgp2
    · intro x ix0 hx0
      obtain ⟨ix1, hm1, hsup1, hpr1⟩ := hfwd x ix0 hx0
      by_cases hxj : x = j
      · rw [hxj, hmj2] at hm1
        have he2 : ji2 = ix1 := Option.some_inj.mp hm1
        refine ⟨{ ji2 with ready_seqno :=
            (processDeps env rank p j (env j).dependencies s).last_ready_seqno + 1 },
          by rw [hxj]; exact hfind3self, ?_, ?_⟩
        · intro y hy
          have hy2 := hsup1 y hy
          rw [← he2] at hy2
          exact hy2
        · rcases hpr1 with h | h
          · left
            rw [← h, ← he2]
          · right
            rw [← he2] at h
            exact h
      · exact ⟨ix1, by rw [hfind3ne x hxj]; exact hm1, hsup1, hpr1⟩
    · intro x hx ix hix
      rw [hfind3ne x hx] at hix
      obtain ⟨ix0, hx0, hdlb, hsqb, _, _⟩ := hpw2 x hx ix hix
      exact ⟨ix0, hx0, hdlb, hsqb⟩
    · intro x hx
      rw [egd]
      exact hgdne2 x hx
    · refine ⟨{ ji2 with ready_seqno :=
          (processDeps env rank p j (env j).dependencies s).last_ready_seqno + 1 },
        ga2, hfind3self, ?_, hga2eq, ?_, ?_, ?_, ?_, ?_⟩
      · rw [egd]
        exact hgd2
      · show ji2.priority = p
        exact hjp2
      · show ji2.dependencies_left = ga2.length
        exact hdl2
      · intro _
        show (processDeps env rank p j (env j).dependencies s).last_ready_seqno + 1
          ≠ 0
        omega
      · intro hne
        exact absurd hga2nil hne
      · intro d hd
        rw [hga2nil] at hd
        cases hd
  · refine ⟨processDeps env rank p j (env j).dependencies s,
      fun js => by simp only [scheduleJobs, hmj2, if_neg hz], hI2, hkn2, hjsi2,
      hpend2, hjst2, hfin2, hrun2, hmt2, hgp2, hfwd, ?_, hgdne2, ?_⟩
    · intro x hx ix hix
      obtain ⟨ix0, hx0, hdlb, hsqb, _, _⟩ := hpw2 x hx ix hix
      exact ⟨ix0, hx0, hdlb, hsqb⟩
    · refine ⟨ji2, ga2, hmj2, hgd2, hga2eq, hjp2, hdl2, ?_, fun _ => hjsn2, ?_⟩
      · intro hnil
        exfalso
        apply hz
        rw [hdl2, hnil]
        rfl
      · intro d hd di hdi
        rw [hga2eq] at hd
        exact hbl2 d (List.mem_filter.mp hd).1 (List.mem_filter.mp hd).2 di hdi

theorem scheduleJobs_master (env : Nat → LoadJob) (rank : Nat → Nat)
    (hwf : WFEnv env rank) (p : Int) :
    ∀ (jobs : List Nat) (s : LoaderState), jobs.Nodup →
    (∀ x ∈ jobs, ∃ ix, mfind s.scheduled_jobs x = some ix ∧ ix.priority = p ∧
      ix.ready_seqno = 0 ∧ ix.dependencies_left = 0 ∧
      mfind s.sched_deps x = some []) →
    Inv env s → KN s → JSInv s →
    ∀ T, T = scheduleJobs env rank p jobs s →
    Inv env T ∧ KN T ∧ JSInv T ∧
    (∀ x, isPending T x = isPending s x) ∧
    (∀ x, (jstate T x).is_finished = (jstate s x).is_finished ∧
      (jstate T x).exception = (jstate s x).exception) ∧
    T.finished_jobs = s.finished_jobs ∧
    T.is_running = s.is_running ∧
    T.max_threads = s.max_threads ∧
    T.sched_prio = s.sched_prio ∧
    (∀ x ix0, mfind s.scheduled_jobs x = some ix0 →
      ∃ ix, mfind T.scheduled_jobs x = some ix ∧
        (∀ y ∈ ix0.dependent_jobs, y ∈ ix.dependent_jobs) ∧
        (ix.priority = ix0.priority ∨ ix.priority = p)) ∧
    (∀ x, x ∉ jobs → ∀ ix, mfind T.scheduled_jobs x = some ix →
      ∃ ix0, mfind s.scheduled_jobs x = some ix0 ∧
        ix.dependencies_left = ix0.dependencies_left ∧
        ix.ready_seqno = ix0.ready_seqno) ∧
    (∀ x, x ∉ jobs → mfind T.sched_deps x = mfind s.sched_deps x) ∧
    (∀ x ∈ jobs, ∃ info ds, mfind T.scheduled_jobs x = some info ∧
      mfind T.sched_deps x = some ds ∧
      ds = (env x).dependencies.filter (fun d2 => isPending s d2) ∧
      info.priority = p ∧
      info.dependencies_left = ds.length ∧
      (ds = [] → info.ready_seqno ≠ 0) ∧
      (ds ≠ [] → info.ready_seqno = 0) ∧
      (∀ d ∈ ds, ∀ di, mfind T.scheduled_jobs d = some di →
        x ∈ di.dependent_jobs)) := by
  intro jobs
  induction jobs with
  | nil =>
    intro s _ _ hI hkn hjsi T hT
    have hT2 : T = s := by
      rw [hT]
      simp only [scheduleJobs]
    subst hT2
    refine ⟨hI, hkn, hjsi, fun x => rfl, fun x => ⟨rfl, rfl⟩, rfl, rfl, rfl, rfl,
      ?_, ?_, fun x _ => rfl, ?_⟩
    · intro x ix0 hx0
      exact ⟨ix0, hx0, fun y hy => hy, Or.inl rfl⟩
    · intro x _ ix hx
      exact ⟨ix, hx, rfl, rfl⟩
    · intro x hx
      cases hx
  | cons j js ih =>
    intro s hnd hsj2 hI hkn hjsi T hT
    obtain ⟨ji, hmj, hjp, hjsn, hdl0, hga0⟩ := hsj2 j (List.mem_cons_self j js)
    have hndj : j ∉ js := (List.nodup_cons.mp hnd).1
    have hndjs : js.Nodup := (List.nodup_cons.mp hnd).2
    obtain ⟨s3, hunf, hI3, hkn3, hjsi3, pend3, jst3, fin3, run3, mt3, sprio3, fwd3,
      offp3, offg3, ⟨info3, ds, j1, j2, j3, j4, j5, j6, j7, j8⟩⟩ :=
      schedule_step env rank hwf p j s ji hmj hjp hjsn hdl0 hga0 hI hkn hjsi
    have hT2 : T = scheduleJobs env rank p js s3 := by
      rw [hT, hunf js]
    have hsj3 : ∀ x ∈ js, ∃ ix, mfind s3.scheduled_jobs x = some ix ∧
        ix.priority = p ∧ ix.ready_seqno = 0 ∧ ix.dependencies_left = 0 ∧
        mfind s3.sched_deps x = some [] := by
      intro x hx
      obtain ⟨ix0, hx0, hxp, hxs, hxd, hxg⟩ := hsj2 x (List.mem_cons_of_mem j hx)
      have hxj : x ≠ j := by
        intro hc
        rw [hc] at hx
        exact hndj hx
      obtain ⟨ix1, hm1, _, hpr1⟩ := fwd3 x ix0 hx0
      obtain ⟨ix0b, hx0b, hdlb, hsqb⟩ := offp3 x hxj ix1 hm1
      rw [hx0] at hx0b
      have hee : ix0 = ix0b := Option.some_inj.mp hx0b
      refine ⟨ix1, hm1, ?_, ?_, ?_, ?_⟩
      · rcases hpr1 with h | h
        · rw [h]
          exact hxp
        · exact h
      · rw [hsqb, ← hee]
        exact hxs
      · rw [hdlb, ← hee]
        exact hxd
      · rw [offg3 x hxj]
        exact hxg
    obtain ⟨D1, D2, D3, D4, D5, D6, D7, D8, D9, D10, D11, D12, D13⟩ :=
      ih s3 hndjs hsj3 hI3 hkn3 hjsi3 T hT2
    refine ⟨D1, D2, D3, fun x => (D4 x).trans (pend3 x), ?_,
      D6.trans fin3, D7.trans run3, D8.trans mt3, D9.trans sprio3, ?_, ?_, ?_, ?_⟩
    · intro x
      exact ⟨(D5 x).1.trans (jst3 x).1, (D5 x).2.trans (jst3 x).2⟩
    · intro x ix0 hx0
      obtain ⟨ix1, hm1, hsup1, hpr1⟩ := fwd3 x ix0 hx0
      obtain ⟨ix2, hm2, hsup2, hpr2⟩ := D10 x ix1 hm1
      refine ⟨ix2, hm2, fun y hy => hsup2 y (hsup1 y hy), ?_⟩
      rcases hpr2 with h | h
      · rw [h]
        exact hpr1
      · exact Or.inr h
    · intro x hx ix hix
      have hxj : x ≠ j := by
        intro hc
        rw [hc] at hx
        exact hx (List.mem_cons_self j js)
      have hxjs : x ∉ js := fun hc => hx (List.mem_cons_of_mem j hc)
      obtain ⟨ix2, hm3, hdl3, hsq3⟩ := D11 x hxjs ix hix
      obtain ⟨ix0, hx0, hdlb, hsqb⟩ := offp3 x hxj ix2 hm3
      exact ⟨ix0, hx0, hdl3.trans hdlb, hsq3.trans hsqb⟩
    · intro x hx
      have hxj : x ≠ j := by
        intro hc
        rw [hc] at hx
        exact hx (List.mem_cons_self j js)
      have hxjs : x ∉ js := fun hc => hx (List.mem_cons_of_mem j hc)
      rw [D12 x hxjs, offg3 x hxj]
    · intro x hx
      rcases List.mem_cons.mp hx with h1 | h1
      · subst h1
        obtain ⟨infoT, hmT, hsupT, hprT⟩ := D10 x info3 j1
        obtain ⟨info3b, hm3b, hdlT, hsqT⟩ := D11 x hndj infoT hmT
        rw [j1] at hm3b
        have he3 : info3 = info3b := Option.some_inj.mp hm3b
        have hgT : mfind T.sched_deps x = some ds := by
          rw [D12 x hndj]
          exact j2
        refine ⟨infoT, ds, hmT, hgT, j3, ?_, ?_, ?_, ?_, ?_⟩
        · rcases hprT with h | h
          · rw [h]
            exact j4
          · exact h
        · rw [hdlT, ← he3]
          exact j5
        · intro hnil
          rw [hsqT, ← he3]
          exact j6 hnil
        · intro hne
          rw [hsqT, ← he3]
          exact j7 hne
        · intro d hd di hdi
          have hdp : isPending s d = true := by
            rw [j3] at hd
            exact (List.mem_filter.mp hd).2
          have hdp3 : isPending s3 d = true := by
            rw [pend3 d]
            exact hdp
          cases hm3d : mfind s3.scheduled_jobs d with
          | none =>
            exfalso
            simp [isPending, hm3d] at hdp3
          | some di3 =>
            have hj3 : x ∈ di3.dependent_jobs := j8 d hd di3 hm3d
            obtain ⟨diT, hmTd, hsupd, _⟩ := D10 d di3 hm3d
            rw [hdi] at hmTd
            have hed : di = diT := Option.some_inj.mp hmTd
            rw [hed]
            exact hsupd x hj3
      · obtain ⟨info, dsx, f1, f2, f3, f4, f5, f6, f7, f8⟩ := D13 x h1
        refine ⟨info, dsx, f1, f2, ?_, f4, f5, f6, f7, f8⟩
        rw [f3]
        refine List.filter_congr ?_
        intro a _
        rw [pend3 a]

theorem scheduleOp_ok_elim (env : Nat → LoadJob) (rank : Nat → Nat) (jobs : List Nat)
    (p : Int) (s T : LoaderState) (h : scheduleOp env rank jobs p s = .ok T) :
    sanityChecks env s jobs = .ok () ∧
    T = scheduleJobs env rank p jobs (insertJobs p jobs s) := by
  unfold scheduleOp at h
  cases hs : sanityChecks env s jobs with
  | error e =>
    rw [hs] at h
    exact Except.noConfusion h
  | ok u =>
    cases u
    rw [hs] at h
    cases hc : checkCycle env jobs with
    | error e =>
      rw [hc] at h
      exact Except.noConfusion h
    | ok v =>
      rw [hc] at h
      exact ⟨rfl, (Except.ok.inj h).symm⟩

theorem JSInv_of_core (s t : LoaderState)
    (h : ∀ x, (jstate t x).is_finished = (jstate s x).is_finished ∧
      (jstate t x).exception = (jstate s x).exception)
    (hj : JSInv s) : JSInv t := by
  intro x hx
  obtain ⟨ha, hb⟩ := h x
  rw [ha] at hx
  rw [hb]
  exact hj x hx

theorem insertJobs_jscore (p : Int) :
    ∀ (jobs : List Nat) (s : LoaderState), jobs.Nodup →
    (∀ j ∈ jobs, mfind s.scheduled_jobs j = none) →
    ∀ x, (jstate (insertJobs p jobs s) x).is_finished = (jstate s x).is_finished ∧
      (jstate (insertJobs p jobs s) x).exception = (jstate s x).exception := by
  intro jobs
  induction jobs with
  | nil => exact fun s _ _ x => ⟨rfl, rfl⟩
  | cons j js ih =>
    intro s hnd hpre x
    have hmj : mfind s.scheduled_jobs j = none := hpre j (List.mem_cons_self j js)
    rw [insertJobs_cons_fresh p j js s hmj]
    have hpre2 : ∀ y ∈ js, mfind (insOne p j s).scheduled_jobs y = none := by
      intro y hy
      have hyj : y ≠ j := by
        intro hc
        rw [hc] at hy
        exact (List.nodup_cons.mp hnd).1 hy
      rw [insOne_find_ne p j s y hyj]
      exact hpre y (List.mem_cons_of_mem j hy)
    obtain ⟨ha, hb⟩ := ih (insOne p j s) (List.nodup_cons.mp hnd).2 hpre2 x
    by_cases hxj : x = j
    · rw [hxj] at ha hb ⊢
      rw [ha, hb, insOne_jstate_self]
      exact ⟨rfl, rfl⟩
    · rw [ha, hb, insOne_jstate_ne p j s x hxj]
      exact ⟨rfl, rfl⟩

theorem scheduleOp_master (env : Nat → LoadJob) (rank : Nat → Nat)
    (hwf : WFEnv env rank) (jobs : List Nat) (p : Int) (s T : LoaderState)
    (hnd : jobs.Nodup) (hok : scheduleOp env rank jobs p s = .ok T)
    (hI : Inv env s) (hkn : KN s) (hjsi : JSInv s) :
    Inv env T ∧ KN T ∧ JSInv T ∧
    (∀ x, isPending T x = (isPending s x || decide (x ∈ jobs))) ∧
    (∀ x, (jstate T x).is_finished = (jstate s x).is_finished ∧
      (jstate T x).exception = (jstate s x).exception) ∧
    T.finished_jobs = s.finished_jobs ∧
    (∀ x ∈ jobs, ∃ info ds, mfind T.scheduled_jobs x = some info ∧
      mfind T.sched_deps x = some ds ∧
      ds = (env x).dependencies.filter
        (fun d2 => isPending s d2 || decide (d2 ∈ jobs)) ∧
      info.priority = p ∧
      info.dependencies_left = ds.length ∧
      (info.dependencies_left = 0 → (Info.key info, x) ∈ T.ready_queue) ∧
      (∀ d ∈ ds, ∀ di, mfind T.scheduled_jobs d = some di →
        x ∈ di.dependent_jobs)) := by
  obtain ⟨hs, hTeq⟩ := scheduleOp_ok_elim env rank jobs p s T hok
  have hfacts := sanity_facts env s jobs hs
  have hpre : ∀ j ∈ jobs, (jstate s j).is_finished = false ∧
      mfind s.scheduled_jobs j = none := hfacts
  obtain ⟨I1, I2, I3, I4, I5, Irq, Ifin, Ilrs, Irun, Imt, Iwk⟩ :=
    insertJobs_master env p jobs s hnd hpre hI hkn hjsi
  have hjscore0 := insertJobs_jscore p jobs s hnd (fun j hj => (hpre j hj).2)
  have hpend0 : ∀ a, isPending (insertJobs p jobs s) a =
      (isPending s a || decide (a ∈ jobs)) := by
    intro a
    by_cases ha : a ∈ jobs
    · obtain ⟨hf, _, _⟩ := I4 a ha
      simp [isPending, hf, ha]
    · obtain ⟨hf, _, _, _⟩ := I5 a ha
      have h2 : isPending (insertJobs p jobs s) a = isPending s a := by
        unfold isPending
        rw [hf]
      rw [h2]
      simp [ha]
  have hsj2 : ∀ x ∈ jobs, ∃ ix,
      mfind (insertJobs p jobs s).scheduled_jobs x = some ix ∧ ix.priority = p ∧
      ix.ready_seqno = 0 ∧ ix.dependencies_left = 0 ∧
      mfind (insertJobs p jobs s).sched_deps x = some [] := by
    intro x hx
    obtain ⟨hf, hg, _⟩ := I4 x hx
    exact ⟨{ priority := p }, hf, rfl, rfl, rfl, hg⟩
  obtain ⟨D1, D2, D3, D4, D5, D6, D7, D8, D9, D10, D11, D12, D13⟩ :=
    scheduleJobs_master env rank hwf p jobs (insertJobs p jobs s) hnd hsj2
      I1 I2 I3 T hTeq
  refine ⟨D1, D2, D3, fun x => (D4 x).trans (hpend0 x), ?_, D6.trans Ifin, ?_⟩
  · intro x
    exact ⟨(D5 x).1.trans (hjscore0 x).1, (D5 x).2.trans (hjscore0 x).2⟩
  · intro x hx
    obtain ⟨info, ds, f1, f2, f3, f4, f5, f6, _, f8⟩ := D13 x hx
    refine ⟨info, ds, f1, f2, ?_, f4, f5, ?_, f8⟩
    · rw [f3]
      refine List.filter_congr ?_
      intro a _
      rw [hpend0 a]
    · intro hdl0
      have hnil : ds = [] := by
        refine List.length_eq_zero.mp ?_
        rw [← f5]
        exact hdl0
      have hsn := f6 hnil
      exact D1.rq_complete x info f1 hsn

theorem fail_any (env : Nat → LoadJob) (rank : Nat → Nat) (hwf : WFEnv env rank)
    (fuel : Nat) (s : LoaderState) (j : Nat) (e : Exn) (ij : Info)
    (hmj : mfind s.scheduled_jobs j = some ij) (hsn : ij.ready_seqno = 0)
    (hI : Inv env s) (hkn : KN s) (hfl : s.scheduled_jobs.length < fuel) :
    FPost env rank j e s (failedF env fuel j e s) [] := by
  have hF := finv_nil_of_inv env s hI hkn
  have hpre : FPre env rank [] j s fuel := by
    refine ⟨hF, ?_, by omega,
      Or.inl ⟨ij, hmj, List.not_mem_nil j, hsn,
        fun a ha => absurd ha (List.not_mem_nil a)⟩⟩
    have := npend_le [] s
    omega
  exact (failed_master env rank hwf fuel).1 [] j e s hpre

theorem JSInv_of_fpost (env : Nat → LoadJob) (rank : Nat → Nat) (j : Nat) (e : Exn)
    (s t : LoaderState) (hpost : FPost env rank j e s t []) (hjsi : JSInv s) :
    JSInv t := by
  intro x hx
  by_cases hxj : x = j
  · rw [hxj] at hx
    rw [hpost.2.2.2.1] at hx
    cases hx
  · rcases hpost.2.2.2.2.2.2.2.2.2.2.2.2.2.2.2.2.1 x hxj with h | h
    · rw [h] at hx
      rw [h]
      exact hjsi x hx
    · rw [h.1] at hx
      cases hx

theorem inv_finErase (env : Nat → LoadJob) (s : LoaderState) (j : Nat)
    (hI : Inv env s) :
    Inv env { s with finished_jobs := serase s.finished_jobs j } := by
  refine ⟨hI.dep_nodup, hI.pending_unfinished, ?_, hI.ghost_deps, hI.deps_left_eq,
    hI.extern_done, hI.backlink_complete, hI.backlink_sound, hI.prio_edge,
    hI.prio_init, hI.rq_sorted, hI.rq_sound, hI.rq_complete, hI.seqno_le,
    hI.seqno_inj⟩
  intro x hx
  exact hI.finished_done x (serase_sub _ _ hx)

theorem JSInv_loaded (j : Nat) (s : LoaderState) (h : JSInv s) :
    JSInv (loadedOp j s) := by
  intro x hx
  have hj := loadedOp_jstate j s
  unfold jstate at hx ⊢
  rw [hj] at hx ⊢
  by_cases hxj : x = j
  · rw [hxj, mfind_mset_self] at hx
    exact absurd hx (by simp [setSuccess])
  · rw [mfind_mset_ne _ _ _ _ hxj] at hx ⊢
    exact h x hx

theorem mset_length {α : Type} : ∀ (l : List (Nat × α)) (x : Nat) (v w : α),
    mfind l x = some w → (mset l x v).length = l.length := by
  intro l
  induction l with
  | nil =>
    intro x v w h
    cases h
  | cons hd t ih =>
    intro x v w h
    obtain ⟨k, w2⟩ := hd
    unfold mset
    by_cases hk : k = x
    · simp [if_pos hk]
    · simp only [if_neg hk, List.length_cons]
      unfold mfind at h
      rw [if_neg hk] at h
      rw [ih x v w h]

theorem inv_dequeue (env : Nat → LoadJob) (s : LoaderState) (j : Nat) (info : Info)
    (hmj : mfind s.scheduled_jobs j = some info)
    (hI : Inv env s) : Inv env (dequeueCancelPrep j info s) := by
  have hfs : mfind (mset s.scheduled_jobs j { info with ready_seqno := 0 }) j
      = some { info with ready_seqno := 0 } := mfind_mset_self _ _ _
  have hfn : ∀ x, x ≠ j →
      mfind (mset s.scheduled_jobs j { info with ready_seqno := 0 }) x
      = mfind s.scheduled_jobs x := fun x hx => mfind_mset_ne _ _ _ _ hx
  have hchar : ∀ x ix,
      mfind (mset s.scheduled_jobs j { info with ready_seqno := 0 }) x = some ix →
      ∃ ix0, mfind s.scheduled_jobs x = some ix0 ∧ ix.priority = ix0.priority ∧
        ix.dependencies_left = ix0.dependencies_left ∧
        ix.dependent_jobs = ix0.dependent_jobs ∧
        ((x ≠ j ∧ ix.ready_seqno = ix0.ready_seqno) ∨
          (x = j ∧ ix.ready_seqno = 0)) := by
    intro x ix hx
    by_cases hxj : x = j
    · rw [hxj, hfs] at hx
      have he : { info with ready_seqno := 0 } = ix := Option.some_inj.mp hx
      exact ⟨info, by rw [hxj]; exact hmj, by rw [← he], by rw [← he], by rw [← he],
        Or.inr ⟨hxj, by rw [← he]⟩⟩
    · rw [hfn x hxj] at hx
      exact ⟨ix, hx, rfl, rfl, rfl, Or.inl ⟨hxj, rfl⟩⟩
  have hpend2 : ∀ a, isPending (dequeueCancelPrep j info s) a = isPending s a := by
    intro a
    unfold isPending dequeueCancelPrep
    by_cases ha : a = j
    · rw [ha]
      show (mfind (mset s.scheduled_jobs j { info with ready_seqno := 0 }) j).isSome
        = (mfind s.scheduled_jobs j).isSome
      rw [hfs, hmj]
      rfl
    · show (mfind (mset s.scheduled_jobs j { info with ready_seqno := 0 }) a).isSome
        = (mfind s.scheduled_jobs a).isSome
      rw [hfn a ha]
  have f1 : ∀ x ix, mfind (mset s.scheduled_jobs j { info with ready_seqno := 0 }) x
      = some ix → ix.dependent_jobs.Nodup := by
    intro x ix hx
    obtain ⟨ix0, h0, _, _, hset, _⟩ := hchar x ix hx
    rw [hset]
    exact hI.dep_nodup x ix0 h0
  have f2 : ∀ x ix, mfind (mset s.scheduled_jobs j { info with ready_seqno := 0 }) x
      = some ix → (jstate s x).is_finished = false ∧ (jstate s x).exception = none := by
    intro x ix hx
    obtain ⟨ix0, h0, _⟩ := hchar x ix hx
    exact hI.pending_unfinished x ix0 h0
  have f4 : ∀ x ix, mfind (mset s.scheduled_jobs j { info with ready_seqno := 0 }) x
      = some ix → ∃ ds, mfind s.sched_deps x = some ds ∧
        List.Sublist ds (env x).dependencies := by
    intro x ix hx
    obtain ⟨ix0, h0, _⟩ := hchar x ix hx
    exact hI.ghost_deps x ix0 h0
  have f5 : ∀ x ix, mfind (mset s.scheduled_jobs j { info with ready_seqno := 0 }) x
      = some ix → ∀ ds, mfind s.sched_deps x = some ds →
      ix.dependencies_left =
        (ds.filter (fun d => isPending (dequeueCancelPrep j info s) d)).length := by
    intro x ix hx ds hds
    obtain ⟨ix0, h0, _, hdl, _, _⟩ := hchar x ix hx
    rw [hdl, List.filter_congr (fun a _ => hpend2 a)]
    exact hI.deps_left_eq x ix0 h0 ds hds
  have f6 : ∀ x ix, mfind (mset s.scheduled_jobs j { info with ready_seqno := 0 }) x
      = some ix → ∀ ds, mfind s.sched_deps x = some ds →
      ∀ d ∈ ds, isPending (dequeueCancelPrep j info s) d = false →
      (jstate s d).is_finished = true ∧ (jstate s d).exception = none := by
    intro x ix hx ds hds d hd hdp
    obtain ⟨ix0, h0, _⟩ := hchar x ix hx
    rw [hpend2 d] at hdp
    exact hI.extern_done x ix0 h0 ds hds d hd hdp
  have f7 : ∀ x ix, mfind (mset s.scheduled_jobs j { info with ready_seqno := 0 }) x
      = some ix → ∀ ds, mfind s.sched_deps x = some ds → ∀ d ∈ ds,
      ∀ di, mfind (mset s.scheduled_jobs j { info with ready_seqno := 0 }) d
        = some di → x ∈ di.dependent_jobs := by
    intro x ix hx ds hds d hd di hdi
    obtain ⟨ix0, h0, _⟩ := hchar x ix hx
    obtain ⟨di0, h0d, _, _, hsetd, _⟩ := hchar d di hdi
    rw [hsetd]
    exact hI.backlink_complete x ix0 h0 ds hds d hd di0 h0d
  have f8 : ∀ x ix, mfind (mset s.scheduled_jobs j { info with ready_seqno := 0 }) x
      = some ix → ∀ y ∈ ix.dependent_jobs,
      (∃ yi, mfind (mset s.scheduled_jobs j { info with ready_seqno := 0 }) y
        = some yi) ∧ GhostEdge s x y := by
    intro x ix hx y hy
    obtain ⟨ix0, h0, _, _, hset, _⟩ := hchar x ix hx
    rw [hset] at hy
    obtain ⟨⟨yi, hyi⟩, hge⟩ := hI.backlink_sound x ix0 h0 y hy
    constructor
    · by_cases hyj : y = j
      · exact ⟨_, by rw [hyj]; exact hfs⟩
      · exact ⟨yi, by rw [hfn y hyj]; exact hyi⟩
    · exact hge
  have f9 : ∀ x ix, mfind (mset s.scheduled_jobs j { info with ready_seqno := 0 }) x
      = some ix → ∀ y ∈ ix.dependent_jobs,
      ∀ yi, mfind (mset s.scheduled_jobs j { info with ready_seqno := 0 }) y
        = some yi → yi.priority ≤ ix.priority := by
    intro x ix hx y hy yi hyi
    obtain ⟨ix0, h0, hpr, _, hset, _⟩ := hchar x ix hx
    obtain ⟨yi0, h0y, hpry, _⟩ := hchar y yi hyi
    rw [hset] at hy
    rw [hpr, hpry]
    exact hI.prio_edge x ix0 h0 y hy yi0 h0y
  have f10 : ∀ x ix, mfind (mset s.scheduled_jobs j { info with ready_seqno := 0 }) x
      = some ix → ∃ p0, mfind s.sched_prio x = some p0 ∧ p0 ≤ ix.priority := by
    intro x ix hx
    obtain ⟨ix0, h0, hpr, _⟩ := hchar x ix hx
    obtain ⟨p0, hp0, hle⟩ := hI.prio_init x ix0 h0
    exact ⟨p0, hp0, by rw [hpr]; exact hle⟩
  have f12 : ∀ e ∈ rqErase s.ready_queue info.key, ∃ i,
      mfind (mset s.scheduled_jobs j { info with ready_seqno := 0 }) e.2 = some i ∧
      Info.key i = e.1 ∧ i.dependencies_left = 0 ∧ i.ready_seqno ≠ 0 := by
    intro e he
    obtain ⟨he1, he2⟩ := (mem_rqErase _ _ _).mp he
    obtain ⟨i, hfi, hki, hdli, hsni⟩ := hI.rq_sound e he1
    have hej : e.2 ≠ j := by
      intro hc
      rw [hc, hmj] at hfi
      have hii : info = i := Option.some_inj.mp hfi
      apply he2
      rw [← hki, ← hii]
    exact ⟨i, by rw [hfn e.2 hej]; exact hfi, hki, hdli, hsni⟩
  have f13 : ∀ x ix, mfind (mset s.scheduled_jobs j { info with ready_seqno := 0 }) x
      = some ix → ix.ready_seqno ≠ 0 →
      (Info.key ix, x) ∈ rqErase s.ready_queue info.key := by
    intro x ix hx hsnx
    obtain ⟨ix0, h0, hpr, _, _, hsq⟩ := hchar x ix hx
    rcases hsq with ⟨hxj, hsq⟩ | ⟨hxj, hsq0⟩
    · have hx0ne : ix0.ready_seqno ≠ 0 := by
        rw [← hsq]
        exact hsnx
      have hmem := hI.rq_complete x ix0 h0 hx0ne
      have hkey : Info.key ix = Info.key ix0 := by
        unfold Info.key
        rw [hpr, hsq]
      rw [hkey]
      refine (mem_rqErase _ _ _).mpr ⟨hmem, ?_⟩
      intro hkeq
      have hseq : ix0.ready_seqno = info.ready_seqno :=
        congrArg ReadyKey.ready_seqno hkeq
      exact hxj (hI.seqno_inj x ix0 j info h0 hmj hx0ne hseq)
    · exfalso
      apply hsnx
      rw [hsq0]
  have f14 : ∀ x ix, mfind (mset s.scheduled_jobs j { info with ready_seqno := 0 }) x
      = some ix → ix.ready_seqno ≤ s.last_ready_seqno := by
    intro x ix hx
    obtain ⟨ix0, h0, _, _, _, hsq⟩ := hchar x ix hx
    rcases hsq with ⟨_, hsq⟩ | ⟨_, hsq0⟩
    · rw [hsq]
      exact hI.seqno_le x ix0 h0
    · rw [hsq0]
      exact Nat.zero_le _
  have f15 : ∀ x ix y iy,
      mfind (mset s.scheduled_jobs j { info with ready_seqno := 0 }) x = some ix →
      mfind (mset s.scheduled_jobs j { info with ready_seqno := 0 }) y = some iy →
      ix.ready_seqno ≠ 0 → ix.ready_seqno = iy.ready_seqno → x = y := by
    intro x ix y iy hx hy hnx heq
    obtain ⟨ix0, h0, _, _, _, hsqx⟩ := hchar x ix hx
    obtain ⟨iy0, h0y, _, _, _, hsqy⟩ := hchar y iy hy
    rcases hsqx with ⟨_, hsqx⟩ | ⟨hxj, hsq0⟩
    · rcases hsqy with ⟨_, hsqy⟩ | ⟨hyj, hsqy0⟩
      · rw [hsqx] at hnx heq
        rw [hsqy] at heq
        exact hI.seqno_inj x ix0 y iy0 h0 h0y hnx heq
      · exfalso
        rw [hsqx] at hnx heq
        rw [hsqy0] at heq
        exact hnx heq
    · exfalso
      rw [hsq0] at hnx
      exact hnx rfl
  exact ⟨f1, f2, hI.finished_done, f4, f5, f6, f7, f8, f9, f10,
    rqErase_sorted _ _ hI.rq_sorted, f12, f13, f14, f15⟩

theorem removeOne_pres (env : Nat → LoadJob) (rank : Nat → Nat) (hwf : WFEnv env rank)
    (res : Nat → Option String) (j : Nat) (s : LoaderState)
    (hI : Inv env s) (hkn : KN s) (hjsi : JSInv s) :
    Inv env (removeOne env res j s) ∧ KN (removeOne env res j s) ∧
    JSInv (removeOne env res j s) := by
  by_cases hf : j ∈ s.finished_jobs
  · have he : removeOne env res j s =
        { s with finished_jobs := serase s.finished_jobs j } := by
      simp only [removeOne, if_pos hf]
    rw [he]
    exact ⟨inv_finErase env s j hI, hkn, hjsi⟩
  · cases hm : mfind s.scheduled_jobs j with
    | none =>
      have he : removeOne env res j s = s := by
        simp only [removeOne, if_neg hf, hm]
      rw [he]
      exact ⟨hI, hkn, hjsi⟩
    | some info =>
      by_cases hdl : info.dependencies_left > 0
      · have he : removeOne env res j s =
            { canceledOp env (s.scheduled_jobs.length + 1) j s with
              finished_jobs :=
                serase (canceledOp env (s.scheduled_jobs.length + 1) j s
                  ).finished_jobs j } := by
          simp only [removeOne, if_neg hf, hm, if_pos hdl]
        rw [he]
        have hsn : info.ready_seqno = 0 := by
          by_contra hsn
          have hmem := hI.rq_complete j info hm hsn
          obtain ⟨i2, hfi2, _, hdl2, _⟩ := hI.rq_sound _ hmem
          have hfi2b : mfind s.scheduled_jobs j = some i2 := hfi2
          rw [hm] at hfi2b
          have hii : info = i2 := Option.some_inj.mp hfi2b
          rw [← hii] at hdl2
          omega
        have hpost := fail_any env rank hwf (s.scheduled_jobs.length + 1) s j
          (mkExn .LOAD_CANCELED ("Load job " ++ (env j).name ++ " canceled")) info
          hm hsn hI hkn (by omega)
        have hIc : Inv env (canceledOp env (s.scheduled_jobs.length + 1) j s) :=
          inv_of_finv_nil env _ hpost.1
        have hknc : KN (canceledOp env (s.scheduled_jobs.length + 1) j s) :=
          hpost.1.keys_nodup
        have hjc : JSInv (canceledOp env (s.scheduled_jobs.length + 1) j s) :=
          JSInv_of_fpost env rank j _ s _ hpost hjsi
        exact ⟨inv_finErase env _ j hIc, hknc, hjc⟩
      · by_cases hsn : info.ready_seqno ≠ 0
        · have he : removeOne env res j s =
              { canceledOp env (s.scheduled_jobs.length + 1) j
                  (dequeueCancelPrep j info s) with
                finished_jobs :=
                  serase (canceledOp env (s.scheduled_jobs.length + 1) j
                    (dequeueCancelPrep j info s)).finished_jobs j } := by
            simp only [removeOne, dequeueCancelPrep, if_neg hf, hm, if_neg hdl,
              if_pos hsn]
          rw [he]
          have hlen : (dequeueCancelPrep j info s).scheduled_jobs.length
              = s.scheduled_jobs.length :=
            mset_length s.scheduled_jobs j { info with ready_seqno := 0 } info hm
          have hknp : KN (dequeueCancelPrep j info s) := KN_mset _ _ _ hkn
          have hjsp : JSInv (dequeueCancelPrep j info s) := hjsi
          have hmp : mfind (dequeueCancelPrep j info s).scheduled_jobs j
              = some { info with ready_seqno := 0 } := mfind_mset_self _ _ _
          have hpost := fail_any env rank hwf (s.scheduled_jobs.length + 1)
            (dequeueCancelPrep j info s) j
            (mkExn .LOAD_CANCELED ("Load job " ++ (env j).name ++ " canceled"))
            { info with ready_seqno := 0 } hmp rfl
            (inv_dequeue env s j info hm hI) hknp (by rw [hlen]; omega)
          have hIc : Inv env (canceledOp env (s.scheduled_jobs.length + 1) j
              (dequeueCancelPrep j info s)) := inv_of_finv_nil env _ hpost.1
          have hknc : KN (canceledOp env (s.scheduled_jobs.length + 1) j
              (dequeueCancelPrep j info s)) := hpost.1.keys_nodup
          have hjc : JSInv (canceledOp env (s.scheduled_jobs.length + 1) j
              (dequeueCancelPrep j info s)) :=
            JSInv_of_fpost env rank j _ _ _ hpost hjsp
          exact ⟨inv_finErase env _ j hIc, hknc, hjc⟩
        · have hdl0 : info.dependencies_left = 0 :=
            Nat.le_zero.mp (Nat.not_lt.mp hdl)
          have hsn0 : info.ready_seqno = 0 := not_not.mp hsn
          have hexec : isExecuting s j = true := by
            unfold isExecuting
            rw [hm]
            simp [hdl0, hsn0]
          cases hres : res j with
          | none =>
            have he : removeOne env res j s =
                { loadedOp j s with
                  finished_jobs := serase (loadedOp j s).finished_jobs j } := by
              simp only [removeOne, if_neg hf, hm, if_neg hdl, if_neg hsn, hres]
            rw [he]
            have hIl := inv_loaded env rank hwf s j hexec hI
            exact ⟨inv_finErase env _ j hIl, KN_loadedOp j s hkn,
              JSInv_loaded j s hjsi⟩
          | some m =>
            have he : removeOne env res j s =
                { failedF env (s.scheduled_jobs.length + 1) j (bodyFailExn env j m) s
                  with finished_jobs :=
                    serase (failedF env (s.scheduled_jobs.length + 1) j
                      (bodyFailExn env j m) s).finished_jobs j } := by
              simp only [removeOne, if_neg hf, hm, if_neg hdl, if_neg hsn, hres]
            rw [he]
            have hpost := fail_commit env rank hwf s j (bodyFailExn env j m) hexec
              hI hkn
            have hIc : Inv env (failedF env (s.scheduled_jobs.length + 1) j
                (bodyFailExn env j m) s) := inv_of_finv_nil env _ hpost.1
            have hknc : KN (failedF env (s.scheduled_jobs.length + 1) j
                (bodyFailExn env j m) s) := hpost.1.keys_nodup
            have hjc : JSInv (failedF env (s.scheduled_jobs.length + 1) j
                (bodyFailExn env j m) s) :=
              JSInv_of_fpost env rank j _ s _ hpost hjsi
            exact ⟨inv_finErase env _ j hIc, hknc, hjc⟩

theorem removeOp_pres (env : Nat → LoadJob) (rank : Nat → Nat) (hwf : WFEnv env rank)
    (res : Nat → Option String) :
    ∀ (jobs : List Nat) (s : LoaderState), Inv env s → KN s → JSInv s →
    Inv env (removeOp env res jobs s) ∧ KN (removeOp env res jobs s) ∧
    JSInv (removeOp env res jobs s) := by
  intro jobs
  induction jobs with
  | nil =>
    intro s hI hkn hjsi
    exact ⟨hI, hkn, hjsi⟩
  | cons j js ih =>
    intro s hI hkn hjsi
    have h1 := removeOne_pres env rank hwf res j s hI hkn hjsi
    have he : removeOp env res (j :: js) s
        = removeOp env res js (removeOne env res j s) := by
      simp only [removeOp]
    rw [he]
    exact ih _ h1.1 h1.2.1 h1.2.2

theorem JSInv_pick (s : LoaderState) (h : JSInv s) : JSInv (pickOp s) := by
  have hjs : ∀ x, jstate (pickOp s) x = jstate s x := by
    intro x
    unfold pickOp jstate
    cases s.ready_queue with
    | nil => rfl
    | cons e rest => rfl
  intro x hx
  rw [hjs x] at hx
  rw [hjs x]
  exact h x hx

theorem inv_init (env : Nat → LoadJob) (maxt : Nat) :
    Inv env (initState maxt) ∧ KN (initState maxt) ∧ JSInv (initState maxt) := by
  refine ⟨⟨?_, ?_, ?_, ?_, ?_, ?_, ?_, ?_, ?_, ?_, ?_, ?_, ?_, ?_, ?_⟩, ?_, ?_⟩
  · intro x i hx
    exact Option.noConfusion hx
  · intro x i hx
    exact Option.noConfusion hx
  · intro x hx
    cases hx
  · intro x i hx
    exact Option.noConfusion hx
  · intro x i hx
    exact Option.noConfusion hx
  · intro x i hx
    exact Option.noConfusion hx
  · intro x i hx
    exact Option.noConfusion hx
  · intro x i hx
    exact Option.noConfusion hx
  · intro x i hx
    exact Option.noConfusion hx
  · intro x i hx
    exact Option.noConfusion hx
  · exact List.Pairwise.nil
  · intro e he
    cases he
  · intro x i hx
    exact Option.noConfusion hx
  · intro x i hx
    exact Option.noConfusion hx
  · intro x i j2 i2 hx
    exact Option.noConfusion hx
  · simp [KN, initState]
  · intro x _
    rfl

theorem reachable_inv (env : Nat → LoadJob) (rank : Nat → Nat) (hwf : WFEnv env rank)
    (maxt : Nat) : ∀ s, Reachable env rank maxt s →
    Inv env s ∧ KN s ∧ JSInv s := by
  intro s h
  induction h with
  | refl => exact inv_init env maxt
  | tail h1 h2 ih =>
    obtain ⟨hI, hkn, hjsi⟩ := ih
    cases h2 with
    | schedule jobs p s t hnd hok =>
      obtain ⟨a1, a2, a3, _⟩ :=
        scheduleOp_master env rank hwf jobs p _ _ hnd hok hI hkn hjsi
      exact ⟨a1, a2, a3⟩
    | prioritizeJob j p s =>
      exact ⟨(inv_prioritize env rank hwf j p _ hI).1,
        (KN_prioritize env (rank j + 1)).1 j p _ hkn,
        JSInv_of_core _ _ (inv_prioritize env rank hwf j p _ hI).2.2.1 hjsi⟩
    | removeJobs jobs res s hnd =>
      exact removeOp_pres env rank hwf res jobs _ hI hkn hjsi
    | startLoader s =>
      exact ⟨inv_start env _ hI, hkn, hjsi⟩
    | stopLoader s =>
      exact ⟨inv_stop env _ hI, hkn, hjsi⟩
    | pick s hrun hne =>
      exact ⟨inv_pick env _ hI, KN_pick _ hkn, JSInv_pick _ hjsi⟩
    | commitOk j s hexec =>
      exact ⟨inv_loaded env rank hwf _ j hexec hI, KN_loadedOp j _ hkn,
        JSInv_loaded j _ hjsi⟩
    | commitFail j m s hexec =>
      have hpost := fail_commit env rank hwf _ j (bodyFailExn env j m) hexec hI hkn
      exact ⟨inv_of_finv_nil env _ hpost.1, hpost.1.keys_nodup,
        JSInv_of_fpost env rank j _ _ _ hpost hjsi⟩
    | workerExit s =>
      exact ⟨inv_workerExit env _ hI, hkn, hjsi⟩

theorem enqueue_keys (s : LoaderState) (j : Nat) :
    (enqueue s j).scheduled_jobs.map Prod.fst = s.scheduled_jobs.map Prod.fst := by
  unfold enqueue
  cases hm : mfind s.scheduled_jobs j with
  | none => rfl
  | some info =>
    by_cases hc : s.is_running = true ∧ s.workers < s.max_threads
    · simp only [if_pos hc]
      exact keys_mset_found _ _ _ ((mem_keys_iff _ _).mpr (by simp [hm]))
    · simp only [if_neg hc]
      exact keys_mset_found _ _ _ ((mem_keys_iff _ _).mpr (by simp [hm]))

theorem loadedDeps_keys : ∀ (dl : List Nat) (s : LoaderState),
    (loadedDeps dl s).scheduled_jobs.map Prod.fst
      = s.scheduled_jobs.map Prod.fst := by
  intro dl
  induction dl with
  | nil => exact fun s => rfl
  | cons d rest ih =>
    intro s
    cases hm : mfind s.scheduled_jobs d with
    | none =>
      have ht : loadedDeps (d :: rest) s = loadedDeps rest s := by
        simp only [loadedDeps, hm]
      rw [ht]
      exact ih s
    | some di =>
      by_cases hz : ({ di with dependencies_left := di.dependencies_left - 1 }
          : Info).dependencies_left = 0
      · have ht : loadedDeps (d :: rest) s
            = loadedDeps rest (enqueue (decDepState s d di) d) := by
          simp only [loadedDeps, hm, if_pos hz]
        rw [ht, ih, enqueue_keys]
        show (mset s.scheduled_jobs d
          { di with dependencies_left := di.dependencies_left - 1 }).map Prod.fst = _
        exact keys_mset_found _ _ _ ((mem_keys_iff _ _).mpr (by simp [hm]))
      · have ht : loadedDeps (d :: rest) s
            = loadedDeps rest (decDepState s d di) := by
          simp only [loadedDeps, hm, if_neg hz]
        rw [ht, ih]
        show (mset s.scheduled_jobs d
          { di with dependencies_left := di.dependencies_left - 1 }).map Prod.fst = _
        exact keys_mset_found _ _ _ ((mem_keys_iff _ _).mpr (by simp [hm]))

theorem loadedOp_keys (j : Nat) (s : LoaderState) :
    (loadedOp j s).scheduled_jobs.map Prod.fst
      = (s.scheduled_jobs.map Prod.fst).filter (fun y => decide (y ≠ j)) := by
  show (merase (loadedDeps _ _).scheduled_jobs j).map Prod.fst = _
  rw [keys_merase, loadedDeps_keys]

theorem loadedOp_find_self (j : Nat) (s : LoaderState) :
    mfind (loadedOp j s).scheduled_jobs j = none := by
  show mfind (merase (loadedDeps _ _).scheduled_jobs j) j = none
  exact mfind_merase_self _ _

theorem loadedOp_pend (j : Nat) (s : LoaderState) :
    ∀ x, isPending (loadedOp j s) x = true → x ≠ j ∧ isPending s x = true := by
  intro x h
  rw [isPending_iff_pkeys] at h
  unfold pkeys at h
  rw [loadedOp_keys, List.mem_filter] at h
  obtain ⟨h1, h2⟩ := h
  refine ⟨by simpa using h2, ?_⟩
  rw [isPending_iff_pkeys]
  exact h1

theorem removeOne_skip (env : Nat → LoadJob) (res : Nat → Option String) (j : Nat)
    (s : LoaderState) (h1 : j ∉ s.finished_jobs)
    (h2 : mfind s.scheduled_jobs j = none) : removeOne env res j s = s := by
  simp only [removeOne, if_neg h1, h2]

theorem removeOne_cases (env : Nat → LoadJob) (rank : Nat → Nat)
    (hwf : WFEnv env rank) (res : Nat → Option String) (j : Nat) (s : LoaderState)
    (hI : Inv env s) (hkn : KN s) :
    (∃ s2, removeOne env res j s
        = { s2 with finished_jobs := serase s2.finished_jobs j } ∧
      mfind s2.scheduled_jobs j = none ∧
      (∀ x, isPending s2 x = true → isPending s x = true) ∧
      (∀ x, x ∈ s2.finished_jobs →
        x ∈ s.finished_jobs ∨ x = j ∨ isPending s x = true)) ∨
    (removeOne env res j s = { s with finished_jobs := serase s.finished_jobs j } ∧
      isPending s j = false) ∨
    (removeOne env res j s = s ∧ isPending s j = false ∧ j ∉ s.finished_jobs) := by
  by_cases hf : j ∈ s.finished_jobs
  · right
    left
    constructor
    · simp only [removeOne, if_pos hf]
    · cases hm : mfind s.scheduled_jobs j with
      | none => simp [isPending, hm]
      | some i =>
        exfalso
        have h1 := (hI.pending_unfinished j i hm).1
        have h2 := hI.finished_done j hf
        rw [h1] at h2
        cases h2
  · cases hm : mfind s.scheduled_jobs j with
    | none =>
      right
      right
      exact ⟨removeOne_skip env res j s hf hm, by simp [isPending, hm], hf⟩
    | some info =>
      left
      by_cases hdl : info.dependencies_left > 0
      · have hsn : info.ready_seqno = 0 := by
          by_contra hsn
          have hmem := hI.rq_complete j info hm hsn
          obtain ⟨i2, hfi2, _, hdl2, _⟩ := hI.rq_sound _ hmem
          have hfi2b : mfind s.scheduled_jobs j = some i2 := hfi2
          rw [hm] at hfi2b
          have hii : info = i2 := Option.some_inj.mp hfi2b
          rw [← hii] at hdl2
          omega
        have hpost := fail_any env rank hwf (s.scheduled_jobs.length + 1) s j
          (mkExn .LOAD_CANCELED ("Load job " ++ (env j).name ++ " canceled")) info
          hm hsn hI hkn (by omega)
        refine ⟨canceledOp env (s.scheduled_jobs.length + 1) j s, ?_,
          hpost.2.1, hpost.2.2.2.2.2.1, ?_⟩
        · simp only [removeOne, if_neg hf, hm, if_pos hdl]
        · intro x hx
          exact hpost.2.2.2.2.2.2.2.2.2.2.2.2.2.2.2.2.2.2 x hx
      · by_cases hsn : info.ready_seqno ≠ 0
        · have hpp : ∀ x, isPending (dequeueCancelPrep j info s) x
              = isPending s x := by
            intro x
            unfold isPending dequeueCancelPrep
            by_cases hx : x = j
            · show (mfind (mset s.scheduled_jobs j
                { info with ready_seqno := 0 }) x).isSome = _
              rw [hx, mfind_mset_self, hm]
              rfl
            · show (mfind (mset s.scheduled_jobs j
                { info with ready_seqno := 0 }) x).isSome = _
              rw [mfind_mset_ne _ _ _ _ hx]
          have hlen : (dequeueCancelPrep j info s).scheduled_jobs.length
              = s.scheduled_jobs.length :=
            mset_length s.scheduled_jobs j { info with ready_seqno := 0 } info hm
          have hknp : KN (dequeueCancelPrep j info s) := KN_mset _ _ _ hkn
          have hmp : mfind (dequeueCancelPrep j info s).scheduled_jobs j
              = some { info with ready_seqno := 0 } := mfind_mset_self _ _ _
          have hpost := fail_any env rank hwf (s.scheduled_jobs.length + 1)
            (dequeueCancelPrep j info s) j
            (mkExn .LOAD_CANCELED ("Load job " ++ (env j).name ++ " canceled"))
            { info with ready_seqno := 0 } hmp rfl
            (inv_dequeue env s j info hm hI) hknp (by rw [hlen]; omega)
          refine ⟨canceledOp env (s.scheduled_jobs.length + 1) j
            (dequeueCancelPrep j info s), ?_, hpost.2.1, ?_, ?_⟩
          · simp only [removeOne, dequeueCancelPrep, if_neg hf, hm, if_neg hdl,
              if_pos hsn]
          · intro x hx
            rw [← hpp x]
            exact hpost.2.2.2.2.2.1 x hx
          · intro x hx
            rcases hpost.2.2.2.2.2.2.2.2.2.2.2.2.2.2.2.2.2.2 x hx with h | h | h
            · exact Or.inl h
            · exact Or.inr (Or.inl h)
            · right
              right
              rw [← hpp x]
              exact h
        · have hdl0 : info.dependencies_left = 0 :=
            Nat.le_zero.mp (Nat.not_lt.mp hdl)
          have hsn0 : info.ready_seqno = 0 := not_not.mp hsn
          have hexec : isExecuting s j = true := by
            unfold isExecuting
            rw [hm]
            simp [hdl0, hsn0]
          cases hres : res j with
          | none =>
            refine ⟨loadedOp j s, ?_, loadedOp_find_self j s, ?_, ?_⟩
            · simp only [removeOne, if_neg hf, hm, if_neg hdl, if_neg hsn, hres]
            · intro x hx
              exact (loadedOp_pend j s x hx).2
            · intro x hx
              have hx2 : x ∈ sinsert s.finished_jobs j := by
                rw [← loadedOp_finished j s]
                exact hx
              rcases (mem_sinsert _ _ _).mp hx2 with h | h
              · exact Or.inr (Or.inl h)
              · exact Or.inl h
          | some m =>
            have hpost := fail_commit env rank hwf s j (bodyFailExn env j m) hexec
              hI hkn
            refine ⟨failedF env (s.scheduled_jobs.length + 1) j (bodyFailExn env j m)
              s, ?_, hpost.2.1, hpost.2.2.2.2.2.1, ?_⟩
            · simp only [removeOne, if_neg hf, hm, if_neg hdl, if_neg hsn, hres]
            · intro x hx
              exact hpost.2.2.2.2.2.2.2.2.2.2.2.2.2.2.2.2.2.2 x hx

theorem removeOne_absent (env : Nat → LoadJob) (rank : Nat → Nat)
    (hwf : WFEnv env rank) (res : Nat → Option String) (j : Nat) (s : LoaderState)
    (hI : Inv env s) (hkn : KN s) :
    isPending (removeOne env res j s) j = false ∧
    j ∉ (removeOne env res j s).finished_jobs := by
  rcases removeOne_cases env rank hwf res j s hI hkn with
    ⟨s2, he, hnp, _, _⟩ | ⟨he, hnp⟩ | ⟨he, hnp, hnf⟩
  · rw [he]
    constructor
    · have h2 : isPending s2 j = false := by simp [isPending, hnp]
      exact h2
    · intro hc
      exact ((mem_serase _ _ _).mp hc).2 rfl
  · rw [he]
    refine ⟨hnp, ?_⟩
    intro hc
    exact ((mem_serase _ _ _).mp hc).2 rfl
  · rw [he]
    exact ⟨hnp, hnf⟩

theorem removeOne_keeps_absent (env : Nat → LoadJob) (rank : Nat → Nat)
    (hwf : WFEnv env rank) (res : Nat → Option String) (j : Nat) (s : LoaderState)
    (hI : Inv env s) (hkn : KN s) (x : Nat)
    (hxp : isPending s x = false) (hxf : x ∉ s.finished_jobs) :
    isPending (removeOne env res j s) x = false ∧
    x ∉ (removeOne env res j s).finished_jobs := by
  rcases removeOne_cases env rank hwf res j s hI hkn with
    ⟨s2, he, _, hpend, hfin⟩ | ⟨he, _⟩ | ⟨he, _, _⟩
  · rw [he]
    constructor
    · have h2 : isPending s2 x = false := by
        cases hb : isPending s2 x
        · rfl
        · exact absurd (hpend x hb) (by rw [hxp]; simp)
      exact h2
    · intro hc
      have hc2 := ((mem_serase _ _ _).mp hc).1
      have hcj := ((mem_serase _ _ _).mp hc).2
      rcases hfin x hc2 with h | h | h
      · exact hxf h
      · exact hcj h
      · rw [hxp] at h
        cases h
  · rw [he]
    refine ⟨hxp, ?_⟩
    intro hc
    exact hxf ((mem_serase _ _ _).mp hc).1
  · rw [he]
    exact ⟨hxp, hxf⟩

theorem removeOp_absent (env : Nat → LoadJob) (rank : Nat → Nat)
    (hwf : WFEnv env rank) (res : Nat → Option String) :
    ∀ (jobs : List Nat) (s : LoaderState), Inv env s → KN s → JSInv s →
    (∀ x ∈ jobs, isPending (removeOp env res jobs s) x = false ∧
      x ∉ (removeOp env res jobs s).finished_jobs) ∧
    (∀ x, isPending s x = false → x ∉ s.finished_jobs →
      isPending (removeOp env res jobs s) x = false ∧
      x ∉ (removeOp env res jobs s).finished_jobs) := by
  intro jobs
  induction jobs with
  | nil =>
    intro s _ _ _
    exact ⟨fun x hx => absurd hx (List.not_mem_nil x), fun x h1 h2 => ⟨h1, h2⟩⟩
  | cons j js ih =>
    intro s hI hkn hjsi
    obtain ⟨hI2, hkn2, hjsi2⟩ := removeOne_pres env rank hwf res j s hI hkn hjsi
    have he : removeOp env res (j :: js) s
        = removeOp env res js (removeOne env res j s) := by
      simp only [removeOp]
    obtain ⟨iha, ihb⟩ := ih (removeOne env res j s) hI2 hkn2 hjsi2
    obtain ⟨ha1, ha2⟩ := removeOne_absent env rank hwf res j s hI hkn
    rw [he]
    constructor
    · intro x hx
      rcases List.mem_cons.mp hx with h1 | h1
      · rw [h1]
        exact ihb j ha1 ha2
      · exact iha x h1
    · intro x h1 h2
      obtain ⟨hk1, hk2⟩ := removeOne_keeps_absent env rank hwf res j s hI hkn x h1 h2
      exact ihb x hk1 hk2

theorem removeOp_skip (env : Nat → LoadJob) (res : Nat → Option String) :
    ∀ (jobs : List Nat) (t : LoaderState),
    (∀ x ∈ jobs, x ∉ t.finished_jobs ∧ mfind t.scheduled_jobs x = none) →
    removeOp env res jobs t = t := by
  intro jobs
  induction jobs with
  | nil =>
    intro t _
    simp only [removeOp]
  | cons j js ih =>
    intro t h
    obtain ⟨h1, h2⟩ := h j (List.mem_cons_self j js)
    have he : removeOp env res (j :: js) t
        = removeOp env res js (removeOne env res j t) := by
      simp only [removeOp]
    rw [he, removeOne_skip env res j t h1 h2]
    exact ih t (fun x hx => h x (List.mem_cons_of_mem j hx))

theorem depedge_rank (env : Nat → LoadJob) (rank : Nat → Nat) (hwf : WFEnv env rank)
    (s : LoaderState) (hI : Inv env s) (u x : Nat) (h : DepEdge s u x) :
    rank u < rank x := by
  obtain ⟨iu, hiu, hmem⟩ := h
  obtain ⟨⟨xi, hxi⟩, ⟨ds, hds, hmem2⟩⟩ := hI.backlink_sound u iu hiu x hmem
  obtain ⟨ds2, hds2, hsub⟩ := hI.ghost_deps x xi hxi
  rw [hds] at hds2
  have hde : ds = ds2 := Option.some_inj.mp hds2
  exact hwf.1 x u (hsub.subset (hde ▸ hmem2))

theorem transdep_rank (env : Nat → LoadJob) (rank : Nat → Nat) (hwf : WFEnv env rank)
    (s : LoaderState) (hI : Inv env s) (u x : Nat) (h : TransDependent s u x) :
    rank u < rank x := by
  induction h with
  | single hedge => exact depedge_rank env rank hwf s hI _ _ hedge
  | tail h1 hedge ih =>
    have h2 := depedge_rank env rank hwf s hI _ _ hedge
    omega

theorem transdep_prio (env : Nat → LoadJob) (s : LoaderState) (hI : Inv env s) :
    ∀ u x, TransDependent s u x → ∀ iu, mfind s.scheduled_jobs u = some iu →
      ∀ xi, mfind s.scheduled_jobs x = some xi → xi.priority ≤ iu.priority := by
  intro u x h
  induction h with
  | @single b hedge =>
    intro iu hiu xi hxi
    obtain ⟨iu2, hiu2, hmem⟩ := hedge
    rw [hiu] at hiu2
    have heq : iu = iu2 := Option.some_inj.mp hiu2
    have hfind2 : mfind s.scheduled_jobs u = some iu2 := by
      rw [← heq]
      exact hiu
    rw [heq]
    exact hI.prio_edge u iu2 hfind2 b hmem xi hxi
  | @tail b c h1 hedge ih =>
    intro iu hiu xi hxi
    obtain ⟨ib, hib, hmem⟩ := hedge
    have h2 := hI.prio_edge b ib hib c hmem xi hxi
    have h3 := ih iu hiu ib hib
    omega

theorem cascade_kills (env : Nat → LoadJob) (rank : Nat → Nat) (hwf : WFEnv env rank)
    (s t : LoaderState) (j : Nat) (e : Exn)
    (hI : Inv env s) (hpost : FPost env rank j e s t []) :
    ∀ x, TransDependent s j x →
      isPending t x = false ∧ x ∈ t.finished_jobs ∧
      (jstate t x).is_finished = true ∧ CascadeMark env e x (jstate t x) ∧
      (∀ u iu, mfind t.scheduled_jobs u = some iu → x ∉ iu.dependent_jobs) := by
  have hIt : Inv env t := inv_of_finv_nil env t hpost.1
  have hjdead : mfind t.scheduled_jobs j = none := hpost.2.1
  have hjexc : (jstate t j).exception = some e := hpost.2.2.2.2.1
  have hdied := hpost.2.2.2.2.2.2.1
  have hgd : t.sched_deps = s.sched_deps := hpost.2.2.2.2.2.2.2.2.2.1
  have hjs17 := hpost.2.2.2.2.2.2.2.2.2.2.2.2.2.2.2.2.1
  have hstep : ∀ b x, GhostEdge s b x → isPending s x = true →
      isPending t b = false → (∃ e2, (jstate t b).exception = some e2) →
      isPending t x = false := by
    intro b x hge hxp hbd hbe
    obtain ⟨e2, he2⟩ := hbe
    cases hbt : isPending t x with
    | false => rfl
    | true =>
      exfalso
      have hbs : (mfind t.scheduled_jobs x).isSome = true := hbt
      obtain ⟨xi, hxi⟩ := Option.isSome_iff_exists.mp hbs
      obtain ⟨ds, hds, hbds⟩ := hge
      have hds2 : mfind t.sched_deps x = some ds := by
        rw [hgd]
        exact hds
      have hed := hIt.extern_done x xi hxi ds hds2 b hbds hbd
      rw [hed.2] at he2
      cases he2
  intro x h
  induction h with
  | @single b hedge =>
    obtain ⟨ij, hij, hmem⟩ := hedge
    obtain ⟨⟨xi, hxi⟩, hge⟩ := hI.backlink_sound j ij hij b hmem
    have hxp : isPending s b = true := by simp [isPending, hxi]
    have hxj : b ≠ j := by
      have hrk := depedge_rank env rank hwf s hI j b ⟨ij, hij, hmem⟩
      intro hc
      rw [hc] at hrk
      omega
    have hxd : isPending t b = false :=
      hstep j b hge hxp (by simp [isPending, hjdead]) ⟨e, hjexc⟩
    obtain ⟨hf1, hf2, hf3⟩ := hdied b hxp hxd
    have hcm : CascadeMark env e b (jstate t b) := by
      rcases hjs17 b hxj with h1 | h1
      · exfalso
        have hpu := (hI.pending_unfinished b xi hxi).1
        rw [h1, hpu] at hf2
        cases hf2
      · exact h1
    refine ⟨hxd, hf1, hf2, hcm, ?_⟩
    intro u iu hu hmem2
    obtain ⟨xi2, hxi2⟩ := (hIt.backlink_sound u iu hu b hmem2).1
    simp [isPending, hxi2] at hxd
  | @tail b c h1 hedge ih =>
    obtain ⟨hbd, _, _, hbcm, _⟩ := ih
    have hxj : c ≠ j := by
      have hrk := transdep_rank env rank hwf s hI j c (Relation.TransGen.tail h1 hedge)
      intro hc
      rw [hc] at hrk
      omega
    obtain ⟨ib, hib, hmem⟩ := hedge
    obtain ⟨⟨xi, hxi⟩, hge⟩ := hI.backlink_sound b ib hib c hmem
    have hxp : isPending s c = true := by simp [isPending, hxi]
    obtain ⟨_, e2, he2, _⟩ := hbcm
    have hxd : isPending t c = false := hstep b c hge hxp hbd ⟨e2, he2⟩
    obtain ⟨hf1, hf2, hf3⟩ := hdied c hxp hxd
    have hcm : CascadeMark env e c (jstate t c) := by
      rcases hjs17 c hxj with hh | hh
      · exfalso
        have hpu := (hI.pending_unfinished c xi hxi).1
        rw [hh, hpu] at hf2
        cases hf2
      · exact hh
    refine ⟨hxd, hf1, hf2, hcm, ?_⟩
    intro u iu hu hmem2
    obtain ⟨xi2, hxi2⟩ := (hIt.backlink_sound u iu hu c hmem2).1
    simp [isPending, hxi2] at hxd

/- Well-formedness of the concrete environments and reachability of the
concrete traces. -/

theorem envDep_wf : WFEnv envDep rid := by
  constructor
  · intro j d hd
    by_cases h1 : j = 1
    · subst h1
      simp [envDep] at hd
      subst hd
      simp [rid]
    · simp [envDep, h1] at hd
  · intro j
    by_cases h1 : j = 1 <;> simp [envDep, h1]

theorem envChain_wf : WFEnv envChain rid := by
  constructor
  · intro j d hd
    by_cases h1 : j = 1
    · subst h1
      simp [envChain] at hd
      subst hd
      simp [rid]
    · by_cases h2 : j = 2
      · subst h2
        simp [envChain] at hd
        subst hd
        simp [rid]
      · simp [envChain, h1, h2] at hd
  · intro j
    by_cases h1 : j = 1 <;> by_cases h2 : j = 2 <;> simp [envChain, h1, h2]

theorem c46sched_reach : Reachable envDep rid 4 c46sched :=
  Relation.ReflTransGen.tail Relation.ReflTransGen.refl
    (Step.schedule [0, 1] 0 (initState 4) c46sched (by decide)
      (by simp +decide [scheduleOp, sanityChecks, checkCycle, ccTop,
        checkCycleImpl, ccDeps, envDep, rid, mkExn, bind, Except.bind,
        List.erase, statusOf, jstate, mfind, initState, c46sched]))

theorem c4wexec_reach : Reachable envDep rid 4 c4wexec :=
  Relation.ReflTransGen.tail
    (Relation.ReflTransGen.tail c46sched_reach (Step.startLoader c46sched))
    (Step.pick (startOp c46sched) rfl
      (by simp +decide [startOp, c46sched, scheduleJobs, insertJobs, insOne,
        processDeps, pdStep, prioritizeF, prioritizeDeps, prioStep, enqueue,
        spawnOp, rqInsert, envDep, rid, jstate, isPending, mfind, mset, mupd,
        sinsert, initState, Info.key, ReadyKey.klt]))

theorem c4wfail_reach : Reachable envDep rid 4 c4wfail :=
  Relation.ReflTransGen.tail c4wexec_reach
    (Step.commitFail 0 "boom" c4wexec
      (by simp +decide [c4wexec, c46sched, startOp, pickOp, scheduleJobs,
        insertJobs, insOne, processDeps, pdStep, prioritizeF, prioritizeDeps,
        prioStep, enqueue, spawnOp, rqInsert, envDep, rid, jstate, isPending,
        isExecuting, mfind, mset, mupd, sinsert, initState, Info.key,
        ReadyKey.klt]))

theorem c2wit_reach : Reachable envDep rid 4 c2wit :=
  Relation.ReflTransGen.tail
    (Relation.ReflTransGen.tail c4wexec_reach
      (Step.commitOk 0 c4wexec
        (by simp +decide [c4wexec, c46sched, startOp, pickOp, scheduleJobs,
          insertJobs, insOne, processDeps, pdStep, prioritizeF, prioritizeDeps,
          prioStep, enqueue, spawnOp, rqInsert, envDep, rid, jstate, isPending,
          isExecuting, mfind, mset, mupd, sinsert, initState, Info.key,
          ReadyKey.klt])))
    (Step.pick (loadedOp 0 c4wexec)
      (by simp +decide [loadedOp, loadedDeps, decDepState, setSuccess, merase,
        sinsert, serase, c4wexec, c46sched, startOp, pickOp, scheduleJobs,
        insertJobs, insOne, processDeps, pdStep, prioritizeF, prioritizeDeps,
        prioStep, enqueue, spawnOp, rqInsert, envDep, rid, jstate, isPending,
        isExecuting, mfind, mset, mupd, initState, Info.key, ReadyKey.klt])
      (by simp +decide [loadedOp, loadedDeps, decDepState, setSuccess, merase,
        sinsert, serase, c4wexec, c46sched, startOp, pickOp, scheduleJobs,
        insertJobs, insOne, processDeps, pdStep, prioritizeF, prioritizeDeps,
        prioStep, enqueue, spawnOp, rqInsert, envDep, rid, jstate, isPending,
        isExecuting, mfind, mset, mupd, initState, Info.key, ReadyKey.klt]))

theorem c2sched_reach : Reachable envDep rid 4 c2sched :=
  Relation.ReflTransGen.tail Relation.ReflTransGen.refl
    (Step.schedule [1] 5 (initState 4) c2sched (by decide)
      (by simp +decide [scheduleOp, sanityChecks, checkCycle, ccTop,
        checkCycleImpl, ccDeps, envDep, rid, mkExn, bind, Except.bind,
        List.erase, statusOf, jstate, mfind, initState, c2sched]))

theorem c2cexSt_reach : Reachable envDep rid 4 c2cexSt :=
  Relation.ReflTransGen.tail
    (Relation.ReflTransGen.tail c2sched_reach (Step.startLoader c2sched))
    (Step.pick (startOp c2sched) rfl
      (by simp +decide [startOp, c2sched, scheduleJobs, insertJobs, insOne,
        processDeps, pdStep, prioritizeF, prioritizeDeps, prioStep, enqueue,
        spawnOp, rqInsert, envDep, rid, jstate, isPending, mfind, mset, mupd,
        sinsert, initState, Info.key, ReadyKey.klt]))

theorem c3mid_reach : Reachable envDep rid 4 c3mid :=
  Relation.ReflTransGen.tail Relation.ReflTransGen.refl
    (Step.schedule [1] 9 (initState 4) c3mid (by decide)
      (by simp +decide [scheduleOp, sanityChecks, checkCycle, ccTop,
        checkCycleImpl, ccDeps, envDep, rid, mkExn, bind, Except.bind,
        List.erase, statusOf, jstate, mfind, initState, c3mid]))

theorem c3st_reach : Reachable envDep rid 4 c3st :=
  Relation.ReflTransGen.tail c3mid_reach
    (Step.schedule [0] 1 c3mid c3st (by decide)
      (by simp +decide [scheduleOp, sanityChecks, checkCycle, ccTop,
        checkCycleImpl, ccDeps, envDep, rid, mkExn, bind, Except.bind,
        List.erase, statusOf, jstate, isPending, mfind, mset, mupd, sinsert,
        initState, c3mid, c3st, scheduleJobs, insertJobs, insOne, processDeps,
        pdStep, prioritizeF, prioritizeDeps, prioStep, enqueue, spawnOp,
        rqInsert, Info.key, ReadyKey.klt]))

theorem c4mid_reach : Reachable envDep rid 4 c4mid :=
  Relation.ReflTransGen.tail
    (Relation.ReflTransGen.tail Relation.ReflTransGen.refl
      (Step.schedule [1] 0 (initState 4)
        (scheduleJobs envDep rid 0 [1] (insertJobs 0 [1] (initState 4)))
        (by decide)
        (by simp +decide [scheduleOp, sanityChecks, checkCycle, ccTop,
          checkCycleImpl, ccDeps, envDep, rid, mkExn, bind, Except.bind,
          List.erase, statusOf, jstate, mfind, initState])))
    (Step.schedule [0] 5
      (scheduleJobs envDep rid 0 [1] (insertJobs 0 [1] (initState 4)))
      c4mid (by decide)
      (by simp +decide [scheduleOp, sanityChecks, checkCycle, ccTop,
        checkCycleImpl, ccDeps, envDep, rid, mkExn, bind, Except.bind,
        List.erase, statusOf, jstate, isPending, mfind, mset, mupd, sinsert,
        initState, c4mid, scheduleJobs, insertJobs, insOne, processDeps,
        pdStep, prioritizeF, prioritizeDeps, prioStep, enqueue, spawnOp,
        rqInsert, Info.key, ReadyKey.klt]))

theorem c4exec_reach : Reachable envDep rid 4 c4exec :=
  Relation.ReflTransGen.tail
    (Relation.ReflTransGen.tail c4mid_reach (Step.startLoader c4mid))
    (Step.pick (startOp c4mid) rfl
      (by simp +decide [startOp, c4mid, scheduleJobs, insertJobs, insOne,
        processDeps, pdStep, prioritizeF, prioritizeDeps, prioStep, enqueue,
        spawnOp, rqInsert, envDep, rid, jstate, isPending, mfind, mset, mupd,
        sinsert, initState, Info.key, ReadyKey.klt]))

theorem c4cexSt_reach : Reachable envDep rid 4 c4cexSt :=
  Relation.ReflTransGen.tail c4exec_reach
    (Step.commitFail 0 "boom" c4exec
      (by simp +decide [c4exec, c4mid, startOp, pickOp, scheduleJobs,
        insertJobs, insOne, processDeps, pdStep, prioritizeF, prioritizeDeps,
        prioStep, enqueue, spawnOp, rqInsert, envDep, rid, jstate, isPending,
        isExecuting, mfind, mset, mupd, sinsert, initState, Info.key,
        ReadyKey.klt]))

theorem c6cexSt_reach : Reachable envDep rid 4 c6cexSt :=
  Relation.ReflTransGen.tail c46sched_reach
    (Step.removeJobs [1, 0] (fun _ => none) c46sched (by decide))

theorem c5a_reach : Reachable envChain rid 4 c5a :=
  Relation.ReflTransGen.tail Relation.ReflTransGen.refl
    (Step.schedule [1] 0 (initState 4) c5a (by decide)
      (by simp +decide [scheduleOp, sanityChecks, checkCycle, ccTop,
        checkCycleImpl, ccDeps, envChain, rid, mkExn, bind, Except.bind,
        List.erase, statusOf, jstate, mfind, initState, c5a]))

theorem c5b_reach : Reachable envChain rid 4 c5b :=
  Relation.ReflTransGen.tail
    (Relation.ReflTransGen.tail
      (Relation.ReflTransGen.tail c5a_reach (Step.startLoader c5a))
      (Step.pick (startOp c5a) rfl
        (by simp +decide [startOp, c5a, scheduleJobs, insertJobs, insOne,
          processDeps, pdStep, prioritizeF, prioritizeDeps, prioStep, enqueue,
          spawnOp, rqInsert, envChain, rid, jstate, isPending, mfind, mset,
          mupd, sinsert, initState, Info.key, ReadyKey.klt])))
    (Step.commitOk 1 (pickOp (startOp c5a))
      (by simp +decide [startOp, pickOp, c5a, scheduleJobs, insertJobs,
        insOne, processDeps, pdStep, prioritizeF, prioritizeDeps, prioStep,
        enqueue, spawnOp, rqInsert, envChain, rid, jstate, isPending,
        isExecuting, mfind, mset, mupd, sinsert, initState, Info.key,
        ReadyKey.klt]))

theorem c5c_reach : Reachable envChain rid 4 c5c :=
  Relation.ReflTransGen.tail c5b_reach
    (Step.schedule [0] 0 c5b c5c (by decide)
      (by simp +decide [scheduleOp, sanityChecks, checkCycle, ccTop,
        checkCycleImpl, ccDeps, envChain, rid, mkExn, bind, Except.bind,
        List.erase, statusOf, jstate, isPending, mfind, mset, mupd, sinsert,
        serase, merase, initState, c5a, c5b, c5c, scheduleJobs, insertJobs,
        insOne, processDeps, pdStep, prioritizeF, prioritizeDeps, prioStep,
        enqueue, spawnOp, rqInsert, startOp, pickOp, loadedOp, loadedDeps,
        decDepState, setSuccess, Info.key, ReadyKey.klt]))

theorem c5mid_reach : Reachable envChain rid 4 c5mid :=
  Relation.ReflTransGen.tail c5c_reach
    (Step.schedule [2] 0 c5c c5mid (by decide)
      (by simp +decide [scheduleOp, sanityChecks, checkCycle, ccTop,
        checkCycleImpl, ccDeps, envChain, rid, mkExn, bind, Except.bind,
        List.erase, statusOf, jstate, isPending, mfind, mset, mupd, sinsert,
        serase, merase, initState, c5a, c5b, c5c, c5mid, scheduleJobs,
        insertJobs, insOne, processDeps, pdStep, prioritizeF, prioritizeDeps,
        prioStep, enqueue, spawnOp, rqInsert, startOp, pickOp, loadedOp,
        loadedDeps, decDepState, setSuccess, Info.key, ReadyKey.klt]))

/- The claim theorems. -/

/-- C9: LoadJob::wait returns exactly when the status of the job is no longer
PENDING, returns normally exactly when the status is SUCCESS, and when the
status is FAILED it re-raises the captured failure value to the caller. -/
theorem C9_wait_status (st : JobState) :
    ((waitResult st).isSome ↔ statusOf st ≠ .PENDING) ∧
    (waitResult st = some (.ok ()) ↔ statusOf st = .SUCCESS) ∧
    (statusOf st = .FAILED →
      ∃ e, st.exception = some e ∧ waitResult st = some (.error e)) := by
  obtain ⟨fin, exc, p⟩ := st
  cases fin <;> cases exc <;> simp [waitResult, statusOf]

/-- C1: the claim that scheduling a set whose dependency edges contain a cycle
always raises ScheduleFailed is contradicted by the code: checkCycleImpl
returns the job name as the detected-cycle chain and the caller treats an
empty chain as no cycle, so a cyclic pair of jobs with empty names passes the
check and is scheduled, while the identical dependency edges under nonempty
names are rejected. -/
theorem C1_empty_name_cycle_schedule :
    (∀ j, (envCyc j).dependencies = (envCycN j).dependencies) ∧
    checkCycle envCycN [0, 1] = .error (mkExn .SCHEDULE_FAILED
      "Load job dependency cycle detected: a -> b -> a") ∧
    checkCycle envCyc [0, 1] = .ok () ∧
    (∃ t, scheduleOp envCyc rid [0, 1] 5 (initState 4) = .ok t ∧
      isPending t 0 = true ∧ isPending t 1 = true) := by
  refine ⟨?_, ?_, ?_,
    ⟨scheduleJobs envCyc rid 5 [0, 1] (insertJobs 5 [0, 1] (initState 4)),
      ?_, ?_, ?_⟩⟩
  · intro j
    unfold envCyc envCycN
    split_ifs <;> rfl
  · simp +decide [checkCycle, ccTop, checkCycleImpl, ccDeps, envCycN, mkExn,
      bind, Except.bind, List.erase]
  · simp +decide [checkCycle, ccTop, checkCycleImpl, ccDeps, envCyc, mkExn,
      bind, Except.bind, List.erase]
  · simp +decide [scheduleOp, sanityChecks, checkCycle, ccTop, checkCycleImpl,
      ccDeps, envCyc, rid, mkExn, bind, Except.bind, List.erase, statusOf,
      jstate, mfind, initState]
  · simp +decide [isPending, mfind, mset, mupd, sinsert, scheduleJobs,
      insertJobs, insOne, processDeps, pdStep, prioritizeF, prioritizeDeps,
      prioStep, enqueue, spawnOp, rqInsert, envCyc, rid, jstate, initState,
      Info.key, ReadyKey.klt]
  · simp +decide [isPending, mfind, mset, mupd, sinsert, scheduleJobs,
      insertJobs, insOne, processDeps, pdStep, prioritizeF, prioritizeDeps,
      prioStep, enqueue, spawnOp, rqInsert, envCyc, rid, jstate, initState,
      Info.key, ReadyKey.klt]

/-- C2: amended ordering guarantee: whenever a worker is executing a job in a
reachable state, every prerequisite the schedule call recognised (the declared
prerequisites found in the pending map at schedule time, recorded in the
ghost) has already finished successfully; declared prerequisites that were
absent at schedule time are assumed complete and are not awaited. -/
theorem C2_executing_prereqs_completed (env : Nat → LoadJob) (rank : Nat → Nat)
    (maxt : Nat) (s : LoaderState) (j : Nat)
    (hwf : WFEnv env rank) (hr : Reachable env rank maxt s)
    (hexec : isExecuting s j = true) :
    ∃ ds, mfind s.sched_deps j = some ds ∧
      List.Sublist ds (env j).dependencies ∧
      ∀ d ∈ ds, (jstate s d).is_finished = true ∧
        (jstate s d).exception = none := by
  obtain ⟨hI, hkn, hjsi⟩ := reachable_inv env rank hwf maxt s hr
  obtain ⟨ij, hmj, hdl, hsn⟩ := isExecuting_elim s j hexec
  obtain ⟨ds, hds, hsub⟩ := hI.ghost_deps j ij hmj
  refine ⟨ds, hds, hsub, ?_⟩
  intro d hd
  have hlen := hI.deps_left_eq j ij hmj ds hds
  rw [hdl] at hlen
  have hnil : ds.filter (fun d2 => isPending s d2) = [] :=
    List.length_eq_zero.mp hlen.symm
  have hnp : isPending s d = false := by
    cases hb : isPending s d
    · rfl
    · exfalso
      have hmem : d ∈ ds.filter (fun d2 => isPending s d2) :=
        List.mem_filter.mpr ⟨hd, hb⟩
      rw [hnil] at hmem
      cases hmem
  exact hI.extern_done j ij hmj ds hds d hd hnp

theorem C2_witness :
    ∃ ds, mfind c2wit.sched_deps 1 = some ds ∧
      List.Sublist ds (envDep 1).dependencies ∧
      ∀ d ∈ ds, (jstate c2wit d).is_finished = true ∧
        (jstate c2wit d).exception = none :=
  C2_executing_prereqs_completed envDep rid 4 c2wit 1 envDep_wf c2wit_reach
    (by simp +decide [c2wit, c4wexec, c46sched, startOp, pickOp, loadedOp,
      loadedDeps, decDepState, setSuccess, merase, sinsert, serase,
      scheduleJobs, insertJobs, insOne, processDeps, pdStep, prioritizeF,
      prioritizeDeps, prioStep, enqueue, spawnOp, rqInsert, envDep, rid,
      jstate, isPending, isExecuting, mfind, mset, mupd, initState, Info.key,
      ReadyKey.klt])

/-- contradicts C2 as stated: in the reachable state c2cexSt a worker is
executing job 1 although the body of its declared prerequisite 0 never ran
(job 0 is neither finished nor known to the loader), and no body failed. -/
theorem C2_counterexample :
    Reachable envDep rid 4 c2cexSt ∧
    isExecuting c2cexSt 1 = true ∧
    0 ∈ (envDep 1).dependencies ∧
    (jstate c2cexSt 0).is_finished = false ∧
    (jstate c2cexSt 0).exception = none ∧
    isPending c2cexSt 0 = false := by
  refine ⟨c2cexSt_reach, ?_, by simp [envDep], ?_, ?_, ?_⟩
  · simp +decide [c2cexSt, c2sched, startOp, pickOp, scheduleJobs, insertJobs,
      insOne, processDeps, pdStep, prioritizeF, prioritizeDeps, prioStep,
      enqueue, spawnOp, rqInsert, envDep, rid, jstate, isPending, isExecuting,
      mfind, mset, mupd, sinsert, initState, Info.key, ReadyKey.klt]
  · simp +decide [c2cexSt, c2sched, startOp, pickOp, scheduleJobs, insertJobs,
      insOne, processDeps, pdStep, prioritizeF, prioritizeDeps, prioStep,
      enqueue, spawnOp, rqInsert, envDep, rid, jstate, isPending, isExecuting,
      mfind, mset, mupd, sinsert, initState, Info.key, ReadyKey.klt]
  · simp +decide [c2cexSt, c2sched, startOp, pickOp, scheduleJobs, insertJobs,
      insOne, processDeps, pdStep, prioritizeF, prioritizeDeps, prioStep,
      enqueue, spawnOp, rqInsert, envDep, rid, jstate, isPending, isExecuting,
      mfind, mset, mupd, sinsert, initState, Info.key, ReadyKey.klt]
  · simp +decide [c2cexSt, c2sched, startOp, pickOp, scheduleJobs, insertJobs,
      insOne, processDeps, pdStep, prioritizeF, prioritizeDeps, prioStep,
      enqueue, spawnOp, rqInsert, envDep, rid, jstate, isPending, isExecuting,
      mfind, mset, mupd, sinsert, initState, Info.key, ReadyKey.klt]

/-- C3: amended priority invariant: in every reachable state the effective
priority of a pending job is at least its recorded scheduling priority, and
at least the effective priority of every pending job that transitively
depends on it through the dependency edges the loader recorded at schedule
time (declared edges that were not recognised when the dependent was
scheduled inherit nothing). -/
theorem C3_priority_inheritance (env : Nat → LoadJob) (rank : Nat → Nat)
    (maxt : Nat) (s : LoaderState)
    (hwf : WFEnv env rank) (hr : Reachable env rank maxt s) :
    (∀ j i, mfind s.scheduled_jobs j = some i →
      ∃ p0, mfind s.sched_prio j = some p0 ∧ p0 ≤ i.priority) ∧
    (∀ u x, TransDependent s u x → ∀ iu, mfind s.scheduled_jobs u = some iu →
      ∀ xi, mfind s.scheduled_jobs x = some xi →
        xi.priority ≤ iu.priority) := by
  obtain ⟨hI, hkn, hjsi⟩ := reachable_inv env rank hwf maxt s hr
  exact ⟨hI.prio_init, transdep_prio env s hI⟩

theorem C3_witness :
    (∀ j i, mfind c46sched.scheduled_jobs j = some i →
      ∃ p0, mfind c46sched.sched_prio j = some p0 ∧ p0 ≤ i.priority) ∧
    (∀ u x, TransDependent c46sched u x →
      ∀ iu, mfind c46sched.scheduled_jobs u = some iu →
      ∀ xi, mfind c46sched.scheduled_jobs x = some xi →
        xi.priority ≤ iu.priority) :=
  C3_priority_inheritance envDep rid 4 c46sched envDep_wf c46sched_reach

/-- contradicts C3 as stated: in the reachable state c3st job 1 declared job 0
as a dependency and both are pending, yet job 0 keeps effective priority 1
while its dependent holds priority 9, because job 1 was scheduled while job 0
was absent and the edge was never recorded. -/
theorem C3_counterexample :
    Reachable envDep rid 4 c3st ∧
    0 ∈ (envDep 1).dependencies ∧
    (∃ i0, mfind c3st.scheduled_jobs 0 = some i0 ∧ i0.priority = 1) ∧
    (∃ i1, mfind c3st.scheduled_jobs 1 = some i1 ∧ i1.priority = 9) ∧
    (1 : Int) < 9 := by
  refine ⟨c3st_reach, by simp [envDep], ?_, ?_, by norm_num⟩
  · simp +decide [c3st, c3mid, scheduleJobs, insertJobs, insOne, processDeps,
      pdStep, prioritizeF, prioritizeDeps, prioStep, enqueue, spawnOp,
      rqInsert, envDep, rid, jstate, isPending, mfind, mset, mupd, sinsert,
      initState, Info.key, ReadyKey.klt]
  · simp +decide [c3st, c3mid, scheduleJobs, insertJobs, insOne, processDeps,
      pdStep, prioritizeF, prioritizeDeps, prioStep, enqueue, spawnOp,
      rqInsert, envDep, rid, jstate, isPending, mfind, mset, mupd, sinsert,
      initState, Info.key, ReadyKey.klt]

/-- C4: amended failure cascade: when the worker of an executing job j commits
a body failure, every job that transitively depends on j through the recorded
dependency edges leaves the pending map, joins the finished set in status
FAILED with a DependencyFailed failure value whose message opens with the
dependent's own name and quotes the originating failure message, and is
removed from the dependent_jobs set of every remaining pending job; a
declared dependent whose edge was never recorded at schedule time is not part
of the cascade. -/
theorem C4_body_failure_cascade (env : Nat → LoadJob) (rank : Nat → Nat)
    (maxt : Nat) (s : LoaderState) (j : Nat) (m : String)
    (hwf : WFEnv env rank) (hr : Reachable env rank maxt s)
    (hexec : isExecuting s j = true) :
    ∀ t, t = failedF env (s.scheduled_jobs.length + 1) j
      (bodyFailExn env j m) s →
    ∀ x, TransDependent s j x →
      isPending t x = false ∧ x ∈ t.finished_jobs ∧
      statusOf (jstate t x) = .FAILED ∧
      (∃ e2, (jstate t x).exception = some e2 ∧
        e2.code = .DEPENDENCY_FAILED ∧
        mentions (bodyFailExn env j m).message e2.message ∧
        ∃ b, e2.message.data =
          ("Load job " ++ (env x).name ++ " -> ").data ++ b) ∧
      (∀ u iu, mfind t.scheduled_jobs u = some iu →
        x ∉ iu.dependent_jobs) := by
  intro t ht x htd
  obtain ⟨hI, hkn, hjsi⟩ := reachable_inv env rank hwf maxt s hr
  have hpost := fail_commit env rank hwf s j (bodyFailExn env j m) hexec hI hkn
  subst ht
  obtain ⟨h1, h2, h3, hcm, h5⟩ :=
    cascade_kills env rank hwf s _ j _ hI hpost x htd
  obtain ⟨hf, e2, he2, hcode, hmen, b, hb⟩ := hcm
  refine ⟨h1, h2, ?_, ⟨e2, he2, hcode, hmen, b, hb⟩, h5⟩
  unfold statusOf
  rw [hf, he2]
  simp

theorem C4_witness :
    isPending c4wfail 1 = false ∧ 1 ∈ c4wfail.finished_jobs ∧
    statusOf (jstate c4wfail 1) = .FAILED ∧
    (∃ e2, (jstate c4wfail 1).exception = some e2 ∧
      e2.code = .DEPENDENCY_FAILED ∧
      mentions (bodyFailExn envDep 0 "boom").message e2.message ∧
      ∃ b, e2.message.data =
        ("Load job " ++ (envDep 1).name ++ " -> ").data ++ b) ∧
    (∀ u iu, mfind c4wfail.scheduled_jobs u = some iu →
      1 ∉ iu.dependent_jobs) :=
  C4_body_failure_cascade envDep rid 4 c4wexec 0 "boom" envDep_wf c4wexec_reach
    (by simp +decide [c4wexec, c46sched, startOp, pickOp, scheduleJobs,
      insertJobs, insOne, processDeps, pdStep, prioritizeF, prioritizeDeps,
      prioStep, enqueue, spawnOp, rqInsert, envDep, rid, jstate, isPending,
      isExecuting, mfind, mset, mupd, sinsert, initState, Info.key,
      ReadyKey.klt])
    c4wfail rfl 1
    (Relation.TransGen.single ⟨⟨0, 0, 0, [1]⟩,
      by simp +decide [c4wexec, c46sched, startOp, pickOp, scheduleJobs,
        insertJobs, insOne, processDeps, pdStep, prioritizeF, prioritizeDeps,
        prioStep, enqueue, spawnOp, rqInsert, envDep, rid, jstate, isPending,
        mfind, mset, mupd, sinsert, initState, Info.key, ReadyKey.klt],
      by decide⟩)

/-- contradicts C4 as stated: in the reachable state c4cexSt job 0 failed with
a captured body failure and job 1 declared 0 as a dependency, yet job 1 is
still pending with status PENDING, because job 1 was scheduled while 0 was
absent from the pending map and the edge was never recorded. -/
theorem C4_counterexample :
    Reachable envDep rid 4 c4cexSt ∧
    statusOf (jstate c4cexSt 0) = .FAILED ∧
    (jstate c4cexSt 0).exception = some (bodyFailExn envDep 0 "boom") ∧
    0 ∈ (envDep 1).dependencies ∧
    isPending c4cexSt 1 = true ∧
    statusOf (jstate c4cexSt 1) = .PENDING := by
  refine ⟨c4cexSt_reach, ?_, ?_, by simp [envDep], ?_, ?_⟩ <;>
    simp +decide [c4cexSt, c4exec, c4mid, startOp, pickOp, scheduleJobs,
      insertJobs, insOne, processDeps, pdStep, prioritizeF, prioritizeDeps,
      prioStep, enqueue, spawnOp, rqInsert, envDep, rid, jstate, isPending,
      isExecuting, mfind, mset, mupd, sinsert, serase, merase, initState,
      Info.key, ReadyKey.klt, failedF, failDeps, cleanEdges, ceStep,
      setFailure, bodyFailExn, mkExn, statusOf]

/-- C5: amended prioritize: after prioritize(j, P) no effective priority
decreases and every untouched entry keeps its bookkeeping, a pending j ends
with effective priority at least P, the call is a no-op when j is not in the
pending map, and every pending job that j transitively depends on through the
recorded dependency edges ends with effective priority at least that of j;
only recorded prerequisites are raised, so a declared prerequisite reachable
only through an already finished intermediate is untouched. -/
theorem C5_prioritize_raises (env : Nat → LoadJob) (rank : Nat → Nat)
    (maxt : Nat) (s : LoaderState) (j : Nat) (p : Int)
    (hwf : WFEnv env rank) (hr : Reachable env rank maxt s) :
    ∀ t, t = prioritizeF env (rank j + 1) j p s →
    PrioPointwise p s t ∧
    (∀ i, mfind s.scheduled_jobs j = some i →
      ∃ i2, mfind t.scheduled_jobs j = some i2 ∧ p ≤ i2.priority) ∧
    (mfind s.scheduled_jobs j = none → t = s) ∧
    (∀ u, TransDependent t u j →
      ∀ iu, mfind t.scheduled_jobs u = some iu →
      ∀ ij2, mfind t.scheduled_jobs j = some ij2 →
        ij2.priority ≤ iu.priority) ∧
    JStatesCoreEq s t ∧ OtherFieldsEq s t := by
  intro t ht
  obtain ⟨hI, hkn, hjsi⟩ := reachable_inv env rank hwf maxt s hr
  obtain ⟨hIt, hpw, hjs, hof, hpr⟩ := inv_prioritize env rank hwf j p s hI
  subst ht
  refine ⟨hpw, hpr, ?_, ?_, hjs, hof⟩
  · intro hnone
    exact prioritizeF_noneq env (rank j) j p s hnone
  · intro u htd iu hu ij2 hj2
    exact transdep_prio env _ hIt u j htd iu hu ij2 hj2

theorem C5_witness :
    PrioPointwise 9 c46sched c5wit ∧
    (∀ i, mfind c46sched.scheduled_jobs 1 = some i →
      ∃ i2, mfind c5wit.scheduled_jobs 1 = some i2 ∧
        (9 : Int) ≤ i2.priority) ∧
    (mfind c46sched.scheduled_jobs 1 = none → c5wit = c46sched) ∧
    (∀ u, TransDependent c5wit u 1 →
      ∀ iu, mfind c5wit.scheduled_jobs u = some iu →
      ∀ ij2, mfind c5wit.scheduled_jobs 1 = some ij2 →
        ij2.priority ≤ iu.priority) ∧
    JStatesCoreEq c46sched c5wit ∧ OtherFieldsEq c46sched c5wit :=
  C5_prioritize_raises envDep rid 4 c46sched 1 9 envDep_wf c46sched_reach
    c5wit rfl

/-- contradicts C5 as stated: in the reachable state c5mid job 0 is a pending
declared transitive prerequisite of job 2 (through the already finished job
1), yet prioritize(2, 7) raises job 2 to priority 7 while job 0 keeps
priority 0. -/
theorem C5_counterexample :
    Reachable envChain rid 4 c5mid ∧
    1 ∈ (envChain 2).dependencies ∧
    0 ∈ (envChain 1).dependencies ∧
    isPending c5mid 0 = true ∧
    (∃ i2, mfind c5post.scheduled_jobs 2 = some i2 ∧ i2.priority = 7) ∧
    (∃ i0, mfind c5post.scheduled_jobs 0 = some i0 ∧ i0.priority = 0) ∧
    (0 : Int) < 7 := by
  refine ⟨c5mid_reach, by simp [envChain], by simp [envChain], ?_, ?_, ?_,
    by norm_num⟩ <;>
    simp +decide [c5post, c5mid, c5c, c5b, c5a, scheduleJobs, insertJobs,
      insOne, processDeps, pdStep, prioritizeF, prioritizeDeps, prioStep,
      enqueue, spawnOp, rqInsert, rqErase, envChain, rid, jstate, isPending,
      mfind, mset, mupd, sinsert, serase, merase, initState, Info.key,
      ReadyKey.klt, startOp, pickOp, loadedOp, loadedDeps, decDepState,
      setSuccess]

/-- C6: amended cancellation: removing a pending job that no worker has picked
up marks it finished with a LoadCanceled failure naming the job, waitNoThrow
on it returns, and every job that transitively depended on it through the
recorded dependency edges ends finished with a DependencyFailed failure, so
waitNoThrow returns on those as well; a dependent the same remove call
processes before the prerequisite is instead cancelled with LoadCanceled. -/
theorem C6_remove_pending_cancel (env : Nat → LoadJob) (rank : Nat → Nat)
    (maxt : Nat) (res : Nat → Option String) (s : LoaderState) (j : Nat)
    (hwf : WFEnv env rank) (hr : Reachable env rank maxt s)
    (hp : isPending s j = true) (hnexec : isExecuting s j = false)
    (hnf : j ∉ s.finished_jobs) :
    ∀ t, t = removeOne env res j s →
    (jstate t j).is_finished = true ∧
    (jstate t j).exception = some (mkExn .LOAD_CANCELED
      ("Load job " ++ (env j).name ++ " canceled")) ∧
    waitNoThrowReturns (jstate t j) ∧
    (∀ x, TransDependent s j x →
      (jstate t x).is_finished = true ∧ waitNoThrowReturns (jstate t x) ∧
      ∃ e2, (jstate t x).exception = some e2 ∧
        e2.code = .DEPENDENCY_FAILED) := by
  intro t ht
  obtain ⟨hI, hkn, hjsi⟩ := reachable_inv env rank hwf maxt s hr
  have hpo : ∃ info, mfind s.scheduled_jobs j = some info := by
    unfold isPending at hp
    exact Option.isSome_iff_exists.mp hp
  obtain ⟨info, hm⟩ := hpo
  have hne : ¬ (info.dependencies_left = 0 ∧ info.ready_seqno = 0) := by
    intro hco
    unfold isExecuting at hnexec
    rw [hm] at hnexec
    simp [hco.1, hco.2] at hnexec
  have key : ∃ sb, Inv env sb ∧
      FPost env rank j (mkExn .LOAD_CANCELED
        ("Load job " ++ (env j).name ++ " canceled")) sb
        (failedF env (s.scheduled_jobs.length + 1) j
          (mkExn .LOAD_CANCELED
            ("Load job " ++ (env j).name ++ " canceled")) sb) [] ∧
      (∀ x, jstate t x = jstate (failedF env (s.scheduled_jobs.length + 1) j
        (mkExn .LOAD_CANCELED
          ("Load job " ++ (env j).name ++ " canceled")) sb) x) ∧
      (∀ x, TransDependent s j x → TransDependent sb j x) := by
    by_cases hdl : info.dependencies_left > 0
    · have hsn : info.ready_seqno = 0 := by
        by_contra hsn
        have hmem := hI.rq_complete j info hm hsn
        obtain ⟨i2, hfi2, hk2, hdl2, hs2⟩ := hI.rq_sound _ hmem
        have hfi2b : mfind s.scheduled_jobs j = some i2 := hfi2
        rw [hm] at hfi2b
        have hii : info = i2 := Option.some_inj.mp hfi2b
        rw [← hii] at hdl2
        omega
      refine ⟨s, hI, ?_, ?_, fun x h => h⟩
      · exact fail_any env rank hwf (s.scheduled_jobs.length + 1) s j _ info
          hm hsn hI hkn (by omega)
      · intro x
        rw [ht]
        simp only [removeOne, if_neg hnf, hm, if_pos hdl]
        rfl
    · have hsn : info.ready_seqno ≠ 0 := by
        intro hc
        exact hne ⟨by omega, hc⟩
      refine ⟨dequeueCancelPrep j info s,
        inv_dequeue env s j info hm hI, ?_, ?_, ?_⟩
      · have hm2 : mfind (dequeueCancelPrep j info s).scheduled_jobs j =
            some { info with ready_seqno := 0 } := by
          show mfind (mset s.scheduled_jobs j
            { info with ready_seqno := 0 }) j = _
          exact mfind_mset_self _ _ _
        have hkn2 : KN (dequeueCancelPrep j info s) := by
          show ((mset s.scheduled_jobs j
            { info with ready_seqno := 0 }).map Prod.fst).Nodup
          exact KN_mset _ _ _ hkn
        have hlen : (dequeueCancelPrep j info s).scheduled_jobs.length <
            s.scheduled_jobs.length + 1 := by
          have hle := mset_length s.scheduled_jobs j
            { info with ready_seqno := 0 } info hm
          show (mset s.scheduled_jobs j
            { info with ready_seqno := 0 }).length < _
          omega
        exact fail_any env rank hwf (s.scheduled_jobs.length + 1)
          (dequeueCancelPrep j info s) j _ { info with ready_seqno := 0 }
          hm2 rfl (inv_dequeue env s j info hm hI) hkn2 hlen
      · intro x
        rw [ht]
        simp only [removeOne, if_neg hnf, hm, if_neg hdl, if_pos hsn]
        rfl
      · intro x htd
        refine Relation.TransGen.mono ?_ htd
        intro a b hab
        obtain ⟨iu, hiu, hmem⟩ := hab
        by_cases haj : a = j
        · refine ⟨{ info with ready_seqno := 0 }, ?_, ?_⟩
          · rw [haj]
            show mfind (mset s.scheduled_jobs j
              { info with ready_seqno := 0 }) j = _
            exact mfind_mset_self _ _ _
          · show b ∈ info.dependent_jobs
            rw [haj, hm] at hiu
            rw [Option.some_inj.mp hiu]
            exact hmem
        · refine ⟨iu, ?_, hmem⟩
          show mfind (mset s.scheduled_jobs j
            { info with ready_seqno := 0 }) a = _
          rw [mfind_mset_ne _ _ _ _ haj]
          exact hiu
  obtain ⟨sb, hIb, hpost, hts, htr⟩ := key
  refine ⟨?_, ?_, ?_, ?_⟩
  · rw [hts j]
    exact hpost.2.2.2.1
  · rw [hts j]
    exact hpost.2.2.2.2.1
  · unfold waitNoThrowReturns
    rw [hts j]
    exact hpost.2.2.2.1
  · intro x htd
    obtain ⟨h1, h2, h3, hcm, h5⟩ :=
      cascade_kills env rank hwf sb _ j _ hIb hpost x (htr x htd)
    obtain ⟨hf, e2, he2, hcode, hmen, b, hb⟩ := hcm
    refine ⟨?_, ?_, e2, ?_, hcode⟩
    · rw [hts x]
      exact h3
    · unfold waitNoThrowReturns
      rw [hts x]
      exact h3
    · rw [hts x]
      exact he2

theorem C6_witness :
    (jstate c6wit 0).is_finished = true ∧
    (jstate c6wit 0).exception = some (mkExn .LOAD_CANCELED
      ("Load job " ++ (envDep 0).name ++ " canceled")) ∧
    waitNoThrowReturns (jstate c6wit 0) ∧
    (∀ x, TransDependent c46sched 0 x →
      (jstate c6wit x).is_finished = true ∧
      waitNoThrowReturns (jstate c6wit x) ∧
      ∃ e2, (jstate c6wit x).exception = some e2 ∧
        e2.code = .DEPENDENCY_FAILED) :=
  C6_remove_pending_cancel envDep rid 4 (fun _ => none) c46sched 0 envDep_wf
    c46sched_reach
    (by simp +decide [c46sched, scheduleJobs, insertJobs, insOne, processDeps,
      pdStep, prioritizeF, prioritizeDeps, prioStep, enqueue, spawnOp,
      rqInsert, envDep, rid, jstate, isPending, mfind, mset, mupd, sinsert,
      initState, Info.key, ReadyKey.klt])
    (by simp +decide [c46sched, scheduleJobs, insertJobs, insOne, processDeps,
      pdStep, prioritizeF, prioritizeDeps, prioStep, enqueue, spawnOp,
      rqInsert, envDep, rid, jstate, isPending, isExecuting, mfind, mset,
      mupd, sinsert, initState, Info.key, ReadyKey.klt])
    (by simp +decide [c46sched, scheduleJobs, insertJobs, insOne, processDeps,
      pdStep, prioritizeF, prioritizeDeps, prioStep, enqueue, spawnOp,
      rqInsert, envDep, rid, jstate, isPending, mfind, mset, mupd, sinsert,
      initState, Info.key, ReadyKey.klt])
    c6wit rfl

/-- contradicts C6 as stated: removing the set containing the pending
not-yet-started job 0 together with its recorded dependent 1, with the
dependent iterated first, leaves job 1 cancelled with a LoadCanceled failure
instead of the DependencyFailed the claim demands. -/
theorem C6_counterexample :
    Reachable envDep rid 4 c6cexSt ∧
    isPending c46sched 0 = true ∧
    isExecuting c46sched 0 = false ∧
    0 ∈ (envDep 1).dependencies ∧
    TransDependent c46sched 0 1 ∧
    (jstate c6cexSt 1).exception =
      some (mkExn .LOAD_CANCELED "Load job b canceled") := by
  refine ⟨c6cexSt_reach, ?_, ?_, by simp [envDep],
    Relation.TransGen.single ⟨⟨0, 0, 1, [1]⟩, ?_, by decide⟩, ?_⟩
  · simp +decide [c46sched, scheduleJobs, insertJobs, insOne, processDeps,
      pdStep, prioritizeF, prioritizeDeps, prioStep, enqueue, spawnOp,
      rqInsert, envDep, rid, jstate, isPending, mfind, mset, mupd, sinsert,
      initState, Info.key, ReadyKey.klt]
  · simp +decide [c46sched, scheduleJobs, insertJobs, insOne, processDeps,
      pdStep, prioritizeF, prioritizeDeps, prioStep, enqueue, spawnOp,
      rqInsert, envDep, rid, jstate, isPending, isExecuting, mfind, mset,
      mupd, sinsert, initState, Info.key, ReadyKey.klt]
  · simp +decide [c46sched, scheduleJobs, insertJobs, insOne, processDeps,
      pdStep, prioritizeF, prioritizeDeps, prioStep, enqueue, spawnOp,
      rqInsert, envDep, rid, jstate, isPending, mfind, mset, mupd, sinsert,
      initState, Info.key, ReadyKey.klt]
  · simp +decide [c6cexSt, c46sched, removeOp, removeOne, canceledOp, failedF,
      failDeps, cleanEdges, ceStep, setFailure, setSuccess, loadedOp,
      loadedDeps, decDepState, scheduleJobs, insertJobs, insOne, processDeps,
      pdStep, prioritizeF, prioritizeDeps, prioStep, enqueue, spawnOp,
      rqInsert, rqErase, envDep, rid, jstate, isPending, mfind, mset, mupd,
      sinsert, serase, merase, initState, Info.key, ReadyKey.klt, mkExn,
      bodyFailExn]

/-- C7: the ready-queue key order is a total order putting higher priority
first and, within a priority, smaller ready_seqno (FIFO) first; in every
reachable state the worker dequeue pops the head of the queue, which is below
every remaining entry in that order, so among simultaneously ready jobs a
higher-priority job starts first and equal-priority jobs start in enqueue
order. -/
theorem C7_ready_order (env : Nat → LoadJob) (rank : Nat → Nat)
    (maxt : Nat) (s : LoaderState)
    (hwf : WFEnv env rank) (hr : Reachable env rank maxt s) :
    (∀ a b : ReadyKey, ReadyKey.klt a b ↔
      (b.priority < a.priority ∨
        (a.priority = b.priority ∧ a.ready_seqno < b.ready_seqno))) ∧
    (∀ a b : ReadyKey, a ≠ b → ReadyKey.klt a b ∨ ReadyKey.klt b a) ∧
    (∀ a : ReadyKey, ¬ ReadyKey.klt a a) ∧
    (∀ a b c : ReadyKey, ReadyKey.klt a b → ReadyKey.klt b c →
      ReadyKey.klt a c) ∧
    (∀ e rest, s.ready_queue = e :: rest →
      (pickOp s).ready_queue = rest ∧
      ∀ e2 ∈ rest, ReadyKey.klt e.1 e2.1) := by
  obtain ⟨hI, hkn, hjsi⟩ := reachable_inv env rank hwf maxt s hr
  refine ⟨?_, klt_total, klt_irrefl,
    fun a b c h1 h2 => klt_trans h1 h2, ?_⟩
  · intro a b
    unfold ReadyKey.klt
    by_cases h : a.priority = b.priority
    · rw [if_pos h]
      constructor
      · intro h2
        exact Or.inr ⟨h, h2⟩
      · intro h2
        rcases h2 with h2 | h2
        · omega
        · exact h2.2
    · rw [if_neg h]
      constructor
      · intro h2
        exact Or.inl h2
      · intro h2
        rcases h2 with h2 | h2
        · exact h2
        · exact absurd h2.1 h
  · intro e rest hq
    obtain ⟨k, jj⟩ := e
    constructor
    · simp [pickOp, hq]
    · have hp := hI.rq_sorted
      rw [hq] at hp
      intro e2 he2
      exact (List.pairwise_cons.mp hp).1 e2 he2

theorem C7_witness :
    (∀ a b : ReadyKey, ReadyKey.klt a b ↔
      (b.priority < a.priority ∨
        (a.priority = b.priority ∧ a.ready_seqno < b.ready_seqno))) ∧
    (∀ a b : ReadyKey, a ≠ b → ReadyKey.klt a b ∨ ReadyKey.klt b a) ∧
    (∀ a : ReadyKey, ¬ ReadyKey.klt a a) ∧
    (∀ a b c : ReadyKey, ReadyKey.klt a b → ReadyKey.klt b c →
      ReadyKey.klt a c) ∧
    (∀ e rest, (startOp c46sched).ready_queue = e :: rest →
      (pickOp (startOp c46sched)).ready_queue = rest ∧
      ∀ e2 ∈ rest, ReadyKey.klt e.1 e2.1) :=
  C7_ready_order envDep rid 4 (startOp c46sched) envDep_wf
    (Relation.ReflTransGen.tail c46sched_reach (Step.startLoader c46sched))

/-- C8: after a successful schedule of a job set, every scheduled job carries
a recorded prerequisite list that is exactly its declared dependencies found
in the pending map (prerequisites that are absent contribute nothing), its
dependencies_left equals the length of that list, every recorded pending
prerequisite's dependent_jobs contains the job, and a job whose
dependencies_left is zero sits in the ready queue under its key. -/
theorem C8_schedule_links (env : Nat → LoadJob) (rank : Nat → Nat)
    (maxt : Nat) (jobs : List Nat) (p : Int) (s T : LoaderState)
    (hwf : WFEnv env rank) (hr : Reachable env rank maxt s)
    (hnd : jobs.Nodup) (hok : scheduleOp env rank jobs p s = .ok T) :
    ∀ x ∈ jobs, ∃ info ds, mfind T.scheduled_jobs x = some info ∧
      mfind T.sched_deps x = some ds ∧
      ds = (env x).dependencies.filter
        (fun d2 => isPending s d2 || decide (d2 ∈ jobs)) ∧
      info.dependencies_left = ds.length ∧
      (∀ d ∈ ds, ∀ di, mfind T.scheduled_jobs d = some di →
        x ∈ di.dependent_jobs) ∧
      (info.dependencies_left = 0 → (Info.key info, x) ∈ T.ready_queue) := by
  obtain ⟨hI, hkn, hjsi⟩ := reachable_inv env rank hwf maxt s hr
  have hM := scheduleOp_master env rank hwf jobs p s T hnd hok hI hkn hjsi
  intro x hx
  obtain ⟨info, ds, h1, h2, h3, h4, h5, h6, h7⟩ := hM.2.2.2.2.2.2 x hx
  exact ⟨info, ds, h1, h2, h3, h5, h7, h6⟩

theorem C8_witness :
    ∃ info ds, mfind c46sched.scheduled_jobs 1 = some info ∧
      mfind c46sched.sched_deps 1 = some ds ∧
      ds = (envDep 1).dependencies.filter
        (fun d2 => isPending (initState 4) d2 || decide (d2 ∈ [0, 1])) ∧
      info.dependencies_left = ds.length ∧
      (∀ d ∈ ds, ∀ di, mfind c46sched.scheduled_jobs d = some di →
        1 ∈ di.dependent_jobs) ∧
      (info.dependencies_left = 0 →
        (Info.key info, 1) ∈ c46sched.ready_queue) :=
  C8_schedule_links envDep rid 4 [0, 1] 0 (initState 4) c46sched envDep_wf
    Relation.ReflTransGen.refl (by decide)
    (by simp +decide [scheduleOp, sanityChecks, checkCycle, ccTop,
      checkCycleImpl, ccDeps, envDep, rid, mkExn, bind, Except.bind,
      List.erase, statusOf, jstate, mfind, initState, c46sched]) 1
    (by decide)

/-- C10: after remove(jobs) in a reachable state, every job of the set is
absent from both the pending map and the finished set (a job cancelled as a
dependent of another job of the set included), running the same remove again
changes nothing, and a single removal of a job unknown to the loader is a
no-op. -/
theorem C10_remove_absent_idempotent (env : Nat → LoadJob) (rank : Nat → Nat)
    (maxt : Nat) (res : Nat → Option String) (jobs : List Nat)
    (s : LoaderState) (hwf : WFEnv env rank) (hr : Reachable env rank maxt s) :
    (∀ x ∈ jobs, isPending (removeOp env res jobs s) x = false ∧
      x ∉ (removeOp env res jobs s).finished_jobs) ∧
    removeOp env res jobs (removeOp env res jobs s) =
      removeOp env res jobs s ∧
    (∀ j, j ∉ s.finished_jobs → mfind s.scheduled_jobs j = none →
      removeOne env res j s = s) := by
  obtain ⟨hI, hkn, hjsi⟩ := reachable_inv env rank hwf maxt s hr
  obtain ⟨ha, hb⟩ := removeOp_absent env rank hwf res jobs s hI hkn hjsi
  refine ⟨ha, ?_, ?_⟩
  · apply removeOp_skip
    intro x hx
    obtain ⟨h1, h2⟩ := ha x hx
    exact ⟨h2, not_pending_none _ _ h1⟩
  · intro j h1 h2
    exact removeOne_skip env res j s h1 h2

theorem C10_witness :
    (∀ x ∈ [1, 0],
      isPending (removeOp envDep (fun _ => none) [1, 0] c46sched) x = false ∧
      x ∉ (removeOp envDep (fun _ => none) [1, 0] c46sched).finished_jobs) ∧
    removeOp envDep (fun _ => none) [1, 0]
        (removeOp envDep (fun _ => none) [1, 0] c46sched) =
      removeOp envDep (fun _ => none) [1, 0] c46sched ∧
    (∀ j, j ∉ c46sched.finished_jobs →
      mfind c46sched.scheduled_jobs j = none →
      removeOne envDep (fun _ => none) j c46sched = c46sched) :=
  C10_remove_absent_idempotent envDep rid 4 (fun _ => none) [1, 0] c46sched
    envDep_wf c46sched_reach

end AsyncLoader
